import Mathlib

set_option autoImplicit false

/-!
# Cache arrays, hash families and cache orchestration of the FTM simulator
(zsim cache model)

Shallow embedding of `src/src/cache_arrays.cpp`, `src/src/hash.cpp` and
`src/src/cache.cpp`.

* Machine integers are natural numbers; `u32`/`u64` make the wrap-around of
  `uint32_t`/`uint64_t` explicit and `toInt32` is the conversion to `int32_t`.
* Slot storage (`array`) and the indirection table (`lookupArray`) are lists,
  read with default `0` and written with `List.set`.
* The replacement policy (`rp`) is an external collaborator.  Its decisions are a
  function of the history of calls it has seen; the history is kept in the
  `trace` field together with the stores into slot storage, in program order.
* The coherence controller (`cc`), the array and the event recorders of the
  requesters are the collaborators of `Cache`.  Controller and array are
  parameters; the calls that `Cache` makes to its collaborators are logged in
  program order in the `calls` field of the system state.
-/

namespace FTM

/-! ## Machine integers -/

/-- Line addresses are `uint64_t` values. -/
abbrev Address := Nat

/-- Wrap-around of `uint32_t` arithmetic. -/
def u32 (n : Nat) : Nat := n % 2 ^ 32

/-- Wrap-around of `uint64_t` arithmetic. -/
def u64 (n : Nat) : Nat := n % 2 ^ 64

/-- Subtraction `a - b` on `uint32_t`. -/
def sub32 (a b : Nat) : Nat := u32 (u32 a + (2 ^ 32 - u32 b))

/-- Conversion of a `uint32_t` value to `int32_t` (two's complement). -/
def toInt32 (n : Nat) : Int :=
  if u32 n < 2 ^ 31 then (u32 n : Int) else (u32 n : Int) - 2 ^ 32

/-! ## Requests, hash families, replacement policy -/

/-- Access kinds of a memory request. -/
inductive AccessType where
  | GETS
  | GETX
  | PUTS
  | PUTX
  deriving DecidableEq, Repr

/-- The fields of `MemReq` that the cache model reads. -/
structure MemReq where
  lineAddr : Address
  type : AccessType
  cycle : Nat
  srcId : Nat
  flags : Nat
  deriving DecidableEq, Repr

/-- A `const MemReq*` argument; `none` is `nullptr`. -/
abbrev ReqPtr := Option MemReq

/-- `HashFamily::hash(id, val)`: the virtual hash function of a family. -/
structure HashFamily where
  hash : Nat → Nat → Nat

/-- `IdHashFamily`: `hash(id, val) = val`. -/
def IdHashFamily : HashFamily := ⟨fun _ val => val⟩

/-- Calls received by the replacement policy and stores into slot storage, in
program order. -/
inductive Event where
  | update (id : Nat) (req : ReqPtr)
  | replaced (id : Nat)
  | rankCands (req : ReqPtr) (cands : List Nat)
  | store (id : Nat) (addr : Address)
  deriving DecidableEq, Repr

/-- The ranking oracle `ReplPolicy::rankCands`: given the history so far, the
request and the slot ids offered, it returns a slot id. -/
structure ReplPolicy where
  rankCands : List Event → ReqPtr → List Nat → Nat

/-- Modelled from the spec: `isPow2` (its header is not among the sources); the
spec requires the set count to be a power of two. -/
def isPow2 (x : Nat) : Bool := (List.range 32).any (fun k => x == 2 ^ k)

/-- The fields of the global `zinfo` read by the set-associative array. -/
structure Zinfo where
  numCores : Nat
  setPartition : Bool
  wayPartition : Bool

/-- `SetAssocCands(b, e)`: the slot ids `b, b+1, ..., e-1` offered to the oracle. -/
def SetAssocCands (b e : Nat) : List Nat := List.range' b (e - b)

/-! ## Set-associative array -/

/-- State of a `SetAssocArray`. -/
structure SetAssocArray where
  rp : ReplPolicy
  hf : HashFamily
  array : List Address
  numLines : Nat
  numSets : Nat
  assoc : Nat
  setMask : Nat
  partitionSetCount : Nat
  partitionMask : Nat
  partitionAssoc : Nat
  isLLC : Bool
  proc_partition : Nat
  trace : List Event

namespace SetAssocArray

/-- The constructor `SetAssocArray::SetAssocArray`.  It fails (`none`) on the
divisions by zero and on the power-of-two assertion.  `isLLC` and
`proc_partition` are members the constructor leaves to the code that wires up
the array. -/
def create (zinfo : Zinfo) (numLines assoc : Nat) (rp : ReplPolicy) (hf : HashFamily)
    (isLLC : Bool) (proc_partition : Nat) : Option SetAssocArray :=
  if assoc = 0 then none
  else
    let numSets := u32 numLines / assoc
    if !isPow2 numSets then none
    else if zinfo.numCores = 0 then none
    else
      let partitionSetCount := numSets / zinfo.numCores
      let partitionAssoc := assoc / zinfo.numCores
      some {
        rp := rp
        hf := hf
        array := List.replicate (u32 numLines) 0
        numLines := u32 numLines
        numSets := numSets
        assoc := assoc
        setMask := sub32 numSets 1
        partitionSetCount := partitionSetCount
        partitionMask := sub32 partitionSetCount 1
        partitionAssoc := if partitionAssoc = 0 then 1 else partitionAssoc
        isLLC := isLLC
        proc_partition := proc_partition
        trace := [] }

/-- The loop `for (id = first; id < high; id++) if (array[id] == lineAddr) return id;`
with `n = high - first` iterations left; `none` when the loop falls through. -/
def scan (array : List Address) (lineAddr : Address) : Nat → Nat → Option Nat
  | _, 0 => none
  | id, n + 1 => if array.getD id 0 = lineAddr then some id else scan array lineAddr (id + 1) n

/-- Body shared by the three branches of `lookup`: scan `[low, high)`, on a hit
notify the policy when asked to, return the slot id as `int32_t`, else `-1`. -/
def lookupRange (s : SetAssocArray) (lineAddr : Address) (req : ReqPtr)
    (updateReplacement : Bool) (low high : Nat) : Int × SetAssocArray :=
  match scan s.array lineAddr low (high - low) with
  | some id =>
    (toInt32 id,
      if updateReplacement then { s with trace := s.trace ++ [Event.update id req] } else s)
  | none => (-1, s)

/-- `SetAssocArray::lookup`, with its three branches: set partitioning, way
partitioning, and the plain set-associative scan. -/
def lookup (zinfo : Zinfo) (s : SetAssocArray) (lineAddr : Address) (req : ReqPtr)
    (updateReplacement : Bool) : Int × SetAssocArray :=
  if s.isLLC && zinfo.setPartition then
    let set := u32 (u32 (s.hf.hash 0 lineAddr &&& s.partitionMask)
      + u32 (s.partitionSetCount * s.proc_partition))
    let first := u32 (set * s.assoc)
    lookupRange s lineAddr req updateReplacement first (u32 (first + s.assoc))
  else if s.isLLC && zinfo.wayPartition then
    let set := u32 (s.hf.hash 0 lineAddr &&& s.setMask)
    let low := u32 (u32 (set * s.assoc)
      + (u32 (s.proc_partition * s.partitionAssoc) &&& sub32 s.assoc 1))
    let high := u32 (low + s.partitionAssoc)
    lookupRange s lineAddr req updateReplacement low high
  else
    let set := u32 (s.hf.hash 0 lineAddr &&& s.setMask)
    let first := u32 (set * s.assoc)
    lookupRange s lineAddr req updateReplacement first (u32 (first + s.assoc))

/-- Tail shared by the three branches of `preinsert`: ask the policy to rank
`SetAssocCands(low, high)`, report the occupant of its pick as the writeback
address and return the pick.  Storage is not written. -/
def preinsertRange (s : SetAssocArray) (req : ReqPtr) (low high : Nat) :
    Nat × Address × SetAssocArray :=
  let candidate := u32 (s.rp.rankCands s.trace req (SetAssocCands low high))
  (candidate, s.array.getD candidate 0,
    { s with trace := s.trace ++ [Event.rankCands req (SetAssocCands low high)] })

/-- `SetAssocArray::preinsert`: returns the candidate slot, the writeback
address and the state. -/
def preinsert (zinfo : Zinfo) (s : SetAssocArray) (lineAddr : Address) (req : ReqPtr) :
    Nat × Address × SetAssocArray :=
  if s.isLLC && zinfo.setPartition then
    let set := u32 (u32 (s.hf.hash 0 lineAddr &&& s.partitionMask)
      + u32 (s.partitionSetCount * s.proc_partition))
    let first := u32 (set * s.assoc)
    preinsertRange s req first (u32 (first + s.assoc))
  else if s.isLLC && zinfo.wayPartition then
    let set := u32 (s.hf.hash 0 lineAddr &&& s.setMask)
    let low := u32 (u32 (set * s.assoc)
      + (u32 (s.proc_partition * s.partitionAssoc) &&& sub32 s.assoc 1))
    let high := u32 (low + s.partitionAssoc)
    preinsertRange s req low high
  else
    let set := u32 (s.hf.hash 0 lineAddr &&& s.setMask)
    let first := u32 (set * s.assoc)
    preinsertRange s req first (u32 (first + s.assoc))

/-- `SetAssocArray::postinsert`. -/
def postinsert (s : SetAssocArray) (lineAddr : Address) (req : ReqPtr) (candidate : Nat) :
    SetAssocArray :=
  { s with
    array := s.array.set candidate lineAddr
    trace := s.trace ++ [Event.replaced candidate, Event.store candidate lineAddr,
      Event.update candidate req] }

/-- The slot range `[low, high)` that `lookup` scans and that `preinsert` offers
to the policy, per partitioning mode. -/
def range (zinfo : Zinfo) (s : SetAssocArray) (lineAddr : Address) : Nat × Nat :=
  if s.isLLC && zinfo.setPartition then
    let set := u32 (u32 (s.hf.hash 0 lineAddr &&& s.partitionMask)
      + u32 (s.partitionSetCount * s.proc_partition))
    let first := u32 (set * s.assoc)
    (first, u32 (first + s.assoc))
  else if s.isLLC && zinfo.wayPartition then
    let set := u32 (s.hf.hash 0 lineAddr &&& s.setMask)
    let low := u32 (u32 (set * s.assoc)
      + (u32 (s.proc_partition * s.partitionAssoc) &&& sub32 s.assoc 1))
    (low, u32 (low + s.partitionAssoc))
  else
    let set := u32 (s.hf.hash 0 lineAddr &&& s.setMask)
    let first := u32 (set * s.assoc)
    (first, u32 (first + s.assoc))

/-- What the constructor establishes: the geometry and the allocation of the
slot storage (`numLines` is a `uint32_t`). -/
structure Geom (s : SetAssocArray) : Prop where
  assoc_pos : 0 < s.assoc
  numSets_eq : s.numSets = s.numLines / s.assoc
  pow2 : isPow2 s.numSets = true
  setMask_eq : s.setMask = sub32 s.numSets 1
  length_eq : s.array.length = s.numLines
  numLines_lt : s.numLines < 2 ^ 32

/-- No partitioning is active: neither partitioned branch of `lookup` and
`preinsert` is taken. -/
def Unpartitioned (zinfo : Zinfo) (s : SetAssocArray) : Prop :=
  (s.isLLC && zinfo.setPartition) = false ∧ (s.isLLC && zinfo.wayPartition) = false

/-- The slot storage is allocated and the slots scanned for `lineAddr` lie in
it.  The constructor's geometry guarantees this when no partitioning is active;
in the partitioned modes it is a condition on the partition parameters. -/
def InStorage (zinfo : Zinfo) (s : SetAssocArray) (lineAddr : Address) : Prop :=
  (Geom s ∧ Unpartitioned zinfo s)
    ∨ (s.array.length = s.numLines ∧ (range zinfo s lineAddr).2 ≤ s.numLines)

/-- What the constructor establishes about the partitions, of which there are
`zinfo->numCores`. -/
structure PartGeom (zinfo : Zinfo) (s : SetAssocArray) : Prop where
  cores_pos : 0 < zinfo.numCores
  setCount_eq : s.partitionSetCount = s.numSets / zinfo.numCores
  mask_eq : s.partitionMask = sub32 s.partitionSetCount 1
  assoc_eq : s.partitionAssoc
    = if s.assoc / zinfo.numCores = 0 then 1 else s.assoc / zinfo.numCores

/-- One insertion as the cache performs it on a miss: `preinsert` followed by
`postinsert` of the slot it returned. -/
def insert (zinfo : Zinfo) (s : SetAssocArray) (lineAddr : Address) (req : ReqPtr) :
    SetAssocArray :=
  postinsert (preinsert zinfo s lineAddr req).2.2 lineAddr req (preinsert zinfo s lineAddr req).1

/-- States reached from `s0` by lookups and by insertions of non-zero addresses
done as the cache does them: `preinsert` + `postinsert` only after `lookup`
returned `-1`, the policy picking within the range it is offered. -/
inductive Reachable (zinfo : Zinfo) (s0 : SetAssocArray) : SetAssocArray → Prop where
  | start : Reachable zinfo s0 s0
  | lookup (s : SetAssocArray) (a : Address) (req : ReqPtr) (upd : Bool) :
      Reachable zinfo s0 s → Reachable zinfo s0 (lookup zinfo s a req upd).2
  | insert (s : SetAssocArray) (a : Address) (req : ReqPtr) (upd : Bool) :
      Reachable zinfo s0 s → a ≠ 0 → (SetAssocArray.lookup zinfo s a req upd).1 = -1 →
      (preinsert zinfo s a req).1 ∈ SetAssocCands (range zinfo s a).1 (range zinfo s a).2 →
      Reachable zinfo s0 (SetAssocArray.insert zinfo s a req)

end SetAssocArray

/-! ## Skewed-associative (Z) array -/

/-- An eviction candidate of the walk in `ZArray::preinsert`: a position of the
indirection table, the slot found there and the index of the parent candidate
(`-1` for a seed). -/
structure ZWalkInfo where
  pos : Nat
  lineId : Nat
  parentIdx : Int
  deriving DecidableEq, Repr, Inhabited

/-- State of a `ZArray`.  `lookupArray` is the indirection table (position to
slot), `array` the slot storage, `swapArray[0 .. swapArrayLen)` the swap chain
recorded by the last `preinsert`. -/
structure ZArray where
  rp : ReplPolicy
  hf : HashFamily
  array : List Address
  lookupArray : List Nat
  numLines : Nat
  numSets : Nat
  ways : Nat
  cands : Nat
  setMask : Nat
  swapArray : List Nat
  swapArrayLen : Nat
  lastCandIdx : Nat
  statSwaps : Nat
  trace : List Event

/-- The local variables of the candidate walk in `ZArray::preinsert`. -/
structure ZWalk where
  candidates : List ZWalkInfo
  numCandidates : Nat
  fringeStart : Nat
  all_valid : Bool
  deriving DecidableEq, Repr

namespace ZArray

/-- The constructor `ZArray::ZArray`; `none` when one of its assertions fails. -/
def create (numLines ways candidates : Nat) (rp : ReplPolicy) (hf : HashFamily) :
    Option ZArray :=
  if !(1 < ways) then none
  else if !(ways ≤ candidates) then none
  else if !(u32 numLines % ways = 0) then none
  else if !isPow2 (u32 numLines / ways) then none
  else
    some {
      rp := rp
      hf := hf
      array := List.replicate (u32 numLines) 0
      lookupArray := List.range (u32 numLines)
      numLines := u32 numLines
      numSets := u32 numLines / ways
      ways := ways
      cands := candidates
      setMask := sub32 (u32 numLines / ways) 1
      swapArray := List.replicate (u32 (candidates / ways + 2)) 0
      swapArrayLen := 0
      lastCandIdx := 0
      statSwaps := 0
      trace := [] }

/-- The probe loop of `lookup`: ways `w, w+1, ...` with `n` ways left; the slot
of the first way whose slot holds `lineAddr`. -/
def lookupWays (z : ZArray) (lineAddr : Address) : Nat → Nat → Option Nat
  | _, 0 => none
  | w, n + 1 =>
    if z.array.getD (z.lookupArray.getD
        (u64 (u32 (w * z.numSets) + u64 (z.hf.hash w lineAddr &&& z.setMask))) 0) 0 = lineAddr
    then some (z.lookupArray.getD
        (u64 (u32 (w * z.numSets) + u64 (z.hf.hash w lineAddr &&& z.setMask))) 0)
    else lookupWays z lineAddr (w + 1) n

/-- `ZArray::lookup`; `none` is the panic on line address 0. -/
def lookup (z : ZArray) (lineAddr : Address) (req : ReqPtr) (updateReplacement : Bool) :
    Option (Int × ZArray) :=
  if lineAddr = 0 then none
  else
    match lookupWays z lineAddr 0 z.ways with
    | some lineId =>
      some (toInt32 lineId,
        if updateReplacement then { z with trace := z.trace ++ [Event.update lineId req] } else z)
    | none => some (-1, z)

/-- Body of the seed loop of `preinsert` for way `w`. -/
def seedWay (z : ZArray) (lineAddr : Address) (st : ZWalk) (w : Nat) : ZWalk :=
  let pos := u32 (u32 (w * z.numSets) + u64 (z.hf.hash w lineAddr &&& z.setMask))
  let lineId := z.lookupArray.getD pos 0
  { st with
    candidates := st.candidates.set w ⟨pos, lineId, -1⟩
    all_valid := st.all_valid && (z.array.getD lineId 0 != 0) }

/-- Body of the inner `for` loop of the expansion for way `w`: the candidate is
always written at index `numCandidates`, and the count advances only when the
slot differs from the fringe slot. -/
def expandWay (z : ZArray) (fringeId : Nat) (fringeAddr : Address) (st : ZWalk) (w : Nat) :
    ZWalk :=
  let hval := u32 (z.hf.hash w fringeAddr &&& z.setMask)
  let pos := u32 (w * z.numSets + hval)
  let lineId := z.lookupArray.getD pos 0
  { st with
    candidates := st.candidates.set st.numCandidates ⟨pos, lineId, toInt32 st.fringeStart⟩
    all_valid := st.all_valid && (z.array.getD lineId 0 != 0)
    numCandidates := u32 (st.numCandidates + (if lineId != fringeId then 1 else 0)) }

/-- The loop `while (numCandidates < cands && all_valid)` of `preinsert`, with
fuel; `none` when `assert(fringeAddr)` fails or the fuel runs out. -/
def expand (z : ZArray) : Nat → ZWalk → Option ZWalk
  | 0, st => if st.numCandidates < z.cands && st.all_valid then none else some st
  | fuel + 1, st =>
    if st.numCandidates < z.cands && st.all_valid then
      if z.array.getD (st.candidates.getD st.fringeStart default).lineId 0 = 0 then none
      else
        expand z fuel
          { (List.range z.ways).foldl
              (expandWay z (st.candidates.getD st.fringeStart default).lineId
                (z.array.getD (st.candidates.getD st.fringeStart default).lineId 0)) st with
            fringeStart := u32 (st.fringeStart + 1) }
    else some st

/-- The loop of `preinsert` that finds the minimum index `ii < numCandidates`
whose candidate has slot `bestCandidate`, with `n` indices left; `(uint32_t)-1`
when there is none. -/
def findMinIdx (candidates : List ZWalkInfo) (bestCandidate : Nat) : Nat → Nat → Nat
  | _, 0 => 2 ^ 32 - 1
  | ii, n + 1 =>
    if bestCandidate = (candidates.getD ii default).lineId then ii
    else findMinIdx candidates bestCandidate (ii + 1) n

/-- The loop `while (idx >= 0)` of `preinsert` that records the swap chain, with
fuel; returns `swapArray` and `swapIdx`, `none` when the fuel runs out. -/
def walkParents (candidates : List ZWalkInfo) :
    Nat → Int → List Nat → Nat → Option (List Nat × Nat)
  | 0, idx, swapArray, swapIdx => if 0 ≤ idx then none else some (swapArray, swapIdx)
  | fuel + 1, idx, swapArray, swapIdx =>
    if 0 ≤ idx then
      walkParents candidates fuel (candidates.getD idx.toNat default).parentIdx
        (swapArray.set swapIdx (candidates.getD idx.toNat default).pos) (u32 (swapIdx + 1))
    else some (swapArray, swapIdx)

/-- The candidates of the walk in `preinsert`: the seeds, then the expansion. -/
def walk (z : ZArray) (lineAddr : Address) : Option ZWalk :=
  expand z z.cands
    ((List.range z.ways).foldl (seedWay z lineAddr)
      ⟨List.replicate (u32 (z.cands + z.ways)) default, z.ways, 0, true⟩)

/-- `ZArray::preinsert`: returns the slot to replace, the writeback address and
the state with the recorded swap chain; `none` when an assertion fails. -/
def preinsert (z : ZArray) (lineAddr : Address) (req : ReqPtr) :
    Option (Nat × Address × ZArray) :=
  match walk z lineAddr with
  | none => none
  | some st =>
    if st.all_valid && st.numCandidates < z.cands then none
    else
      let numCandidates := if st.numCandidates > z.cands then z.cands else st.numCandidates
      let offered := (st.candidates.take numCandidates).map ZWalkInfo.lineId
      let bestCandidate := u32 (z.rp.rankCands z.trace req offered)
      if !(bestCandidate < z.numLines) then none
      else
        let minIdx := findMinIdx st.candidates bestCandidate 0 numCandidates
        match walkParents st.candidates z.cands (toInt32 minIdx) z.swapArray 0 with
        | none => none
        | some (swapArray, swapIdx) =>
          if !(0 < swapIdx) then none
          else
            some (bestCandidate, z.array.getD bestCandidate 0,
              { z with
                swapArray := swapArray
                swapArrayLen := swapIdx
                lastCandIdx := minIdx
                trace := z.trace ++ [Event.rankCands req offered] })

/-- The loop of `postinsert` that shifts the entries of the indirection table
one position down the chain, for `i = 0, ..., n-1`. -/
def shiftChain (swapArray : List Nat) (lookupArray : List Nat) (n : Nat) : List Nat :=
  (List.range n).foldl
    (fun la i => la.set (swapArray.getD i 0) (la.getD (swapArray.getD (i + 1) 0) 0)) lookupArray

/-- `ZArray::postinsert`; `none` when its entry assertion fails. -/
def postinsert (z : ZArray) (lineAddr : Address) (req : ReqPtr) (candidate : Nat) :
    Option ZArray :=
  if !(z.lookupArray.getD (z.swapArray.getD 0 0) 0 = candidate) then none
  else
    some { z with
      lookupArray :=
        (shiftChain z.swapArray z.lookupArray (sub32 z.swapArrayLen 1)).set
          (z.swapArray.getD (sub32 z.swapArrayLen 1) 0) candidate
      array := z.array.set candidate lineAddr
      trace := z.trace ++ [Event.replaced candidate, Event.store candidate lineAddr,
        Event.update candidate req]
      statSwaps := u64 (z.statSwaps + sub32 z.swapArrayLen 1) }

/-- One insertion as the cache performs it on a miss: `preinsert`, then
`postinsert` of the slot it returned. -/
def insert (z : ZArray) (lineAddr : Address) (req : ReqPtr) : Option ZArray :=
  match preinsert z lineAddr req with
  | none => none
  | some (candidate, _, z1) => postinsert z1 lineAddr req candidate

/-- The position of address `a` in way `w` of the indirection table:
`w*numSets + (hash(w,a) AND (numSets-1))`. -/
def pos (z : ZArray) (w : Nat) (a : Address) : Nat :=
  w * z.numSets + (z.hf.hash w a &&& (z.numSets - 1))

/-- What the constructor establishes (geometry and allocation; `numLines` is a
`uint32_t`), together with the representability of the candidate indices in
`int32_t`, the type of `ZWalkInfo::parentIdx` (the walk keeps `cands + ways`
candidates on the stack). -/
structure Geom (z : ZArray) : Prop where
  ways_gt : 1 < z.ways
  cands_ge : z.ways ≤ z.cands
  numSets_eq : z.numSets = z.numLines / z.ways
  multiple : z.numLines % z.ways = 0
  pow2 : isPow2 z.numSets = true
  setMask_eq : z.setMask = sub32 z.numSets 1
  array_len : z.array.length = z.numLines
  lookup_len : z.lookupArray.length = z.numLines
  swap_len : z.swapArray.length = z.cands / z.ways + 2
  numLines_lt : z.numLines < 2 ^ 32
  cands_lt : z.cands < 2 ^ 31

/-- Well-formed states: the indirection table is a permutation of the slot ids
(`numLines` pairwise distinct entries below `numLines`), every non-empty slot is
referenced from one of the `ways` positions of its address, and no address is in
two slots. -/
structure WF (z : ZArray) : Prop where
  geom : Geom z
  nodup : z.lookupArray.Nodup
  bound : ∀ p, p < z.numLines → z.lookupArray.getD p 0 < z.numLines
  referenced : ∀ s, s < z.numLines → z.array.getD s 0 ≠ 0 →
    ∃ w, w < z.ways ∧ z.lookupArray.getD (pos z w (z.array.getD s 0)) 0 = s
  unique : ∀ i, i < z.numLines → ∀ j, j < z.numLines → z.array.getD i 0 ≠ 0 →
    z.array.getD i 0 = z.array.getD j 0 → i = j

/-- The index of the parent of candidate `i`. -/
def parent (candidates : List ZWalkInfo) (i : Nat) : Nat :=
  (candidates.getD i default).parentIdx.toNat

/-- The `d`-th ancestor of candidate `i` along the parent links. -/
def anc (candidates : List ZWalkInfo) : Nat → Nat → Nat
  | 0, i => i
  | d + 1, i => anc candidates d (parent candidates i)

/-- Invariant of the candidate walk of `preinsert` for the insertion of `a`,
when `k` ways of the fringe candidate `fringeStart` have been processed. -/
structure WalkInv (z : ZArray) (a : Address) (st : ZWalk) (k : Nat) : Prop where
  len : st.candidates.length = z.cands + z.ways
  fringe : st.fringeStart + z.ways ≤ st.numCandidates
  grow : st.fringeStart + z.ways + k ≤ st.numCandidates + 1
  grow_all : (∀ w, w < k → z.lookupArray.getD
      (pos z w (z.array.getD (st.candidates.getD st.fringeStart default).lineId 0)) 0
        ≠ (st.candidates.getD st.fringeStart default).lineId) →
    st.fringeStart + z.ways + k ≤ st.numCandidates
  seeds : ∀ i, i < z.ways → st.candidates.getD i default
    = ⟨pos z i a, z.lookupArray.getD (pos z i a) 0, -1⟩
  kids : ∀ i, z.ways ≤ i → i < st.numCandidates →
    ∃ p w : Nat, (st.candidates.getD i default).parentIdx = (p : Int) ∧ p + z.ways ≤ i ∧ w < z.ways
      ∧ (p < st.fringeStart ∨ (p = st.fringeStart ∧ w < k))
      ∧ (st.candidates.getD i default).pos
          = pos z w (z.array.getD (st.candidates.getD p default).lineId 0)
      ∧ (st.candidates.getD i default).lineId ≠ (st.candidates.getD p default).lineId
  link : ∀ i, i < st.numCandidates →
    (st.candidates.getD i default).lineId
        = z.lookupArray.getD (st.candidates.getD i default).pos 0
      ∧ (st.candidates.getD i default).pos < z.numLines
  complete : ∀ p w, w < z.ways → (p < st.fringeStart ∨ (p = st.fringeStart ∧ w < k)) →
    z.lookupArray.getD (pos z w (z.array.getD (st.candidates.getD p default).lineId 0)) 0
      ≠ (st.candidates.getD p default).lineId →
    ∃ i, z.ways ≤ i ∧ i < st.numCandidates
      ∧ (st.candidates.getD i default).parentIdx = (p : Int)
      ∧ (st.candidates.getD i default).pos
          = pos z w (z.array.getD (st.candidates.getD p default).lineId 0)
  order : ∀ i j, z.ways ≤ i → i ≤ j → j < st.numCandidates →
    (st.candidates.getD i default).parentIdx ≤ (st.candidates.getD j default).parentIdx
  valid : st.all_valid = true → ∀ i, i < st.numCandidates →
    z.array.getD (st.candidates.getD i default).lineId 0 ≠ 0

/-- One pass of the body of the loop `while (numCandidates < cands && all_valid)`
of `preinsert`: the frontier candidate `fringeStart` is expanded in every way and
the frontier moves on. -/
def expandStep (z : ZArray) (st : ZWalk) : ZWalk :=
  { (List.range z.ways).foldl
      (expandWay z (st.candidates.getD st.fringeStart default).lineId
        (z.array.getD (st.candidates.getD st.fringeStart default).lineId 0)) st with
    fringeStart := u32 (st.fringeStart + 1) }

/-- The states in which the walk of `preinsert` for address `a` evaluates the
condition of its expansion loop: the state after the seed loop, and the state
after a pass of the body that was entered (condition true, `assert(fringeAddr)`
passed). -/
inductive LoopHead (z : ZArray) (a : Address) : ZWalk → Prop
  | seeds : LoopHead z a ((List.range z.ways).foldl (seedWay z a)
      ⟨List.replicate (u32 (z.cands + z.ways)) default, z.ways, 0, true⟩)
  | pass (st : ZWalk) : LoopHead z a st → st.numCandidates < z.cands → st.all_valid = true →
      z.array.getD (st.candidates.getD st.fringeStart default).lineId 0 ≠ 0 →
      LoopHead z a (expandStep z st)

/-- The disabled reference version of the body of the inner loop of the
expansion (the `#if 0` block of `preinsert`, "logically, you want to do this"):
the candidate is appended only when the slot differs from the fringe slot. -/
def expandWayReference (z : ZArray) (fringeId : Nat) (fringeAddr : Address) (st : ZWalk)
    (w : Nat) : ZWalk :=
  let hval := u32 (z.hf.hash w fringeAddr &&& z.setMask)
  let pos := u32 (w * z.numSets + hval)
  let lineId := z.lookupArray.getD pos 0
  if lineId != fringeId then
    { st with
      candidates := st.candidates.set st.numCandidates ⟨pos, lineId, toInt32 st.fringeStart⟩
      numCandidates := u32 (st.numCandidates + 1)
      all_valid := st.all_valid && (z.array.getD lineId 0 != 0) }
  else st

/-- One pass of the body of the expansion loop with the reference version of the
inner body. -/
def expandStepReference (z : ZArray) (st : ZWalk) : ZWalk :=
  { (List.range z.ways).foldl
      (expandWayReference z (st.candidates.getD st.fringeStart default).lineId
        (z.array.getD (st.candidates.getD st.fringeStart default).lineId 0)) st with
    fringeStart := u32 (st.fringeStart + 1) }

/-- Two states of the walk agree: the same candidate count, frontier and
`all_valid` flag, buffers of the same size, and the same candidate entries below
the count. -/
def Agree (st st' : ZWalk) : Prop :=
  st.numCandidates = st'.numCandidates
    ∧ st.fringeStart = st'.fringeStart
    ∧ st.all_valid = st'.all_valid
    ∧ st.candidates.length = st'.candidates.length
    ∧ ∀ i, i < st.numCandidates → st.candidates.getD i default = st'.candidates.getD i default

/-- The swap chain recorded by `preinsert` from the walk `st`: candidate `m` is
the first one with the winning slot, `len` is the length of its walk to a seed
and `sw[0 .. len)` are the positions recorded on the way. -/
structure Chain (z : ZArray) (st : ZWalk) (m len : Nat) (sw : List Nat) : Prop where
  lt : m < st.numCandidates
  lt_cands : m < z.cands
  minimal : ∀ j, j < m →
    (st.candidates.getD j default).lineId ≠ (st.candidates.getD m default).lineId
  len_pos : 1 ≤ len
  len_le : len ≤ z.cands / z.ways + 1
  seed : anc st.candidates (len - 1) m < z.ways
  inner : ∀ j, j + 1 < len → z.ways ≤ anc st.candidates j m
  le : ∀ j, j < len → anc st.candidates j m ≤ m
  sw_len : sw.length = z.swapArray.length
  sw_get : ∀ j, j < len →
    sw.getD j 0 = (st.candidates.getD (anc st.candidates j m) default).pos

end ZArray

/-! ## Pseudo-random generator -/

/-- Modelled from the spec: the seeded pseudo-random generator `MTRand` (its
header `mtrand.h` is not among the sources), as the stream of integers that
successive `randInt()` calls return and the number of draws made so far.  A
constructor call `MTRand(seed)` is a value of this type with `drawn = 0`. -/
structure MTRand where
  stream : Nat → Nat
  drawn : Nat

/-- Modelled from the spec: `MTRand::randInt()`, the next 32-bit integer of the
stream. -/
def MTRand.randInt (r : MTRand) : Nat × MTRand :=
  (u32 (r.stream r.drawn), { r with drawn := r.drawn + 1 })

/-- Modelled from the spec: `MTRand::randInt(n)`, the next integer of the stream,
drawn for the range `[0, n]`.  Nothing but its width is assumed of the value. -/
def MTRand.randIntUpTo (r : MTRand) (_n : Nat) : Nat × MTRand :=
  (u32 (r.stream r.drawn), { r with drawn := r.drawn + 1 })

/-! ## CEASER array -/

/-- State of a `CEASERArray`: slot storage, the per-set switch flags, the two
hash families and the generator of the victim selection. -/
structure CEASERArray where
  rp : ReplPolicy
  hf : HashFamily
  hf_current : HashFamily
  hf_target : HashFamily
  array : List Address
  array_reuse : List Address
  switch_array : List Int
  numLines : Nat
  numSets : Nat
  assoc : Nat
  setMask : Nat
  rng : MTRand

namespace CEASERArray

/-- The constructor `CEASERArray::CEASERArray`; `rng` is the generator
`MTRand(0x322D2523F)` it allocates.  `none` on the division by zero and on the
power-of-two assertion. -/
def create (numLines assoc : Nat) (rp : ReplPolicy) (hf_1 hf_2 : HashFamily) (rng : MTRand) :
    Option CEASERArray :=
  if assoc = 0 then none
  else
    let numSets := u32 numLines / assoc
    let switch_array := (List.range (toInt32 numSets).toNat).foldl
      (fun sw i => sw.set i 0) (List.replicate numSets (0 : Int))
    if !isPow2 numSets then none
    else
      some {
        rp := rp
        hf := hf_1
        hf_current := hf_1
        hf_target := hf_2
        array := List.replicate (u32 numLines) 0
        array_reuse := List.replicate (u32 numLines) 0
        switch_array := switch_array
        numLines := u32 numLines
        numSets := numSets
        assoc := assoc
        setMask := sub32 numSets 1
        rng := rng }

/-- The set that `lookup` and `preinsert` address for `lineAddr`: the set of the
current hash, replaced by the set of the target hash when the switch flag of
the former is 1. -/
def probedSet (c : CEASERArray) (lineAddr : Address) : Nat :=
  if c.switch_array.getD (u32 (c.hf_current.hash 0 lineAddr &&& c.setMask)) 0 = 1 then
    u32 (c.hf_target.hash 0 lineAddr &&& c.setMask)
  else u32 (c.hf_current.hash 0 lineAddr &&& c.setMask)

/-- `CEASERArray::lookup`: a scan of the slots `first, ..., first + assoc - 1` of
the addressed set; the slot found as `int32_t`, else `-1`.  The state is not
changed (the call of the policy is commented out). -/
def lookup (c : CEASERArray) (lineAddr : Address) (_req : ReqPtr) (_updateReplacement : Bool) :
    Int :=
  match SetAssocArray.scan c.array lineAddr (u32 (probedSet c lineAddr * c.assoc))
      (u32 (u32 (probedSet c lineAddr * c.assoc) + c.assoc)
        - u32 (probedSet c lineAddr * c.assoc)) with
  | some id => toInt32 id
  | none => -1

/-- `CEASERArray::preinsert`: the candidate is `first + (rng->randInt(assoc - 1)
& (assoc - 1))`; returns the candidate, the writeback address and the state
(only the generator has moved on). -/
def preinsert (c : CEASERArray) (lineAddr : Address) (_req : ReqPtr) :
    Nat × Address × CEASERArray :=
  (u32 (u32 (probedSet c lineAddr * c.assoc)
      + ((c.rng.randIntUpTo (sub32 c.assoc 1)).1 &&& sub32 c.assoc 1)),
    c.array.getD
      (u32 (u32 (probedSet c lineAddr * c.assoc)
        + ((c.rng.randIntUpTo (sub32 c.assoc 1)).1 &&& sub32 c.assoc 1))) 0,
    { c with rng := (c.rng.randIntUpTo (sub32 c.assoc 1)).2 })

/-- `CEASERArray::postinsert`: the store into the slot (the calls of the policy
are commented out). -/
def postinsert (c : CEASERArray) (lineAddr : Address) (_req : ReqPtr) (candidate : Nat) :
    CEASERArray :=
  { c with array := c.array.set candidate lineAddr }

/-- `CEASERArray::setSwitch`. -/
def setSwitch (c : CEASERArray) (set : Nat) : CEASERArray :=
  { c with switch_array := c.switch_array.set set 1 }

/-- `CEASERArray::moveAddr`; the error is the state at the failing assertion. -/
def moveAddr (c : CEASERArray) (repl_addr : Address) (repl_id : Nat) (lineAddr : Address)
    (lineId : Nat) : Except CEASERArray CEASERArray :=
  if !(c.array.getD repl_id 0 = repl_addr) then .error c
  else if !(c.array.getD lineId 0 = lineAddr) then .error c
  else .ok { c with array := (c.array.set repl_id lineAddr).set lineId 0 }

/-- What the constructor establishes: the geometry and the allocation of the
slot storage and of the switch flags. -/
structure Geom (c : CEASERArray) : Prop where
  assoc_pos : 0 < c.assoc
  numSets_eq : c.numSets = c.numLines / c.assoc
  pow2 : isPow2 c.numSets = true
  setMask_eq : c.setMask = sub32 c.numSets 1
  length_eq : c.array.length = c.numLines
  switch_len : c.switch_array.length = c.numSets
  numLines_lt : c.numLines < 2 ^ 32

end CEASERArray

/-! ## H3 hash family -/

/-- State of an `H3HashFamily`: `hMatrix` holds `64 >> resShift` words per
function. -/
structure H3HashFamily where
  numFuncs : Nat
  resShift : Nat
  hMatrix : List Nat
  deriving DecidableEq

namespace H3HashFamily

/-- The loop `for (kk = 0; kk < 64; kk++) { val = val << 1; if (rnd.randInt() % 2
== 0) val++; }` of the constructor: one matrix word from 64 draws. -/
def drawWord (rnd : MTRand) : Nat × MTRand :=
  (List.range 64).foldl
    (fun (s : Nat × MTRand) _ =>
      (if s.2.randInt.1 % 2 = 0 then u64 (u64 (s.1 <<< 1) + 1) else u64 (s.1 <<< 1),
        s.2.randInt.2))
    (0, rnd)

/-- The nested loops of the constructor that fill `hMatrix[ii*words + jj]`. -/
def fill (numFuncs words : Nat) (rnd : MTRand) : List Nat × MTRand :=
  (List.range numFuncs).foldl
    (fun s ii =>
      (List.range words).foldl
        (fun (s : List Nat × MTRand) jj =>
          (s.1.set (u32 (u32 (ii * words) + jj)) (drawWord s.2).1, (drawWord s.2).2)) s)
    (List.replicate (u32 (words * numFuncs)) 0, rnd)

/-- The constructor `H3HashFamily::H3HashFamily`; `rnd` is the generator
`MTRand rnd(randSeed)`.  `none` is the panic on more than 64 output bits. -/
def create (numFunctions outputBits : Nat) (rnd : MTRand) : Option H3HashFamily :=
  if outputBits ≤ 8 then
    some ⟨numFunctions, 3, (fill numFunctions (u32 (64 >>> 3)) rnd).1⟩
  else if outputBits ≤ 16 then
    some ⟨numFunctions, 2, (fill numFunctions (u32 (64 >>> 2)) rnd).1⟩
  else if outputBits ≤ 32 then
    some ⟨numFunctions, 1, (fill numFunctions (u32 (64 >>> 1)) rnd).1⟩
  else if outputBits ≤ 64 then
    some ⟨numFunctions, 0, (fill numFunctions (u32 (64 >>> 0)) rnd).1⟩
  else none

/-- Body of the 8-way unrolled loop of `hash` for the loop variable `x`. -/
def block (h : H3HashFamily) (id val res x : Nat) : Nat :=
  let base := u32 (u32 (id <<< sub32 6 h.resShift) + x)
  let res0 := val &&& h.hMatrix.getD base 0
  let res1 := val &&& h.hMatrix.getD (u32 (base + 1)) 0
  let res2 := val &&& h.hMatrix.getD (u32 (base + 2)) 0
  let res3 := val &&& h.hMatrix.getD (u32 (base + 3)) 0
  let res4 := val &&& h.hMatrix.getD (u32 (base + 4)) 0
  let res5 := val &&& h.hMatrix.getD (u32 (base + 5)) 0
  let res6 := val &&& h.hMatrix.getD (u32 (base + 6)) 0
  let res7 := val &&& h.hMatrix.getD (u32 (base + 7)) 0
  let res := res ^^^ (((res0 ^^^ (u64 (res1 <<< 1) ||| (res1 >>> 63)))
    ^^^ (u64 (res2 <<< 2) ||| (res2 >>> 62))) ^^^ (u64 (res3 <<< 3) ||| (res3 >>> 61)))
  let res := res ^^^ ((((u64 (res4 <<< 4) ||| (res4 >>> 60))
    ^^^ (u64 (res5 <<< 5) ||| (res5 >>> 59))) ^^^ (u64 (res6 <<< 6) ||| (res6 >>> 58)))
    ^^^ (u64 (res7 <<< 7) ||| (res7 >>> 57)))
  u64 (res <<< 8) ||| (res >>> 56)

/-- `H3HashFamily::hash`: the unrolled loop `for (x = 0; x < maxBits; x += 8)`,
then the fold to the output width.  `none` when the assertion
`id < numFuncs` fails. -/
def hash (h : H3HashFamily) (id val : Nat) : Option Nat :=
  if !(id < h.numFuncs) then none
  else
    let maxBits := u32 (64 >>> h.resShift)
    let res := (List.range ((maxBits + 7) / 8)).foldl
      (fun res k => block h id val res (8 * k)) 0
    match h.resShift with
    | 0 => some res
    | 1 => some ((res >>> 32) ^^^ res)
    | 2 => some ((((res >>> 32) ^^^ res) >>> 16) ^^^ ((res >>> 32) ^^^ res))
    | 3 =>
      some ((((((res >>> 32) ^^^ res) >>> 16) ^^^ ((res >>> 32) ^^^ res)) >>> 8)
        ^^^ ((((res >>> 32) ^^^ res) >>> 16) ^^^ ((res >>> 32) ^^^ res)))
    | _ => some res

/-- The reference loop in the comment above `H3HashFamily::hash` ("the
original, simpler code", for a 64-bit hash): `for (x = 0; x < 64; x++) { res ^=
val & hMatrix[id*64 + x]; res = (res << 1) | (res >> 63); }`. -/
def hashReference (h : H3HashFamily) (id val : Nat) : Nat :=
  (List.range 64).foldl
    (fun res x =>
      u64 ((res ^^^ (val &&& h.hMatrix.getD (u32 (u32 (id * 64) + x)) 0)) <<< 1)
        ||| ((res ^^^ (val &&& h.hMatrix.getD (u32 (u32 (id * 64) + x)) 0)) >>> 63))
    0

/-- The matrix word the constructor makes from the draws number `d, ..., d+63` of
the stream `st`: draw `d + kk` decides bit `63 - kk`, which is set when the draw
is even. -/
def wordOf (st : Nat → Nat) (d : Nat) : Nat :=
  (List.range 64).foldl
    (fun val kk => if u32 (st (d + kk)) % 2 = 0 then u64 (u64 (val <<< 1) + 1)
      else u64 (val <<< 1)) 0

/-- Parity of the bits `f 0, ..., f (n-1)`: true when an odd number of them is
set. -/
def parity (n : Nat) (f : Nat → Bool) : Bool :=
  (List.range n).foldl (fun acc x => xor acc (f x)) false

end H3HashFamily

/-! ## Feistel hash family -/

/-- State of a `FeistelFamily`: per round a substitution table `s[k].sMat` and a
permutation table `p[k].pMat` of `width/2` rows, and a round key. -/
structure FeistelFamily where
  sMat : List (List Nat)
  pMat : List (List Nat)
  keys : List Nat
  width : Nat

namespace FeistelFamily

/-- `FeistelFamily::bitXor`; `none` when its assertion
`(result - (result & 1)) == 0` fails. -/
def bitXor (val row size : Nat) : Option Nat :=
  let result := (List.range (toInt32 size).toNat).foldl
    (fun result i =>
      if u32 ((row >>> i) &&& 1) = 0 then result ^^^ u32 ((val >>> i) &&& 1) else result) 0
  if sub32 result (result &&& 1) = 0 then some result else none

/-- Parity (0 or 1) of the number of bit positions `i < size` at which `val` has a
one and `row` has a zero. -/
def maskedParity (val row size : Nat) : Nat :=
  ((List.range size).filter (fun i => val.testBit i && !row.testBit i)).length % 2

/-- The first inner loop of round `i` of `hash`: `s_result |= temp << j` with
`temp = bitXor(f_input, s[i].sMat[j], 64)`. -/
def substitute (f : FeistelFamily) (i f_input : Nat) : Option Nat :=
  (List.range (f.width / 2)).foldl
    (fun acc j =>
      match acc with
      | none => none
      | some s_result =>
        match bitXor f_input ((f.sMat.getD i []).getD j 0) 64 with
        | none => none
        | some temp => some (s_result ||| u32 (temp <<< j)))
    (some 0)

/-- The second inner loop of round `i` of `hash`: `p_result |= temp << j` with
`temp = bitXor(s_result, p[i].pMat[j], 32)`. -/
def permute (f : FeistelFamily) (i s_result : Nat) : Option Nat :=
  (List.range (f.width / 2)).foldl
    (fun acc j =>
      match acc with
      | none => none
      | some p_result =>
        match bitXor s_result ((f.pMat.getD i []).getD j 0) 32 with
        | none => none
        | some temp => some (p_result ||| u32 (temp <<< j)))
    (some 0)

/-- Round `i` of `hash` on `(up_input, down_input)`; returns the new pair, whose
first component is also `stage_output`.  `none` when an assertion fails. -/
def round (f : FeistelFamily) (i : Nat) (st : Nat × Nat) : Option (Nat × Nat) :=
  match substitute f i (st.1 ||| f.keys.getD i 0) with
  | none => none
  | some s_result =>
    if !(s_result >>> 32 = 0) then none
    else
      match permute f i s_result with
      | none => none
      | some p_result =>
        if !(s_result >>> 32 = 0) then none
        else if !(p_result >>> 32 = 0) then none
        else if !(st.1 >>> 32 = 0) then none
        else if !(st.2 >>> 32 = 0) then none
        else some (st.2 ^^^ p_result, st.1)

/-- `FeistelFamily::hash`: four rounds from `l = val >> 32` and
`r = (val << 32) >> 32`; the result is the last `stage_output`. -/
def hash (f : FeistelFamily) (_id val : Nat) : Option Nat :=
  ((List.range 4).foldl
    (fun acc i =>
      match acc with
      | none => none
      | some st => round f i st)
    (some (val >>> 32, u64 (val <<< 32) >>> 32))).map Prod.fst

end FeistelFamily

/-! ## Cache orchestration: collaborators -/

/-- A `TimingEvent*`: the handle of an event of the recorder; `none` is
`nullptr`. -/
abbrev EventPtr := Option Nat

/-- Modelled from the spec: a timing sub-record (its declaration is not among the
sources): request cycle, end cycle, start and end event handle; `rest` stands for
the fields that the cache neither reads nor writes. -/
structure TimingRecord where
  reqCycle : Nat
  endCycle : Nat
  startEvent : EventPtr
  endEvent : EventPtr
  rest : Nat
  deriving DecidableEq, Repr

namespace TimingRecord

/-- Modelled from the spec: the record after `TimingRecord wbAcc; wbAcc.clear()`:
it has no start event. -/
def cleared : TimingRecord := ⟨0, 0, none, none, 0⟩

/-- Modelled from the spec: `isValid()`: a record is valid when it has a start
event. -/
def isValid (r : TimingRecord) : Bool := r.startEvent.isSome

end TimingRecord

/-- Modelled from the spec: an event of the event graph (the declarations of
`TimingEvent` and `DelayEvent` are not among the sources): its delay, its minimum
start cycle and the handles of its children. -/
structure TimingEvent where
  delay : Nat
  minStartCycle : Nat
  children : List EventPtr
  deriving DecidableEq, Repr

/-- Modelled from the spec: the event recorder of one requester (its declaration
is not among the sources): the stack of pending timing records, last pushed
first, and the events allocated in it; the event with handle `i` is
`events[i]`. -/
structure EventRecorder where
  records : List TimingRecord
  events : List TimingEvent
  deriving DecidableEq, Repr

namespace EventRecorder

/-- Modelled from the spec: `hasRecord()`. -/
def hasRecord (r : EventRecorder) : Bool := !r.records.isEmpty

/-- Modelled from the spec: `pushRecord(tr)`. -/
def pushRecord (r : EventRecorder) (tr : TimingRecord) : EventRecorder :=
  { r with records := tr :: r.records }

/-- Modelled from the spec: `new (evRec) DelayEvent(delay)`: a fresh event
without children; returns its handle. -/
def newDelayEvent (r : EventRecorder) (delay : Nat) : Nat × EventRecorder :=
  (r.events.length, { r with events := r.events ++ [⟨delay, 0, []⟩] })

/-- Modelled from the spec: `ev->setMinStartCycle(cycle)`. -/
def setMinStartCycle (r : EventRecorder) (ev cycle : Nat) : EventRecorder :=
  { r with
    events := r.events.set ev
      ⟨(r.events.getD ev ⟨0, 0, []⟩).delay, cycle, (r.events.getD ev ⟨0, 0, []⟩).children⟩ }

/-- Modelled from the spec: `ev->addChild(child, evRec)`: `child` becomes the
last child of `ev`; the call returns `child`. -/
def addChild (r : EventRecorder) (ev : Nat) (child : EventPtr) : EventRecorder :=
  { r with
    events := r.events.set ev
      ⟨(r.events.getD ev ⟨0, 0, []⟩).delay, (r.events.getD ev ⟨0, 0, []⟩).minStartCycle,
        (r.events.getD ev ⟨0, 0, []⟩).children ++ [child]⟩ }

end EventRecorder

/-- The fields of `InvReq` that the cache reads. -/
structure InvReq where
  lineAddr : Address
  cycle : Nat
  srcId : Nat
  deriving DecidableEq, Repr

/-- The counters that `Cache::updateFTMStats` increments through the coherence
controller. -/
inductive FtmCounter where
  | FirstTimeMiss
  | IcacheFirstTimeMiss
  | DcacheFirstTimeMiss
  | RXPFirstTimeMiss
  | RPFirstTimeMiss
  | RWPFirstTimeMiss
  | RWXPFirstTimeMiss
  | BinaryFirstTimeMiss
  | HeapFirstTimeMiss
  | SLFirstTimeMiss
  | MMAPFirstTimeMiss
  | STACKFirstTimeMiss
  | VVARFirstTimeMiss
  | VDSOFirstTimeMiss
  | VSYSCALLFirstTimeMiss
  deriving DecidableEq, Repr

/-- The calls that `Cache` makes to the coherence controller, to the array and
to the requester's event recorder, with their arguments. -/
inductive Call where
  | startAccess (req : MemReq)
  | startSkewAccess (req : MemReq)
  | lookup (lineAddr : Address) (req : ReqPtr) (updateReplacement : Bool)
  | shouldAllocate (req : MemReq)
  | preinsert (lineAddr : Address) (req : ReqPtr)
  | processEviction (req : MemReq) (wbLineAddr : Address) (lineId : Int) (cycle : Nat)
  | postinsert (lineAddr : Address) (req : ReqPtr) (lineId : Nat)
  | checkSameOwner (lineAddr : Address) (lineId : Int) (srcId : Nat)
  | hasRecord
  | popRecord
  | pushRecord (tr : TimingRecord)
  | processAccess (req : MemReq) (lineId : Int) (cycle : Nat)
  | endAccess (req : MemReq)
  | endSkewAccess (req : MemReq)
  | increment (counter : FtmCounter)
  | processInv (req : InvReq) (lineId : Int) (cycle : Nat)
  deriving DecidableEq, Repr

/-- The calls to the requester's event recorder. -/
def Call.onRecorder : Call → Bool
  | Call.hasRecord => true
  | Call.popRecord => true
  | Call.pushRecord _ => true
  | _ => false

/-- The calls to the array or to the eviction hand-off of the coherence
controller. -/
def Call.onArray : Call → Bool
  | Call.lookup _ _ _ => true
  | Call.preinsert _ _ => true
  | Call.postinsert _ _ _ => true
  | Call.processEviction _ _ _ _ => true
  | _ => false

/-- The ways in which an operation of `Cache` aborts. -/
inductive Fault where
  | arrayPanic
  | danglingRecorder
  | wbReqCycle
  | accReqCycle
  | respBeforeReq
  | invalidateMissing
  deriving DecidableEq, Repr

/-- The interface `CacheArray` as `Cache` uses it, over the state `α` of the
array; `none` is a panic or failed assertion inside the array. -/
structure CacheArray (α : Type) where
  lookup : α → Address → ReqPtr → Bool → Option (Int × α)
  preinsert : α → Address → ReqPtr → Option (Nat × Address × α)
  postinsert : α → Address → ReqPtr → Nat → Option α

/-- The table `zinfo->eventRecorders`: the recorder of each requester, `none`
where the pointer is null. -/
abbrev EventRecorders := Nat → Option EventRecorder

/-- The coherence controller as `Cache` uses it (its declaration is not among
the sources), over its state `κ`.  `startAccess` may change `req.type`;
`processEviction` and `processAccess` may leave timing records in the event
recorders. -/
structure CC (κ : Type) where
  startAccess : κ → MemReq → Bool × AccessType × κ
  startSkewAccess : κ → MemReq → Bool × AccessType × κ
  shouldAllocate : κ → MemReq → Bool
  processEviction : κ → EventRecorders → MemReq → Address → Int → Nat → Nat × κ × EventRecorders
  processAccess : κ → EventRecorders → MemReq → Int → Nat → Nat × κ × EventRecorders
  endAccess : κ → MemReq → κ
  endSkewAccess : κ → MemReq → κ
  checkSameOwner : κ → Address → Int → Nat → Bool × κ
  increment : κ → FtmCounter → κ
  processInv : κ → InvReq → Int → Nat → Nat × κ

/-- What an operation of `Cache` reads and changes: the state of the array, the
state of the coherence controller, the event recorders, and the calls made so
far, in program order. -/
structure Sys (α κ : Type) where
  array : α
  cc : κ
  eventRecorders : EventRecorders
  calls : List Call

/-- The constants of a `Cache` and the fields of the global `zinfo` that
`accessSkew` reads. -/
structure Cache where
  accLat : Nat
  invLat : Nat
  isLLC : Bool
  ftmEnable : Bool
  ftmTypeFlag : Nat

/-- Conversion of an `int32_t` value to `uint32_t`. -/
def toUInt32 (i : Int) : Nat := (i % 2 ^ 32).toNat

namespace EventRecorder

/-- Modelled from the spec: `popRecord()`: removes and returns the record pushed
last. -/
def popRecord (r : EventRecorder) : TimingRecord × EventRecorder :=
  (r.records.headD TimingRecord.cleared, { r with records := r.records.tail })

end EventRecorder

/-! ## Cache orchestration: `Cache` -/

namespace Cache

/-- The result of an operation of `Cache`: a value and the system after the
operation, or the fault and the system at the moment of the abort. -/
abbrev Result (α κ β : Type) := Except (Fault × Sys α κ) (β × Sys α κ)

/-- The system after an operation, or at the moment of its abort. -/
def stateOf {α κ β : Type} (r : Result α κ β) : Sys α κ :=
  match r with
  | .ok (_, s) => s
  | .error (_, s) => s

/-- The effect of a change of the recorder object of requester `srcId` on the
table of recorders. -/
def setRecorder (t : EventRecorders) (srcId : Nat) (r : EventRecorder) : EventRecorders :=
  fun i => if i = srcId then some r else t i

/-- The number of records pending in the recorder of requester `srcId` (0 when
there is no recorder). -/
def pending (t : EventRecorders) (srcId : Nat) : Nat :=
  match t srcId with
  | none => 0
  | some evRec => evRec.records.length

/-- The request after `cc->startAccess(req)` returned `st`: the call may change
`req.type`. -/
def retyped {κ : Type} (req : MemReq) (st : Bool × AccessType × κ) : MemReq :=
  { req with type := st.2.1 }

/-- The system after the call `call` of `cc->startAccess(req)` or
`cc->startSkewAccess(req)` returned `st`. -/
def started {α κ : Type} (s : Sys α κ) (st : Bool × AccessType × κ) (call : Call) : Sys α κ :=
  { s with cc := st.2.2, calls := s.calls ++ [call] }

/-- The block of `access` that makes space for the new line: `preinsert`,
`processEviction` (its result is not used), `postinsert`.  Returns the new
`lineId`. -/
def allocate {α κ : Type} (A : CacheArray α) (C : CC κ) (s : Sys α κ) (req : MemReq)
    (respCycle : Nat) : Result α κ Int :=
  match A.preinsert s.array req.lineAddr (some req) with
  | none => .error (.arrayPanic, { s with calls := s.calls ++ [Call.preinsert req.lineAddr (some req)] })
  | some (candidate, wbLineAddr, arr1) =>
    match A.postinsert arr1 req.lineAddr (some req) (toUInt32 (toInt32 candidate)) with
    | none =>
      .error (.arrayPanic,
        { array := arr1
          cc := (C.processEviction s.cc s.eventRecorders req wbLineAddr (toInt32 candidate)
            respCycle).2.1
          eventRecorders := (C.processEviction s.cc s.eventRecorders req wbLineAddr
            (toInt32 candidate) respCycle).2.2
          calls := s.calls ++ [Call.preinsert req.lineAddr (some req),
            Call.processEviction req wbLineAddr (toInt32 candidate) respCycle,
            Call.postinsert req.lineAddr (some req) (toUInt32 (toInt32 candidate))] })
    | some arr2 =>
      .ok (toInt32 candidate,
        { array := arr2
          cc := (C.processEviction s.cc s.eventRecorders req wbLineAddr (toInt32 candidate)
            respCycle).2.1
          eventRecorders := (C.processEviction s.cc s.eventRecorders req wbLineAddr
            (toInt32 candidate) respCycle).2.2
          calls := s.calls ++ [Call.preinsert req.lineAddr (some req),
            Call.processEviction req wbLineAddr (toInt32 candidate) respCycle,
            Call.postinsert req.lineAddr (some req) (toUInt32 (toInt32 candidate))] })

/-- The value of `updateReplacement` in `access`. -/
def updateReplacement (req : MemReq) : Bool :=
  req.type == AccessType.GETS || req.type == AccessType.GETX

/-- The lookup of `access` and, when `lineId == -1 && cc->shouldAllocate(req)`,
the allocation.  Returns `lineId` and whether a line was allocated. -/
def lookupAndAllocate {α κ : Type} (A : CacheArray α) (C : CC κ) (c : Cache) (s : Sys α κ)
    (req : MemReq) : Result α κ (Int × Bool) :=
  match A.lookup s.array req.lineAddr (some req) (updateReplacement req) with
  | none =>
    .error (.arrayPanic,
      { s with
        calls := s.calls ++ [Call.lookup req.lineAddr (some req) (updateReplacement req)] })
  | some (lineId, arr1) =>
    if lineId = -1 then
      if C.shouldAllocate s.cc req then
        match allocate A C
            { s with
              array := arr1
              calls := s.calls ++ [Call.lookup req.lineAddr (some req) (updateReplacement req),
                Call.shouldAllocate req] }
            req (u64 (req.cycle + c.accLat)) with
        | .error e => .error e
        | .ok (newId, s2) => .ok ((newId, true), s2)
      else
        .ok ((lineId, false),
          { s with
            array := arr1
            calls := s.calls ++ [Call.lookup req.lineAddr (some req) (updateReplacement req),
              Call.shouldAllocate req] })
    else
      .ok ((lineId, false),
        { s with
          array := arr1
          calls := s.calls ++ [Call.lookup req.lineAddr (some req) (updateReplacement req)] })

/-- The drain before `processAccess`: `wbAcc.clear(); if (evRec &&
evRec->hasRecord()) wbAcc = evRec->popRecord();`. -/
def drain {α κ : Type} (s : Sys α κ) (srcId : Nat) : TimingRecord × Sys α κ :=
  match s.eventRecorders srcId with
  | none => (TimingRecord.cleared, s)
  | some evRec =>
    if evRec.hasRecord then
      (evRec.popRecord.1,
        { s with
          eventRecorders := setRecorder s.eventRecorders srcId evRec.popRecord.2
          calls := s.calls ++ [Call.hasRecord, Call.popRecord] })
    else (TimingRecord.cleared, { s with calls := s.calls ++ [Call.hasRecord] })

/-- The call `cc->processAccess(req, lineId, respCycle)` of `access`, made after
the drain: the returned cycle and the system after the call. -/
def processed {α κ : Type} (C : CC κ) (s : Sys α κ) (req : MemReq) (lineId : Int)
    (respCycle : Nat) : Nat × Sys α κ :=
  ((C.processAccess (drain s req.srcId).2.cc (drain s req.srcId).2.eventRecorders req lineId
      respCycle).1,
    { (drain s req.srcId).2 with
      cc := (C.processAccess (drain s req.srcId).2.cc (drain s req.srcId).2.eventRecorders req
        lineId respCycle).2.1
      eventRecorders := (C.processAccess (drain s req.srcId).2.cc
        (drain s req.srcId).2.eventRecorders req lineId respCycle).2.2
      calls := (drain s req.srcId).2.calls ++ [Call.processAccess req lineId respCycle] })

/-- The block "Connect both events" of `access`: three new delay events, their
minimum start cycles, the four `addChild` calls, and the changed access
record. -/
def stitch (evRec : EventRecorder) (wbAcc acc : TimingRecord) (reqCycle : Nat) :
    TimingRecord × EventRecorder :=
  let startEv := (evRec.newDelayEvent 0).1
  let r1 := (evRec.newDelayEvent 0).2
  let dWbEv := (r1.newDelayEvent (wbAcc.reqCycle - reqCycle)).1
  let r2 := (r1.newDelayEvent (wbAcc.reqCycle - reqCycle)).2
  let dAccEv := (r2.newDelayEvent (acc.reqCycle - reqCycle)).1
  let r3 := (r2.newDelayEvent (acc.reqCycle - reqCycle)).2
  let r4 := ((r3.setMinStartCycle startEv reqCycle).setMinStartCycle dWbEv
    reqCycle).setMinStartCycle dAccEv reqCycle
  let r5 := (r4.addChild startEv (some dWbEv)).addChild dWbEv wbAcc.startEvent
  let r6 := (r5.addChild startEv (some dAccEv)).addChild dAccEv acc.startEvent
  ({ acc with reqCycle := reqCycle, startEvent := some startEv }, r6)

/-- The block after `processAccess`: `if (wbAcc.isValid()) { ... }`. -/
def merge {α κ : Type} (s : Sys α κ) (req : MemReq) (wbAcc : TimingRecord) :
    Except (Fault × Sys α κ) (Sys α κ) :=
  if wbAcc.isValid then
    match s.eventRecorders req.srcId with
    | none => .error (.danglingRecorder, s)
    | some evRec =>
      if !evRec.hasRecord then
        .ok { s with
          eventRecorders := setRecorder s.eventRecorders req.srcId
            (evRec.pushRecord { wbAcc with endEvent := none })
          calls := s.calls ++ [Call.hasRecord, Call.pushRecord { wbAcc with endEvent := none }] }
      else if !(wbAcc.reqCycle ≥ req.cycle) then
        .error (.wbReqCycle,
          { s with
            eventRecorders := setRecorder s.eventRecorders req.srcId evRec.popRecord.2
            calls := s.calls ++ [Call.hasRecord, Call.popRecord] })
      else if !(evRec.popRecord.1.reqCycle ≥ req.cycle) then
        .error (.accReqCycle,
          { s with
            eventRecorders := setRecorder s.eventRecorders req.srcId evRec.popRecord.2
            calls := s.calls ++ [Call.hasRecord, Call.popRecord] })
      else
        .ok { s with
          eventRecorders := setRecorder s.eventRecorders req.srcId
            ((stitch evRec.popRecord.2 wbAcc evRec.popRecord.1 req.cycle).2.pushRecord
              (stitch evRec.popRecord.2 wbAcc evRec.popRecord.1 req.cycle).1)
          calls := s.calls ++ [Call.hasRecord, Call.popRecord,
            Call.pushRecord (stitch evRec.popRecord.2 wbAcc evRec.popRecord.1 req.cycle).1] }
  else .ok s

/-- The part of `access` from the drain of the writeback record to the merge:
returns the cycle that `processAccess` returned. -/
def finish {α κ : Type} (C : CC κ) (s : Sys α κ) (req : MemReq) (lineId : Int)
    (respCycle : Nat) : Result α κ Nat :=
  match merge (processed C s req lineId respCycle).2 req (drain s req.srcId).1 with
  | .error e => .error e
  | .ok s3 => .ok ((processed C s req lineId respCycle).1, s3)

/-- The end of `access`: `cc->endAccess(req)`, then the assertion
`respCycle >= req.cycle`. -/
def close {α κ : Type} (C : CC κ) (s : Sys α κ) (req : MemReq) (respCycle : Nat) :
    Result α κ Nat :=
  if respCycle ≥ req.cycle then
    .ok (respCycle, { s with cc := C.endAccess s.cc req, calls := s.calls ++ [Call.endAccess req] })
  else
    .error (.respBeforeReq,
      { s with cc := C.endAccess s.cc req, calls := s.calls ++ [Call.endAccess req] })

/-- `Cache::access`. -/
def access {α κ : Type} (A : CacheArray α) (C : CC κ) (c : Cache) (s : Sys α κ) (req : MemReq) :
    Result α κ Nat :=
  if !(C.startAccess s.cc req).1 then
    match lookupAndAllocate A C c (started s (C.startAccess s.cc req) (Call.startAccess req))
        (retyped req (C.startAccess s.cc req)) with
    | .error e => .error e
    | .ok ((lineId, _), s2) =>
      match finish C s2 (retyped req (C.startAccess s.cc req)) lineId
          (u64 (req.cycle + c.accLat)) with
      | .error e => .error e
      | .ok (respCycle, s3) => close C s3 (retyped req (C.startAccess s.cc req)) respCycle
  else
    close C (started s (C.startAccess s.cc req) (Call.startAccess req))
      (retyped req (C.startAccess s.cc req)) req.cycle

/-- The request as `access` sees it after `cc->startAccess(req)`. -/
def reqOf {α κ : Type} (C : CC κ) (s : Sys α κ) (req : MemReq) : MemReq :=
  retyped req (C.startAccess s.cc req)

/-- The part of a non-skipped `access` before the drain of the writeback record:
`startAccess`, the lookup and the allocation. -/
def atDrain {α κ : Type} (A : CacheArray α) (C : CC κ) (c : Cache) (s : Sys α κ)
    (req : MemReq) : Result α κ (Int × Bool) :=
  lookupAndAllocate A C c (started s (C.startAccess s.cc req) (Call.startAccess req))
    (retyped req (C.startAccess s.cc req))

/-- `Cache::finishInvalidate`. -/
def finishInvalidate {α κ : Type} (A : CacheArray α) (C : CC κ) (c : Cache) (s : Sys α κ)
    (req : InvReq) : Result α κ Nat :=
  match A.lookup s.array req.lineAddr none false with
  | none => .error (.arrayPanic, { s with calls := s.calls ++ [Call.lookup req.lineAddr none false] })
  | some (lineId, arr1) =>
    if lineId = -1 then
      .error (.invalidateMissing,
        { s with array := arr1, calls := s.calls ++ [Call.lookup req.lineAddr none false] })
    else
      .ok ((C.processInv s.cc req lineId (u64 (req.cycle + c.invLat))).1,
        { s with
          array := arr1
          cc := (C.processInv s.cc req lineId (u64 (req.cycle + c.invLat))).2
          calls := s.calls ++ [Call.lookup req.lineAddr none false,
            Call.processInv req lineId (u64 (req.cycle + c.invLat))] })

/-- The counters that `updateFTMStats` increments for the request flags `flags`,
in program order. -/
def ftmCounters (flags : Nat) : List FtmCounter :=
  [FtmCounter.FirstTimeMiss]
    ++ (if flags &&& (1 <<< 9) ≠ 0 then [FtmCounter.IcacheFirstTimeMiss] else [])
    ++ (if flags &&& (1 <<< 10) ≠ 0 then [FtmCounter.DcacheFirstTimeMiss] else [])
    ++ (if flags &&& (1 <<< 8) ≠ 0 then [FtmCounter.RXPFirstTimeMiss] else [])
    ++ (if flags &&& (1 <<< 11) ≠ 0 then [FtmCounter.RPFirstTimeMiss] else [])
    ++ (if flags &&& (1 <<< 7) ≠ 0 then [FtmCounter.RWPFirstTimeMiss] else [])
    ++ (if flags &&& (1 <<< 12) ≠ 0 then [FtmCounter.RWXPFirstTimeMiss] else [])
    ++ (if flags &&& (1 <<< 13) ≠ 0 then [FtmCounter.BinaryFirstTimeMiss] else [])
    ++ (if flags &&& (1 <<< 14) ≠ 0 then [FtmCounter.HeapFirstTimeMiss] else [])
    ++ (if flags &&& (1 <<< 15) ≠ 0 then [FtmCounter.SLFirstTimeMiss] else [])
    ++ (if flags &&& (1 <<< 16) ≠ 0 then [FtmCounter.MMAPFirstTimeMiss] else [])
    ++ (if flags &&& (1 <<< 17) ≠ 0 then [FtmCounter.STACKFirstTimeMiss] else [])
    ++ (if flags &&& (1 <<< 18) ≠ 0 then [FtmCounter.VVARFirstTimeMiss] else [])
    ++ (if flags &&& (1 <<< 19) ≠ 0 then [FtmCounter.VDSOFirstTimeMiss] else [])
    ++ (if flags &&& (1 <<< 20) ≠ 0 then [FtmCounter.VSYSCALLFirstTimeMiss] else [])

/-- `Cache::updateFTMStats`. -/
def updateFTMStats {α κ : Type} (C : CC κ) (s : Sys α κ) (req : MemReq) : Sys α κ :=
  (ftmCounters req.flags).foldl
    (fun s k => { s with cc := C.increment s.cc k, calls := s.calls ++ [Call.increment k] }) s

/-- The block "FTM set variables" of `accessSkew`: the value of `sameOwner`. -/
def sameOwnerCheck {α κ : Type} (C : CC κ) (c : Cache) (s : Sys α κ) (req : MemReq)
    (lineId : Int) (hit : Bool) : Bool × Sys α κ :=
  if c.isLLC && hit && updateReplacement req then
    ((C.checkSameOwner s.cc req.lineAddr lineId req.srcId).1,
      { s with
        cc := (C.checkSameOwner s.cc req.lineAddr lineId req.srcId).2
        calls := s.calls ++ [Call.checkSameOwner req.lineAddr lineId req.srcId] })
  else (true, s)

/-- The block "FTM changes" at the end of `accessSkew`: the returned cycle. -/
def ftmReturn {α κ : Type} (C : CC κ) (c : Cache) (s : Sys α κ) (req : MemReq)
    (sameOwner : Bool) (respCycle : Nat) : Nat × Sys α κ :=
  if c.ftmEnable && c.isLLC then
    if req.type = AccessType.GETS then
      if c.ftmTypeFlag &&& 1 ≠ 0 then
        if !sameOwner then
          (if req.flags &&& (1 <<< 11) ≠ 0 then u64 (respCycle + 200) else respCycle,
            updateFTMStats C s req)
        else (respCycle, s)
      else (respCycle, s)
    else if req.type = AccessType.GETX then
      if c.ftmTypeFlag &&& 2 ≠ 0 then
        if !sameOwner then
          (if req.flags &&& (1 <<< 11) ≠ 0 then u64 (respCycle + 200) else respCycle,
            updateFTMStats C s req)
        else (respCycle, s)
      else (respCycle, s)
    else (respCycle, s)
  else (respCycle, s)

/-- The end of `accessSkew`: `cc->endSkewAccess(req)`, the assertion
`respCycle >= req.cycle`, then the FTM latency adjustment. -/
def closeSkew {α κ : Type} (C : CC κ) (c : Cache) (s : Sys α κ) (req : MemReq)
    (sameOwner : Bool) (respCycle : Nat) : Result α κ Nat :=
  if respCycle ≥ req.cycle then
    .ok (ftmReturn C c
      { s with cc := C.endSkewAccess s.cc req, calls := s.calls ++ [Call.endSkewAccess req] }
      req sameOwner respCycle)
  else
    .error (.respBeforeReq,
      { s with cc := C.endSkewAccess s.cc req, calls := s.calls ++ [Call.endSkewAccess req] })

/-- `Cache::accessSkew`. -/
def accessSkew {α κ : Type} (A : CacheArray α) (C : CC κ) (c : Cache) (s : Sys α κ)
    (req : MemReq) : Result α κ Nat :=
  if !(C.startSkewAccess s.cc req).1 then
    match lookupAndAllocate A C c
        (started s (C.startSkewAccess s.cc req) (Call.startSkewAccess req))
        (retyped req (C.startSkewAccess s.cc req)) with
    | .error e => .error e
    | .ok ((lineId, allocated), s2) =>
      match finish C
          (sameOwnerCheck C c s2 (retyped req (C.startSkewAccess s.cc req)) lineId
            (!allocated)).2
          (retyped req (C.startSkewAccess s.cc req)) lineId (u64 (req.cycle + c.accLat)) with
      | .error e => .error e
      | .ok (respCycle, s3) =>
        closeSkew C c s3 (retyped req (C.startSkewAccess s.cc req))
          (sameOwnerCheck C c s2 (retyped req (C.startSkewAccess s.cc req)) lineId
            (!allocated)).1 respCycle
  else
    closeSkew C c (started s (C.startSkewAccess s.cc req) (Call.startSkewAccess req))
      (retyped req (C.startSkewAccess s.cc req)) true req.cycle

/-- Two systems that hold the same array, controller state and event recorders:
they differ at most in the log of calls. -/
def SameData {α κ : Type} (s t : Sys α κ) : Prop :=
  s.array = t.array ∧ s.cc = t.cc ∧ s.eventRecorders = t.eventRecorders

end Cache

/-- The set-associative array behind the interface `CacheArray`. -/
def SetAssocArray.ops (zinfo : Zinfo) : CacheArray SetAssocArray :=
  { lookup := fun s a req upd => some (SetAssocArray.lookup zinfo s a req upd)
    preinsert := fun s a req => some (SetAssocArray.preinsert zinfo s a req)
    postinsert := fun s a req cand => some (SetAssocArray.postinsert s a req cand) }

/-- The Z array behind the interface `CacheArray`. -/
def ZArray.ops : CacheArray ZArray :=
  { lookup := ZArray.lookup
    preinsert := ZArray.preinsert
    postinsert := ZArray.postinsert }

/-! ## SHA-1 backed hash family -/

/-- State of a `SHA1HashFamily` (in a build with PolarSSL; without it the
constructor panics): the memoised key and the digest chunks memoised for it. -/
structure SHA1HashFamily where
  numFuncs : Int
  numPasses : Int
  memoizedVal : Nat
  memoizedHashes : List Nat
  deriving DecidableEq, Repr

namespace SHA1HashFamily

/-- The constructor `SHA1HashFamily::SHA1HashFamily` (with PolarSSL). -/
def create (numFunctions : Int) : SHA1HashFamily :=
  { numFuncs := numFunctions
    numPasses := Int.tdiv numFunctions 5 + 1
    memoizedVal := 0
    memoizedHashes := List.replicate ((Int.tdiv numFunctions 5 + 1) * 5).toNat 0 }

/-- Pass `i` of the loop of `hash` on the buffer and the table of chunks: for
`i > 0` the first five buffer words are XOR-ed with the chunks of pass `i - 1`,
then the five words of the digest of the buffer become the chunks of pass `i`.
`sha1` is the digest function of PolarSSL, from the 16 buffer words to the 5
digest words. -/
def pass (sha1 : List Nat → List Nat) (st : List Nat × List Nat) (i : Nat) :
    List Nat × List Nat :=
  let buffer :=
    if i > 0 then
      (List.range 5).foldl
        (fun b j => b.set j (b.getD j 0 ^^^ st.2.getD ((i - 1) * 5 + j) 0)) st.1
    else st.1
  (buffer,
    (List.range 5).foldl (fun m j => m.set (i * 5 + j) (u32 ((sha1 buffer).getD j 0))) st.2)

/-- `SHA1HashFamily::hash` (with PolarSSL); `none` when the assertion
`id < (uint32_t)numFuncs` fails.  Returns the hash and the family with its
memo. -/
def hash (sha1 : List Nat → List Nat) (h : SHA1HashFamily) (id val : Nat) :
    Option (Nat × SHA1HashFamily) :=
  if !(id < toUInt32 h.numFuncs) then none
  else if val = h.memoizedVal then some (h.memoizedHashes.getD id 0, h)
  else
    some
      (((List.range h.numPasses.toNat).foldl (pass sha1)
          (List.replicate 16 val, h.memoizedHashes)).2.getD id 0,
        { h with
          memoizedVal := val
          memoizedHashes := ((List.range h.numPasses.toNat).foldl (pass sha1)
            (List.replicate 16 val, h.memoizedHashes)).2 })

/-- The digest chain of a key, freshly computed: the chunks that the passes of
`hash` produce for the key, starting from an empty table. -/
def digestChain (sha1 : List Nat → List Nat) (numPasses : Nat) (val : Nat) : List Nat :=
  ((List.range numPasses).foldl (pass sha1)
    (List.replicate 16 val, List.replicate (numPasses * 5) 0)).2

end SHA1HashFamily

/-! ## Concrete instances -/

/-- A stub policy that always picks the first slot it is offered. -/
def firstOffered : ReplPolicy := ⟨fun _ _ cands => cands.headD 0⟩

/-- A configuration with one core and no partitioning. -/
def zinfoPlain : Zinfo := ⟨1, false, false⟩

/-- A 16-line, 4-way array (4 sets) with the identity hash whose set 0 is full:
it holds the lines 4, 8, 12 and 16. -/
def demoSetAssoc : SetAssocArray :=
  { rp := firstOffered
    hf := IdHashFamily
    array := [4, 8, 12, 16, 0, 0, 0, 0, 0, 0, 0, 0, 0, 0, 0, 0]
    numLines := 16
    numSets := 4
    assoc := 4
    setMask := 3
    partitionSetCount := 4
    partitionMask := 3
    partitionAssoc := 4
    isLLC := false
    proc_partition := 0
    trace := [] }

/-- The array `demoSetAssoc` as the constructor leaves it: all slots empty. -/
def freshSetAssoc : SetAssocArray := { demoSetAssoc with array := List.replicate 16 0 }

/-- A stub policy that always picks the last slot it is offered. -/
def lastOffered : ReplPolicy := ⟨fun _ _ cands => cands.getLastD 0⟩

/-- A hash family whose function 0 is the identity and whose other functions
drop the two low bits of the key. -/
def skewHash : HashFamily := ⟨fun id val => if id = 0 then val else val / 4⟩

/-- An 8-line, 2-way Z array (4 sets per way, 4 candidates) holding the lines
4, 1, 2, 3, 21, 5, 9, 13, with positions 1 and 4 of the indirection table
swapped by an earlier relocation. -/
def demoZArray : ZArray :=
  { rp := lastOffered
    hf := skewHash
    array := [4, 1, 2, 3, 21, 5, 9, 13]
    lookupArray := [0, 4, 2, 3, 1, 5, 6, 7]
    numLines := 8
    numSets := 4
    ways := 2
    cands := 4
    setMask := 3
    swapArray := [4, 1, 0, 0]
    swapArrayLen := 2
    lastCandIdx := 2
    statSwaps := 1
    trace := [] }

/-- The 8-line, 2-way Z array (4 candidates) as the constructor leaves it for
the policy `lastOffered` and the hash family `skewHash`. -/
def freshZArray : ZArray :=
  { rp := lastOffered
    hf := skewHash
    array := [0, 0, 0, 0, 0, 0, 0, 0]
    lookupArray := [0, 1, 2, 3, 4, 5, 6, 7]
    numLines := 8
    numSets := 4
    ways := 2
    cands := 4
    setMask := 3
    swapArray := [0, 0, 0, 0]
    swapArrayLen := 0
    lastCandIdx := 0
    statSwaps := 0
    trace := [] }

/-- A generator whose draws are all odd except draw number 126. -/
def demoH3Rnd : MTRand := ⟨fun i => if i = 126 then 0 else 1, 0⟩

/-- The one-function H3 family for 64-bit output that the constructor builds
from `demoH3Rnd`: row 1 of the matrix is `2`, all other rows are `0`. -/
def demoH3 : H3HashFamily := ⟨1, 0, 0 :: 2 :: List.replicate 62 0⟩

/-- A Feistel family with small tables: in every round the substitution rows
are `5, 0, 0, ...` and the permutation rows are `3, 0, 0, ...`; the round keys
are `2^32, 2^33, 2^34, 2^35`. -/
def demoFeistel : FeistelFamily :=
  ⟨List.replicate 4 (5 :: List.replicate 31 0), List.replicate 4 (3 :: List.replicate 31 0),
    [2 ^ 32, 2 ^ 33, 2 ^ 34, 2 ^ 35], 64⟩

/-- A digest stub: the five digest words are the first buffer word plus 1, ...,
plus 5. -/
def stubSha1 (buffer : List Nat) : List Nat :=
  [buffer.getD 0 0 + 1, buffer.getD 0 0 + 2, buffer.getD 0 0 + 3, buffer.getD 0 0 + 4,
    buffer.getD 0 0 + 5]

/-- The recorder table with the record `tr` pushed for requester `srcId`, when
that requester has a recorder. -/
def pushFor (t : EventRecorders) (srcId : Nat) (tr : TimingRecord) : EventRecorders :=
  match t srcId with
  | none => t
  | some evRec => Cache.setRecorder t srcId (evRec.pushRecord tr)

/-- A coherence controller stub (its state counts the increments): it never
skips and always allocates; an eviction leaves a writeback record and an access
an access record, both requested at the cycle they are given; `processAccess`
adds 10 cycles and `processInv` 3. -/
def stubCC : CC Nat :=
  { startAccess := fun k req => (false, req.type, k)
    startSkewAccess := fun k req => (false, req.type, k)
    shouldAllocate := fun _ _ => true
    processEviction := fun k t req _ _ cycle =>
      (cycle + 1000, k, pushFor t req.srcId ⟨cycle, cycle + 5, some 0, some 1, 7⟩)
    processAccess := fun k t req _ cycle =>
      (cycle + 10, k, pushFor t req.srcId ⟨cycle + 1, cycle + 10, some 2, some 3, 9⟩)
    endAccess := fun k _ => k
    endSkewAccess := fun k _ => k
    checkSameOwner := fun k _ _ _ => (false, k)
    increment := fun k _ => k + 1
    processInv := fun k _ _ cycle => (cycle + 3, k) }

/-- The stub whose `startAccess` declares every access skippable. -/
def skipCC : CC Nat := { stubCC with startAccess := fun k req => (true, req.type, k) }

/-- The stub whose `processAccess` leaves no record. -/
def quietCC : CC Nat := { stubCC with processAccess := fun k t _ _ cycle => (cycle + 10, k, t) }

/-- The stub whose eviction leaves a writeback record requested at cycle 0. -/
def earlyCC : CC Nat :=
  { stubCC with
    processEviction := fun k t req _ _ cycle =>
      (cycle, k, pushFor t req.srcId ⟨0, cycle + 5, some 0, some 1, 7⟩) }

/-- A cache with access latency 4 and invalidation latency 2, not last-level,
FTM disabled. -/
def demoCache : Cache := ⟨4, 2, false, false, 0⟩

/-- A system on the full demo array in which every requester has a recorder
that holds four events and no record. -/
def demoSys : Sys SetAssocArray Nat :=
  { array := demoSetAssoc
    cc := 0
    eventRecorders := fun _ => some ⟨[], [⟨0, 0, []⟩, ⟨0, 0, []⟩, ⟨0, 0, []⟩, ⟨0, 0, []⟩]⟩
    calls := [] }

/-- A read of line 20 (set 0 of the demo array, which is full) at cycle 100 by
requester 0. -/
def demoReq : MemReq := ⟨20, AccessType.GETS, 100, 0, 0⟩

/-- A read of line 4 (resident in slot 0 of the demo array) at cycle 100 by
requester 0. -/
def hitReq : MemReq := ⟨4, AccessType.GETS, 100, 0, 0⟩

/-- A hash family that adds one to the key. -/
def shiftHash : HashFamily := ⟨fun _ val => val + 1⟩

/-- An 8-line, 2-way CEASER array (4 sets) as the constructor leaves it, with
the identity as current hash and `shiftHash` as target hash. -/
def freshCeaser : CEASERArray :=
  { rp := firstOffered
    hf := IdHashFamily
    hf_current := IdHashFamily
    hf_target := shiftHash
    array := List.replicate 8 0
    array_reuse := List.replicate 8 0
    switch_array := [0, 0, 0, 0]
    numLines := 8
    numSets := 4
    assoc := 2
    setMask := 3
    rng := ⟨fun i => 5 + i, 0⟩ }

/-- The array `freshCeaser` after `postinsert(4, slot 0)` and `setSwitch(0)`:
line 4 is resident in set 0, its set under the current hash, and set 0 is
flagged; the target hash maps line 4 to set 1. -/
def demoCeaser : CEASERArray := (freshCeaser.postinsert 4 none 0).setSwitch 0

/-- The stub controller that declines every allocation. -/
def declineCC : CC Nat := { stubCC with shouldAllocate := fun _ _ => false }

/-- A last-level cache with FTM enabled for GETS and GETX. -/
def ftmCache : Cache := ⟨4, 2, true, true, 3⟩

/-- A read of line 20 (not resident in the demo array) with request flag bit 11
set. -/
def ftmReq : MemReq := ⟨20, AccessType.GETS, 100, 0, 2 ^ 11⟩

/-- A 16-line, 4-way last-level array (4 sets) of a configuration with two
cores, as partition 1. -/
def llcSetAssoc : SetAssocArray :=
  { demoSetAssoc with
    partitionSetCount := 2
    partitionMask := 1
    partitionAssoc := 2
    isLLC := true
    proc_partition := 1 }

/-- Two cores, set partitioning. -/
def zinfoSets : Zinfo := ⟨2, true, false⟩

/-- Two cores, way partitioning. -/
def zinfoWays : Zinfo := ⟨2, false, true⟩

/-! # Theorems -/

/-! ## Machine integers and lists -/

theorem u32_of_lt {n : Nat} (h : n < 2 ^ 32) : u32 n = n := Nat.mod_eq_of_lt h

theorem u32_lt (n : Nat) : u32 n < 2 ^ 32 := Nat.mod_lt _ (by norm_num)

theorem sub32_one {n : Nat} (h0 : 0 < n) (h : n < 2 ^ 32) : sub32 n 1 = n - 1 := by
  unfold sub32 u32
  have h1 : (1 : Nat) % 2 ^ 32 = 1 := by norm_num
  rw [h1, Nat.mod_eq_of_lt h]
  have h2 : n + (2 ^ 32 - 1) = (n - 1) + 2 ^ 32 := by omega
  rw [h2, Nat.add_mod_right]
  exact Nat.mod_eq_of_lt (by omega)

theorem u64_of_lt {n : Nat} (h : n < 2 ^ 64) : u64 n = n := Nat.mod_eq_of_lt h

theorem toInt32_of_lt {n : Nat} (h : n < 2 ^ 31) : toInt32 n = (n : Int) := by
  have h32 : n < 2 ^ 32 := lt_trans h (by norm_num)
  unfold toInt32
  rw [u32_of_lt h32, if_pos h]

theorem toInt32_inj {a b : Nat} (ha : a < 2 ^ 32) (hb : b < 2 ^ 32)
    (h : toInt32 a = toInt32 b) : a = b := by
  unfold toInt32 at h
  rw [u32_of_lt ha, u32_of_lt hb] at h
  split at h <;> split at h <;> omega

theorem toInt32_ne_neg_one {n : Nat} (h : n < 2 ^ 32 - 1) : toInt32 n ≠ -1 := by
  have h32 : n < 2 ^ 32 := lt_of_lt_of_le h (by norm_num)
  unfold toInt32
  rw [u32_of_lt h32]
  split <;> omega

theorem getD_set_self {α : Type} {l : List α} {i : Nat} (a d : α) (h : i < l.length) :
    (l.set i a).getD i d = a := by
  simp [List.getD_eq_getElem?_getD, List.getElem?_set, h]

theorem getD_set_of_ne {α : Type} {l : List α} {i j : Nat} (a d : α) (h : i ≠ j) :
    (l.set i a).getD j d = l.getD j d := by
  simp [List.getD_eq_getElem?_getD, List.getElem?_set, h]

theorem getD_replicate_zero (n i : Nat) : (List.replicate n (0 : Nat)).getD i 0 = 0 := by
  induction n generalizing i with
  | zero => simp
  | succ n ih =>
    cases i with
    | zero => simp [List.replicate]
    | succ i => simp [List.replicate, ih i]

theorem isPow2_pos {x : Nat} (h : isPow2 x = true) : 0 < x := by
  simp only [isPow2, List.any_eq_true, beq_iff_eq] at h
  obtain ⟨k, _, rfl⟩ := h
  exact Nat.pos_pow_of_pos k (by norm_num)

namespace SetAssocArray

/-! ## The scan loop -/

theorem scan_some {arr : List Address} {a : Address} {n lo id : Nat}
    (h : scan arr a lo n = some id) :
    lo ≤ id ∧ id < lo + n ∧ arr.getD id 0 = a ∧ ∀ j, lo ≤ j → j < id → arr.getD j 0 ≠ a := by
  induction n generalizing lo with
  | zero => simp [scan] at h
  | succ n ih =>
    rw [scan] at h
    split at h
    · next heq =>
      injection h with h
      subst h
      exact ⟨le_refl _, by omega, heq, fun j h1 h2 => absurd h1 (by omega)⟩
    · next hne =>
      obtain ⟨h1, h2, h3, h4⟩ := ih h
      refine ⟨by omega, by omega, h3, fun j hj1 hj2 => ?_⟩
      by_cases hj : j = lo
      · subst hj; exact hne
      · exact h4 j (by omega) hj2

theorem scan_none {arr : List Address} {a : Address} {n lo : Nat} :
    scan arr a lo n = none ↔ ∀ j, lo ≤ j → j < lo + n → arr.getD j 0 ≠ a := by
  induction n generalizing lo with
  | zero => simp [scan]; intro j h1 h2; omega
  | succ n ih =>
    rw [scan]
    split
    · next heq =>
      constructor
      · intro h; cases h
      · intro h; exact absurd heq (h lo (le_refl _) (by omega))
    · next hne =>
      rw [ih]
      constructor
      · intro h j h1 h2
        by_cases hj : j = lo
        · subst hj; exact hne
        · exact h j (by omega) (by omega)
      · intro h j h1 h2
        exact h j (by omega) (by omega)

theorem scan_eq_some {arr : List Address} {a : Address} {n lo id : Nat}
    (h1 : lo ≤ id) (h2 : id < lo + n) (h3 : arr.getD id 0 = a)
    (h4 : ∀ j, lo ≤ j → j < lo + n → arr.getD j 0 = a → j = id) :
    scan arr a lo n = some id := by
  cases hs : scan arr a lo n with
  | none => exact absurd h3 (scan_none.mp hs id h1 h2)
  | some k =>
    obtain ⟨k1, k2, k3, _⟩ := scan_some hs
    rw [h4 k k1 k2 k3]

/-! ## Set-associative array: ranges -/

theorem lookup_eq (zinfo : Zinfo) (s : SetAssocArray) (a : Address) (req : ReqPtr) (upd : Bool) :
    lookup zinfo s a req upd
      = lookupRange s a req upd (range zinfo s a).1 (range zinfo s a).2 := by
  unfold lookup range
  split_ifs <;> rfl

theorem preinsert_eq (zinfo : Zinfo) (s : SetAssocArray) (a : Address) (req : ReqPtr) :
    preinsert zinfo s a req = preinsertRange s req (range zinfo s a).1 (range zinfo s a).2 := by
  unfold preinsert range
  split_ifs <;> rfl

theorem range_with (zinfo : Zinfo) (s : SetAssocArray) (arr : List Address) (t : List Event)
    (a : Address) : range zinfo { s with array := arr, trace := t } a = range zinfo s a := rfl

theorem Geom.numSets_pos {s : SetAssocArray} (hg : Geom s) : 0 < s.numSets :=
  isPow2_pos hg.pow2

theorem Geom.sets_le {s : SetAssocArray} (hg : Geom s) : s.numSets * s.assoc ≤ s.numLines := by
  rw [hg.numSets_eq]
  exact Nat.div_mul_le_self _ _

theorem Geom.setMask {s : SetAssocArray} (hg : Geom s) : s.setMask = s.numSets - 1 := by
  rw [hg.setMask_eq]
  have h1 := hg.sets_le
  have h2 := hg.numLines_lt
  have h3 : s.numSets ≤ s.numSets * s.assoc := Nat.le_mul_of_pos_right _ hg.assoc_pos
  exact sub32_one hg.numSets_pos (by omega)

/-- The set index of an address lies below `numSets`, so its slots lie in storage. -/
theorem Geom.set_bound {s : SetAssocArray} (hg : Geom s) (a : Address) :
    (s.hf.hash 0 a &&& (s.numSets - 1)) * s.assoc + s.assoc ≤ s.numLines := by
  have h1 : s.hf.hash 0 a &&& (s.numSets - 1) ≤ s.numSets - 1 := Nat.and_le_right
  have h2 := hg.numSets_pos
  have h3 : (s.hf.hash 0 a &&& (s.numSets - 1)) + 1 ≤ s.numSets := by omega
  calc (s.hf.hash 0 a &&& (s.numSets - 1)) * s.assoc + s.assoc
      = ((s.hf.hash 0 a &&& (s.numSets - 1)) + 1) * s.assoc := by ring
    _ ≤ s.numSets * s.assoc := Nat.mul_le_mul_right _ h3
    _ ≤ s.numLines := hg.sets_le

theorem range_unpartitioned {zinfo : Zinfo} {s : SetAssocArray} (hg : Geom s)
    (hu : Unpartitioned zinfo s) (a : Address) :
    range zinfo s a = ((s.hf.hash 0 a &&& (s.numSets - 1)) * s.assoc,
      (s.hf.hash 0 a &&& (s.numSets - 1)) * s.assoc + s.assoc) := by
  have hb := hg.set_bound a
  have hl := hg.numLines_lt
  have h1 : s.hf.hash 0 a &&& (s.numSets - 1) ≤ s.numSets - 1 := Nat.and_le_right
  have h2 := hg.numSets_pos
  have h3 := hg.sets_le
  have h4 : s.numSets ≤ s.numSets * s.assoc := Nat.le_mul_of_pos_right _ hg.assoc_pos
  unfold range
  rw [hu.1, hu.2]
  simp only [Bool.false_eq_true, if_false]
  rw [hg.setMask, u32_of_lt (by omega : s.hf.hash 0 a &&& (s.numSets - 1) < 2 ^ 32),
    u32_of_lt (by omega : (s.hf.hash 0 a &&& (s.numSets - 1)) * s.assoc < 2 ^ 32),
    u32_of_lt (by omega : (s.hf.hash 0 a &&& (s.numSets - 1)) * s.assoc + s.assoc < 2 ^ 32)]

theorem InStorage.bounds {zinfo : Zinfo} {s : SetAssocArray} {a : Address}
    (h : InStorage zinfo s a) :
    s.array.length = s.numLines ∧ (range zinfo s a).2 ≤ s.numLines := by
  rcases h with ⟨hg, hu⟩ | h
  · rw [range_unpartitioned hg hu a]
    exact ⟨hg.length_eq, hg.set_bound a⟩
  · exact h

theorem mem_SetAssocCands {b e i : Nat} : i ∈ SetAssocCands b e ↔ b ≤ i ∧ i < e := by
  unfold SetAssocCands
  rw [List.mem_range']
  constructor
  · rintro ⟨k, hk, rfl⟩
    omega
  · rintro ⟨h1, h2⟩
    exact ⟨i - b, by omega, by omega⟩

theorem range_snd_lt (zinfo : Zinfo) (s : SetAssocArray) (a : Address) :
    (range zinfo s a).2 < 2 ^ 32 := by
  unfold range
  split_ifs <;> exact u32_lt _

theorem lookupRange_array (s : SetAssocArray) (a : Address) (req : ReqPtr) (upd : Bool)
    (lo hi : Nat) : (lookupRange s a req upd lo hi).2.array = s.array := by
  unfold lookupRange
  split
  · split <;> rfl
  · rfl

/-- A lookup changes nothing but the history of policy calls. -/
theorem lookup_frame (zinfo : Zinfo) (s : SetAssocArray) (a : Address) (req : ReqPtr)
    (upd : Bool) :
    (lookup zinfo s a req upd).2 = { s with trace := (lookup zinfo s a req upd).2.trace } := by
  rw [lookup_eq]
  unfold lookupRange
  split
  · split <;> rfl
  · rfl

/-- In a range ending below `2^32` the result `-1` means that no slot matched. -/
theorem lookupRange_miss_iff (s : SetAssocArray) (a : Address) (req : ReqPtr) (upd : Bool)
    {lo hi : Nat} (hhi : hi < 2 ^ 32) :
    (lookupRange s a req upd lo hi).1 = -1 ↔ ∀ j, lo ≤ j → j < hi → s.array.getD j 0 ≠ a := by
  unfold lookupRange
  cases hs : scan s.array a lo (hi - lo) with
  | none =>
    simp only [true_iff]
    intro j h1 h2
    exact scan_none.mp hs j h1 (by omega)
  | some id =>
    obtain ⟨h1, h2, h3, _⟩ := scan_some hs
    simp only
    constructor
    · intro h
      exact absurd h (toInt32_ne_neg_one (by omega))
    · intro h
      exact absurd h3 (h id h1 (by omega))

theorem lookup_miss_iff (zinfo : Zinfo) (s : SetAssocArray) (a : Address) (req : ReqPtr)
    (upd : Bool) :
    (lookup zinfo s a req upd).1 = -1
      ↔ ∀ j, (range zinfo s a).1 ≤ j → j < (range zinfo s a).2 → s.array.getD j 0 ≠ a := by
  rw [lookup_eq]
  exact lookupRange_miss_iff s a req upd (range_snd_lt zinfo s a)

/-- A lookup returns slot `id` when `id` is the only slot of the scanned range
holding the address. -/
theorem lookup_eq_of_unique (zinfo : Zinfo) (s : SetAssocArray) (a : Address) (req : ReqPtr)
    (upd : Bool) (id : Nat) (h1 : (range zinfo s a).1 ≤ id) (h2 : id < (range zinfo s a).2)
    (h3 : s.array.getD id 0 = a)
    (h4 : ∀ j, (range zinfo s a).1 ≤ j → j < (range zinfo s a).2 → s.array.getD j 0 = a → j = id) :
    (lookup zinfo s a req upd).1 = toInt32 id := by
  rw [lookup_eq]
  unfold lookupRange
  rw [scan_eq_some h1 (by omega) h3 (fun j hj1 hj2 hj3 => h4 j hj1 (by omega) hj3)]

/-! ## Set-associative array: properties of the specification -/

/-- C1. `SetAssocArray::lookup` with no partitioning active: with
`set = hash(0,a) AND (numSets-1)`, it returns the smallest slot id of
`[set*assoc, set*assoc+assoc)` whose resident address is `a` (as an `int32_t`,
which is the slot id itself for arrays of at most `2^31` lines and never `-1`),
and `-1` when no slot of the set holds `a`; the policy's `update` is called
(once, for the returned slot) exactly when it hits and `updateReplacement` is
true; nothing but the call history changes, in particular not the slot
storage. -/
theorem lookup_unpartitioned (zinfo : Zinfo) (s : SetAssocArray) (a : Address) (req : ReqPtr)
    (upd : Bool) (hg : Geom s) (hu : Unpartitioned zinfo s) :
    ((∃ id, (s.hf.hash 0 a &&& (s.numSets - 1)) * s.assoc ≤ id
        ∧ id < (s.hf.hash 0 a &&& (s.numSets - 1)) * s.assoc + s.assoc
        ∧ s.array.getD id 0 = a
        ∧ (∀ j, (s.hf.hash 0 a &&& (s.numSets - 1)) * s.assoc ≤ j → j < id →
            s.array.getD j 0 ≠ a)
        ∧ (lookup zinfo s a req upd).1 = toInt32 id
        ∧ (lookup zinfo s a req upd).1 ≠ -1
        ∧ (s.numLines ≤ 2 ^ 31 → (lookup zinfo s a req upd).1 = (id : Int))
        ∧ (lookup zinfo s a req upd).2.trace
            = if upd then s.trace ++ [Event.update id req] else s.trace)
      ∨ ((∀ j, (s.hf.hash 0 a &&& (s.numSets - 1)) * s.assoc ≤ j →
            j < (s.hf.hash 0 a &&& (s.numSets - 1)) * s.assoc + s.assoc →
            s.array.getD j 0 ≠ a)
        ∧ (lookup zinfo s a req upd).1 = -1
        ∧ (lookup zinfo s a req upd).2.trace = s.trace))
    ∧ (lookup zinfo s a req upd).2.array = s.array
    ∧ (lookup zinfo s a req upd).2 = { s with trace := (lookup zinfo s a req upd).2.trace } := by
  have hb := hg.set_bound a
  have hl := hg.numLines_lt
  refine ⟨?_, ?_, lookup_frame zinfo s a req upd⟩
  · rw [lookup_eq, range_unpartitioned hg hu a]
    simp only
    unfold lookupRange
    cases hs : scan s.array a ((s.hf.hash 0 a &&& (s.numSets - 1)) * s.assoc)
        ((s.hf.hash 0 a &&& (s.numSets - 1)) * s.assoc + s.assoc
          - (s.hf.hash 0 a &&& (s.numSets - 1)) * s.assoc) with
    | none =>
      right
      refine ⟨fun j h1 h2 => scan_none.mp hs j h1 (by omega), rfl, rfl⟩
    | some id =>
      left
      obtain ⟨h1, h2, h3, h4⟩ := scan_some hs
      refine ⟨id, h1, by omega, h3, h4, rfl, toInt32_ne_neg_one (by omega),
        fun hint => toInt32_of_lt (by omega), ?_⟩
      cases upd <;> rfl
  · rw [lookup_eq]
    exact lookupRange_array _ _ _ _ _ _

/-- C5. `SetAssocArray::preinsert` with no partitioning active is a read-only
query: the policy is offered exactly the slots `[set*assoc, set*assoc+assoc)` of
the set of `a` (the range `lookup` scans), the slot it picks is returned, the
occupant of that slot is reported as the writeback address, and the state
changes only in the call history (one `rankCands` call); storage is unchanged.
The pick is a `uint32_t`; a pick among the offered slots is returned as it is. -/
theorem preinsert_unpartitioned (zinfo : Zinfo) (s : SetAssocArray) (a : Address)
    (req : ReqPtr) (hg : Geom s) (hu : Unpartitioned zinfo s) :
    ∃ offered : List Nat,
      offered = List.range' ((s.hf.hash 0 a &&& (s.numSets - 1)) * s.assoc) s.assoc
      ∧ offered = SetAssocCands (range zinfo s a).1 (range zinfo s a).2
      ∧ (∀ i, i ∈ offered ↔ (s.hf.hash 0 a &&& (s.numSets - 1)) * s.assoc ≤ i
          ∧ i < (s.hf.hash 0 a &&& (s.numSets - 1)) * s.assoc + s.assoc)
      ∧ (preinsert zinfo s a req).1 = u32 (s.rp.rankCands s.trace req offered)
      ∧ (s.rp.rankCands s.trace req offered ∈ offered →
          (preinsert zinfo s a req).1 = s.rp.rankCands s.trace req offered)
      ∧ (preinsert zinfo s a req).2.1 = s.array.getD (preinsert zinfo s a req).1 0
      ∧ (preinsert zinfo s a req).2.2
          = { s with trace := s.trace ++ [Event.rankCands req offered] }
      ∧ (preinsert zinfo s a req).2.2.array = s.array := by
  refine ⟨SetAssocCands (range zinfo s a).1 (range zinfo s a).2, ?_, rfl, ?_, ?_⟩
  · rw [range_unpartitioned hg hu a]
    simp [SetAssocCands]
  · intro i
    rw [mem_SetAssocCands, range_unpartitioned hg hu a]
  · rw [preinsert_eq]
    refine ⟨rfl, fun hmem => ?_, rfl, rfl, rfl⟩
    rw [mem_SetAssocCands] at hmem
    have := range_snd_lt zinfo s a
    exact u32_of_lt (by omega)

/-- C6. `SetAssocArray::postinsert(a, req, slot)` on a slot of the storage:
afterwards the slot holds `a`, every other slot holds what it held before, and
the history grows by `replaced(slot)`, then the store into the slot, then
`update(slot, req)`, each exactly once and in this order. -/
theorem postinsert_spec (s : SetAssocArray) (a : Address) (req : ReqPtr) (slot : Nat)
    (h : slot < s.array.length) :
    (postinsert s a req slot).array.getD slot 0 = a
    ∧ (∀ j, j ≠ slot → (postinsert s a req slot).array.getD j 0 = s.array.getD j 0)
    ∧ (postinsert s a req slot).array.length = s.array.length
    ∧ (postinsert s a req slot).trace
        = s.trace ++ [Event.replaced slot, Event.store slot a, Event.update slot req]
    ∧ postinsert s a req slot
        = { s with array := (postinsert s a req slot).array,
                   trace := (postinsert s a req slot).trace } := by
  refine ⟨getD_set_self a 0 h, fun j hj => getD_set_of_ne a 0 (Ne.symm hj), ?_, rfl, rfl⟩
  simp [postinsert]

/-- The state after `preinsert` + `postinsert` when the slot returned lies in the
offered range. -/
theorem insert_array (zinfo : Zinfo) (s : SetAssocArray) (a : Address) (req : ReqPtr)
    (hpick : (preinsert zinfo s a req).1
      ∈ SetAssocCands (range zinfo s a).1 (range zinfo s a).2) :
    (range zinfo s a).1 ≤ (preinsert zinfo s a req).1
    ∧ (preinsert zinfo s a req).1 < (range zinfo s a).2
    ∧ (preinsert zinfo s a req).2.1 = s.array.getD (preinsert zinfo s a req).1 0
    ∧ (insert zinfo s a req).array = s.array.set (preinsert zinfo s a req).1 a
    ∧ ∀ b, range zinfo (insert zinfo s a req) b = range zinfo s b := by
  rw [mem_SetAssocCands] at hpick
  refine ⟨hpick.1, hpick.2, ?_, ?_, ?_⟩
  · rw [preinsert_eq]; rfl
  · unfold insert; rw [preinsert_eq]; rfl
  · intro b; unfold insert; rw [preinsert_eq]; rfl

/-- C2. Set-associative round trip: when `lookup(a)` returned `-1` and the policy
picks a slot from the range it is offered, then after `s = preinsert(a)` and `postinsert(a, s)` an immediate `lookup(a)` returns
exactly `s` (converted to `int32_t` as the caller converts the result of
`preinsert`; the slot id itself for arrays of at most `2^31` lines).  The
statement covers the three partitioning modes. -/
theorem insert_then_lookup (zinfo : Zinfo) (s : SetAssocArray) (a : Address)
    (req req' : ReqPtr) (upd upd' : Bool) (hin : InStorage zinfo s a)
    (hmiss : (lookup zinfo s a req upd).1 = -1)
    (hpick : (preinsert zinfo s a req).1
      ∈ SetAssocCands (range zinfo s a).1 (range zinfo s a).2) :
    (lookup zinfo (postinsert (preinsert zinfo s a req).2.2 a req (preinsert zinfo s a req).1)
        a req' upd').1 = toInt32 (preinsert zinfo s a req).1
    ∧ (s.numLines ≤ 2 ^ 31 →
        (lookup zinfo (postinsert (preinsert zinfo s a req).2.2 a req (preinsert zinfo s a req).1)
          a req' upd').1 = ((preinsert zinfo s a req).1 : Int)) := by
  obtain ⟨hlen, hrange⟩ := hin.bounds
  obtain ⟨h1, h2, _, h4, h5⟩ := insert_array zinfo s a req hpick
  rw [lookup_miss_iff] at hmiss
  have key := lookup_eq_of_unique zinfo (insert zinfo s a req) a req' upd'
    (preinsert zinfo s a req).1 (by rw [h5]; exact h1) (by rw [h5]; exact h2)
    (by rw [h4]; exact getD_set_self a 0 (by omega))
    (by
      intro j hj1 hj2 hj3
      rw [h5] at hj1 hj2
      by_contra hne
      rw [h4, getD_set_of_ne a 0 (Ne.symm hne)] at hj3
      exact hmiss j hj1 hj2 hj3)
  refine ⟨key, fun hint => ?_⟩
  rw [toInt32_of_lt (by omega)] at key
  exact key

theorem create_geom {zinfo : Zinfo} {numLines assoc : Nat} {rp : ReplPolicy} {hf : HashFamily}
    {isLLC : Bool} {p : Nat} {s0 : SetAssocArray}
    (hc : create zinfo numLines assoc rp hf isLLC p = some s0) :
    Geom s0 ∧ s0.isLLC = isLLC ∧ ∀ i, s0.array.getD i 0 = 0 := by
  unfold create at hc
  simp only at hc
  split_ifs at hc with h1 h2 h3
  all_goals
    injection hc with hc
    subst hc
    exact ⟨⟨Nat.pos_of_ne_zero h1, rfl, by simpa using h2, rfl, by simp, u32_lt _⟩, rfl,
      fun i => getD_replicate_zero _ i⟩

/-- A lookup leaves the configuration and the storage as they are. -/
theorem lookup_same (zinfo : Zinfo) (s : SetAssocArray) (a : Address) (req : ReqPtr)
    (upd : Bool) :
    (SetAssocArray.lookup zinfo s a req upd).2.array = s.array
    ∧ (SetAssocArray.lookup zinfo s a req upd).2.numLines = s.numLines
    ∧ (SetAssocArray.lookup zinfo s a req upd).2.numSets = s.numSets
    ∧ (SetAssocArray.lookup zinfo s a req upd).2.assoc = s.assoc
    ∧ (SetAssocArray.lookup zinfo s a req upd).2.hf = s.hf
    ∧ ∀ b, range zinfo (SetAssocArray.lookup zinfo s a req upd).2 b = range zinfo s b := by
  rw [lookup_frame]
  exact ⟨rfl, rfl, rfl, rfl, rfl, fun _ => rfl⟩

/-- An insertion leaves the configuration as it is. -/
theorem insert_same (zinfo : Zinfo) (s : SetAssocArray) (a : Address) (req : ReqPtr) :
    (SetAssocArray.insert zinfo s a req).numLines = s.numLines
    ∧ (SetAssocArray.insert zinfo s a req).numSets = s.numSets
    ∧ (SetAssocArray.insert zinfo s a req).assoc = s.assoc
    ∧ (SetAssocArray.insert zinfo s a req).hf = s.hf
    ∧ ∀ b, range zinfo (SetAssocArray.insert zinfo s a req) b = range zinfo s b := by
  unfold SetAssocArray.insert
  rw [preinsert_eq]
  exact ⟨rfl, rfl, rfl, rfl, fun _ => rfl⟩

theorem Reachable.same {zinfo : Zinfo} {s0 s : SetAssocArray} (hr : Reachable zinfo s0 s) :
    s.numLines = s0.numLines ∧ s.numSets = s0.numSets ∧ s.assoc = s0.assoc ∧ s.hf = s0.hf
    ∧ ∀ b, range zinfo s b = range zinfo s0 b := by
  induction hr with
  | start => exact ⟨rfl, rfl, rfl, rfl, fun _ => rfl⟩
  | lookup s a req upd _ ih =>
    obtain ⟨_, h1, h2, h3, h4, h5⟩ := lookup_same zinfo s a req upd
    obtain ⟨i1, i2, i3, i4, i5⟩ := ih
    exact ⟨h1.trans i1, h2.trans i2, h3.trans i3, h4.trans i4, fun b => (h5 b).trans (i5 b)⟩
  | insert s a req upd _ _ _ _ ih =>
    obtain ⟨h1, h2, h3, h4, h5⟩ := insert_same zinfo s a req
    obtain ⟨i1, i2, i3, i4, i5⟩ := ih
    exact ⟨h1.trans i1, h2.trans i2, h3.trans i3, h4.trans i4, fun b => (h5 b).trans (i5 b)⟩

/-- The placement invariant: storage is allocated, every non-empty slot lies in
the range scanned for its address, and no non-zero address is in two slots. -/
theorem Reachable.placement {zinfo : Zinfo} {s0 s : SetAssocArray}
    (hr : Reachable zinfo s0 s)
    (hlen : s0.array.length = s0.numLines)
    (hrange : ∀ a, (range zinfo s0 a).2 ≤ s0.numLines)
    (hempty : ∀ i, s0.array.getD i 0 = 0) :
    s.array.length = s.numLines
    ∧ (∀ i, i < s.numLines → s.array.getD i 0 ≠ 0 →
        (range zinfo s (s.array.getD i 0)).1 ≤ i ∧ i < (range zinfo s (s.array.getD i 0)).2)
    ∧ (∀ i j, i < s.numLines → j < s.numLines → s.array.getD i 0 ≠ 0 →
        s.array.getD i 0 = s.array.getD j 0 → i = j) := by
  induction hr with
  | start =>
    exact ⟨hlen, fun i _ h => absurd (hempty i) h, fun i j _ _ h => absurd (hempty i) h⟩
  | lookup s a req upd _ ih =>
    obtain ⟨ha, hn, _, _, _, hrg⟩ := lookup_same zinfo s a req upd
    rw [ha, hn]
    simp only [hrg]
    exact ih
  | insert s a req upd hs ha hmiss hpick ih =>
    obtain ⟨ih1, ih2, ih3⟩ := ih
    obtain ⟨h1, h2, _, h4, h5⟩ := insert_array zinfo s a req hpick
    obtain ⟨hn, _, _, _, _⟩ := insert_same zinfo s a req
    obtain ⟨sn, _, _, _, sr⟩ := hs.same
    have hra : (range zinfo s a).2 ≤ s.numLines := by rw [sr, sn]; exact hrange a
    rw [lookup_miss_iff] at hmiss
    have hc : (preinsert zinfo s a req).1 < s.array.length := by omega
    rw [hn, h4]
    simp only [h5]
    refine ⟨by rw [List.length_set]; exact ih1, ?_, ?_⟩
    · intro i hi hnz
      by_cases hic : i = (preinsert zinfo s a req).1
      · rw [hic, getD_set_self a 0 hc]
        exact ⟨h1, h2⟩
      · rw [getD_set_of_ne a 0 (Ne.symm hic)] at hnz ⊢
        exact ih2 i hi hnz
    · intro i j hi hj hnz heq
      by_cases hic : i = (preinsert zinfo s a req).1
      · by_cases hjc : j = (preinsert zinfo s a req).1
        · rw [hic, hjc]
        · exfalso
          rw [hic, getD_set_self a 0 hc, getD_set_of_ne a 0 (Ne.symm hjc)] at heq
          have hj2 := ih2 j hj (by rw [← heq]; exact ha)
          rw [← heq] at hj2
          exact hmiss j hj2.1 hj2.2 heq.symm
      · rw [getD_set_of_ne a 0 (Ne.symm hic)] at hnz heq
        by_cases hjc : j = (preinsert zinfo s a req).1
        · exfalso
          rw [hjc, getD_set_self a 0 hc] at heq
          have hi2 := ih2 i hi hnz
          rw [heq] at hi2
          exact hmiss i hi2.1 hi2.2 heq
        · rw [getD_set_of_ne a 0 (Ne.symm hjc)] at heq
          exact ih3 i j hi hj hnz heq

/-- C4. Set-associative capacity invariant: in every state reached from a
freshly constructed array by lookups and by insertions of non-zero addresses
done as the cache does them, no non-zero address occupies more than one slot,
every resident address sits in the slots `lookup` scans for it (without
partitioning: in the set selected by its hash, `hash(0,a) AND (numSets-1)`),
and the number of distinct resident addresses is at most `numLines`. -/
theorem capacity_invariant (zinfo : Zinfo) (numLines assoc : Nat) (rp : ReplPolicy)
    (hf : HashFamily) (isLLC : Bool) (p : Nat) (s0 s : SetAssocArray)
    (hc : create zinfo numLines assoc rp hf isLLC p = some s0)
    (hin : ∀ a, InStorage zinfo s0 a)
    (hr : Reachable zinfo s0 s) :
    (∀ i j, i < s.numLines → j < s.numLines → s.array.getD i 0 ≠ 0 →
        s.array.getD i 0 = s.array.getD j 0 → i = j)
    ∧ (∀ i, i < s.numLines → s.array.getD i 0 ≠ 0 →
        (range zinfo s (s.array.getD i 0)).1 ≤ i ∧ i < (range zinfo s (s.array.getD i 0)).2)
    ∧ (Unpartitioned zinfo s0 → ∀ i, i < s.numLines → s.array.getD i 0 ≠ 0 →
        i / s.assoc = s.hf.hash 0 (s.array.getD i 0) &&& (s.numSets - 1))
    ∧ ((s.array.filter (fun x => x ≠ 0)).toFinset).card ≤ s.numLines := by
  obtain ⟨hg, _, hempty⟩ := create_geom hc
  obtain ⟨p1, p2, p3⟩ := hr.placement hg.length_eq (fun a => (hin a).bounds.2) hempty
  obtain ⟨sn, ss, sa, sh, sr⟩ := hr.same
  refine ⟨p3, p2, ?_, ?_⟩
  · intro hu i hi hnz
    have h := p2 i hi hnz
    rw [sr, range_unpartitioned hg hu] at h
    rw [sa, sh, ss]
    have hpos := hg.assoc_pos
    apply Nat.div_eq_of_lt_le
    · rw [Nat.mul_comm] at h; rw [Nat.mul_comm]; exact h.1
    · have h2 := h.2
      calc i < (s0.hf.hash 0 (s.array.getD i 0) &&& (s0.numSets - 1)) * s0.assoc + s0.assoc := h2
        _ = ((s0.hf.hash 0 (s.array.getD i 0) &&& (s0.numSets - 1)) + 1) * s0.assoc := by ring
  · calc ((s.array.filter (fun x => x ≠ 0)).toFinset).card
        ≤ (s.array.filter (fun x => x ≠ 0)).length := List.toFinset_card_le _
      _ ≤ s.array.length := List.length_filter_le _ _
      _ = s.numLines := p1

/-! ## Set-associative array: the properties at a concrete array -/

theorem demoSetAssoc_geom : Geom demoSetAssoc :=
  ⟨by decide, by decide, by decide, by decide, by decide, by decide⟩

theorem demoSetAssoc_unpartitioned : Unpartitioned zinfoPlain demoSetAssoc := ⟨rfl, rfl⟩

theorem lookup_unpartitioned_witness :
    Geom demoSetAssoc ∧ Unpartitioned zinfoPlain demoSetAssoc
    ∧ (lookup zinfoPlain demoSetAssoc 12 none true).2.array = demoSetAssoc.array :=
  ⟨demoSetAssoc_geom, demoSetAssoc_unpartitioned,
    (lookup_unpartitioned zinfoPlain demoSetAssoc 12 none true demoSetAssoc_geom
      demoSetAssoc_unpartitioned).2.1⟩

theorem insert_then_lookup_witness :
    (lookup zinfoPlain demoSetAssoc 20 none true).1 = -1
    ∧ (lookup zinfoPlain (postinsert (preinsert zinfoPlain demoSetAssoc 20 none).2.2 20 none
          (preinsert zinfoPlain demoSetAssoc 20 none).1) 20 none false).1
        = toInt32 (preinsert zinfoPlain demoSetAssoc 20 none).1 :=
  ⟨by decide, (insert_then_lookup zinfoPlain demoSetAssoc 20 none none true false
    (Or.inl ⟨demoSetAssoc_geom, demoSetAssoc_unpartitioned⟩) (by decide) (by decide)).1⟩

theorem capacity_invariant_witness :
    create zinfoPlain 16 4 firstOffered IdHashFamily false 0 = some freshSetAssoc
    ∧ (((insert zinfoPlain freshSetAssoc 20 none).array.filter (fun x => x ≠ 0)).toFinset).card
        ≤ (insert zinfoPlain freshSetAssoc 20 none).numLines :=
  ⟨rfl, (capacity_invariant zinfoPlain 16 4 firstOffered IdHashFamily false 0 freshSetAssoc
    (insert zinfoPlain freshSetAssoc 20 none) rfl
    (fun _ => Or.inl ⟨(create_geom (rfl :
      create zinfoPlain 16 4 firstOffered IdHashFamily false 0 = some freshSetAssoc)).1,
      ⟨rfl, rfl⟩⟩)
    (Reachable.insert freshSetAssoc 20 none true Reachable.start (by decide) (by decide)
      (by decide))).2.2.2⟩

theorem preinsert_unpartitioned_witness :
    Geom demoSetAssoc ∧ Unpartitioned zinfoPlain demoSetAssoc
    ∧ (preinsert zinfoPlain demoSetAssoc 20 none).2.2.array = demoSetAssoc.array := by
  obtain ⟨_, _, _, _, _, _, _, _, h7⟩ :=
    preinsert_unpartitioned zinfoPlain demoSetAssoc 20 none demoSetAssoc_geom
      demoSetAssoc_unpartitioned
  exact ⟨demoSetAssoc_geom, demoSetAssoc_unpartitioned, h7⟩

theorem postinsert_spec_witness :
    0 < demoSetAssoc.array.length ∧ (postinsert demoSetAssoc 20 none 0).array.getD 0 0 = 20 :=
  ⟨by decide, (postinsert_spec demoSetAssoc 20 none 0 (by decide)).1⟩

end SetAssocArray

namespace ZArray

/-! ## Z array: geometry -/

theorem Geom.sets_pos {z : ZArray} (hg : Geom z) : 0 < z.numSets := isPow2_pos hg.pow2

theorem Geom.lines_eq {z : ZArray} (hg : Geom z) : z.ways * z.numSets = z.numLines := by
  rw [hg.numSets_eq]
  exact Nat.mul_div_cancel' (Nat.dvd_of_mod_eq_zero hg.multiple)

theorem Geom.numSets_le {z : ZArray} (hg : Geom z) : z.numSets ≤ z.numLines := by
  have h1 := hg.lines_eq
  have h2 := hg.ways_gt
  calc z.numSets = 1 * z.numSets := (Nat.one_mul _).symm
    _ ≤ z.ways * z.numSets := Nat.mul_le_mul_right _ (by omega)
    _ = z.numLines := h1

theorem Geom.mask_eq {z : ZArray} (hg : Geom z) : z.setMask = z.numSets - 1 := by
  rw [hg.setMask_eq]
  have h1 := hg.numSets_le
  have h2 := hg.numLines_lt
  exact sub32_one hg.sets_pos (by omega)

/-- The positions of way `w` are `[w*numSets, (w+1)*numSets)`. -/
theorem Geom.pos_range {z : ZArray} (hg : Geom z) (w : Nat) (a : Address) :
    w * z.numSets ≤ pos z w a ∧ pos z w a < (w + 1) * z.numSets := by
  have h1 : z.hf.hash w a &&& (z.numSets - 1) ≤ z.numSets - 1 := Nat.and_le_right
  have h2 := hg.sets_pos
  unfold pos
  constructor
  · omega
  · rw [Nat.add_mul, Nat.one_mul]; omega

theorem Geom.pos_lt {z : ZArray} (hg : Geom z) {w : Nat} (hw : w < z.ways) (a : Address) :
    pos z w a < z.numLines := by
  have h1 := (hg.pos_range w a).2
  have h2 : (w + 1) * z.numSets ≤ z.ways * z.numSets := Nat.mul_le_mul_right _ hw
  rw [hg.lines_eq] at h2
  omega

/-- Positions of different ways are different. -/
theorem Geom.pos_way {z : ZArray} (hg : Geom z) {w w' : Nat} {a b : Address}
    (h : pos z w a = pos z w' b) : w = w' := by
  have h1 := hg.pos_range w a
  have h2 := hg.pos_range w' b
  by_contra hne
  rcases Nat.lt_or_gt_of_ne hne with hlt | hgt
  · have : (w + 1) * z.numSets ≤ w' * z.numSets := Nat.mul_le_mul_right _ hlt
    omega
  · have : (w' + 1) * z.numSets ≤ w * z.numSets := Nat.mul_le_mul_right _ hgt
    omega

theorem Geom.way_mul_lt {z : ZArray} (hg : Geom z) {w : Nat} (hw : w < z.ways) :
    w * z.numSets < 2 ^ 32 := by
  have h1 := (hg.pos_range w 0).1
  have h2 := hg.pos_lt hw 0
  have h3 := hg.numLines_lt
  omega

/-- The index expression of `lookup` is the position. -/
theorem Geom.lookup_idx {z : ZArray} (hg : Geom z) {w : Nat} (hw : w < z.ways) (a : Address) :
    u64 (u32 (w * z.numSets) + u64 (z.hf.hash w a &&& z.setMask)) = pos z w a := by
  have h1 := hg.way_mul_lt hw
  have h2 := hg.pos_lt hw a
  have h3 := hg.numLines_lt
  have h4 : z.hf.hash w a &&& (z.numSets - 1) ≤ z.numSets - 1 := Nat.and_le_right
  have h5 := hg.numSets_le
  have e1 : u32 (w * z.numSets) = w * z.numSets := u32_of_lt (by omega)
  have e2 : u64 (z.hf.hash w a &&& (z.numSets - 1)) = z.hf.hash w a &&& (z.numSets - 1) :=
    u64_of_lt (by omega)
  rw [hg.mask_eq, e1, e2]
  exact u64_of_lt (by unfold pos at h2; omega)

/-- The index expression of the seed loop is the position. -/
theorem Geom.seed_idx {z : ZArray} (hg : Geom z) {w : Nat} (hw : w < z.ways) (a : Address) :
    u32 (u32 (w * z.numSets) + u64 (z.hf.hash w a &&& z.setMask)) = pos z w a := by
  have h1 := hg.way_mul_lt hw
  have h2 := hg.pos_lt hw a
  have h3 := hg.numLines_lt
  have h4 : z.hf.hash w a &&& (z.numSets - 1) ≤ z.numSets - 1 := Nat.and_le_right
  have h5 := hg.numSets_le
  have e1 : u32 (w * z.numSets) = w * z.numSets := u32_of_lt (by omega)
  have e2 : u64 (z.hf.hash w a &&& (z.numSets - 1)) = z.hf.hash w a &&& (z.numSets - 1) :=
    u64_of_lt (by omega)
  rw [hg.mask_eq, e1, e2]
  exact u32_of_lt (by unfold pos at h2; omega)

/-- The index expression of the expansion loop is the position. -/
theorem Geom.expand_idx {z : ZArray} (hg : Geom z) {w : Nat} (hw : w < z.ways) (a : Address) :
    u32 (w * z.numSets + u32 (z.hf.hash w a &&& z.setMask)) = pos z w a := by
  have h2 := hg.pos_lt hw a
  have h3 := hg.numLines_lt
  have h4 : z.hf.hash w a &&& (z.numSets - 1) ≤ z.numSets - 1 := Nat.and_le_right
  have h5 := hg.numSets_le
  rw [hg.mask_eq, u32_of_lt (by omega : z.hf.hash w a &&& (z.numSets - 1) < 2 ^ 32)]
  exact u32_of_lt (by unfold pos at h2; omega)

/-! ## Z array: lookup -/

theorem lookupWays_some {z : ZArray} {a : Address} {n w id : Nat}
    (h : lookupWays z a w n = some id) :
    ∃ v, w ≤ v ∧ v < w + n
      ∧ id = z.lookupArray.getD (u64 (u32 (v * z.numSets) + u64 (z.hf.hash v a &&& z.setMask))) 0
      ∧ z.array.getD id 0 = a
      ∧ ∀ u, w ≤ u → u < v → z.array.getD (z.lookupArray.getD
          (u64 (u32 (u * z.numSets) + u64 (z.hf.hash u a &&& z.setMask))) 0) 0 ≠ a := by
  induction n generalizing w with
  | zero => simp [lookupWays] at h
  | succ n ih =>
    rw [lookupWays] at h
    split at h
    · next heq =>
      injection h with h
      subst h
      exact ⟨w, le_refl _, by omega, rfl, heq, fun u h1 h2 => absurd h1 (by omega)⟩
    · next hne =>
      obtain ⟨v, h1, h2, h3, h4, h5⟩ := ih h
      refine ⟨v, by omega, by omega, h3, h4, fun u hu1 hu2 => ?_⟩
      by_cases hu : u = w
      · subst hu; exact hne
      · exact h5 u (by omega) hu2

theorem lookupWays_none {z : ZArray} {a : Address} {n w : Nat} :
    lookupWays z a w n = none ↔ ∀ u, w ≤ u → u < w + n → z.array.getD (z.lookupArray.getD
        (u64 (u32 (u * z.numSets) + u64 (z.hf.hash u a &&& z.setMask))) 0) 0 ≠ a := by
  induction n generalizing w with
  | zero =>
    simp only [lookupWays, true_iff]
    intro u h1 h2
    omega
  | succ n ih =>
    rw [lookupWays]
    split
    · next heq =>
      constructor
      · intro h; cases h
      · intro h; exact absurd heq (h w (le_refl _) (by omega))
    · next hne =>
      rw [ih]
      constructor
      · intro h u h1 h2
        by_cases hu : u = w
        · subst hu; exact hne
        · exact h u (by omega) (by omega)
      · intro h u h1 h2
        exact h u (by omega) (by omega)

/-- The slot a non-zero address is found in lies in the storage. -/
theorem getD_ne_zero_lt {l : List Nat} {i : Nat} (h : l.getD i 0 ≠ 0) : i < l.length := by
  by_contra hge
  apply h
  simp [List.getD_eq_getElem?_getD, List.getElem?_eq_none (Nat.le_of_not_lt hge)]

/-- C7. `ZArray::lookup` fails (panic) if and only if the line address is 0.
For a non-zero address `a` it examines the slots `lookupArray[pos w a]`,
`pos w a = w*numSets + (hash(w,a) AND (numSets-1))`, one per way `w < ways`, and
returns the slot found at the smallest `w` whose slot holds `a` (as an
`int32_t`: the slot id itself for arrays of at most `2^31` lines, and never
`-1`), or `-1` when none of the `ways` slots holds `a`.  The state is unchanged
except for the `update` call logged on a hit with `updateReplacement`: storage
and indirection table are as before. -/
theorem lookup_spec (z : ZArray) (a : Address) (req : ReqPtr) (upd : Bool) (hg : Geom z) :
    (lookup z a req upd = none ↔ a = 0)
    ∧ (a ≠ 0 →
        (∃ w, w < z.ways
          ∧ z.array.getD (z.lookupArray.getD (pos z w a) 0) 0 = a
          ∧ (∀ u, u < w → z.array.getD (z.lookupArray.getD (pos z u a) 0) 0 ≠ a)
          ∧ z.lookupArray.getD (pos z w a) 0 < z.numLines
          ∧ toInt32 (z.lookupArray.getD (pos z w a) 0) ≠ -1
          ∧ (z.numLines ≤ 2 ^ 31 →
              toInt32 (z.lookupArray.getD (pos z w a) 0) = (z.lookupArray.getD (pos z w a) 0 : Int))
          ∧ lookup z a req upd = some (toInt32 (z.lookupArray.getD (pos z w a) 0),
              if upd then { z with trace := z.trace
                ++ [Event.update (z.lookupArray.getD (pos z w a) 0) req] } else z))
        ∨ ((∀ u, u < z.ways → z.array.getD (z.lookupArray.getD (pos z u a) 0) 0 ≠ a)
          ∧ lookup z a req upd = some (-1, z))) := by
  constructor
  · unfold lookup
    constructor
    · intro h
      by_contra hne
      rw [if_neg hne] at h
      split at h <;> cases h
    · intro h
      rw [if_pos h]
  · intro hne
    unfold lookup
    rw [if_neg hne]
    cases hs : lookupWays z a 0 z.ways with
    | none =>
      right
      rw [lookupWays_none] at hs
      refine ⟨fun u hu => ?_, rfl⟩
      have := hs u (Nat.zero_le _) (by omega)
      rwa [hg.lookup_idx hu] at this
    | some id =>
      left
      obtain ⟨v, _, h2, h3, h4, h5⟩ := lookupWays_some hs
      have hv : v < z.ways := by omega
      rw [hg.lookup_idx hv] at h3
      have hid : id < z.numLines := by
        have := getD_ne_zero_lt (h4 ▸ hne : z.array.getD id 0 ≠ 0)
        have := hg.array_len
        omega
      have hl := hg.numLines_lt
      subst h3
      refine ⟨v, hv, h4, fun u hu => ?_, hid, toInt32_ne_neg_one (by omega),
        fun hint => toInt32_of_lt (by omega), rfl⟩
      have := h5 u (Nat.zero_le _) hu
      rwa [hg.lookup_idx (by omega : u < z.ways)] at this

/-! ## Z array: the candidate walk -/

/-- The indirection table of a well-formed array is injective on positions. -/
theorem WF.inj {z : ZArray} (hw : WF z) {p q : Nat} (hp : p < z.numLines) (hq : q < z.numLines)
    (h : z.lookupArray.getD p 0 = z.lookupArray.getD q 0) : p = q := by
  have hl := hw.geom.lookup_len
  rw [List.getD_eq_getElem z.lookupArray 0 (by omega : p < z.lookupArray.length),
    List.getD_eq_getElem z.lookupArray 0 (by omega : q < z.lookupArray.length)] at h
  exact (List.Nodup.getElem_inj_iff hw.nodup).mp h

/-- At most one way of an address is a self-loop of a slot. -/
theorem WF.self_way {z : ZArray} (hw : WF z) {u v : Nat} {b : Address} {s : Nat}
    (hu : u < z.ways) (hv : v < z.ways)
    (h1 : z.lookupArray.getD (pos z u b) 0 = s) (h2 : z.lookupArray.getD (pos z v b) 0 = s) :
    u = v :=
  hw.geom.pos_way (hw.inj (hw.geom.pos_lt hu b) (hw.geom.pos_lt hv b) (h1.trans h2.symm))

/-- The body of the inner loop in normal form. -/
theorem expandWay_eq {z : ZArray} (hg : Geom z) (fid : Nat) (faddr : Address) (st : ZWalk)
    {w : Nat} (hw : w < z.ways) (hn : st.numCandidates + 1 < 2 ^ 32)
    (hfs : st.fringeStart < 2 ^ 31) :
    expandWay z fid faddr st w =
      { candidates := st.candidates.set st.numCandidates
          ⟨pos z w faddr, z.lookupArray.getD (pos z w faddr) 0, (st.fringeStart : Int)⟩
        numCandidates := st.numCandidates
          + (if z.lookupArray.getD (pos z w faddr) 0 = fid then 0 else 1)
        fringeStart := st.fringeStart
        all_valid := st.all_valid
          && (z.array.getD (z.lookupArray.getD (pos z w faddr) 0) 0 != 0) } := by
  unfold expandWay
  simp only [hg.expand_idx hw, toInt32_of_lt hfs]
  have e : (if (z.lookupArray.getD (pos z w faddr) 0 != fid) = true then 1 else 0)
      = (if z.lookupArray.getD (pos z w faddr) 0 = fid then 0 else 1) := by
    by_cases h : z.lookupArray.getD (pos z w faddr) 0 = fid
    · rw [if_pos h, if_neg (by rw [h]; exact fun hh => by simp at hh)]
    · rw [if_neg h, if_pos (by simpa using h)]
  rw [e, u32_of_lt (by split <;> omega)]

/-- A self-loop way leaves the candidate count as it is; the invariant moves on
to the next way. -/
theorem WalkInv.skip {z : ZArray} {a : Address} {st : ZWalk} {k : Nat} (hw : WF z)
    (hi : WalkInv z a st k) (hk : k < z.ways) (hn : st.numCandidates < z.cands + k)
    (c : ZWalkInfo) (av : Bool) (hav : av = true → st.all_valid = true)
    (hself : z.lookupArray.getD
      (pos z k (z.array.getD (st.candidates.getD st.fringeStart default).lineId 0)) 0
        = (st.candidates.getD st.fringeStart default).lineId) :
    WalkInv z a ⟨st.candidates.set st.numCandidates c, st.numCandidates, st.fringeStart, av⟩
      (k + 1) := by
  have hget : ∀ i, i ≠ st.numCandidates →
      (st.candidates.set st.numCandidates c).getD i default = st.candidates.getD i default :=
    fun i hi => getD_set_of_ne c default (Ne.symm hi)
  have hfr := hi.fringe
  have hfs : (st.candidates.set st.numCandidates c).getD st.fringeStart default
      = st.candidates.getD st.fringeStart default := hget _ (by omega)
  have hall : ∀ w, w < k → z.lookupArray.getD
      (pos z w (z.array.getD (st.candidates.getD st.fringeStart default).lineId 0)) 0
        ≠ (st.candidates.getD st.fringeStart default).lineId := by
    intro w hwk heq
    have := hw.self_way (by omega : w < z.ways) hk heq hself
    omega
  refine ⟨?_, ?_, ?_, ?_, ?_, ?_, ?_, ?_, ?_, ?_⟩
  · simp only [List.length_set]; exact hi.len
  · exact hi.fringe
  · have := hi.grow_all hall
    show st.fringeStart + z.ways + (k + 1) ≤ st.numCandidates + 1
    omega
  · intro h
    exfalso
    have := h k (by omega)
    simp only [hfs] at this
    exact this hself
  · intro i hiw
    show (st.candidates.set st.numCandidates c).getD i default = _
    rw [hget i (by omega)]
    exact hi.seeds i hiw
  · intro i h1 h2
    obtain ⟨p, w, k1, k2, k3, k4, k5, k6⟩ := hi.kids i h1 h2
    refine ⟨p, w, ?_, k2, k3, ?_, ?_, ?_⟩
    · show ((st.candidates.set st.numCandidates c).getD i default).parentIdx = _
      rw [hget i (Nat.ne_of_lt h2)]; exact k1
    · rcases k4 with h | ⟨h, h'⟩
      · exact Or.inl h
      · exact Or.inr ⟨h, by omega⟩
    · show ((st.candidates.set st.numCandidates c).getD i default).pos
        = pos z w (z.array.getD ((st.candidates.set st.numCandidates c).getD p default).lineId 0)
      rw [hget i (Nat.ne_of_lt h2), hget p (by show p ≠ st.numCandidates; omega)]; exact k5
    · show ((st.candidates.set st.numCandidates c).getD i default).lineId
        ≠ ((st.candidates.set st.numCandidates c).getD p default).lineId
      rw [hget i (Nat.ne_of_lt h2), hget p (by show p ≠ st.numCandidates; omega)]; exact k6
  · intro i h
    show ((st.candidates.set st.numCandidates c).getD i default).lineId
        = z.lookupArray.getD ((st.candidates.set st.numCandidates c).getD i default).pos 0
      ∧ ((st.candidates.set st.numCandidates c).getD i default).pos < z.numLines
    rw [hget i (Nat.ne_of_lt h)]
    exact hi.link i h
  · intro p w hwv hp hne
    dsimp only at hp hne ⊢
    have hpn : p ≠ st.numCandidates := by
      rcases hp with h | ⟨h, _⟩ <;> omega
    simp only [hget p hpn] at hne ⊢
    have hp' : p < st.fringeStart ∨ (p = st.fringeStart ∧ w < k) := by
      rcases hp with h | ⟨h, h'⟩
      · exact Or.inl h
      · by_cases hwk : w = k
        · subst hwk; subst h; exact absurd hself hne
        · exact Or.inr ⟨h, by omega⟩
    obtain ⟨i, i1, i2, i3, i4⟩ := hi.complete p w hwv hp' hne
    refine ⟨i, i1, i2, ?_, ?_⟩
    · show ((st.candidates.set st.numCandidates c).getD i default).parentIdx = _
      rw [hget i (Nat.ne_of_lt i2)]; exact i3
    · show ((st.candidates.set st.numCandidates c).getD i default).pos = _
      rw [hget i (Nat.ne_of_lt i2)]; exact i4
  · intro i j h1 h2 h3
    show ((st.candidates.set st.numCandidates c).getD i default).parentIdx
      ≤ ((st.candidates.set st.numCandidates c).getD j default).parentIdx
    rw [hget i (by show i ≠ st.numCandidates; have : j < st.numCandidates := h3; omega),
      hget j (Nat.ne_of_lt h3)]
    exact hi.order i j h1 h2 h3
  · intro h i hin
    show z.array.getD ((st.candidates.set st.numCandidates c).getD i default).lineId 0 ≠ 0
    rw [hget i (Nat.ne_of_lt hin)]
    exact hi.valid (hav h) i hin

/-- A way that leads to another slot appends a candidate whose parent is the
fringe candidate. -/
theorem WalkInv.push {z : ZArray} {a : Address} {st : ZWalk} {k : Nat} (hw : WF z)
    (hi : WalkInv z a st k) (hk : k < z.ways) (hn : st.numCandidates < z.cands + k)
    (av : Bool)
    (hav : av = true → st.all_valid = true ∧ z.array.getD (z.lookupArray.getD
      (pos z k (z.array.getD (st.candidates.getD st.fringeStart default).lineId 0)) 0) 0 ≠ 0)
    (hne : z.lookupArray.getD
      (pos z k (z.array.getD (st.candidates.getD st.fringeStart default).lineId 0)) 0
        ≠ (st.candidates.getD st.fringeStart default).lineId) :
    WalkInv z a
      ⟨st.candidates.set st.numCandidates
        ⟨pos z k (z.array.getD (st.candidates.getD st.fringeStart default).lineId 0),
          z.lookupArray.getD
            (pos z k (z.array.getD (st.candidates.getD st.fringeStart default).lineId 0)) 0,
          (st.fringeStart : Int)⟩,
        st.numCandidates + 1, st.fringeStart, av⟩ (k + 1) := by
  generalize hc : (⟨pos z k (z.array.getD (st.candidates.getD st.fringeStart default).lineId 0),
      z.lookupArray.getD
        (pos z k (z.array.getD (st.candidates.getD st.fringeStart default).lineId 0)) 0,
      (st.fringeStart : Int)⟩ : ZWalkInfo) = c
  have hcpos : c.pos
      = pos z k (z.array.getD (st.candidates.getD st.fringeStart default).lineId 0) := by
    rw [← hc]
  have hcid : c.lineId = z.lookupArray.getD c.pos 0 := by rw [← hc]
  have hcpar : c.parentIdx = (st.fringeStart : Int) := by rw [← hc]
  have hlen := hi.len
  have hget : ∀ i, i ≠ st.numCandidates →
      (st.candidates.set st.numCandidates c).getD i default = st.candidates.getD i default :=
    fun i hi => getD_set_of_ne c default (Ne.symm hi)
  have hnew : (st.candidates.set st.numCandidates c).getD st.numCandidates default = c :=
    getD_set_self c default (by omega)
  have hfr := hi.fringe
  have hfs : (st.candidates.set st.numCandidates c).getD st.fringeStart default
      = st.candidates.getD st.fringeStart default := hget _ (by omega)
  refine ⟨?_, ?_, ?_, ?_, ?_, ?_, ?_, ?_, ?_, ?_⟩
  · simp only [List.length_set]; exact hi.len
  · show st.fringeStart + z.ways ≤ st.numCandidates + 1
    omega
  · have := hi.grow
    show st.fringeStart + z.ways + (k + 1) ≤ st.numCandidates + 1 + 1
    omega
  · intro h
    dsimp only at h ⊢
    simp only [hfs] at h
    have := hi.grow_all (fun w hwk => h w (by omega))
    omega
  · intro i hiw
    show (st.candidates.set st.numCandidates c).getD i default = _
    rw [hget i (by omega)]
    exact hi.seeds i hiw
  · intro i h1 h2
    dsimp only at h2 ⊢
    by_cases hin : i = st.numCandidates
    · subst hin
      refine ⟨st.fringeStart, k, ?_, hfr, hk, Or.inr ⟨rfl, by omega⟩, ?_, ?_⟩
      · rw [hnew]; exact hcpar
      · rw [hnew, hfs]; exact hcpos
      · rw [hnew, hfs, hcid, hcpos]; exact hne
    · have h2' : i < st.numCandidates := by omega
      obtain ⟨p, w, k1, k2, k3, k4, k5, k6⟩ := hi.kids i h1 h2'
      refine ⟨p, w, ?_, k2, k3, ?_, ?_, ?_⟩
      · rw [hget i hin]; exact k1
      · rcases k4 with h | ⟨h, h'⟩
        · exact Or.inl h
        · exact Or.inr ⟨h, by omega⟩
      · rw [hget i hin, hget p (by omega)]; exact k5
      · rw [hget i hin, hget p (by omega)]; exact k6
  · intro i h
    dsimp only at h ⊢
    by_cases hin : i = st.numCandidates
    · subst hin
      rw [hnew]
      refine ⟨hcid, ?_⟩
      rw [hcpos]
      exact hw.geom.pos_lt hk _
    · rw [hget i hin]
      exact hi.link i (by omega)
  · intro p w hwv hp hne'
    dsimp only at hp hne' ⊢
    have hpn : p ≠ st.numCandidates := by
      rcases hp with h | ⟨h, _⟩ <;> omega
    simp only [hget p hpn] at hne' ⊢
    by_cases hpk : p = st.fringeStart ∧ w = k
    · obtain ⟨rfl, rfl⟩ := hpk
      exact ⟨st.numCandidates, by omega, by omega, by rw [hnew]; exact hcpar,
        by rw [hnew]; exact hcpos⟩
    · have hp' : p < st.fringeStart ∨ (p = st.fringeStart ∧ w < k) := by
        rcases hp with h | ⟨h, h'⟩
        · exact Or.inl h
        · exact Or.inr ⟨h, by
            by_contra hh
            exact hpk ⟨h, by omega⟩⟩
      obtain ⟨i, i1, i2, i3, i4⟩ := hi.complete p w hwv hp' hne'
      refine ⟨i, i1, by omega, ?_, ?_⟩
      · rw [hget i (Nat.ne_of_lt i2)]; exact i3
      · rw [hget i (Nat.ne_of_lt i2)]; exact i4
  · intro i j h1 h2 h3
    dsimp only at h3 ⊢
    by_cases hjn : j = st.numCandidates
    · subst hjn
      rw [hnew, hcpar]
      by_cases hin : i = st.numCandidates
      · rw [hin, hnew, hcpar]
      · rw [hget i hin]
        obtain ⟨p, w, k1, _, _, k4, _, _⟩ := hi.kids i h1 (by omega)
        rw [k1]
        rcases k4 with h | ⟨h, _⟩ <;> omega
    · rw [hget i (by omega), hget j hjn]
      exact hi.order i j h1 h2 (by omega)
  · intro h i hin
    dsimp only at hin ⊢
    obtain ⟨h1, h2⟩ := hav h
    by_cases hnn : i = st.numCandidates
    · subst hnn
      rw [hnew, hcid, hcpos]
      exact h2
    · rw [hget i hnn]
      exact hi.valid h1 i (by omega)

/-- One pass of the body of the inner loop keeps the invariant. -/
theorem WalkInv.expandWay_step {z : ZArray} {a : Address} {st : ZWalk} {k : Nat} (hw : WF z)
    (hi : WalkInv z a st k) (hk : k < z.ways) (hn : st.numCandidates < z.cands + k)
    (fid : Nat) (faddr : Address)
    (hfid : fid = (st.candidates.getD st.fringeStart default).lineId)
    (hfaddr : faddr = z.array.getD fid 0) :
    WalkInv z a (ZArray.expandWay z fid faddr st k) (k + 1)
    ∧ (ZArray.expandWay z fid faddr st k).numCandidates < z.cands + (k + 1)
    ∧ (ZArray.expandWay z fid faddr st k).fringeStart = st.fringeStart
    ∧ (ZArray.expandWay z fid faddr st k).candidates.getD st.fringeStart default
        = st.candidates.getD st.fringeStart default := by
  have hg := hw.geom
  have h1 := hg.cands_lt
  have h2 := hg.cands_ge
  have h3 := hi.fringe
  rw [expandWay_eq hg fid faddr st hk (by omega) (by omega)]
  subst hfaddr
  subst hfid
  refine ⟨?_, ?_, rfl, getD_set_of_ne _ _ (by omega)⟩
  · by_cases hself : z.lookupArray.getD
        (pos z k (z.array.getD (st.candidates.getD st.fringeStart default).lineId 0)) 0
          = (st.candidates.getD st.fringeStart default).lineId
    · rw [if_pos hself]
      exact hi.skip hw hk hn _ _ (fun h => (Bool.and_eq_true _ _ ▸ h).1) hself
    · rw [if_neg hself]
      refine hi.push hw hk hn _ (fun h => ?_) hself
      rw [Bool.and_eq_true] at h
      exact ⟨h.1, by simpa using h.2⟩
  · show st.numCandidates + _ < z.cands + (k + 1)
    split <;> omega

/-- The inner loop over the first `k` ways keeps the invariant. -/
theorem WalkInv.ways_loop {z : ZArray} {a : Address} {st : ZWalk} (hw : WF z)
    (hi : WalkInv z a st 0) (hn : st.numCandidates < z.cands) (k : Nat) (hk : k ≤ z.ways) :
    WalkInv z a ((List.range k).foldl
        (ZArray.expandWay z (st.candidates.getD st.fringeStart default).lineId
          (z.array.getD (st.candidates.getD st.fringeStart default).lineId 0)) st) k
    ∧ ((List.range k).foldl
        (ZArray.expandWay z (st.candidates.getD st.fringeStart default).lineId
          (z.array.getD (st.candidates.getD st.fringeStart default).lineId 0)) st).numCandidates
        < z.cands + k
    ∧ ((List.range k).foldl
        (ZArray.expandWay z (st.candidates.getD st.fringeStart default).lineId
          (z.array.getD (st.candidates.getD st.fringeStart default).lineId 0)) st).fringeStart
        = st.fringeStart
    ∧ ((List.range k).foldl
        (ZArray.expandWay z (st.candidates.getD st.fringeStart default).lineId
          (z.array.getD (st.candidates.getD st.fringeStart default).lineId 0)) st).candidates.getD
          st.fringeStart default
        = st.candidates.getD st.fringeStart default := by
  induction k with
  | zero => exact ⟨hi, hn, rfl, rfl⟩
  | succ k ih =>
    obtain ⟨i1, i2, i3, i4⟩ := ih (by omega)
    rw [List.range_succ, List.foldl_append]
    simp only [List.foldl_cons, List.foldl_nil]
    obtain ⟨j1, j2, j3, j4⟩ := i1.expandWay_step hw (by omega) i2
      (st.candidates.getD st.fringeStart default).lineId
      (z.array.getD (st.candidates.getD st.fringeStart default).lineId 0)
      (by rw [i3, i4]) rfl
    refine ⟨j1, j2, j3.trans i3, ?_⟩
    rw [i3] at j4
    exact j4.trans i4

/-- After the inner loop the fringe moves on to the next candidate. -/
theorem WalkInv.next {z : ZArray} {a : Address} {st : ZWalk} (hw : WF z)
    (hi : WalkInv z a st z.ways) :
    WalkInv z a { st with fringeStart := st.fringeStart + 1 } 0 := by
  have h2 := hw.geom.ways_gt
  have hgrow := hi.grow
  refine ⟨hi.len, ?_, ?_, ?_, hi.seeds, ?_, hi.link, ?_, hi.order, hi.valid⟩
  · show st.fringeStart + 1 + z.ways ≤ st.numCandidates
    omega
  · show st.fringeStart + 1 + z.ways + 0 ≤ st.numCandidates + 1
    omega
  · intro _
    show st.fringeStart + 1 + z.ways + 0 ≤ st.numCandidates
    omega
  · intro i h1 h2
    obtain ⟨p, w, k1, k2, k3, k4, k5, k6⟩ := hi.kids i h1 h2
    refine ⟨p, w, k1, k2, k3, Or.inl ?_, k5, k6⟩
    show p < st.fringeStart + 1
    rcases k4 with h | ⟨h, _⟩ <;> omega
  · intro p w hwv hp hne
    dsimp only at hp
    refine hi.complete p w hwv ?_ hne
    rcases hp with h | ⟨_, h⟩
    · by_cases hp' : p = st.fringeStart
      · exact Or.inr ⟨hp', hwv⟩
      · exact Or.inl (by omega)
    · omega

/-- With enough fuel the expansion loop ends by its own condition, no assertion
fails on the way, and the invariant holds at the end. -/
theorem WalkInv.expand_loop {z : ZArray} {a : Address} (hw : WF z) (fuel : Nat) :
    ∀ st : ZWalk, WalkInv z a st 0 → z.cands ≤ fuel + st.fringeStart →
      ∃ st', ZArray.expand z fuel st = some st' ∧ WalkInv z a st' 0
        ∧ ¬ (st'.numCandidates < z.cands ∧ st'.all_valid = true) := by
  have hg := hw.geom
  induction fuel with
  | zero =>
    intro st hi hf
    have := hi.fringe
    have := hg.ways_gt
    have hc : ¬ st.numCandidates < z.cands := by omega
    refine ⟨st, ?_, hi, fun h => hc h.1⟩
    unfold ZArray.expand
    simp [hc]
  | succ fuel ih =>
    intro st hi hf
    unfold ZArray.expand
    by_cases hc : st.numCandidates < z.cands ∧ st.all_valid = true
    · have hcond : (decide (st.numCandidates < z.cands) && st.all_valid) = true := by
        simp [hc.1, hc.2]
      rw [if_pos hcond]
      have hfr := hi.fringe
      have hways := hg.ways_gt
      have hvalid := hi.valid hc.2 st.fringeStart (by omega)
      rw [if_neg hvalid]
      obtain ⟨j1, _, j3, _⟩ := hi.ways_loop hw hc.1 z.ways (le_refl _)
      have hnext := j1.next hw
      rw [j3] at hnext
      have hlt : st.fringeStart + 1 < 2 ^ 32 := by
        have := hg.cands_lt
        omega
      rw [u32_of_lt hlt]
      exact ih _ hnext (by show z.cands ≤ fuel + (st.fringeStart + 1); omega)
    · have hcond : ¬ (decide (st.numCandidates < z.cands) && st.all_valid) = true := by
        simpa using hc
      rw [if_neg hcond]
      exact ⟨st, rfl, hi, hc⟩

/-- The seed loop over the first `k` ways. -/
theorem seeds_loop {z : ZArray} (a : Address) (hg : Geom z) (k : Nat) (hk : k ≤ z.ways) :
    ((List.range k).foldl (seedWay z a)
        ⟨List.replicate (u32 (z.cands + z.ways)) default, z.ways, 0, true⟩).candidates.length
      = z.cands + z.ways
    ∧ ((List.range k).foldl (seedWay z a)
        ⟨List.replicate (u32 (z.cands + z.ways)) default, z.ways, 0, true⟩).numCandidates = z.ways
    ∧ ((List.range k).foldl (seedWay z a)
        ⟨List.replicate (u32 (z.cands + z.ways)) default, z.ways, 0, true⟩).fringeStart = 0
    ∧ (∀ i, i < k → ((List.range k).foldl (seedWay z a)
        ⟨List.replicate (u32 (z.cands + z.ways)) default, z.ways, 0, true⟩).candidates.getD i default
          = ⟨pos z i a, z.lookupArray.getD (pos z i a) 0, -1⟩)
    ∧ (((List.range k).foldl (seedWay z a)
        ⟨List.replicate (u32 (z.cands + z.ways)) default, z.ways, 0, true⟩).all_valid = true →
        ∀ i, i < k → z.array.getD (z.lookupArray.getD (pos z i a) 0) 0 ≠ 0) := by
  have h1 := hg.cands_lt
  have h2 := hg.cands_ge
  induction k with
  | zero =>
    refine ⟨?_, rfl, rfl, fun i hi => absurd hi (by omega), fun _ i hi => absurd hi (by omega)⟩
    simp [u32_of_lt (by omega : z.cands + z.ways < 2 ^ 32)]
  | succ k ih =>
    obtain ⟨i1, i2, i3, i4, i5⟩ := ih (by omega)
    rw [List.range_succ, List.foldl_append]
    simp only [List.foldl_cons, List.foldl_nil]
    generalize (List.range k).foldl (seedWay z a)
      ⟨List.replicate (u32 (z.cands + z.ways)) default, z.ways, 0, true⟩ = st at i1 i2 i3 i4 i5 ⊢
    unfold seedWay
    simp only [hg.seed_idx (by omega : k < z.ways)]
    refine ⟨by simp only [List.length_set]; exact i1, i2, i3, ?_, ?_⟩
    · intro i hi
      by_cases hik : i = k
      · subst hik
        exact getD_set_self _ _ (by omega)
      · rw [getD_set_of_ne _ _ (Ne.symm hik)]
        exact i4 i (by omega)
    · intro h i hi
      rw [Bool.and_eq_true] at h
      by_cases hik : i = k
      · subst hik
        simpa using h.2
      · exact i5 h.1 i (by omega)

/-- The invariant holds after the seed loop. -/
theorem WalkInv.seeds_init {z : ZArray} (a : Address) (hw : WF z) :
    WalkInv z a ((List.range z.ways).foldl (seedWay z a)
      ⟨List.replicate (u32 (z.cands + z.ways)) default, z.ways, 0, true⟩) 0 := by
  obtain ⟨s1, s2, s3, s4, s5⟩ := seeds_loop a hw.geom z.ways (le_refl _)
  refine ⟨s1, ?_, ?_, ?_, s4, ?_, ?_, ?_, ?_, ?_⟩
  · rw [s2, s3]; omega
  · rw [s2, s3]; omega
  · intro _; rw [s2, s3]; omega
  · intro i h1 h2
    rw [s2] at h2; omega
  · intro i h
    rw [s2] at h
    rw [s4 i h]
    exact ⟨rfl, hw.geom.pos_lt h a⟩
  · intro p w _ hp
    rw [s3] at hp
    rcases hp with h | ⟨_, h⟩ <;> omega
  · intro i j h1 h2 h3
    rw [s2] at h3; omega
  · intro h i hi
    rw [s2] at hi
    rw [s4 i hi]
    exact s5 h i hi

/-- In a well-formed state the candidate walk of `preinsert` returns, with the
invariant and with its exit condition. -/
theorem walk_spec {z : ZArray} (a : Address) (hw : WF z) :
    ∃ st, walk z a = some st ∧ WalkInv z a st 0
      ∧ ¬ (st.numCandidates < z.cands ∧ st.all_valid = true) := by
  unfold walk
  refine WalkInv.expand_loop hw z.cands _ (WalkInv.seeds_init a hw) (by omega)

/-! ## Z array: the winner and its swap chain -/

theorem findMinIdx_spec {cs : List ZWalkInfo} {best : Nat} (n : Nat) :
    ∀ ii, (∃ i, ii ≤ i ∧ i < ii + n ∧ (cs.getD i default).lineId = best) →
      ii ≤ findMinIdx cs best ii n ∧ findMinIdx cs best ii n < ii + n
      ∧ (cs.getD (findMinIdx cs best ii n) default).lineId = best
      ∧ ∀ j, ii ≤ j → j < findMinIdx cs best ii n → (cs.getD j default).lineId ≠ best := by
  induction n with
  | zero =>
    rintro ii ⟨i, h1, h2, _⟩
    omega
  | succ n ih =>
    rintro ii ⟨i, h1, h2, h3⟩
    rw [findMinIdx]
    split
    · next heq =>
      exact ⟨le_refl _, by omega, heq.symm, fun j j1 j2 => absurd j1 (by omega)⟩
    · next hne =>
      have hi : ii + 1 ≤ i := by
        by_contra hh
        have : i = ii := by omega
        subst this
        exact hne h3.symm
      obtain ⟨m1, m2, m3, m4⟩ := ih (ii + 1) ⟨i, hi, by omega, h3⟩
      refine ⟨by omega, by omega, m3, fun j j1 j2 => ?_⟩
      by_cases hj : j = ii
      · subst hj; exact fun h => hne h.symm
      · exact m4 j (by omega) j2

theorem anc_succ (cs : List ZWalkInfo) (d : Nat) :
    ∀ i, anc cs (d + 1) i = parent cs (anc cs d i) := by
  induction d with
  | zero => intro i; rfl
  | succ d ih =>
    intro i
    show anc cs (d + 1) (parent cs i) = parent cs (anc cs d (parent cs i))
    exact ih (parent cs i)

/-- The parent of a candidate past the seeds is an expanded candidate, at least
`ways` indices before it. -/
theorem WalkInv.parent_lt {z : ZArray} {a : Address} {st : ZWalk} {k : Nat}
    (hi : WalkInv z a st k) {i : Nat} (h1 : z.ways ≤ i) (h2 : i < st.numCandidates) :
    (st.candidates.getD i default).parentIdx = (parent st.candidates i : Int)
    ∧ parent st.candidates i + z.ways ≤ i := by
  obtain ⟨p, w, k1, k2, _, _, _, _⟩ := hi.kids i h1 h2
  have : parent st.candidates i = p := by
    unfold parent
    rw [k1]
    rfl
  rw [this]
  exact ⟨k1, k2⟩

/-- The walk along the parent links from candidate `i`: it has some length `len`,
at most `i / ways + 1`, ends at a seed, and the loop records the positions of the
candidates on the way. -/
theorem WalkInv.chain {z : ZArray} {a : Address} {st : ZWalk} (hg : Geom z)
    (hi : WalkInv z a st 0) :
    ∀ i, i < st.numCandidates →
      ∃ len, 1 ≤ len ∧ len ≤ i / z.ways + 1
        ∧ anc st.candidates (len - 1) i < z.ways
        ∧ (∀ j, j + 1 < len → z.ways ≤ anc st.candidates j i)
        ∧ (∀ j, j < len → anc st.candidates j i ≤ i)
        ∧ ∀ fuel sw k, len ≤ fuel → k + len ≤ sw.length → sw.length < 2 ^ 32 →
            ∃ sw', walkParents st.candidates fuel (i : Int) sw k = some (sw', k + len)
              ∧ sw'.length = sw.length
              ∧ (∀ j, j < len →
                  sw'.getD (k + j) 0 = (st.candidates.getD (anc st.candidates j i) default).pos)
              ∧ (∀ j, j < k → sw'.getD j 0 = sw.getD j 0) := by
  have hways := hg.ways_gt
  intro i
  induction i using Nat.strong_induction_on with
  | _ i ih =>
    intro hin
    by_cases hseed : i < z.ways
    · refine ⟨1, le_refl _, Nat.le_add_left 1 _, hseed, fun j hj => absurd hj (by omega),
        fun j hj => by
          have : j = 0 := by omega
          subst this
          exact le_refl _, ?_⟩
      intro fuel sw k hf hk _
      have hpar : (st.candidates.getD i default).parentIdx = -1 := by
        rw [hi.seeds i hseed]
      obtain ⟨f, rfl⟩ : ∃ f, fuel = f + 1 := ⟨fuel - 1, by omega⟩
      refine ⟨sw.set k (st.candidates.getD i default).pos, ?_, by simp, ?_, ?_⟩
      · rw [walkParents, if_pos (Int.natCast_nonneg i), Int.toNat_natCast, hpar]
        cases f with
        | zero => rw [walkParents, if_neg (by omega), u32_of_lt (by omega)]
        | succ f => rw [walkParents, if_neg (by omega), u32_of_lt (by omega)]
      · intro j hj
        have : j = 0 := by omega
        subst this
        exact getD_set_self _ _ (by omega)
      · intro j hj
        exact getD_set_of_ne _ _ (by omega)
    · have hge : z.ways ≤ i := by omega
      obtain ⟨hp1, hp2⟩ := hi.parent_lt hge hin
      obtain ⟨len, l1, l2, l3, l4, l5, l6⟩ := ih (parent st.candidates i) (by omega) (by omega)
      refine ⟨len + 1, by omega, ?_, ?_, ?_, ?_, ?_⟩
      · have h1 : (parent st.candidates i + z.ways) / z.ways ≤ i / z.ways :=
          Nat.div_le_div_right hp2
        rw [Nat.add_div_right _ (by omega : 0 < z.ways)] at h1
        omega
      · show anc st.candidates (len + 1 - 1) i < z.ways
        have : len + 1 - 1 = (len - 1) + 1 := by omega
        rw [this]
        exact l3
      · intro j hj
        cases j with
        | zero => exact hge
        | succ j => exact l4 j (by omega)
      · intro j hj
        cases j with
        | zero => exact le_refl _
        | succ j =>
          have := l5 j (by omega)
          show anc st.candidates j (parent st.candidates i) ≤ i
          omega
      · intro fuel sw k hf hk hlen
        obtain ⟨f, rfl⟩ : ∃ f, fuel = f + 1 := ⟨fuel - 1, by omega⟩
        obtain ⟨sw', w1, w2, w3, w4⟩ := l6 f (sw.set k (st.candidates.getD i default).pos)
          (k + 1) (by omega) (by simp only [List.length_set]; omega)
          (by simp only [List.length_set]; omega)
        refine ⟨sw', ?_, by rw [w2]; simp, ?_, ?_⟩
        · rw [walkParents, if_pos (Int.natCast_nonneg i), Int.toNat_natCast, hp1,
            u32_of_lt (by omega), w1]
          congr 2
          omega
        · intro j hj
          cases j with
          | zero =>
            rw [Nat.add_zero, w4 k (by omega)]
            exact getD_set_self _ _ (by omega)
          | succ j =>
            have := w3 j (by omega)
            rw [show k + (j + 1) = k + 1 + j by omega]
            exact this
        · intro j hj
          rw [w4 j (by omega)]
          exact getD_set_of_ne _ _ (by omega)



theorem mem_take_map {cs : List ZWalkInfo} {N x : Nat}
    (h : x ∈ (cs.take N).map ZWalkInfo.lineId) :
    ∃ i, i < N ∧ (cs.getD i default).lineId = x := by
  rw [List.mem_map] at h
  obtain ⟨c, hc, rfl⟩ := h
  rw [List.mem_iff_getElem] at hc
  obtain ⟨i, hi, rfl⟩ := hc
  rw [List.length_take] at hi
  refine ⟨i, by omega, ?_⟩
  rw [List.getElem_take, List.getD_eq_getElem cs default (by omega)]

/-- In a well-formed state, with a policy that picks one of the slots it is
offered, `preinsert` returns: the walk ends, no assertion fails, the winner is
the slot of a candidate `m`, its occupant is the writeback address, and the
chain of `m` is recorded. -/
theorem preinsert_spec {z : ZArray} (a : Address) (req : ReqPtr) (hw : WF z)
    (hrp : ∀ l, l ≠ [] → z.rp.rankCands z.trace req l ∈ l) :
    ∃ st m len sw offered,
      walk z a = some st ∧ WalkInv z a st 0 ∧ Chain z st m len sw
      ∧ preinsert z a req = some ((st.candidates.getD m default).lineId,
          z.array.getD (st.candidates.getD m default).lineId 0,
          { z with
            swapArray := sw
            swapArrayLen := len
            lastCandIdx := m
            trace := z.trace ++ [Event.rankCands req offered] }) := by
  have hg := hw.geom
  have hways := hg.ways_gt
  have hcge := hg.cands_ge
  have hclt := hg.cands_lt
  obtain ⟨st, hwalk, hi, hexit⟩ := walk_spec a hw
  have hfr := hi.fringe
  have hlen := hi.len
  -- the candidates handed to the policy
  obtain ⟨N, hN⟩ : ∃ N, N = if st.numCandidates > z.cands then z.cands else st.numCandidates :=
    ⟨_, rfl⟩
  have hN1 : N ≤ st.numCandidates := by rw [hN]; split <;> omega
  have hN2 : N ≤ z.cands := by rw [hN]; split <;> omega
  have hN3 : z.ways ≤ N := by rw [hN]; split <;> omega
  obtain ⟨offered, hoff⟩ : ∃ o, o = (st.candidates.take N).map ZWalkInfo.lineId := ⟨_, rfl⟩
  have hne : offered ≠ [] := by
    rw [hoff]
    intro h
    have := congrArg List.length h
    simp only [List.length_map, List.length_take, List.length_nil] at this
    omega
  obtain ⟨best, hbest0⟩ : ∃ b, b = z.rp.rankCands z.trace req offered := ⟨_, rfl⟩
  have hmem : best ∈ (st.candidates.take N).map ZWalkInfo.lineId := by
    rw [← hoff, hbest0]
    exact hrp offered hne
  obtain ⟨i0, hi0, hrank⟩ := mem_take_map hmem
  have hbound : best < z.numLines := by
    rw [← hrank, (hi.link i0 (by omega)).1]
    exact hw.bound _ (hi.link i0 (by omega)).2
  have hbest : u32 best = best := u32_of_lt (by have := hg.numLines_lt; omega)
  -- the first candidate with the winning slot
  obtain ⟨m, hm⟩ : ∃ m, m = findMinIdx st.candidates best 0 N := ⟨_, rfl⟩
  obtain ⟨_, m2, m3, m4⟩ := findMinIdx_spec N 0
    (⟨i0, Nat.zero_le _, by omega, hrank⟩ :
      ∃ i, 0 ≤ i ∧ i < 0 + N ∧ (st.candidates.getD i default).lineId = best)
  rw [← hm] at m2 m3 m4
  have hmN : m < N := by omega
  -- its chain
  obtain ⟨len, l1, l2, l3, l4, l5, l6⟩ := hi.chain hg m (by omega)
  have hlen2 : len ≤ z.cands / z.ways + 1 := by
    have : m / z.ways ≤ z.cands / z.ways := Nat.div_le_div_right (by omega)
    omega
  have hdiv : z.cands / z.ways ≤ z.cands := Nat.div_le_self _ _
  obtain ⟨sw, w1, w2, w3, _⟩ := l6 z.cands z.swapArray 0
    (by
      have : m / z.ways ≤ m := Nat.div_le_self _ _
      omega)
    (by rw [hg.swap_len]; omega) (by rw [hg.swap_len]; omega)
  refine ⟨st, m, len, sw, offered, hwalk, hi, ?_, ?_⟩
  · refine ⟨by omega, by omega, ?_, l1, hlen2, l3, l4, l5, w2, ?_⟩
    · intro j hj
      rw [m3]
      exact m4 j (Nat.zero_le _) hj
    · intro j hj
      have := w3 j hj
      rwa [Nat.zero_add] at this
  · unfold preinsert
    rw [hwalk]
    simp only
    have hc1 : ¬ (st.all_valid && decide (st.numCandidates < z.cands)) = true := by
      intro h
      rw [Bool.and_eq_true, decide_eq_true_eq] at h
      exact hexit ⟨h.2, h.1⟩
    rw [if_neg hc1, ← hN, ← hoff, ← hbest0, hbest]
    have hc2 : ¬ (!decide (best < z.numLines)) = true := by
      simp [hbound]
    rw [if_neg hc2, ← hm, toInt32_of_lt (by omega : m < 2 ^ 31), w1]
    simp only [Nat.zero_add]
    have hc3 : ¬ (!decide (0 < len)) = true := by
      simp; omega
    rw [if_neg hc3, m3]

/-! ## Z array: the commit step -/

theorem shiftChain_length (sw T : List Nat) (n : Nat) : (shiftChain sw T n).length = T.length := by
  unfold shiftChain
  induction n with
  | zero => rfl
  | succ n ih =>
    rw [List.range_succ, List.foldl_append]
    simp only [List.foldl_cons, List.foldl_nil, List.length_set]
    exact ih

theorem shiftChain_succ (sw T : List Nat) (n : Nat) :
    shiftChain sw T (n + 1)
      = (shiftChain sw T n).set (sw.getD n 0) ((shiftChain sw T n).getD (sw.getD (n + 1) 0) 0) := by
  unfold shiftChain
  rw [List.range_succ, List.foldl_append]
  rfl

/-- The state after `preinsert` and `postinsert`: only the chain record, the
indirection table, the slot of the winner, the swap statistic and the call
history change. -/
theorem insert_spec {z : ZArray} (a : Address) (req : ReqPtr) (hw : WF z)
    (hrp : ∀ l, l ≠ [] → z.rp.rankCands z.trace req l ∈ l) :
    ∃ st m len sw offered,
      WalkInv z a st 0 ∧ Chain z st m len sw
      ∧ preinsert z a req = some ((st.candidates.getD m default).lineId,
          z.array.getD (st.candidates.getD m default).lineId 0,
          { z with
            swapArray := sw
            swapArrayLen := len
            lastCandIdx := m
            trace := z.trace ++ [Event.rankCands req offered] })
      ∧ postinsert
          { z with
            swapArray := sw
            swapArrayLen := len
            lastCandIdx := m
            trace := z.trace ++ [Event.rankCands req offered] }
          a req (st.candidates.getD m default).lineId
        = some
          { z with
            swapArray := sw
            swapArrayLen := len
            lastCandIdx := m
            lookupArray := (shiftChain sw z.lookupArray (len - 1)).set (sw.getD (len - 1) 0)
              (st.candidates.getD m default).lineId
            array := z.array.set (st.candidates.getD m default).lineId a
            statSwaps := u64 (z.statSwaps + (len - 1))
            trace := z.trace ++ [Event.rankCands req offered]
              ++ [Event.replaced (st.candidates.getD m default).lineId,
                Event.store (st.candidates.getD m default).lineId a,
                Event.update (st.candidates.getD m default).lineId req] } := by
  obtain ⟨st, m, len, sw, offered, _, hi, hch, hpre⟩ := preinsert_spec a req hw hrp
  refine ⟨st, m, len, sw, offered, hi, hch, hpre, ?_⟩
  have hg := hw.geom
  have hdiv : z.cands / z.ways ≤ z.cands := Nat.div_le_self _ _
  have hclt := hg.cands_lt
  have hl1 := hch.len_pos
  have hl2 := hch.len_le
  have hsub : sub32 len 1 = len - 1 := sub32_one (by omega) (by omega)
  have h0 : sw.getD 0 0 = (st.candidates.getD m default).pos := hch.sw_get 0 (by omega)
  unfold postinsert
  simp only
  have hc : ¬ (!decide (z.lookupArray.getD (sw.getD 0 0) 0
      = (st.candidates.getD m default).lineId)) = true := by
    rw [h0, ← (hi.link m hch.lt).1]
    simp
  rw [if_neg hc, hsub]

/-- A lookup that returns `-1` found the address in none of its `ways` slots. -/
theorem lookup_miss {z : ZArray} {a : Address} {req : ReqPtr} {upd : Bool} (hg : Geom z)
    (ha : a ≠ 0) (hmiss : (lookup z a req upd).map Prod.fst = some (-1)) :
    ∀ u, u < z.ways → z.array.getD (z.lookupArray.getD (pos z u a) 0) 0 ≠ a := by
  rcases (lookup_spec z a req upd hg).2 ha with ⟨w, _, _, _, _, hne, _, h⟩ | ⟨h, _⟩
  · rw [h] at hmiss
    simp only [Option.map_some', Option.some.injEq] at hmiss
    exact absurd hmiss hne
  · exact h

/-- An address that `lookup` misses in a well-formed state is in no slot. -/
theorem WF.not_resident {z : ZArray} (hw : WF z) {a : Address} (ha : a ≠ 0)
    (hmiss : ∀ u, u < z.ways → z.array.getD (z.lookupArray.getD (pos z u a) 0) 0 ≠ a) :
    ∀ x, z.array.getD x 0 ≠ a := by
  intro x hx
  have hlt : x < z.numLines := by
    have := getD_ne_zero_lt (hx ▸ ha : z.array.getD x 0 ≠ 0)
    rw [hw.geom.array_len] at this
    exact this
  obtain ⟨w, hwv, hwx⟩ := hw.referenced x hlt (hx ▸ ha)
  rw [hx] at hwx
  exact hmiss w hwv (by rw [hwx]; exact hx)

/-- The geometry is not touched by an insertion. -/
theorem Geom.after_insert {z : ZArray} (hg : Geom z) (sw T : List Nat) (arr : List Address)
    (len m stat : Nat) (t : List Event) (h1 : sw.length = z.swapArray.length)
    (h2 : T.length = z.lookupArray.length) (h3 : arr.length = z.array.length) :
    Geom { z with swapArray := sw, swapArrayLen := len, lastCandIdx := m, lookupArray := T,
                  array := arr, statSwaps := stat, trace := t } :=
  ⟨hg.ways_gt, hg.cands_ge, hg.numSets_eq, hg.multiple, hg.pow2, hg.setMask_eq,
    h3.trans hg.array_len, h2.trans hg.lookup_len, h1.trans hg.swap_len, hg.numLines_lt,
    hg.cands_lt⟩

/-- The result of a lookup in a state where exactly slot `c` holds the address
and one of the positions of the address refers to `c`. -/
theorem lookup_eq_of_only {z : ZArray} (hg : Geom z) {a : Address} (ha : a ≠ 0) {c : Nat}
    (req : ReqPtr) (upd : Bool)
    (hc : ∀ x, z.array.getD x 0 = a → x = c)
    (hr : ∃ w, w < z.ways ∧ z.lookupArray.getD (pos z w a) 0 = c ∧ z.array.getD c 0 = a) :
    (lookup z a req upd).map Prod.fst = some (toInt32 c) := by
  rcases (lookup_spec z a req upd hg).2 ha with ⟨w, _, h2, _, _, _, _, h⟩ | ⟨h, _⟩
  · rw [h, hc _ h2]
    rfl
  · obtain ⟨w, hwv, h1, h2⟩ := hr
    exact absurd (by rw [h1]; exact h2) (h w hwv)

/-- The result of a lookup of an address that is in no slot. -/
theorem lookup_eq_neg_one {z : ZArray} (hg : Geom z) {a : Address} (ha : a ≠ 0)
    (req : ReqPtr) (upd : Bool) (hc : ∀ x, z.array.getD x 0 ≠ a) :
    (lookup z a req upd).map Prod.fst = some (-1) := by
  rcases (lookup_spec z a req upd hg).2 ha with ⟨w, _, h2, _, _, _, _, _⟩ | ⟨_, h⟩
  · exact absurd h2 (hc _)
  · rw [h]; rfl

/-! ## Z array: properties of the specification -/

/-- C8. ZArray insert round trip: in a well-formed state, for a non-zero address
`a` with `lookup(a) = -1` and a policy that returns one of the slots it is
offered, `c = preinsert(a)` and `postinsert(a, c)` both return, and afterwards
`a` is lookup-reachable: slot `c` holds `a`, one of the `ways` positions of `a`
refers to `c`, and `lookup(a)` returns `c` (as an `int32_t`; the slot id itself
for arrays of at most `2^31` lines). -/
theorem insert_reachable (z : ZArray) (a : Address) (req : ReqPtr) (upd : Bool) (hw : WF z)
    (ha : a ≠ 0) (hmiss : (lookup z a req upd).map Prod.fst = some (-1))
    (hrp : ∀ l, l ≠ [] → z.rp.rankCands z.trace req l ∈ l) :
    ∃ c W z1 z2, preinsert z a req = some (c, W, z1) ∧ postinsert z1 a req c = some z2
      ∧ z2.array.getD c 0 = a
      ∧ (∃ w, w < z2.ways ∧ z2.lookupArray.getD (pos z2 w a) 0 = c)
      ∧ (∀ req' upd', (lookup z2 a req' upd').map Prod.fst = some (toInt32 c))
      ∧ (z.numLines ≤ 2 ^ 31 → toInt32 c = (c : Int)) := by
  have hg := hw.geom
  obtain ⟨st, m, len, sw, offered, hi, hch, hpre, hpost⟩ := insert_spec a req hw hrp
  have hnot := hw.not_resident ha (lookup_miss hg ha hmiss)
  refine ⟨_, _, _, _, hpre, hpost, ?_, ?_, ?_, ?_⟩ <;> dsimp only
  all_goals
    have hclt : (st.candidates.getD m default).lineId < z.numLines := by
      rw [(hi.link m hch.lt).1]
      exact hw.bound _ (hi.link m hch.lt).2
    have hset : (z.array.set (st.candidates.getD m default).lineId a).getD
        (st.candidates.getD m default).lineId 0 = a :=
      getD_set_self a 0 (by rw [hg.array_len]; exact hclt)
    have hl1 := hch.len_pos
    have hseed : ((shiftChain sw z.lookupArray (len - 1)).set (sw.getD (len - 1) 0)
          (st.candidates.getD m default).lineId).getD
            (pos z (anc st.candidates (len - 1) m) a) 0
        = (st.candidates.getD m default).lineId := by
      rw [hch.sw_get (len - 1) (by omega), hi.seeds _ hch.seed]
      exact getD_set_self _ _ (by
        rw [shiftChain_length, hg.lookup_len]
        exact hg.pos_lt hch.seed a)
  · exact hset
  · exact ⟨_, hch.seed, hseed⟩
  · intro req' upd'
    refine lookup_eq_of_only (hg.after_insert _ _ _ _ _ _ _ hch.sw_len
      (by rw [List.length_set, shiftChain_length]) (by rw [List.length_set])) ha req' upd'
      ?_ ⟨_, hch.seed, hseed, hset⟩
    intro x hx
    dsimp only at hx
    by_contra hne
    rw [getD_set_of_ne a 0 (Ne.symm hne)] at hx
    exact hnot x hx
  · intro hint
    exact toInt32_of_lt (by omega)

/-- C9. ZArray eviction: in a well-formed state, for a non-resident non-zero
address `a` and a policy that returns one of the slots it is offered, after
`preinsert(a)` reported the writeback address `W` and `postinsert` committed,
`W` (when non-zero) is in no slot of the array and `lookup(W)` returns `-1`. -/
theorem insert_evicts_writeback (z : ZArray) (a : Address) (req : ReqPtr) (upd : Bool)
    (hw : WF z) (ha : a ≠ 0) (hmiss : (lookup z a req upd).map Prod.fst = some (-1))
    (hrp : ∀ l, l ≠ [] → z.rp.rankCands z.trace req l ∈ l) :
    ∃ c W z1 z2, preinsert z a req = some (c, W, z1) ∧ postinsert z1 a req c = some z2
      ∧ W = z.array.getD c 0
      ∧ (W ≠ 0 → (∀ x, z2.array.getD x 0 ≠ W)
          ∧ ∀ req' upd', (lookup z2 W req' upd').map Prod.fst = some (-1)) := by
  have hg := hw.geom
  obtain ⟨st, m, len, sw, offered, hi, hch, hpre, hpost⟩ := insert_spec a req hw hrp
  have hnot := hw.not_resident ha (lookup_miss hg ha hmiss)
  refine ⟨_, _, _, _, hpre, hpost, rfl, fun hW => ?_⟩
  dsimp only
  have hclt : (st.candidates.getD m default).lineId < z.numLines := by
    rw [(hi.link m hch.lt).1]
    exact hw.bound _ (hi.link m hch.lt).2
  have hgone : ∀ x, (z.array.set (st.candidates.getD m default).lineId a).getD x 0
      ≠ z.array.getD (st.candidates.getD m default).lineId 0 := by
    intro x hx
    by_cases hxc : x = (st.candidates.getD m default).lineId
    · rw [hxc, getD_set_self a 0 (by rw [hg.array_len]; exact hclt)] at hx
      exact hnot _ hx.symm
    · rw [getD_set_of_ne a 0 (Ne.symm hxc)] at hx
      have hxlt : x < z.numLines := by
        have := getD_ne_zero_lt (hx ▸ hW : z.array.getD x 0 ≠ 0)
        rw [hg.array_len] at this
        exact this
      exact hxc (hw.unique _ hclt _ hxlt hW hx.symm).symm
  refine ⟨hgone, fun req' upd' => ?_⟩
  exact lookup_eq_neg_one (hg.after_insert _ _ _ _ _ _ _ hch.sw_len
    (by rw [List.length_set, shiftChain_length]) (by rw [List.length_set])) hW req' upd' hgone

/-! ## Z array: the chain positions are distinct -/

/-- Two candidates with the same slot have the same children: a child of the
later one is preceded by a child of the earlier one with the same slot. -/
theorem WalkInv.child_before {z : ZArray} {a : Address} {st : ZWalk} (hi : WalkInv z a st 0)
    {x c : Nat} (hx : x < parent st.candidates c)
    (hid : (st.candidates.getD x default).lineId
      = (st.candidates.getD (parent st.candidates c) default).lineId)
    (hc1 : z.ways ≤ c) (hc2 : c < st.numCandidates) :
    ∃ c', c' < c ∧ (st.candidates.getD c' default).lineId = (st.candidates.getD c default).lineId := by
  obtain ⟨p, w, k1, _, k3, k4, k5, k6⟩ := hi.kids c hc1 hc2
  have hp : parent st.candidates c = p := by
    unfold parent; rw [k1]; rfl
  rw [hp] at hx hid
  have hpfs : p < st.fringeStart := by
    rcases k4 with h | ⟨_, h⟩
    · exact h
    · omega
  have hlink := (hi.link c hc2).1
  obtain ⟨c', c1, c2, c3, c4⟩ := hi.complete x w k3 (Or.inl (by omega)) (by
    rw [hid, ← k5, ← hlink]
    exact k6)
  rw [hid, ← k5] at c4
  refine ⟨c', ?_, ?_⟩
  · by_contra hge
    have := hi.order c c' hc1 (by omega) c2
    rw [k1, c3] at this
    omega
  · rw [(hi.link c' c2).1, c4, ← hlink]

/-- A candidate with an ancestor whose slot occurs at a smaller index is itself
preceded by a candidate with its slot. -/
theorem WalkInv.descend {z : ZArray} {a : Address} {st : ZWalk} (hi : WalkInv z a st 0)
    (d : Nat) :
    ∀ m x, m < st.numCandidates → (∀ j, j < d → z.ways ≤ anc st.candidates j m) →
      (∀ j, j ≤ d → anc st.candidates j m ≤ m) →
      x < anc st.candidates d m →
      (st.candidates.getD x default).lineId
        = (st.candidates.getD (anc st.candidates d m) default).lineId →
      ∃ m', m' < m
        ∧ (st.candidates.getD m' default).lineId = (st.candidates.getD m default).lineId := by
  induction d with
  | zero =>
    intro m x _ _ _ hx hid
    exact ⟨x, hx, hid⟩
  | succ d ih =>
    intro m x hm hin hle hx hid
    rw [anc_succ] at hx hid
    have hcle := hle d (by omega)
    obtain ⟨c', c1, c2⟩ := hi.child_before hx hid (hin d (by omega)) (by omega)
    exact ih m c' hm (fun j hj => hin j (by omega)) (fun j hj => hle j (by omega)) c1 c2

/-- Along the chain the candidate indices decrease. -/
theorem Chain.anc_lt {z : ZArray} {a : Address} {st : ZWalk} {m len : Nat} {sw : List Nat}
    (hg : Geom z) (hi : WalkInv z a st 0) (hch : Chain z st m len sw) (j2 : Nat) :
    ∀ j1, j1 < j2 → j2 < len → anc st.candidates j2 m < anc st.candidates j1 m := by
  induction j2 with
  | zero => intro j1 h; omega
  | succ j2 ih =>
    intro j1 h1 h2
    have hstep : anc st.candidates (j2 + 1) m < anc st.candidates j2 m := by
      rw [anc_succ]
      have h3 := hch.inner j2 h2
      have h4 := hch.le j2 (by omega)
      have h5 := hch.lt
      have := (hi.parent_lt h3 (by omega)).2
      have := hg.ways_gt
      omega
    by_cases hj : j1 = j2
    · subst hj; exact hstep
    · exact lt_trans hstep (ih j1 (by omega) (by omega))

/-- The slots of the candidates on the chain of the winner are pairwise
distinct: the winner is the first candidate with its slot. -/
theorem Chain.lineId_ne {z : ZArray} {a : Address} {st : ZWalk} {m len : Nat} {sw : List Nat}
    (hg : Geom z) (hi : WalkInv z a st 0) (hch : Chain z st m len sw) {j1 j2 : Nat} (h1 : j1 < j2)
    (h2 : j2 < len) :
    (st.candidates.getD (anc st.candidates j1 m) default).lineId
      ≠ (st.candidates.getD (anc st.candidates j2 m) default).lineId := by
  intro heq
  obtain ⟨m', hm1, hm2⟩ := hi.descend j1 m (anc st.candidates j2 m) hch.lt
    (fun j hj => hch.inner j (by omega)) (fun j hj => hch.le j (by omega))
    (hch.anc_lt hg hi j2 j1 h1 h2) heq.symm
  exact hch.minimal m' hm1 hm2

/-- The positions recorded in the swap chain are pairwise distinct. -/
theorem Chain.pos_ne {z : ZArray} {a : Address} {st : ZWalk} {m len : Nat} {sw : List Nat}
    (hg : Geom z) (hi : WalkInv z a st 0) (hch : Chain z st m len sw) {j1 j2 : Nat} (h1 : j1 < j2)
    (h2 : j2 < len) : sw.getD j1 0 ≠ sw.getD j2 0 := by
  intro heq
  rw [hch.sw_get j1 (by omega), hch.sw_get j2 h2] at heq
  have hl := hch.lt
  have l1 := (hi.link (anc st.candidates j1 m) (by have := hch.le j1 (by omega); omega)).1
  have l2 := (hi.link (anc st.candidates j2 m) (by have := hch.le j2 h2; omega)).1
  rw [heq, ← l2] at l1
  exact hch.lineId_ne hg hi h1 h2 l1

/-- The positions recorded in the swap chain lie in the indirection table. -/
theorem Chain.pos_in_table {z : ZArray} {a : Address} {st : ZWalk} {m len : Nat} {sw : List Nat}
    (hi : WalkInv z a st 0) (hch : Chain z st m len sw) {j : Nat} (h : j < len) :
    sw.getD j 0 < z.numLines := by
  rw [hch.sw_get j h]
  have := hch.le j h
  have := hch.lt
  exact (hi.link _ (by omega)).2

/-- The shift loop over pairwise distinct positions: each of the first `n`
positions receives the old entry of the next one, all other entries stay. -/
theorem shiftChain_spec (sw T : List Nat) (n : Nat) :
    (∀ j, j ≤ n → sw.getD j 0 < T.length) →
    (∀ j1 j2, j1 < j2 → j2 ≤ n → sw.getD j1 0 ≠ sw.getD j2 0) →
    (∀ j, j < n → (shiftChain sw T n).getD (sw.getD j 0) 0 = T.getD (sw.getD (j + 1) 0) 0)
    ∧ (∀ q, (∀ j, j < n → q ≠ sw.getD j 0) → (shiftChain sw T n).getD q 0 = T.getD q 0) := by
  induction n with
  | zero =>
    intro _ _
    exact ⟨fun j hj => absurd hj (by omega), fun q _ => rfl⟩
  | succ n ih =>
    intro hlt hne
    obtain ⟨i1, i2⟩ := ih (fun j hj => hlt j (by omega)) (fun j1 j2 h1 h2 => hne j1 j2 h1 (by omega))
    have hnext : (shiftChain sw T n).getD (sw.getD (n + 1) 0) 0 = T.getD (sw.getD (n + 1) 0) 0 :=
      i2 _ (fun j hj => (hne j (n + 1) (by omega) (le_refl _)).symm)
    rw [shiftChain_succ, hnext]
    constructor
    · intro j hj
      by_cases hjn : j = n
      · subst hjn
        exact getD_set_self _ _ (by rw [shiftChain_length]; exact hlt j (by omega))
      · rw [getD_set_of_ne _ _ (Ne.symm (hne j n (by omega) (by omega)))]
        exact i1 j (by omega)
    · intro q hq
      rw [getD_set_of_ne _ _ (Ne.symm (hq n (by omega)))]
      exact i2 q (fun j hj => hq j (by omega))

/-- The indirection table after `postinsert`: the seed position refers to the
winner, every other chain position refers to the slot its successor referred
to, and the positions off the chain are unchanged. -/
theorem Chain.table {z : ZArray} {a : Address} {st : ZWalk} {m len : Nat} {sw : List Nat}
    (hg : Geom z) (hi : WalkInv z a st 0) (hch : Chain z st m len sw) (c : Nat) :
    (∀ j, j + 1 < len →
      ((shiftChain sw z.lookupArray (len - 1)).set (sw.getD (len - 1) 0) c).getD (sw.getD j 0) 0
        = z.lookupArray.getD (sw.getD (j + 1) 0) 0)
    ∧ (∀ q, (∀ j, j < len → q ≠ sw.getD j 0) →
      ((shiftChain sw z.lookupArray (len - 1)).set (sw.getD (len - 1) 0) c).getD q 0
        = z.lookupArray.getD q 0) := by
  have hl := hch.len_pos
  obtain ⟨s1, s2⟩ := shiftChain_spec sw z.lookupArray (len - 1)
    (fun j hj => by rw [hg.lookup_len]; exact hch.pos_in_table hi (by omega))
    (fun j1 j2 h1 h2 => hch.pos_ne hg hi h1 (by omega))
  constructor
  · intro j hj
    rw [getD_set_of_ne _ _ (Ne.symm (hch.pos_ne hg hi (by omega : j < len - 1) (by omega)))]
    exact s1 j (by omega)
  · intro q hq
    rw [getD_set_of_ne _ _ (Ne.symm (hq (len - 1) (by omega)))]
    exact s2 q (fun j hj => hq j (by omega))

/-- C10. ZArray relocation keeps displaced lines reachable: in a well-formed
state, for the insertion of a non-resident non-zero address `a` with a policy
that returns one of the slots it is offered, every non-zero address `B` other
than the reported writeback address that `lookup` found in slot `s` before the
insertion is still found in slot `s` afterwards (slots are returned as
`int32_t`); one of the `ways` positions of `B` refers to `s` in the new
indirection table. -/
theorem insert_keeps_others (z : ZArray) (a : Address) (req : ReqPtr) (upd : Bool)
    (hw : WF z) (ha : a ≠ 0) (hmiss : (lookup z a req upd).map Prod.fst = some (-1))
    (hrp : ∀ l, l ≠ [] → z.rp.rankCands z.trace req l ∈ l) :
    ∃ c W z1 z2, preinsert z a req = some (c, W, z1) ∧ postinsert z1 a req c = some z2
      ∧ ∀ (B : Address) (s : Nat) (req1 : ReqPtr) (upd1 : Bool), B ≠ 0 → B ≠ W →
          s < z.numLines → (lookup z B req1 upd1).map Prod.fst = some (toInt32 s) →
          z2.array.getD s 0 = B
          ∧ (∃ w, w < z2.ways ∧ z2.lookupArray.getD (pos z2 w B) 0 = s)
          ∧ ∀ req2 upd2, (lookup z2 B req2 upd2).map Prod.fst = some (toInt32 s) := by
  have hg := hw.geom
  obtain ⟨st, m, len, sw, offered, hi, hch, hpre, hpost⟩ := insert_spec a req hw hrp
  have hnot := hw.not_resident ha (lookup_miss hg ha hmiss)
  refine ⟨_, _, _, _, hpre, hpost, ?_⟩
  intro B s req1 upd1 hB hBW hs hfound
  dsimp only
  -- where `B` was found
  obtain ⟨w, hwv, hws, hsB⟩ : ∃ w, w < z.ways ∧ z.lookupArray.getD (pos z w B) 0 = s
      ∧ z.array.getD s 0 = B := by
    have hl := hg.numLines_lt
    rcases (lookup_spec z B req1 upd1 hg).2 hB with ⟨w, h1, h2, _, h3, _, _, h⟩ | ⟨_, h⟩
    · rw [h] at hfound
      simp only [Option.map_some', Option.some.injEq] at hfound
      have := toInt32_inj (by omega) (by omega) hfound
      exact ⟨w, h1, this, this ▸ h2⟩
    · rw [h] at hfound
      simp only [Option.map_some', Option.some.injEq] at hfound
      exact absurd hfound.symm (toInt32_ne_neg_one (by omega))
  have hslt : s < z.numLines := by
    have := getD_ne_zero_lt (hsB ▸ hB : z.array.getD s 0 ≠ 0)
    rw [hg.array_len] at this
    exact this
  have hsc : s ≠ (st.candidates.getD m default).lineId := by
    intro h
    rw [h] at hsB
    exact hBW hsB.symm
  have hset : (z.array.set (st.candidates.getD m default).lineId a).getD s 0 = B := by
    rw [getD_set_of_ne a 0 (Ne.symm hsc)]
    exact hsB
  have hclt : (st.candidates.getD m default).lineId < z.numLines := by
    rw [(hi.link m hch.lt).1]
    exact hw.bound _ (hi.link m hch.lt).2
  -- a position of `B` that refers to `s` in the new table
  obtain ⟨t1, t2⟩ := hch.table hg hi (st.candidates.getD m default).lineId
  have href : ∃ w', w' < z.ways
      ∧ ((shiftChain sw z.lookupArray (len - 1)).set (sw.getD (len - 1) 0)
          (st.candidates.getD m default).lineId).getD (pos z w' B) 0 = s := by
    by_cases hon : ∃ j, j < len ∧ pos z w B = sw.getD j 0
    · obtain ⟨j, hj, hq⟩ := hon
      have hanc : anc st.candidates j m < st.numCandidates := by
        have := hch.le j hj
        have := hch.lt
        omega
      have hsj : (st.candidates.getD (anc st.candidates j m) default).lineId = s := by
        rw [(hi.link _ hanc).1, ← hch.sw_get j hj, ← hq]
        exact hws
      cases j with
      | zero => exact absurd hsj.symm hsc
      | succ j =>
        have hin := hch.inner j hj
        have hlt' : anc st.candidates j m < st.numCandidates := by
          have := hch.le j (by omega)
          have := hch.lt
          omega
        obtain ⟨p, w', k1, _, k3, _, k5, _⟩ := hi.kids _ hin hlt'
        have hp : anc st.candidates (j + 1) m = p := by
          rw [anc_succ]; unfold parent; rw [k1]; rfl
        rw [← hp, hsj, hsB] at k5
        refine ⟨w', k3, ?_⟩
        rw [← k5, ← hch.sw_get j (by omega), t1 j hj, ← hq]
        exact hws
    · refine ⟨w, hwv, ?_⟩
      rw [t2 _ (fun j hj hq => hon ⟨j, hj, hq⟩)]
      exact hws
  refine ⟨hset, href, fun req2 upd2 => ?_⟩
  obtain ⟨w', hw1, hw2⟩ := href
  refine lookup_eq_of_only (hg.after_insert _ _ _ _ _ _ _ hch.sw_len
    (by rw [List.length_set, shiftChain_length]) (by rw [List.length_set])) hB req2 upd2
    ?_ ⟨w', hw1, hw2, hset⟩
  intro x hx
  dsimp only at hx
  by_cases hxc : x = (st.candidates.getD m default).lineId
  · rw [hxc, getD_set_self a 0 (by rw [hg.array_len]; exact hclt)] at hx
    exact absurd (hx ▸ hsB) (hnot s)
  · rw [getD_set_of_ne a 0 (Ne.symm hxc)] at hx
    have hxlt : x < z.numLines := by
      have := getD_ne_zero_lt (hx ▸ hB : z.array.getD x 0 ≠ 0)
      rw [hg.array_len] at this
      exact this
    exact hw.unique x hxlt s hslt (hx ▸ hB) (hx.trans hsB.symm)

end ZArray

namespace ZArray

/-! ## Z array: the properties at a concrete array -/

theorem lastOffered_mem (t : List Event) (req : ReqPtr) :
    ∀ l : List Nat, l ≠ [] → lastOffered.rankCands t req l ∈ l := by
  intro l hl
  show l.getLastD 0 ∈ l
  cases l with
  | nil => exact absurd rfl hl
  | cons x xs =>
    rw [List.getLastD_cons]
    exact List.getLastD_mem_cons xs x

theorem demoZArray_geom : Geom demoZArray :=
  ⟨by decide, by decide, by decide, by decide, by decide, by decide, by decide, by decide,
    by decide, by decide, by decide⟩

theorem demoZArray_wf : WF demoZArray :=
  ⟨demoZArray_geom, by decide, by decide, by decide, by decide⟩

theorem lookup_spec_witness :
    Geom demoZArray ∧ (lookup demoZArray 0 none false = none ↔ (0 : Address) = 0) :=
  ⟨demoZArray_geom, (lookup_spec demoZArray 0 none false demoZArray_geom).1⟩

theorem insert_reachable_witness :
    WF demoZArray ∧ (6 : Address) ≠ 0
    ∧ (lookup demoZArray 6 none false).map Prod.fst = some (-1)
    ∧ ∃ c W z1 z2, preinsert demoZArray 6 none = some (c, W, z1)
        ∧ postinsert z1 6 none c = some z2
        ∧ z2.array.getD c 0 = 6
        ∧ (∃ w, w < z2.ways ∧ z2.lookupArray.getD (pos z2 w 6) 0 = c)
        ∧ (∀ req' upd', (lookup z2 6 req' upd').map Prod.fst = some (toInt32 c))
        ∧ (demoZArray.numLines ≤ 2 ^ 31 → toInt32 c = (c : Int)) :=
  ⟨demoZArray_wf, by decide, by decide,
    insert_reachable demoZArray 6 none false demoZArray_wf (by decide) (by decide)
      (lastOffered_mem _ _)⟩

theorem insert_evicts_writeback_witness :
    WF demoZArray ∧ (6 : Address) ≠ 0
    ∧ (lookup demoZArray 6 none false).map Prod.fst = some (-1)
    ∧ ∃ c W z1 z2, preinsert demoZArray 6 none = some (c, W, z1)
        ∧ postinsert z1 6 none c = some z2
        ∧ W = demoZArray.array.getD c 0
        ∧ (W ≠ 0 → (∀ x, z2.array.getD x 0 ≠ W)
            ∧ ∀ req' upd', (lookup z2 W req' upd').map Prod.fst = some (-1)) :=
  ⟨demoZArray_wf, by decide, by decide,
    insert_evicts_writeback demoZArray 6 none false demoZArray_wf (by decide) (by decide)
      (lastOffered_mem _ _)⟩

theorem insert_keeps_others_witness :
    WF demoZArray ∧ (6 : Address) ≠ 0
    ∧ (lookup demoZArray 6 none false).map Prod.fst = some (-1)
    ∧ ∃ c W z1 z2, preinsert demoZArray 6 none = some (c, W, z1)
        ∧ postinsert z1 6 none c = some z2
        ∧ ∀ (B : Address) (s : Nat) (req1 : ReqPtr) (upd1 : Bool), B ≠ 0 → B ≠ W →
            s < demoZArray.numLines →
            (lookup demoZArray B req1 upd1).map Prod.fst = some (toInt32 s) →
            z2.array.getD s 0 = B
            ∧ (∃ w, w < z2.ways ∧ z2.lookupArray.getD (pos z2 w B) 0 = s)
            ∧ ∀ req2 upd2, (lookup z2 B req2 upd2).map Prod.fst = some (toInt32 s) :=
  ⟨demoZArray_wf, by decide, by decide,
    insert_keeps_others demoZArray 6 none false demoZArray_wf (by decide) (by decide)
      (lastOffered_mem _ _)⟩

end ZArray

namespace ZArray

/-! ## Z array: where the chain ends, and what the commit step replays -/

theorem freshZArray_geom : Geom freshZArray :=
  ⟨by decide, by decide, by decide, by decide, by decide, by decide, by decide, by decide,
    by decide, by decide, by decide⟩

theorem freshZArray_wf : WF freshZArray :=
  ⟨freshZArray_geom, by decide, by decide, by decide, by decide⟩

/-- The last recorded chain position is a seed position of the inserted address
and refers to the winner after `postinsert`. -/
theorem Chain.seed_entry {z : ZArray} {a : Address} {st : ZWalk} {m len : Nat} {sw : List Nat}
    (hg : Geom z) (hi : WalkInv z a st 0) (hch : Chain z st m len sw) (c : Nat) :
    sw.getD (len - 1) 0 = pos z (anc st.candidates (len - 1) m) a
    ∧ ((shiftChain sw z.lookupArray (len - 1)).set (sw.getD (len - 1) 0) c).getD
        (pos z (anc st.candidates (len - 1) m) a) 0 = c := by
  have hl1 := hch.len_pos
  have h1 : sw.getD (len - 1) 0 = pos z (anc st.candidates (len - 1) m) a := by
    rw [hch.sw_get (len - 1) (by omega), hi.seeds _ hch.seed]
  refine ⟨h1, ?_⟩
  rw [h1]
  exact getD_set_self _ _ (by
    rw [shiftChain_length, hg.lookup_len]
    exact hg.pos_lt hch.seed a)

/-- C11 (as stated, refuted). In the freshly constructed 8-line, 2-way array
the insertion of address 1 (a miss, with a policy that picks an offered slot)
stores the line in slot 4, the seed of way 1, while the entry at the way-0
position of the address still refers to slot 1, which is empty. -/
theorem insert_way0_counterexample :
    WF freshZArray
    ∧ (lookup freshZArray 1 none false).map Prod.fst = some (-1)
    ∧ (insert freshZArray 1 none).map
        (fun z2 => (z2.lookupArray.getD (pos z2 0 1) 0,
          z2.array.getD (z2.lookupArray.getD (pos z2 0 1) 0) 0, z2.array.getD 4 0))
      = some (1, 0, 1) :=
  ⟨freshZArray_wf, by decide, by decide⟩

/-- C11 (amended). In a well-formed state, with a policy that returns one of the
slots it is offered, an insertion of address `a` (`preinsert`, then
`postinsert`) places the new line at the seed position at which the recorded
chain ends: that position is the position of `a` in some way `w < ways` (the
way of the seed at the root of the winner), not necessarily way 0, and afterwards
the indirection-table entry there is the slot that holds `a`. -/
theorem insert_seed_position (z : ZArray) (a : Address) (req : ReqPtr) (hw : WF z)
    (hrp : ∀ l, l ≠ [] → z.rp.rankCands z.trace req l ∈ l) :
    ∃ c W z1 z2, preinsert z a req = some (c, W, z1) ∧ postinsert z1 a req c = some z2
      ∧ ∃ w, w < z.ways
        ∧ z1.swapArray.getD (z1.swapArrayLen - 1) 0 = pos z w a
        ∧ z2.lookupArray.getD (pos z w a) 0 = c
        ∧ z2.array.getD c 0 = a := by
  have hg := hw.geom
  obtain ⟨st, m, len, sw, offered, hi, hch, hpre, hpost⟩ := insert_spec a req hw hrp
  refine ⟨_, _, _, _, hpre, hpost, anc st.candidates (len - 1) m, hch.seed, ?_⟩
  dsimp only
  obtain ⟨s1, s2⟩ := hch.seed_entry hg hi (st.candidates.getD m default).lineId
  have hclt : (st.candidates.getD m default).lineId < z.numLines := by
    rw [(hi.link m hch.lt).1]
    exact hw.bound _ (hi.link m hch.lt).2
  exact ⟨s1, s2, getD_set_self a 0 (by rw [hg.array_len]; exact hclt)⟩

theorem insert_seed_position_witness :
    WF demoZArray
    ∧ ∃ c W z1 z2, preinsert demoZArray 6 none = some (c, W, z1)
      ∧ postinsert z1 6 none c = some z2
      ∧ ∃ w, w < demoZArray.ways
        ∧ z1.swapArray.getD (z1.swapArrayLen - 1) 0
            = pos demoZArray w 6
        ∧ z2.lookupArray.getD
            (pos demoZArray w 6) 0 = c
        ∧ z2.array.getD c 0 = 6 :=
  ⟨demoZArray_wf, insert_seed_position demoZArray 6 none demoZArray_wf (lastOffered_mem _ _)⟩

/-- C14. ZArray candidate tree: in a well-formed state the walk of `preinsert`
returns; every seed candidate (index below `ways`) has parent `-1`; every later
candidate has a parent index that is at least 0 and smaller than its own index;
for every candidate the loop along the parent links returns (with fuel and a
buffer at least as long as the chain) after `len ≥ 1` steps, the last one at a
seed; and when the policy returns an offered slot, the recorded swap chain is
non-empty, begins at the position of the first candidate with the winning slot
and ends at one of the `ways` seed positions of the inserted address. -/
theorem candidate_tree (z : ZArray) (a : Address) (req : ReqPtr) (hw : WF z) :
    ∃ st, walk z a = some st
      ∧ (∀ i, i < z.ways → (st.candidates.getD i default).parentIdx = -1)
      ∧ (∀ i, z.ways ≤ i → i < st.numCandidates →
          0 ≤ (st.candidates.getD i default).parentIdx
          ∧ (st.candidates.getD i default).parentIdx < (i : Int))
      ∧ (∀ i, i < st.numCandidates → ∃ len, 1 ≤ len ∧ anc st.candidates (len - 1) i < z.ways
          ∧ ∀ fuel sw, len ≤ fuel → len ≤ sw.length → sw.length < 2 ^ 32 →
              ∃ sw', walkParents st.candidates fuel (i : Int) sw 0 = some (sw', len))
      ∧ ((∀ l, l ≠ [] → z.rp.rankCands z.trace req l ∈ l) →
          ∃ c W z1 m, preinsert z a req = some (c, W, z1)
            ∧ 1 ≤ z1.swapArrayLen
            ∧ m < st.numCandidates ∧ (st.candidates.getD m default).lineId = c
            ∧ (∀ j, j < m → (st.candidates.getD j default).lineId ≠ c)
            ∧ z1.swapArray.getD 0 0 = (st.candidates.getD m default).pos
            ∧ (∀ j, j < z1.swapArrayLen →
                z1.swapArray.getD j 0 = (st.candidates.getD (anc st.candidates j m) default).pos)
            ∧ ∃ w, w < z.ways ∧ anc st.candidates (z1.swapArrayLen - 1) m = w
              ∧ z1.swapArray.getD (z1.swapArrayLen - 1) 0
                = pos z w a) := by
  have hg := hw.geom
  obtain ⟨st, hwalk, hi, _⟩ := walk_spec a hw
  refine ⟨st, hwalk, ?_, ?_, ?_, ?_⟩
  · intro i h
    rw [hi.seeds i h]
  · intro i h1 h2
    obtain ⟨p1, p2⟩ := hi.parent_lt h1 h2
    have := hg.ways_gt
    rw [p1]
    omega
  · intro i h
    obtain ⟨len, l1, _, l3, _, _, l6⟩ := hi.chain hg i h
    refine ⟨len, l1, l3, fun fuel sw h1 h2 h3 => ?_⟩
    obtain ⟨sw', w1, _⟩ := l6 fuel sw 0 h1 (by omega) h3
    rw [Nat.zero_add] at w1
    exact ⟨sw', w1⟩
  · intro hrp
    obtain ⟨st', m, len, sw, offered, hwalk', hi', hch, hpre⟩ := preinsert_spec a req hw hrp
    rw [hwalk] at hwalk'
    obtain rfl : st = st' := Option.some.inj hwalk'
    have hl1 := hch.len_pos
    refine ⟨_, _, _, m, hpre, hl1, hch.lt, rfl, hch.minimal, ?_, hch.sw_get, _, hch.seed, rfl, ?_⟩
    · exact hch.sw_get 0 (by omega)
    · exact (hch.seed_entry hg hi (st.candidates.getD m default).lineId).1

theorem candidate_tree_witness :
    WF demoZArray
    ∧ (∀ l, l ≠ [] → demoZArray.rp.rankCands demoZArray.trace none l ∈ l)
    ∧ ∃ st, walk demoZArray 6 = some st
      ∧ (∀ i, i < demoZArray.ways → (st.candidates.getD i default).parentIdx = -1)
      ∧ (∀ i, demoZArray.ways ≤ i → i < st.numCandidates →
          0 ≤ (st.candidates.getD i default).parentIdx
          ∧ (st.candidates.getD i default).parentIdx < (i : Int))
      ∧ (∀ i, i < st.numCandidates → ∃ len, 1 ≤ len
          ∧ anc st.candidates (len - 1) i < demoZArray.ways
          ∧ ∀ fuel sw, len ≤ fuel → len ≤ sw.length → sw.length < 2 ^ 32 →
              ∃ sw', walkParents st.candidates fuel (i : Int) sw 0 = some (sw', len))
      ∧ ∃ c W z1 m, preinsert demoZArray 6 none = some (c, W, z1)
          ∧ 1 ≤ z1.swapArrayLen
          ∧ m < st.numCandidates ∧ (st.candidates.getD m default).lineId = c
          ∧ (∀ j, j < m → (st.candidates.getD j default).lineId ≠ c)
          ∧ z1.swapArray.getD 0 0 = (st.candidates.getD m default).pos
          ∧ (∀ j, j < z1.swapArrayLen →
              z1.swapArray.getD j 0 = (st.candidates.getD (anc st.candidates j m) default).pos)
          ∧ ∃ w, w < demoZArray.ways ∧ anc st.candidates (z1.swapArrayLen - 1) m = w
            ∧ z1.swapArray.getD (z1.swapArrayLen - 1) 0 = pos demoZArray w 6 :=
  ⟨demoZArray_wf, lastOffered_mem _ _,
    (candidate_tree demoZArray 6 none demoZArray_wf).elim fun st h =>
      ⟨st, h.1, h.2.1, h.2.2.1, h.2.2.2.1, h.2.2.2.2 (lastOffered_mem _ _)⟩⟩

/-- C15. ZArray postinsert replays the chain recorded by the matching preinsert:
in a well-formed state, with a policy that returns one of the slots it is
offered, `preinsert(a)` and `postinsert(a, c)` return; the recorded chain
positions `p[0..n-1]` (`n ≥ 1`) are pairwise distinct; the entry assertion
`lookupArray[p[0]] == c` holds; the new indirection table `T2` has
`T2[p[i]] = T[p[i+1]]` for `i + 1 < n`, `T2[p[n-1]] = c` and agrees with the old
table `T` at every position off the chain; the slot storage is the old one with
`a` written at `c`; and the swap statistic grows by `n - 1` (as a `uint64_t`). -/
theorem postinsert_replays (z : ZArray) (a : Address) (req : ReqPtr) (hw : WF z)
    (hrp : ∀ l, l ≠ [] → z.rp.rankCands z.trace req l ∈ l) :
    ∃ c W z1 z2, preinsert z a req = some (c, W, z1) ∧ postinsert z1 a req c = some z2
      ∧ 1 ≤ z1.swapArrayLen
      ∧ z1.lookupArray = z.lookupArray
      ∧ (∀ j1 j2, j1 < j2 → j2 < z1.swapArrayLen →
          z1.swapArray.getD j1 0 ≠ z1.swapArray.getD j2 0)
      ∧ z1.lookupArray.getD (z1.swapArray.getD 0 0) 0 = c
      ∧ (∀ j, j + 1 < z1.swapArrayLen →
          z2.lookupArray.getD (z1.swapArray.getD j 0) 0
            = z.lookupArray.getD (z1.swapArray.getD (j + 1) 0) 0)
      ∧ z2.lookupArray.getD (z1.swapArray.getD (z1.swapArrayLen - 1) 0) 0 = c
      ∧ (∀ q, (∀ j, j < z1.swapArrayLen → q ≠ z1.swapArray.getD j 0) →
          z2.lookupArray.getD q 0 = z.lookupArray.getD q 0)
      ∧ z2.lookupArray.length = z.lookupArray.length
      ∧ c < z.numLines
      ∧ z2.array = z.array.set c a
      ∧ z2.array.getD c 0 = a
      ∧ (∀ s, s ≠ c → z2.array.getD s 0 = z.array.getD s 0)
      ∧ z2.statSwaps = u64 (z.statSwaps + (z1.swapArrayLen - 1))
      ∧ (z.statSwaps + (z1.swapArrayLen - 1) < 2 ^ 64 →
          z2.statSwaps = z.statSwaps + (z1.swapArrayLen - 1)) := by
  have hg := hw.geom
  obtain ⟨st, m, len, sw, offered, hi, hch, hpre, hpost⟩ := insert_spec a req hw hrp
  obtain ⟨t1, t2⟩ := hch.table hg hi (st.candidates.getD m default).lineId
  obtain ⟨s1, s2⟩ := hch.seed_entry hg hi (st.candidates.getD m default).lineId
  have hl1 := hch.len_pos
  have hclt : (st.candidates.getD m default).lineId < z.numLines := by
    rw [(hi.link m hch.lt).1]
    exact hw.bound _ (hi.link m hch.lt).2
  refine ⟨_, _, _, _, hpre, hpost, hl1, rfl, fun j1 j2 h1 h2 => hch.pos_ne hg hi h1 h2, ?_,
    t1, ?_, t2, ?_, hclt, rfl, getD_set_self a 0 (by rw [hg.array_len]; exact hclt),
    fun s hs => getD_set_of_ne a 0 (Ne.symm hs), rfl, fun h => u64_of_lt h⟩
  · dsimp only
    rw [hch.sw_get 0 (by omega)]
    exact (hi.link m hch.lt).1.symm
  · dsimp only
    have h := s2
    rw [← s1] at h
    exact h
  · dsimp only
    rw [List.length_set, shiftChain_length]

theorem postinsert_replays_witness :
    WF demoZArray
    ∧ ∃ c W z1 z2, preinsert demoZArray 6 none = some (c, W, z1)
      ∧ postinsert z1 6 none c = some z2
      ∧ 1 ≤ z1.swapArrayLen
      ∧ z1.lookupArray = demoZArray.lookupArray
      ∧ (∀ j1 j2, j1 < j2 → j2 < z1.swapArrayLen →
          z1.swapArray.getD j1 0 ≠ z1.swapArray.getD j2 0)
      ∧ z1.lookupArray.getD (z1.swapArray.getD 0 0) 0 = c
      ∧ (∀ j, j + 1 < z1.swapArrayLen →
          z2.lookupArray.getD (z1.swapArray.getD j 0) 0
            = demoZArray.lookupArray.getD (z1.swapArray.getD (j + 1) 0) 0)
      ∧ z2.lookupArray.getD (z1.swapArray.getD (z1.swapArrayLen - 1) 0) 0 = c
      ∧ (∀ q, (∀ j, j < z1.swapArrayLen → q ≠ z1.swapArray.getD j 0) →
          z2.lookupArray.getD q 0 = demoZArray.lookupArray.getD q 0)
      ∧ z2.lookupArray.length = demoZArray.lookupArray.length
      ∧ c < demoZArray.numLines
      ∧ z2.array = demoZArray.array.set c 6
      ∧ z2.array.getD c 0 = 6
      ∧ (∀ s, s ≠ c → z2.array.getD s 0 = demoZArray.array.getD s 0)
      ∧ z2.statSwaps = u64 (demoZArray.statSwaps + (z1.swapArrayLen - 1))
      ∧ (demoZArray.statSwaps + (z1.swapArrayLen - 1) < 2 ^ 64 →
          z2.statSwaps = demoZArray.statSwaps + (z1.swapArrayLen - 1)) :=
  ⟨demoZArray_wf, postinsert_replays demoZArray 6 none demoZArray_wf (lastOffered_mem _ _)⟩

end ZArray

namespace ZArray

/-! ## Z array: well-formedness is preserved -/

/-- Distinctness of the chain positions, as injectivity of the chain. -/
theorem Chain.pos_inj {z : ZArray} {a : Address} {st : ZWalk} {m len : Nat} {sw : List Nat}
    (hg : Geom z) (hi : WalkInv z a st 0) (hch : Chain z st m len sw) {j1 j2 : Nat}
    (h1 : j1 < len) (h2 : j2 < len) (h : sw.getD j1 0 = sw.getD j2 0) : j1 = j2 := by
  rcases Nat.lt_trichotomy j1 j2 with hlt | heq | hgt
  · exact absurd h (hch.pos_ne hg hi hlt h2)
  · exact heq
  · exact absurd h.symm (hch.pos_ne hg hi hgt h1)

/-- Every entry of the indirection table after `postinsert` is an entry of the
old table: the one at the same position off the chain, the one at the next
chain position (cyclically) on the chain. -/
theorem Chain.source {z : ZArray} {a : Address} {st : ZWalk} {m len : Nat} {sw : List Nat}
    (hg : Geom z) (hi : WalkInv z a st 0) (hch : Chain z st m len sw) (x : Nat)
    (hx : x < z.numLines) :
    ∃ y, y < z.numLines
      ∧ ((shiftChain sw z.lookupArray (len - 1)).set (sw.getD (len - 1) 0)
          (st.candidates.getD m default).lineId).getD x 0 = z.lookupArray.getD y 0
      ∧ (((∀ j, j < len → x ≠ sw.getD j 0) ∧ y = x)
        ∨ ∃ j, j < len ∧ x = sw.getD j 0 ∧ y = sw.getD ((j + 1) % len) 0) := by
  obtain ⟨t1, t2⟩ := hch.table hg hi (st.candidates.getD m default).lineId
  obtain ⟨s1, s2⟩ := hch.seed_entry hg hi (st.candidates.getD m default).lineId
  have hl1 := hch.len_pos
  by_cases hon : ∃ j, j < len ∧ x = sw.getD j 0
  · obtain ⟨j, hj, hq⟩ := hon
    by_cases hlast : j + 1 < len
    · refine ⟨sw.getD (j + 1) 0, hch.pos_in_table hi hlast, ?_, Or.inr ⟨j, hj, hq, ?_⟩⟩
      · rw [hq]
        exact t1 j hlast
      · rw [Nat.mod_eq_of_lt hlast]
    · have hjl : j = len - 1 := by omega
      have hmod : (j + 1) % len = 0 := by
        have : j + 1 = len := by omega
        rw [this, Nat.mod_self]
      refine ⟨sw.getD 0 0, hch.pos_in_table hi (by omega), ?_, Or.inr ⟨j, hj, hq, ?_⟩⟩
      · rw [hq, hjl, hch.sw_get 0 (by omega)]
        rw [← s1] at s2
        rw [s2]
        exact (hi.link m hch.lt).1
      · rw [hmod]
  · refine ⟨x, hx, t2 x (fun j hj hq => hon ⟨j, hj, hq⟩), Or.inl ⟨fun j hj hq => hon ⟨j, hj, hq⟩, rfl⟩⟩

/-- The assignment of old positions to new positions is injective. -/
theorem Chain.source_inj {z : ZArray} {a : Address} {st : ZWalk} {m len : Nat} {sw : List Nat}
    (hg : Geom z) (hi : WalkInv z a st 0) (hch : Chain z st m len sw) {x1 x2 y : Nat}
    (h1 : ((∀ j, j < len → x1 ≠ sw.getD j 0) ∧ y = x1)
        ∨ ∃ j, j < len ∧ x1 = sw.getD j 0 ∧ y = sw.getD ((j + 1) % len) 0)
    (h2 : ((∀ j, j < len → x2 ≠ sw.getD j 0) ∧ y = x2)
        ∨ ∃ j, j < len ∧ x2 = sw.getD j 0 ∧ y = sw.getD ((j + 1) % len) 0) : x1 = x2 := by
  have hl1 := hch.len_pos
  have hmod : ∀ j, (j + 1) % len < len := fun j => Nat.mod_lt _ (by omega)
  rcases h1 with ⟨a1, b1⟩ | ⟨j1, a1, b1, c1⟩ <;> rcases h2 with ⟨a2, b2⟩ | ⟨j2, a2, b2, c2⟩
  · rw [← b1, ← b2]
  · exact absurd (b1.symm.trans c2) (a1 _ (hmod j2))
  · exact absurd (b2.symm.trans c1) (a2 _ (hmod j1))
  · have h := hch.pos_inj hg hi (hmod j1) (hmod j2) (c1.symm.trans c2)
    have hj : j1 = j2 := by
      by_cases e1 : j1 + 1 < len <;> by_cases e2 : j2 + 1 < len
      · rw [Nat.mod_eq_of_lt e1, Nat.mod_eq_of_lt e2] at h; omega
      · have : j2 + 1 = len := by omega
        rw [Nat.mod_eq_of_lt e1, this, Nat.mod_self] at h; omega
      · have : j1 + 1 = len := by omega
        rw [Nat.mod_eq_of_lt e2, this, Nat.mod_self] at h; omega
      · omega
    rw [b1, b2, hj]

/-- A slot other than the winner that was referenced from a position of its
address is still referenced from a position of its address after `postinsert`. -/
theorem Chain.still_referenced {z : ZArray} {a : Address} {st : ZWalk} {m len : Nat}
    {sw : List Nat} (hg : Geom z) (hi : WalkInv z a st 0) (hch : Chain z st m len sw)
    {B : Address} {s w : Nat} (hwv : w < z.ways) (hws : z.lookupArray.getD (pos z w B) 0 = s)
    (hsB : z.array.getD s 0 = B) (hsc : s ≠ (st.candidates.getD m default).lineId) :
    ∃ w', w' < z.ways
      ∧ ((shiftChain sw z.lookupArray (len - 1)).set (sw.getD (len - 1) 0)
          (st.candidates.getD m default).lineId).getD (pos z w' B) 0 = s := by
  obtain ⟨t1, t2⟩ := hch.table hg hi (st.candidates.getD m default).lineId
  by_cases hon : ∃ j, j < len ∧ pos z w B = sw.getD j 0
  · obtain ⟨j, hj, hq⟩ := hon
    have hanc : anc st.candidates j m < st.numCandidates := by
      have := hch.le j hj
      have := hch.lt
      omega
    have hsj : (st.candidates.getD (anc st.candidates j m) default).lineId = s := by
      rw [(hi.link _ hanc).1, ← hch.sw_get j hj, ← hq]
      exact hws
    cases j with
    | zero => exact absurd hsj.symm hsc
    | succ j =>
      have hin := hch.inner j hj
      have hlt' : anc st.candidates j m < st.numCandidates := by
        have := hch.le j (by omega)
        have := hch.lt
        omega
      obtain ⟨p, w', k1, _, k3, _, k5, _⟩ := hi.kids _ hin hlt'
      have hp : anc st.candidates (j + 1) m = p := by
        rw [anc_succ]; unfold parent; rw [k1]; rfl
      rw [← hp, hsj, hsB] at k5
      refine ⟨w', k3, ?_⟩
      rw [← k5, ← hch.sw_get j (by omega), t1 j hj, ← hq]
      exact hws
  · refine ⟨w, hwv, ?_⟩
    rw [t2 _ (fun j hj hq => hon ⟨j, hj, hq⟩)]
    exact hws

/-- A list whose entries below its length are pairwise distinct has no duplicates. -/
theorem nodup_of_getD_inj {l : List Nat}
    (h : ∀ i j, i < l.length → j < l.length → l.getD i 0 = l.getD j 0 → i = j) : l.Nodup := by
  rw [List.nodup_iff_injective_get]
  rintro ⟨i, hi⟩ ⟨j, hj⟩ hij
  have := h i j hi hj (by
    rw [List.getD_eq_getElem l 0 hi, List.getD_eq_getElem l 0 hj]
    exact hij)
  exact Fin.ext this

/-- A duplicate-free list of `n` numbers below `n` is a permutation of `[0, n)`. -/
theorem perm_range_of_nodup {l : List Nat} (hn : l.Nodup)
    (hb : ∀ p, p < l.length → l.getD p 0 < l.length) : List.Perm l (List.range l.length) := by
  refine (List.subperm_of_subset hn ?_).perm_of_length_le (by rw [List.length_range])
  intro x hx
  obtain ⟨i, hi, rfl⟩ := List.mem_iff_getElem.mp hx
  rw [List.mem_range, ← List.getD_eq_getElem l 0 hi]
  exact hb i hi

/-- Well-formedness after the insertion of an address that is in no slot. -/
theorem WF.preserved {z : ZArray} (hw : WF z) {a : Address} {st : ZWalk} {m len : Nat}
    {sw : List Nat} (hi : WalkInv z a st 0) (hch : Chain z st m len sw)
    (hnot : ∀ x, z.array.getD x 0 ≠ a) (stat : Nat) (t : List Event) :
    WF { z with
      swapArray := sw
      swapArrayLen := len
      lastCandIdx := m
      lookupArray := (shiftChain sw z.lookupArray (len - 1)).set (sw.getD (len - 1) 0)
        (st.candidates.getD m default).lineId
      array := z.array.set (st.candidates.getD m default).lineId a
      statSwaps := stat
      trace := t } := by
  have hg := hw.geom
  have hlenT : ((shiftChain sw z.lookupArray (len - 1)).set (sw.getD (len - 1) 0)
      (st.candidates.getD m default).lineId).length = z.numLines := by
    rw [List.length_set, shiftChain_length, hg.lookup_len]
  have hclt : (st.candidates.getD m default).lineId < z.numLines := by
    rw [(hi.link m hch.lt).1]
    exact hw.bound _ (hi.link m hch.lt).2
  have hset : (z.array.set (st.candidates.getD m default).lineId a).getD
      (st.candidates.getD m default).lineId 0 = a :=
    getD_set_self a 0 (by rw [hg.array_len]; exact hclt)
  refine ⟨hg.after_insert _ _ _ _ _ _ _ hch.sw_len
    (by rw [List.length_set, shiftChain_length]) (by rw [List.length_set]), ?_, ?_, ?_, ?_⟩
  · refine nodup_of_getD_inj (fun i j h1 h2 h => ?_)
    rw [hlenT] at h1 h2
    obtain ⟨y1, a1, b1, c1⟩ := hch.source hg hi i h1
    obtain ⟨y2, a2, b2, c2⟩ := hch.source hg hi j h2
    rw [b1, b2] at h
    have := hw.inj a1 a2 h
    subst this
    exact hch.source_inj hg hi c1 c2
  · intro p hp
    obtain ⟨y, a1, b1, _⟩ := hch.source hg hi p hp
    show ((shiftChain sw z.lookupArray (len - 1)).set (sw.getD (len - 1) 0)
      (st.candidates.getD m default).lineId).getD p 0 < z.numLines
    rw [b1]
    exact hw.bound y a1
  · intro s hs hne
    show ∃ w, w < z.ways ∧ ((shiftChain sw z.lookupArray (len - 1)).set (sw.getD (len - 1) 0)
      (st.candidates.getD m default).lineId).getD
        (pos z w ((z.array.set (st.candidates.getD m default).lineId a).getD s 0)) 0 = s
    have hne' : (z.array.set (st.candidates.getD m default).lineId a).getD s 0 ≠ 0 := hne
    by_cases hsc : s = (st.candidates.getD m default).lineId
    · rw [hsc, hset]
      exact ⟨_, hch.seed, (hch.seed_entry hg hi _).2⟩
    · rw [getD_set_of_ne a 0 (Ne.symm hsc)] at hne' ⊢
      obtain ⟨w, hwv, hws⟩ := hw.referenced s hs hne'
      exact hch.still_referenced hg hi hwv hws rfl hsc
  · intro i hi' j hj hne heq
    have hne' : (z.array.set (st.candidates.getD m default).lineId a).getD i 0 ≠ 0 := hne
    have heq' : (z.array.set (st.candidates.getD m default).lineId a).getD i 0
        = (z.array.set (st.candidates.getD m default).lineId a).getD j 0 := heq
    by_cases hic : i = (st.candidates.getD m default).lineId <;>
      by_cases hjc : j = (st.candidates.getD m default).lineId
    · rw [hic, hjc]
    · rw [hic, hset, getD_set_of_ne a 0 (Ne.symm hjc)] at heq'
      exact absurd heq'.symm (hnot j)
    · rw [hjc, hset, getD_set_of_ne a 0 (Ne.symm hic)] at heq'
      exact absurd heq' (hnot i)
    · rw [getD_set_of_ne a 0 (Ne.symm hic)] at hne' heq'
      rw [getD_set_of_ne a 0 (Ne.symm hjc)] at heq'
      exact hw.unique i hi' j hj hne' heq'

/-- What the constructor leaves behind: the identity indirection table and only
empty slots. -/
theorem create_fresh {numLines ways candidates : Nat} {rp : ReplPolicy} {hf : HashFamily}
    {z0 : ZArray} (h : create numLines ways candidates rp hf = some z0) :
    z0.lookupArray = List.range z0.numLines ∧ z0.array = List.replicate z0.numLines 0
    ∧ (candidates < 2 ^ 31 → WF z0) := by
  unfold create at h
  split_ifs at h with h1 h2 h3 h4
  simp only [Bool.not_eq_true', decide_eq_false_iff_not, not_not, Bool.not_eq_false] at h1 h2 h3 h4
  have h := Option.some.inj h
  subst h
  refine ⟨rfl, rfl, fun hc => ?_⟩
  have hdiv : candidates / ways ≤ candidates := Nat.div_le_self _ _
  refine ⟨⟨h1, h2, rfl, h3, h4, rfl, List.length_replicate _ _, List.length_range _, ?_, u32_lt _,
    hc⟩, List.nodup_range _, ?_, ?_, ?_⟩
  · show (List.replicate (u32 (candidates / ways + 2)) 0).length = candidates / ways + 2
    rw [List.length_replicate, u32_of_lt (by omega)]
  · intro p hp
    show (List.range (u32 numLines)).getD p 0 < u32 numLines
    rw [List.getD_eq_getElem _ 0 (by rw [List.length_range]; exact hp), List.getElem_range]
    exact hp
  · intro s _ hne
    exact absurd (getD_replicate_zero _ s) hne
  · intro i _ j _ hne
    exact absurd (getD_replicate_zero _ i) hne

/-- C12. ZArray well-formedness is an invariant. A freshly constructed array has
the identity indirection table (a permutation of `[0, numLines)`) and only empty
slots, and is well-formed (for a candidate budget below `2^31`); and for a
well-formed state, a non-zero address `a` with `lookup(a) = -1` and a policy
that returns one of the slots it is offered, `preinsert(a)` and
`postinsert(a, c)` return a well-formed state: its indirection table is a
permutation of `[0, numLines)`, every non-empty slot is referenced from one of
the `ways` positions of its address, no address is in two slots, and so at most
`numLines` distinct addresses are resident. -/
theorem wf_invariant (z : ZArray) (a : Address) (req : ReqPtr) (upd : Bool) :
    (∀ numLines ways candidates rp hf z0, create numLines ways candidates rp hf = some z0 →
      z0.lookupArray = List.range z0.numLines
      ∧ List.Perm z0.lookupArray (List.range z0.numLines)
      ∧ (∀ s, z0.array.getD s 0 = 0)
      ∧ (candidates < 2 ^ 31 → WF z0))
    ∧ (WF z → a ≠ 0 → (lookup z a req upd).map Prod.fst = some (-1) →
      (∀ l, l ≠ [] → z.rp.rankCands z.trace req l ∈ l) →
      ∃ c W z1 z2, preinsert z a req = some (c, W, z1) ∧ postinsert z1 a req c = some z2
        ∧ WF z2
        ∧ List.Perm z2.lookupArray (List.range z2.numLines)
        ∧ (∀ s, s < z2.numLines → z2.array.getD s 0 ≠ 0 →
            ∃ w, w < z2.ways ∧ z2.lookupArray.getD (pos z2 w (z2.array.getD s 0)) 0 = s)
        ∧ (∀ i, i < z2.numLines → ∀ j, j < z2.numLines → z2.array.getD i 0 ≠ 0 →
            z2.array.getD i 0 = z2.array.getD j 0 → i = j)
        ∧ ((z2.array.filter (fun x => x != 0)).dedup).length ≤ z2.numLines) := by
  constructor
  · intro numLines ways candidates rp hf z0 h
    obtain ⟨h1, h2, h3⟩ := create_fresh h
    refine ⟨h1, by rw [h1], fun s => ?_, h3⟩
    rw [h2]
    exact getD_replicate_zero _ s
  · intro hw ha hmiss hrp
    have hg := hw.geom
    obtain ⟨st, m, len, sw, offered, hi, hch, hpre, hpost⟩ := insert_spec a req hw hrp
    have hnot := hw.not_resident ha (lookup_miss hg ha hmiss)
    have hw2 := hw.preserved hi hch hnot (u64 (z.statSwaps + (len - 1)))
      (z.trace ++ [Event.rankCands req offered]
        ++ [Event.replaced (st.candidates.getD m default).lineId,
          Event.store (st.candidates.getD m default).lineId a,
          Event.update (st.candidates.getD m default).lineId req])
    refine ⟨_, _, _, _, hpre, hpost, hw2, ?_, hw2.referenced, hw2.unique, ?_⟩
    · have hp := perm_range_of_nodup hw2.nodup (fun p hp => by
        have hl := hw2.geom.lookup_len
        rw [hl] at hp ⊢
        exact hw2.bound p hp)
      rw [hw2.geom.lookup_len] at hp
      exact hp
    · refine le_trans (List.dedup_sublist _).length_le (le_trans (List.length_filter_le _ _) ?_)
      exact le_of_eq hw2.geom.array_len

theorem create_freshZArray : create 8 2 4 lastOffered skewHash = some freshZArray := rfl

theorem wf_invariant_witness :
    (∃ z0, create 8 2 4 lastOffered skewHash = some z0 ∧ (4 : Nat) < 2 ^ 31
      ∧ z0.lookupArray = List.range z0.numLines
      ∧ List.Perm z0.lookupArray (List.range z0.numLines)
      ∧ (∀ s, z0.array.getD s 0 = 0)
      ∧ WF z0)
    ∧ WF demoZArray ∧ (6 : Address) ≠ 0
    ∧ (lookup demoZArray 6 none false).map Prod.fst = some (-1)
    ∧ ∃ c W z1 z2, preinsert demoZArray 6 none = some (c, W, z1)
        ∧ postinsert z1 6 none c = some z2
        ∧ WF z2
        ∧ List.Perm z2.lookupArray (List.range z2.numLines)
        ∧ (∀ s, s < z2.numLines → z2.array.getD s 0 ≠ 0 →
            ∃ w, w < z2.ways ∧ z2.lookupArray.getD (pos z2 w (z2.array.getD s 0)) 0 = s)
        ∧ (∀ i, i < z2.numLines → ∀ j, j < z2.numLines → z2.array.getD i 0 ≠ 0 →
            z2.array.getD i 0 = z2.array.getD j 0 → i = j)
        ∧ ((z2.array.filter (fun x => x != 0)).dedup).length ≤ z2.numLines :=
  have h := (wf_invariant demoZArray 6 none false).1 8 2 4 lastOffered skewHash freshZArray
    create_freshZArray
  ⟨⟨freshZArray, create_freshZArray, by decide, h.1, h.2.1, h.2.2.1, h.2.2.2 (by decide)⟩,
    demoZArray_wf, by decide, by decide,
    (wf_invariant demoZArray 6 none false).2 demoZArray_wf (by decide) (by decide)
      (lastOffered_mem _ _)⟩

end ZArray

namespace ZArray

/-! ## Z array: when the expansion loop runs -/

/-- The loop of `preinsert` in terms of one pass of its body. -/
theorem expand_succ (z : ZArray) (fuel : Nat) (st : ZWalk) :
    expand z (fuel + 1) st
      = if st.numCandidates < z.cands && st.all_valid then
          if z.array.getD (st.candidates.getD st.fringeStart default).lineId 0 = 0 then none
          else expand z fuel (expandStep z st)
        else some st := rfl

/-- The invariant of the walk holds whenever the loop condition is evaluated. -/
theorem LoopHead.inv {z : ZArray} {a : Address} {st : ZWalk} (hw : WF z)
    (h : LoopHead z a st) : WalkInv z a st 0 := by
  induction h with
  | seeds => exact WalkInv.seeds_init a hw
  | pass st _ hn _ _ ih =>
    obtain ⟨j1, _, j3, _⟩ := ih.ways_loop hw hn z.ways (le_refl _)
    have hnext := j1.next hw
    rw [j3] at hnext
    have hlt : st.fringeStart + 1 < 2 ^ 32 := by
      have := hw.geom.cands_lt
      have := ih.fringe
      omega
    unfold expandStep
    rw [u32_of_lt hlt]
    exact hnext

/-- The state the loop returns is one in which its condition was evaluated. -/
theorem LoopHead.of_expand {z : ZArray} {a : Address} (fuel : Nat) :
    ∀ st st', LoopHead z a st → ZArray.expand z fuel st = some st' → LoopHead z a st' := by
  induction fuel with
  | zero =>
    intro st st' h he
    unfold ZArray.expand at he
    split_ifs at he
    cases he
    exact h
  | succ fuel ih =>
    intro st st' h he
    rw [expand_succ] at he
    split_ifs at he with h1 h2
    · rw [Bool.and_eq_true, decide_eq_true_eq] at h1
      exact ih _ _ (LoopHead.pass st h h1.1 h1.2 h2) he
    · cases he
      exact h

/-- The flag `all_valid` after the seed loop over `k` ways is false only when a
seed slot is empty. -/
theorem seeds_flag (z : ZArray) (a : Address) (hg : Geom z) (k : Nat) (hk : k ≤ z.ways) :
    ((List.range k).foldl (seedWay z a)
        ⟨List.replicate (u32 (z.cands + z.ways)) default, z.ways, 0, true⟩).all_valid = false →
      ∃ i, i < k ∧ z.array.getD (z.lookupArray.getD (pos z i a) 0) 0 = 0 := by
  induction k with
  | zero => intro h; cases h
  | succ k ih =>
    rw [List.range_succ, List.foldl_append]
    simp only [List.foldl_cons, List.foldl_nil]
    generalize (List.range k).foldl (seedWay z a)
      ⟨List.replicate (u32 (z.cands + z.ways)) default, z.ways, 0, true⟩ = st at ih ⊢
    unfold seedWay
    simp only [hg.seed_idx (by omega : k < z.ways)]
    intro h
    rw [Bool.and_eq_false_iff] at h
    rcases h with h | h
    · obtain ⟨i, h1, h2⟩ := ih (by omega) h
      exact ⟨i, by omega, h2⟩
    · exact ⟨k, by omega, by simpa using h⟩

/-- During a pass of the loop body the flag `all_valid` becomes false only when
a counted candidate has an empty slot. -/
theorem flag_ways_loop {z : ZArray} {a : Address} {st : ZWalk} (hw : WF z)
    (hi : WalkInv z a st 0) (hn : st.numCandidates < z.cands) (hav : st.all_valid = true)
    (k : Nat) (hk : k ≤ z.ways) :
    ((List.range k).foldl
        (expandWay z (st.candidates.getD st.fringeStart default).lineId
          (z.array.getD (st.candidates.getD st.fringeStart default).lineId 0)) st).all_valid
        = false →
      ∃ i, i < ((List.range k).foldl
          (expandWay z (st.candidates.getD st.fringeStart default).lineId
            (z.array.getD (st.candidates.getD st.fringeStart default).lineId 0)) st).numCandidates
        ∧ z.array.getD (((List.range k).foldl
          (expandWay z (st.candidates.getD st.fringeStart default).lineId
            (z.array.getD (st.candidates.getD st.fringeStart default).lineId 0))
              st).candidates.getD i default).lineId 0 = 0 := by
  have hg := hw.geom
  have hfr := hi.fringe
  have hways := hg.ways_gt
  have hclt := hg.cands_lt
  have hvalid := hi.valid hav st.fringeStart (by omega)
  induction k with
  | zero =>
    intro h
    rw [List.range_zero, List.foldl_nil, hav] at h
    cases h
  | succ k ih =>
    obtain ⟨i1, i2, i3, _⟩ := hi.ways_loop hw hn k (by omega)
    have ih := ih (by omega)
    rw [List.range_succ, List.foldl_append]
    simp only [List.foldl_cons, List.foldl_nil]
    generalize (List.range k).foldl
      (expandWay z (st.candidates.getD st.fringeStart default).lineId
        (z.array.getD (st.candidates.getD st.fringeStart default).lineId 0)) st = stk
      at ih i1 i2 i3 ⊢
    rw [expandWay_eq hg _ _ stk (by omega : k < z.ways) (by omega) (by omega)]
    dsimp only
    intro h
    rw [Bool.and_eq_false_iff] at h
    rcases h with h | h
    · obtain ⟨i, h1, h2⟩ := ih h
      refine ⟨i, by omega, ?_⟩
      rw [getD_set_of_ne _ _ (by omega : stk.numCandidates ≠ i)]
      exact h2
    · have hz : z.array.getD (z.lookupArray.getD (pos z k
          (z.array.getD (st.candidates.getD st.fringeStart default).lineId 0)) 0) 0 = 0 := by
        simpa using h
      have hne : ¬ z.lookupArray.getD (pos z k
          (z.array.getD (st.candidates.getD st.fringeStart default).lineId 0)) 0
            = (st.candidates.getD st.fringeStart default).lineId := by
        intro e
        rw [e] at hz
        exact hvalid hz
      rw [if_neg hne]
      refine ⟨stk.numCandidates, by omega, ?_⟩
      rw [getD_set_self _ _ (by rw [i1.len]; omega)]
      exact hz

/-- Whenever the loop condition is evaluated, the flag `all_valid` is true
exactly when every candidate counted so far has a non-empty slot. -/
theorem LoopHead.flag {z : ZArray} {a : Address} {st : ZWalk} (hw : WF z)
    (h : LoopHead z a st) :
    st.all_valid = true
      ↔ ∀ i, i < st.numCandidates → z.array.getD (st.candidates.getD i default).lineId 0 ≠ 0 := by
  refine ⟨(h.inv hw).valid, fun hall => ?_⟩
  by_contra hf
  rw [Bool.not_eq_true] at hf
  cases h with
  | seeds =>
    obtain ⟨i, h1, h2⟩ := seeds_flag z a hw.geom z.ways (le_refl _) hf
    obtain ⟨_, s2, _, s4, _⟩ := seeds_loop a hw.geom z.ways (le_refl _)
    have := hall i (by rw [s2]; exact h1)
    rw [s4 i h1] at this
    exact this h2
  | pass st0 h0 hn hav _ =>
    obtain ⟨i, h1, h2⟩ := flag_ways_loop hw (h0.inv hw) hn hav z.ways (le_refl _) hf
    exact hall i h1 h2

/-- C13 (as stated, refuted). In the freshly constructed 8-line, 2-way array
with budget 4 the walk for address 1 ends with only the 2 seed candidates, both
of them empty, without expanding any frontier node (`fringeStart = 0`): the
budget is not reached and not every candidate is valid, yet the expansion does
not continue. In the full demo array the walk for address 6 expands two frontier
nodes although no candidate it finds is empty. -/
theorem expand_until_valid_counterexample :
    WF freshZArray ∧ freshZArray.cands = 4
    ∧ (walk freshZArray 1).map (fun st => (st.numCandidates, st.fringeStart,
        (st.candidates.take st.numCandidates).map
          (fun c => freshZArray.array.getD c.lineId 0))) = some (2, 0, [0, 0])
    ∧ WF demoZArray ∧ demoZArray.cands = 4
    ∧ (walk demoZArray 6).map (fun st => (st.numCandidates, st.fringeStart,
        (st.candidates.take st.numCandidates).map
          (fun c => demoZArray.array.getD c.lineId 0))) = some (4, 2, [2, 5, 1, 21]) :=
  ⟨freshZArray_wf, rfl, by decide, demoZArray_wf, rfl, by decide⟩

/-- C13 (amended). The breadth-first expansion of `preinsert` continues until
the candidate budget `cands` is reached or some candidate found so far is empty:
in a well-formed state, whenever the loop condition is evaluated with fewer than
`cands` candidates and every candidate found so far valid (non-empty), the
frontier node is valid and the loop expands it and goes on; whenever it is
evaluated with at least `cands` candidates or with an empty candidate, the loop
returns; and the walk returns in such a state. -/
theorem expand_while_all_valid (z : ZArray) (a : Address) (hw : WF z) :
    (∀ st, LoopHead z a st → st.numCandidates < z.cands →
      (∀ i, i < st.numCandidates → z.array.getD (st.candidates.getD i default).lineId 0 ≠ 0) →
      z.array.getD (st.candidates.getD st.fringeStart default).lineId 0 ≠ 0
      ∧ LoopHead z a (expandStep z st)
      ∧ ∀ fuel, expand z (fuel + 1) st = expand z fuel (expandStep z st))
    ∧ (∀ st, LoopHead z a st →
      (z.cands ≤ st.numCandidates
        ∨ ∃ i, i < st.numCandidates ∧ z.array.getD (st.candidates.getD i default).lineId 0 = 0) →
      ∀ fuel, expand z fuel st = some st)
    ∧ ∃ st, walk z a = some st ∧ LoopHead z a st
      ∧ (z.cands ≤ st.numCandidates
        ∨ ∃ i, i < st.numCandidates ∧ z.array.getD (st.candidates.getD i default).lineId 0 = 0) := by
  have hstop : ∀ st, LoopHead z a st → ¬ (st.numCandidates < z.cands ∧ st.all_valid = true) →
      z.cands ≤ st.numCandidates
        ∨ ∃ i, i < st.numCandidates
          ∧ z.array.getD (st.candidates.getD i default).lineId 0 = 0 := by
    intro st h hc
    by_cases hn : st.numCandidates < z.cands
    · right
      by_contra hex
      refine hc ⟨hn, (h.flag hw).2 (fun i hi hz => hex ⟨i, hi, hz⟩)⟩
    · left; omega
  refine ⟨?_, ?_, ?_⟩
  · intro st h hn hall
    have hav := (h.flag hw).2 hall
    have hfr := (h.inv hw).fringe
    have hways := hw.geom.ways_gt
    have hv := hall st.fringeStart (by omega)
    refine ⟨hv, LoopHead.pass st h hn hav hv, fun fuel => ?_⟩
    rw [expand_succ, if_pos (by simp [hn, hav]), if_neg hv]
  · intro st h hc fuel
    have hcond : ¬ (decide (st.numCandidates < z.cands) && st.all_valid) = true := by
      rw [Bool.and_eq_true, decide_eq_true_eq]
      rintro ⟨h1, h2⟩
      rcases hc with hc | ⟨i, hi, hz⟩
      · omega
      · exact (h.flag hw).1 h2 i hi hz
    cases fuel with
    | zero =>
      unfold expand
      rw [if_neg hcond]
    | succ fuel => rw [expand_succ, if_neg hcond]
  · obtain ⟨st, hwalk, _, hexit⟩ := walk_spec a hw
    have hh : LoopHead z a st := LoopHead.of_expand z.cands _ st LoopHead.seeds hwalk
    exact ⟨st, hwalk, hh, hstop st hh hexit⟩

theorem expand_while_all_valid_witness :
    WF demoZArray
    ∧ (∀ st, LoopHead demoZArray 6 st → st.numCandidates < demoZArray.cands →
      (∀ i, i < st.numCandidates →
        demoZArray.array.getD (st.candidates.getD i default).lineId 0 ≠ 0) →
      demoZArray.array.getD (st.candidates.getD st.fringeStart default).lineId 0 ≠ 0
      ∧ LoopHead demoZArray 6 (expandStep demoZArray st)
      ∧ ∀ fuel, expand demoZArray (fuel + 1) st = expand demoZArray fuel (expandStep demoZArray st))
    ∧ (∀ st, LoopHead demoZArray 6 st →
      (demoZArray.cands ≤ st.numCandidates
        ∨ ∃ i, i < st.numCandidates
          ∧ demoZArray.array.getD (st.candidates.getD i default).lineId 0 = 0) →
      ∀ fuel, expand demoZArray fuel st = some st)
    ∧ ∃ st, walk demoZArray 6 = some st ∧ LoopHead demoZArray 6 st
      ∧ (demoZArray.cands ≤ st.numCandidates
        ∨ ∃ i, i < st.numCandidates
          ∧ demoZArray.array.getD (st.candidates.getD i default).lineId 0 = 0) :=
  ⟨demoZArray_wf, expand_while_all_valid demoZArray 6 demoZArray_wf⟩

end ZArray

/-! ## Constructors and the geometry they accept -/

theorem isPow2_iff (x : Nat) : isPow2 x = true ↔ ∃ k, k < 32 ∧ x = 2 ^ k := by
  unfold isPow2
  simp [List.any_eq_true, List.mem_range]

/-- For a 32-bit value, `isPow2` holds exactly for the powers of two. -/
theorem isPow2_iff_of_lt {x : Nat} (hx : x < 2 ^ 32) : isPow2 x = true ↔ ∃ k, x = 2 ^ k := by
  rw [isPow2_iff]
  constructor
  · rintro ⟨k, _, h⟩
    exact ⟨k, h⟩
  · rintro ⟨k, h⟩
    refine ⟨k, ?_, h⟩
    rw [h] at hx
    exact (Nat.pow_lt_pow_iff_right (by norm_num)).mp hx

theorem isPow2_false_of_not {x : Nat} (h : ¬ ∃ k, x = 2 ^ k) : isPow2 x = false := by
  rw [← Bool.not_eq_true, isPow2_iff]
  rintro ⟨k, _, hk⟩
  exact h ⟨k, hk⟩

/-- C16. Array construction rejects bad geometry: for a `uint32_t` line count,
the constructors of `SetAssocArray` and of `CEASERArray` fail whenever
`numLines/assoc` is not a power of two, and the constructor of `ZArray` fails if
and only if `ways < 2`, or `cands < ways`, or `numLines` is not a multiple of
`ways`, or `numLines/ways` is not a power of two. -/
theorem create_rejects_bad_geometry (numLines : Nat) (hn : numLines < 2 ^ 32) :
    (∀ zinfo assoc rp hf isLLC proc_partition, (¬ ∃ k, numLines / assoc = 2 ^ k) →
      SetAssocArray.create zinfo numLines assoc rp hf isLLC proc_partition = none)
    ∧ (∀ assoc rp hf_1 hf_2 rng, (¬ ∃ k, numLines / assoc = 2 ^ k) →
      CEASERArray.create numLines assoc rp hf_1 hf_2 rng = none)
    ∧ (∀ ways cands rp hf,
      ZArray.create numLines ways cands rp hf = none
        ↔ (ways < 2 ∨ cands < ways ∨ numLines % ways ≠ 0 ∨ ¬ ∃ k, numLines / ways = 2 ^ k)) := by
  have hu : u32 numLines = numLines := u32_of_lt hn
  refine ⟨?_, ?_, ?_⟩
  · intro zinfo assoc rp hf isLLC pp h
    unfold SetAssocArray.create
    rw [hu]
    by_cases h1 : assoc = 0
    · rw [if_pos h1]
    · rw [if_neg h1]
      simp only [isPow2_false_of_not h, Bool.not_false, if_true]
  · intro assoc rp hf_1 hf_2 rng h
    unfold CEASERArray.create
    rw [hu]
    by_cases h1 : assoc = 0
    · rw [if_pos h1]
    · rw [if_neg h1]
      simp only [isPow2_false_of_not h, Bool.not_false, if_true]
  · intro ways cands rp hf
    have hdiv : numLines / ways < 2 ^ 32 := lt_of_le_of_lt (Nat.div_le_self _ _) hn
    unfold ZArray.create
    rw [hu]
    constructor
    · intro h
      by_contra hc
      push_neg at hc
      obtain ⟨c1, c2, c3, c4⟩ := hc
      have c4' := (isPow2_iff_of_lt hdiv).mpr c4
      simp [c4', c3, show 1 < ways by omega, c2] at h
    · intro h
      split_ifs with h1 h2 h3 h4 <;> first | rfl | skip
      exfalso
      simp only [Bool.not_eq_true', decide_eq_false_iff_not, not_not, Bool.not_eq_false] at h1 h2 h3 h4
      rcases h with h | h | h | h
      · omega
      · omega
      · exact h h3
      · exact h ((isPow2_iff_of_lt hdiv).mp h4)

theorem twelve_by_four_not_pow2 : ¬ ∃ k, 12 / 4 = 2 ^ k := by
  rintro ⟨k, hk⟩
  have h := (isPow2_iff_of_lt (by norm_num : 12 / 4 < 2 ^ 32)).mpr ⟨k, hk⟩
  revert h
  decide

theorem create_rejects_bad_geometry_witness :
    (12 : Nat) < 2 ^ 32
    ∧ (¬ ∃ k, 12 / 4 = 2 ^ k)
    ∧ SetAssocArray.create zinfoPlain 12 4 firstOffered IdHashFamily false 0 = none
    ∧ CEASERArray.create 12 4 firstOffered IdHashFamily IdHashFamily ⟨fun _ => 0, 0⟩ = none
    ∧ (∀ ways cands rp hf,
      ZArray.create 12 ways cands rp hf = none
        ↔ (ways < 2 ∨ cands < ways ∨ 12 % ways ≠ 0 ∨ ¬ ∃ k, 12 / ways = 2 ^ k)) :=
  have h := create_rejects_bad_geometry 12 (by norm_num)
  ⟨by norm_num, twelve_by_four_not_pow2,
    h.1 zinfoPlain 4 firstOffered IdHashFamily false 0 twelve_by_four_not_pow2,
    h.2.1 4 firstOffered IdHashFamily IdHashFamily ⟨fun _ => 0, 0⟩ twelve_by_four_not_pow2,
    h.2.2⟩

namespace H3HashFamily

/-! ## H3 family: the constructor -/

/-- The draws of one matrix word: the first `n` passes of the loop. -/
theorem drawWord_loop (st : Nat → Nat) (d n : Nat) :
    (List.range n).foldl
      (fun (s : Nat × MTRand) _ =>
        (if s.2.randInt.1 % 2 = 0 then u64 (u64 (s.1 <<< 1) + 1) else u64 (s.1 <<< 1),
          s.2.randInt.2))
      (0, ⟨st, d⟩)
    = ((List.range n).foldl
        (fun val kk => if u32 (st (d + kk)) % 2 = 0 then u64 (u64 (val <<< 1) + 1)
          else u64 (val <<< 1)) 0, ⟨st, d + n⟩) := by
  induction n with
  | zero => rfl
  | succ n ih =>
    rw [List.range_succ, List.foldl_append, List.foldl_append, ih]
    rfl

/-- One matrix word takes the next 64 draws of the generator. -/
theorem drawWord_eq (rnd : MTRand) :
    drawWord rnd = (wordOf rnd.stream rnd.drawn, ⟨rnd.stream, rnd.drawn + 64⟩) :=
  drawWord_loop rnd.stream rnd.drawn 64

/-- The words of one function: the first `k` passes of the inner loop. -/
theorem fill_inner (st : Nat → Nat) (idx : Nat → Nat) (k : Nat) :
    ∀ (l : List Nat) (d : Nat),
      (List.range k).foldl
        (fun (s : List Nat × MTRand) jj =>
          (s.1.set (idx jj) (drawWord s.2).1, (drawWord s.2).2)) (l, ⟨st, d⟩)
      = ((List.range k).foldl (fun l jj => l.set (idx jj) (wordOf st (d + 64 * jj))) l,
          ⟨st, d + 64 * k⟩) := by
  induction k with
  | zero => intro l d; rfl
  | succ k ih =>
    intro l d
    rw [List.range_succ, List.foldl_append, List.foldl_append, ih]
    simp only [List.foldl_cons, List.foldl_nil, drawWord_eq]
    rw [Nat.mul_succ, Nat.add_assoc]

/-- The matrix the constructor builds, word by word from the stream. -/
theorem fill_eq (words : Nat) (rnd : MTRand) (n : Nat) :
    ∀ (l : List Nat),
      (List.range n).foldl
        (fun s ii =>
          (List.range words).foldl
            (fun (s : List Nat × MTRand) jj =>
              (s.1.set (u32 (u32 (ii * words) + jj)) (drawWord s.2).1, (drawWord s.2).2)) s)
        (l, rnd)
      = ((List.range n).foldl
          (fun l ii => (List.range words).foldl
            (fun l jj => l.set (u32 (u32 (ii * words) + jj))
              (wordOf rnd.stream (rnd.drawn + 64 * words * ii + 64 * jj))) l) l,
          ⟨rnd.stream, rnd.drawn + 64 * words * n⟩) := by
  induction n with
  | zero => intro l; rfl
  | succ n ih =>
    intro l
    rw [List.range_succ, List.foldl_append, List.foldl_append, ih]
    simp only [List.foldl_cons, List.foldl_nil]
    rw [fill_inner rnd.stream (fun jj => u32 (u32 (n * words) + jj)) words]
    congr 2
    rw [Nat.mul_succ, Nat.add_assoc]

theorem foldl_set_length (idx : Nat → Nat) (v : Nat → Nat) (k : Nat) (l : List Nat) :
    ((List.range k).foldl (fun l jj => l.set (idx jj) (v jj)) l).length = l.length := by
  induction k with
  | zero => rfl
  | succ k ih =>
    rw [List.range_succ, List.foldl_append]
    simp only [List.foldl_cons, List.foldl_nil, List.length_set]
    exact ih

theorem fill_rows_length (words : Nat) (v : Nat → Nat → Nat) (n : Nat) :
    ∀ l : List Nat, ((List.range n).foldl
      (fun l ii => (List.range words).foldl
        (fun l jj => l.set (u32 (u32 (ii * words) + jj)) (v ii jj)) l) l).length = l.length := by
  induction n with
  | zero => intro l; rfl
  | succ n ih =>
    intro l
    rw [List.range_succ, List.foldl_append]
    simp only [List.foldl_cons, List.foldl_nil]
    rw [foldl_set_length, ih]

/-- The constructor allocates `words * numFuncs` matrix words. -/
theorem fill_length (numFuncs words : Nat) (rnd : MTRand) :
    (fill numFuncs words rnd).1.length = u32 (words * numFuncs) := by
  unfold fill
  rw [fill_eq]
  dsimp only
  rw [fill_rows_length words
    (fun ii jj => wordOf rnd.stream (rnd.drawn + 64 * words * ii + 64 * jj)),
    List.length_replicate]

/-- C19. H3 construction fails if and only if more than 64 output bits are
requested; otherwise the family has `resShift` 3, 2, 1 or 0 and 8, 16, 32 or 64
matrix rows per function for `outputBits` at most 8, 16, 32 or 64 (the matrix is
allocated with that many words times `numFunctions`, a `uint32_t` product). -/
theorem create_spec (numFunctions outputBits : Nat) (rnd : MTRand) :
    (create numFunctions outputBits rnd = none ↔ 64 < outputBits)
    ∧ (outputBits ≤ 8 → ∃ h, create numFunctions outputBits rnd = some h
        ∧ h.numFuncs = numFunctions ∧ h.resShift = 3 ∧ 64 >>> h.resShift = 8
        ∧ h.hMatrix.length = u32 (8 * numFunctions))
    ∧ (8 < outputBits → outputBits ≤ 16 → ∃ h, create numFunctions outputBits rnd = some h
        ∧ h.numFuncs = numFunctions ∧ h.resShift = 2 ∧ 64 >>> h.resShift = 16
        ∧ h.hMatrix.length = u32 (16 * numFunctions))
    ∧ (16 < outputBits → outputBits ≤ 32 → ∃ h, create numFunctions outputBits rnd = some h
        ∧ h.numFuncs = numFunctions ∧ h.resShift = 1 ∧ 64 >>> h.resShift = 32
        ∧ h.hMatrix.length = u32 (32 * numFunctions))
    ∧ (32 < outputBits → outputBits ≤ 64 → ∃ h, create numFunctions outputBits rnd = some h
        ∧ h.numFuncs = numFunctions ∧ h.resShift = 0 ∧ 64 >>> h.resShift = 64
        ∧ h.hMatrix.length = u32 (64 * numFunctions)) := by
  refine ⟨?_, ?_, ?_, ?_, ?_⟩
  · unfold create
    split_ifs <;> simp <;> omega
  · intro h1
    refine ⟨⟨numFunctions, 3, (fill numFunctions (u32 (64 >>> 3)) rnd).1⟩,
      by unfold create; rw [if_pos h1], rfl, rfl, rfl, ?_⟩
    exact fill_length _ _ _
  · intro h1 h2
    refine ⟨⟨numFunctions, 2, (fill numFunctions (u32 (64 >>> 2)) rnd).1⟩,
      by unfold create; rw [if_neg (by omega), if_pos h2], rfl, rfl, rfl, ?_⟩
    exact fill_length _ _ _
  · intro h1 h2
    refine ⟨⟨numFunctions, 1, (fill numFunctions (u32 (64 >>> 1)) rnd).1⟩,
      by unfold create; rw [if_neg (by omega), if_neg (by omega), if_pos h2],
      rfl, rfl, rfl, ?_⟩
    exact fill_length _ _ _
  · intro h1 h2
    refine ⟨⟨numFunctions, 0, (fill numFunctions (u32 (64 >>> 0)) rnd).1⟩,
      by unfold create; rw [if_neg (by omega), if_neg (by omega), if_neg (by omega),
        if_pos h2], rfl, rfl, rfl, ?_⟩
    exact fill_length _ _ _

theorem create_spec_witness :
    (create 2 65 demoH3Rnd = none ↔ 64 < 65)
    ∧ ((8 : Nat) ≤ 8 ∧ ∃ h, create 2 8 demoH3Rnd = some h
        ∧ h.numFuncs = 2 ∧ h.resShift = 3 ∧ 64 >>> h.resShift = 8
        ∧ h.hMatrix.length = u32 (8 * 2))
    ∧ ((8 : Nat) < 16 ∧ (16 : Nat) ≤ 16 ∧ ∃ h, create 2 16 demoH3Rnd = some h
        ∧ h.numFuncs = 2 ∧ h.resShift = 2 ∧ 64 >>> h.resShift = 16
        ∧ h.hMatrix.length = u32 (16 * 2))
    ∧ ((16 : Nat) < 32 ∧ (32 : Nat) ≤ 32 ∧ ∃ h, create 2 32 demoH3Rnd = some h
        ∧ h.numFuncs = 2 ∧ h.resShift = 1 ∧ 64 >>> h.resShift = 32
        ∧ h.hMatrix.length = u32 (32 * 2))
    ∧ ((32 : Nat) < 64 ∧ (64 : Nat) ≤ 64 ∧ ∃ h, create 2 64 demoH3Rnd = some h
        ∧ h.numFuncs = 2 ∧ h.resShift = 0 ∧ 64 >>> h.resShift = 64
        ∧ h.hMatrix.length = u32 (64 * 2)) :=
  ⟨(create_spec 2 65 demoH3Rnd).1,
    ⟨by decide, (create_spec 2 8 demoH3Rnd).2.1 (by decide)⟩,
    ⟨by decide, by decide, (create_spec 2 16 demoH3Rnd).2.2.1 (by decide) (by decide)⟩,
    ⟨by decide, by decide, (create_spec 2 32 demoH3Rnd).2.2.2.1 (by decide) (by decide)⟩,
    ⟨by decide, by decide, (create_spec 2 64 demoH3Rnd).2.2.2.2 (by decide) (by decide)⟩⟩

/-- The family `demoH3` is what the constructor builds from `demoH3Rnd`. -/
theorem create_demoH3 : create 1 64 demoH3Rnd = some demoH3 := by
  unfold create
  rw [if_neg (by decide), if_neg (by decide), if_neg (by decide), if_pos (by decide)]
  unfold fill
  rw [fill_eq]
  decide!

end H3HashFamily

namespace H3HashFamily

/-! ## H3 family: the bits of the hash -/

theorem testBit_of_ge {v i : Nat} (hv : v < 2 ^ 64) (hi : 64 ≤ i) : v.testBit i = false :=
  Nat.testBit_lt_two_pow (lt_of_lt_of_le hv (Nat.pow_le_pow_right (by norm_num) hi))

/-- The bits of a rotation written as `(v << r) | (v >> s)` with `r + s = 64`. -/
theorem testBit_rot {v r s i : Nat} (hv : v < 2 ^ 64) (hrs : r + s = 64) (hi : i < 64) :
    (u64 (v <<< r) ||| (v >>> s)).testBit i = v.testBit ((i + s) % 64) := by
  unfold u64
  rw [Nat.testBit_or, Nat.testBit_mod_two_pow, Nat.testBit_shiftLeft, Nat.testBit_shiftRight]
  by_cases h : r ≤ i
  · have e1 : (i + s) % 64 = i - r := by omega
    have e2 : v.testBit (s + i) = false := testBit_of_ge hv (by omega)
    rw [e1, e2]
    simp [hi, h]
  · have e1 : (i + s) % 64 = s + i := by omega
    rw [e1]
    simp [h]

theorem rot_lt (v r s : Nat) (hv : v < 2 ^ 64) : u64 (v <<< r) ||| (v >>> s) < 2 ^ 64 :=
  Nat.or_lt_two_pow (Nat.mod_lt _ (by norm_num))
    (lt_of_le_of_lt (by rw [Nat.shiftRight_eq_div_pow]; exact Nat.div_le_self _ _) hv)

theorem and_lt (val x : Nat) (hv : val < 2 ^ 64) : val &&& x < 2 ^ 64 :=
  lt_of_le_of_lt Nat.and_le_left hv

/-- The words the unrolled loop combines in one pass. -/
theorem mix_lt {res m0 m1 m2 m3 m4 m5 m6 m7 : Nat} (hr : res < 2 ^ 64) (h0 : m0 < 2 ^ 64)
    (h1 : m1 < 2 ^ 64) (h2 : m2 < 2 ^ 64) (h3 : m3 < 2 ^ 64) (h4 : m4 < 2 ^ 64)
    (h5 : m5 < 2 ^ 64) (h6 : m6 < 2 ^ 64) (h7 : m7 < 2 ^ 64) :
    (res ^^^ (((m0 ^^^ (u64 (m1 <<< 1) ||| (m1 >>> 63)))
      ^^^ (u64 (m2 <<< 2) ||| (m2 >>> 62))) ^^^ (u64 (m3 <<< 3) ||| (m3 >>> 61))))
    ^^^ ((((u64 (m4 <<< 4) ||| (m4 >>> 60))
      ^^^ (u64 (m5 <<< 5) ||| (m5 >>> 59))) ^^^ (u64 (m6 <<< 6) ||| (m6 >>> 58)))
      ^^^ (u64 (m7 <<< 7) ||| (m7 >>> 57))) < 2 ^ 64 := by
  have x := @Nat.xor_lt_two_pow
  exact x (x hr (x (x (x h0 (rot_lt _ _ _ h1)) (rot_lt _ _ _ h2)) (rot_lt _ _ _ h3)))
    (x (x (x (rot_lt _ _ _ h4) (rot_lt _ _ _ h5)) (rot_lt _ _ _ h6)) (rot_lt _ _ _ h7))

theorem xor_reorder (r b0 b1 b2 b3 b4 b5 b6 b7 : Bool) :
    xor (xor r (xor (xor (xor b0 b1) b2) b3)) (xor (xor (xor b4 b5) b6) b7)
      = xor (xor (xor (xor (xor (xor (xor (xor r b0) b1) b2) b3) b4) b5) b6) b7 := by
  revert r b0 b1 b2 b3 b4 b5 b6 b7
  decide

/-- The bits after one pass of the unrolled loop: bit `i` collects bit
`(i + 56) % 64` of the old value and of the first masked row, and the bits
one, two, ... positions further down of the other seven. -/
theorem mix_testBit {res m0 m1 m2 m3 m4 m5 m6 m7 i : Nat} (hr : res < 2 ^ 64)
    (h0 : m0 < 2 ^ 64) (h1 : m1 < 2 ^ 64) (h2 : m2 < 2 ^ 64) (h3 : m3 < 2 ^ 64)
    (h4 : m4 < 2 ^ 64) (h5 : m5 < 2 ^ 64) (h6 : m6 < 2 ^ 64) (h7 : m7 < 2 ^ 64)
    (hi : i < 64) :
    (u64 (((res ^^^ (((m0 ^^^ (u64 (m1 <<< 1) ||| (m1 >>> 63)))
        ^^^ (u64 (m2 <<< 2) ||| (m2 >>> 62))) ^^^ (u64 (m3 <<< 3) ||| (m3 >>> 61))))
      ^^^ ((((u64 (m4 <<< 4) ||| (m4 >>> 60))
        ^^^ (u64 (m5 <<< 5) ||| (m5 >>> 59))) ^^^ (u64 (m6 <<< 6) ||| (m6 >>> 58)))
        ^^^ (u64 (m7 <<< 7) ||| (m7 >>> 57)))) <<< 8)
      ||| (((res ^^^ (((m0 ^^^ (u64 (m1 <<< 1) ||| (m1 >>> 63)))
        ^^^ (u64 (m2 <<< 2) ||| (m2 >>> 62))) ^^^ (u64 (m3 <<< 3) ||| (m3 >>> 61))))
      ^^^ ((((u64 (m4 <<< 4) ||| (m4 >>> 60))
        ^^^ (u64 (m5 <<< 5) ||| (m5 >>> 59))) ^^^ (u64 (m6 <<< 6) ||| (m6 >>> 58)))
        ^^^ (u64 (m7 <<< 7) ||| (m7 >>> 57)))) >>> 56)).testBit i
    = xor (xor (xor (xor (xor (xor (xor (xor (res.testBit ((i + 56) % 64))
        (m0.testBit ((i + 56) % 64)))
        (m1.testBit (((i + 56) % 64 + 63) % 64)))
        (m2.testBit (((i + 56) % 64 + 62) % 64)))
        (m3.testBit (((i + 56) % 64 + 61) % 64)))
        (m4.testBit (((i + 56) % 64 + 60) % 64)))
        (m5.testBit (((i + 56) % 64 + 59) % 64)))
        (m6.testBit (((i + 56) % 64 + 58) % 64)))
        (m7.testBit (((i + 56) % 64 + 57) % 64)) := by
  have hj : (i + 56) % 64 < 64 := Nat.mod_lt _ (by norm_num)
  rw [testBit_rot (mix_lt hr h0 h1 h2 h3 h4 h5 h6 h7) (by norm_num) hi]
  simp only [Nat.testBit_xor]
  rw [testBit_rot h1 (by norm_num) hj, testBit_rot h2 (by norm_num) hj,
    testBit_rot h3 (by norm_num) hj, testBit_rot h4 (by norm_num) hj,
    testBit_rot h5 (by norm_num) hj, testBit_rot h6 (by norm_num) hj,
    testBit_rot h7 (by norm_num) hj]
  exact xor_reorder _ _ _ _ _ _ _ _ _

theorem parity_succ (n : Nat) (f : Nat → Bool) : parity (n + 1) f = xor (parity n f) (f n) := by
  unfold parity
  rw [List.range_succ, List.foldl_append]
  rfl

theorem parity_congr {n : Nat} {f g : Nat → Bool} (h : ∀ x, x < n → f x = g x) :
    parity n f = parity n g := by
  induction n with
  | zero => rfl
  | succ n ih =>
    rw [parity_succ, parity_succ, ih (fun x hx => h x (by omega)), h n (by omega)]

theorem parity_add_eight (n : Nat) (f : Nat → Bool) :
    parity (n + 8) f
      = xor (xor (xor (xor (xor (xor (xor (xor (parity n f) (f n)) (f (n + 1))) (f (n + 2)))
          (f (n + 3))) (f (n + 4))) (f (n + 5))) (f (n + 6))) (f (n + 7)) := by
  show parity (n + 7 + 1) f = _
  rw [parity_succ]
  show xor (parity (n + 6 + 1) f) _ = _
  rw [parity_succ]
  show xor (xor (parity (n + 5 + 1) f) _) _ = _
  rw [parity_succ]
  show xor (xor (xor (parity (n + 4 + 1) f) _) _) _ = _
  rw [parity_succ]
  show xor (xor (xor (xor (parity (n + 3 + 1) f) _) _) _) _ = _
  rw [parity_succ]
  show xor (xor (xor (xor (xor (parity (n + 2 + 1) f) _) _) _) _) _ = _
  rw [parity_succ]
  show xor (xor (xor (xor (xor (xor (parity (n + 1 + 1) f) _) _) _) _) _) _ = _
  rw [parity_succ, parity_succ]

/-- The bit positions read in pass `k`, seen from the end of pass `k`. -/
theorem pos_step (i k : Nat) :
    (i + 56) % 64 = (i + 8 * ((8 * k + 0) / 8) + 128 - (8 * k + 8) - (8 * k + 0) % 8) % 64
    ∧ ((i + 56) % 64 + 63) % 64
        = (i + 8 * ((8 * k + 1) / 8) + 128 - (8 * k + 8) - (8 * k + 1) % 8) % 64
    ∧ ((i + 56) % 64 + 62) % 64
        = (i + 8 * ((8 * k + 2) / 8) + 128 - (8 * k + 8) - (8 * k + 2) % 8) % 64
    ∧ ((i + 56) % 64 + 61) % 64
        = (i + 8 * ((8 * k + 3) / 8) + 128 - (8 * k + 8) - (8 * k + 3) % 8) % 64
    ∧ ((i + 56) % 64 + 60) % 64
        = (i + 8 * ((8 * k + 4) / 8) + 128 - (8 * k + 8) - (8 * k + 4) % 8) % 64
    ∧ ((i + 56) % 64 + 59) % 64
        = (i + 8 * ((8 * k + 5) / 8) + 128 - (8 * k + 8) - (8 * k + 5) % 8) % 64
    ∧ ((i + 56) % 64 + 58) % 64
        = (i + 8 * ((8 * k + 6) / 8) + 128 - (8 * k + 8) - (8 * k + 6) % 8) % 64
    ∧ ((i + 56) % 64 + 57) % 64
        = (i + 8 * ((8 * k + 7) / 8) + 128 - (8 * k + 8) - (8 * k + 7) % 8) % 64 := by
  have d0 : (8 * k + 0) / 8 = k := by omega
  have d1 : (8 * k + 1) / 8 = k := by omega
  have d2 : (8 * k + 2) / 8 = k := by omega
  have d3 : (8 * k + 3) / 8 = k := by omega
  have d4 : (8 * k + 4) / 8 = k := by omega
  have d5 : (8 * k + 5) / 8 = k := by omega
  have d6 : (8 * k + 6) / 8 = k := by omega
  have d7 : (8 * k + 7) / 8 = k := by omega
  have m0 : (8 * k + 0) % 8 = 0 := by omega
  have m1 : (8 * k + 1) % 8 = 1 := by omega
  have m2 : (8 * k + 2) % 8 = 2 := by omega
  have m3 : (8 * k + 3) % 8 = 3 := by omega
  have m4 : (8 * k + 4) % 8 = 4 := by omega
  have m5 : (8 * k + 5) % 8 = 5 := by omega
  have m6 : (8 * k + 6) % 8 = 6 := by omega
  have m7 : (8 * k + 7) % 8 = 7 := by omega
  rw [d0, d1, d2, d3, d4, d5, d6, d7, m0, m1, m2, m3, m4, m5, m6, m7]
  refine ⟨?_, ?_, ?_, ?_, ?_, ?_, ?_, ?_⟩ <;> omega

/-- The rows read in pass `k` of the unrolled loop of a 64-bit family. -/
theorem block_index {id k : Nat} (hid : id * 64 + 64 ≤ 2 ^ 32) (hk : k < 8) (t : Nat)
    (ht : t < 8) : u32 (id * 64 + (8 * k + 0) + t) = id * 64 + (8 * k + t) := by
  unfold u32
  omega

theorem block_index_zero {h : H3HashFamily} {id k : Nat} (hres : h.resShift = 0)
    (hid : id * 64 + 64 ≤ 2 ^ 32) (hk : k < 8) :
    u32 (u32 (id <<< sub32 6 h.resShift) + 8 * k) = id * 64 + (8 * k + 0) := by
  have h6 : sub32 6 0 = 6 := by decide
  rw [hres, h6, Nat.shiftLeft_eq]
  unfold u32
  omega

/-- The bits of the value of the unrolled loop of a 64-bit family after `k`
passes. -/
theorem loop_testBit (h : H3HashFamily) (id val : Nat) (hres : h.resShift = 0)
    (hid : id * 64 + 64 ≤ 2 ^ 32) (hv : val < 2 ^ 64) (k : Nat) (hk : k ≤ 8) :
    (List.range k).foldl (fun res k => block h id val res (8 * k)) 0 < 2 ^ 64
    ∧ ∀ i, i < 64 →
      ((List.range k).foldl (fun res k => block h id val res (8 * k)) 0).testBit i
        = parity (8 * k) (fun x => (val &&& h.hMatrix.getD (id * 64 + x) 0).testBit
            ((i + 8 * (x / 8) + 128 - 8 * k - x % 8) % 64)) := by
  induction k with
  | zero =>
    refine ⟨by norm_num, fun i _ => ?_⟩
    simp [parity]
  | succ k ih =>
    obtain ⟨b1, b2⟩ := ih (by omega)
    rw [List.range_succ, List.foldl_append]
    simp only [List.foldl_cons, List.foldl_nil]
    generalize (List.range k).foldl (fun res k => block h id val res (8 * k)) 0 = res at b1 b2 ⊢
    have hk' : k < 8 := by omega
    unfold block
    simp only [block_index_zero hres hid hk']
    simp only [block_index hid hk' _ (by norm_num : 1 < 8),
      block_index hid hk' _ (by norm_num : 2 < 8), block_index hid hk' _ (by norm_num : 3 < 8),
      block_index hid hk' _ (by norm_num : 4 < 8), block_index hid hk' _ (by norm_num : 5 < 8),
      block_index hid hk' _ (by norm_num : 6 < 8), block_index hid hk' _ (by norm_num : 7 < 8)]
    refine ⟨rot_lt _ _ _ (mix_lt b1 (and_lt _ _ hv) (and_lt _ _ hv) (and_lt _ _ hv)
      (and_lt _ _ hv) (and_lt _ _ hv) (and_lt _ _ hv) (and_lt _ _ hv) (and_lt _ _ hv)), ?_⟩
    intro i hi
    have hj : (i + 56) % 64 < 64 := Nat.mod_lt _ (by norm_num)
    rw [mix_testBit b1 (and_lt _ _ hv) (and_lt _ _ hv) (and_lt _ _ hv)
      (and_lt _ _ hv) (and_lt _ _ hv) (and_lt _ _ hv) (and_lt _ _ hv) (and_lt _ _ hv) hi,
      b2 _ hj, show 8 * (k + 1) = 8 * k + 8 from by ring, parity_add_eight]
    have hc : parity (8 * k) (fun x => (val &&& h.hMatrix.getD (id * 64 + x) 0).testBit
          (((i + 56) % 64 + 8 * (x / 8) + 128 - 8 * k - x % 8) % 64))
        = parity (8 * k) (fun x => (val &&& h.hMatrix.getD (id * 64 + x) 0).testBit
          ((i + 8 * (x / 8) + 128 - (8 * k + 8) - x % 8) % 64)) := by
      refine parity_congr (fun x hx => ?_)
      have : ((i + 56) % 64 + 8 * (x / 8) + 128 - 8 * k - x % 8) % 64
          = (i + 8 * (x / 8) + 128 - (8 * k + 8) - x % 8) % 64 := by omega
      rw [this]
    rw [hc]
    obtain ⟨e0, e1, e2, e3, e4, e5, e6, e7⟩ := pos_step i k
    rw [e1, e2, e3, e4, e5, e6, e7, e0]
    rfl

/-- The hash of a 64-bit family is the value of the unrolled loop after its 8
passes. -/
theorem hash_eq_loop {h : H3HashFamily} {id : Nat} (val : Nat) (hres : h.resShift = 0)
    (hid : id < h.numFuncs) :
    hash h id val
      = some ((List.range 8).foldl (fun res k => block h id val res (8 * k)) 0) := by
  unfold hash
  have hc : ¬ (!decide (id < h.numFuncs)) = true := by simp [hid]
  rw [if_neg hc, hres]
  rfl

/-- The bits of the hash of a 64-bit family: output bit `i` is the parity of the
bits at position `(i + 8 * (x / 8) - x % 8) mod 64` of the masked rows
`val AND row x`, `x < 64`. -/
theorem hash_testBit {h : H3HashFamily} {id val : Nat} (hres : h.resShift = 0)
    (hid : id < h.numFuncs) (hn : id * 64 + 64 ≤ 2 ^ 32) (hv : val < 2 ^ 64) :
    ∃ v, hash h id val = some v ∧ v < 2 ^ 64
      ∧ ∀ i, i < 64 → v.testBit i
          = parity 64 (fun x => (val &&& h.hMatrix.getD (id * 64 + x) 0).testBit
              ((i + 8 * (x / 8) + 64 - x % 8) % 64)) := by
  obtain ⟨b1, b2⟩ := loop_testBit h id val hres hn hv 8 (le_refl _)
  refine ⟨_, hash_eq_loop val hres hid, b1, fun i hi => ?_⟩
  rw [b2 i hi]
  refine parity_congr (fun x hx => ?_)
  have : (i + 8 * (x / 8) + 128 - 8 * 8 - x % 8) % 64 = (i + 8 * (x / 8) + 64 - x % 8) % 64 := by
    omega
  rw [this]

/-- C17 (as stated, refuted). In the one-function family for 64-bit output that
the constructor builds from `demoH3Rnd` (row 1 of the matrix is `2`, the other
rows are `0`), `hash(0, 2)` is `4`: its bit 1 is clear although an odd number of
bits, namely one, is set in `2 AND row 1`, and its bit 2 is set although
`2 AND row 2` is zero. -/
theorem hash_row_parity_counterexample :
    create 1 64 demoH3Rnd = some demoH3
    ∧ hash demoH3 0 2 = some 4
    ∧ (4 : Nat).testBit 1 = false
    ∧ parity 64 (fun b => (2 &&& demoH3.hMatrix.getD (0 * 64 + 1) 0).testBit b) = true
    ∧ (4 : Nat).testBit 2 = true
    ∧ parity 64 (fun b => (2 &&& demoH3.hMatrix.getD (0 * 64 + 2) 0).testBit b) = false :=
  ⟨create_demoH3, by decide, by decide, by decide!, by decide, by decide!⟩

/-- C17 (amended). For a family built for 64-bit output (with at most `2^26`
functions, so that the matrix index fits `uint32_t`), every function
`id < numFuncs`, every 64-bit key and every output bit `i < 64`, `hash(id, key)`
returns and its bit `i` is the parity of 64 bits, one from each masked row
`key AND row x`, `x < 64`, of the matrix of function `id` as built at
construction: the bit at a position `p i x` that depends on `i` and `x` only and
that, for fixed `i`, is a different position for every row. -/
theorem hash_bit_parity :
    ∃ p : Nat → Nat → Nat,
      (∀ i x, i < 64 → x < 64 → p i x < 64)
      ∧ (∀ i x y, i < 64 → x < 64 → y < 64 → p i x = p i y → x = y)
      ∧ ∀ numFunctions outputBits rnd h id key i,
          create numFunctions outputBits rnd = some h → 32 < outputBits →
          numFunctions * 64 ≤ 2 ^ 32 → id < numFunctions → key < 2 ^ 64 → i < 64 →
          ∃ v, hash h id key = some v
            ∧ v.testBit i = parity 64
                (fun x => (key &&& h.hMatrix.getD (id * 64 + x) 0).testBit (p i x)) := by
  refine ⟨fun i x => (i + 8 * (x / 8) + 64 - x % 8) % 64, ?_, ?_, ?_⟩
  · intro i x _ _
    exact Nat.mod_lt _ (by norm_num)
  · intro i x y hi hx hy h
    dsimp only at h
    omega
  · intro numFunctions outputBits rnd h id key i hc ho hn hid hk hi
    have hle : outputBits ≤ 64 := by
      by_contra hgt
      rw [((create_spec numFunctions outputBits rnd).1).2 (by omega)] at hc
      cases hc
    obtain ⟨h', c1, c2, c3, _, _⟩ := (create_spec numFunctions outputBits rnd).2.2.2.2 ho hle
    rw [c1] at hc
    obtain rfl : h' = h := Option.some.inj hc
    obtain ⟨v, v1, _, v3⟩ := hash_testBit c3 (by rw [c2]; exact hid) (by omega) hk
    exact ⟨v, v1, v3 i hi⟩

theorem hash_bit_parity_witness :
    ∃ p : Nat → Nat → Nat,
      (∀ i x, i < 64 → x < 64 → p i x < 64)
      ∧ (∀ i x y, i < 64 → x < 64 → y < 64 → p i x = p i y → x = y)
      ∧ create 1 64 demoH3Rnd = some demoH3 ∧ 32 < 64 ∧ 1 * 64 ≤ 2 ^ 32 ∧ 0 < 1
      ∧ (2 : Nat) < 2 ^ 64 ∧ 2 < 64
      ∧ ∃ v, hash demoH3 0 2 = some v
        ∧ v.testBit 2 = parity 64
            (fun x => (2 &&& demoH3.hMatrix.getD (0 * 64 + x) 0).testBit (p 2 x)) :=
  hash_bit_parity.elim fun p hp =>
    ⟨p, hp.1, hp.2.1, create_demoH3, by decide, by decide, by decide, by decide, by decide,
      hp.2.2 1 64 demoH3Rnd demoH3 0 2 2 create_demoH3 (by decide) (by decide) (by decide)
        (by decide) (by decide)⟩

/-- C18 (the code at the failing input). In the family `demoH3` for 64-bit
output the 8-way unrolled `hash(0, 2)` returns `4`, while the reference loop of
the source comment returns `1` on the same matrix, function and key. -/
theorem hash_differs_from_reference :
    create 1 64 demoH3Rnd = some demoH3 ∧ demoH3.resShift = 0
    ∧ hash demoH3 0 2 = some 4 ∧ hashReference demoH3 0 2 = 1 :=
  ⟨create_demoH3, rfl, by decide, by decide!⟩

end H3HashFamily

namespace FeistelFamily

/-! ## Feistel family: the round function -/

/-- The bit `(x >> i) & 1` as the source computes it. -/
theorem bit_eq (x i : Nat) : u32 ((x >>> i) &&& 1) = if x.testBit i then 1 else 0 := by
  rw [Nat.and_one_is_mod, Nat.shiftRight_eq_div_pow, Nat.testBit_to_div_mod]
  unfold u32
  rcases Nat.mod_two_eq_zero_or_one (x / 2 ^ i) with h | h <;> simp [h]

theorem maskedParity_lt (val row size : Nat) : maskedParity val row size < 2 :=
  Nat.mod_lt _ (by norm_num)

theorem maskedParity_succ (val row n : Nat) :
    maskedParity val row (n + 1)
      = (maskedParity val row n + if val.testBit n && !row.testBit n then 1 else 0) % 2 := by
  unfold maskedParity
  rw [List.range_succ, List.filter_append, List.length_append]
  by_cases h : (val.testBit n && !row.testBit n) = true
  · simp [h, List.filter_cons]
  · simp [h, List.filter_cons]

/-- The loop of `bitXor` after `n` passes. -/
theorem bitXor_loop (val row n : Nat) :
    (List.range n).foldl
      (fun result i =>
        if u32 ((row >>> i) &&& 1) = 0 then result ^^^ u32 ((val >>> i) &&& 1) else result) 0
      = maskedParity val row n := by
  induction n with
  | zero => rfl
  | succ n ih =>
    rw [List.range_succ, List.foldl_append, ih, maskedParity_succ]
    simp only [List.foldl_cons, List.foldl_nil, bit_eq]
    have hlt := maskedParity_lt val row n
    generalize maskedParity val row n = r at hlt ⊢
    have hr : r = 0 ∨ r = 1 := by omega
    rcases hr with rfl | rfl <;> cases val.testBit n <;> cases row.testBit n <;> decide

/-- The value of `bitXor` for a size of at most 64 bits: its assertion holds. -/
theorem bitXor_eq (val row size : Nat) (hs : size ≤ 64) :
    bitXor val row size = some (maskedParity val row size) := by
  unfold bitXor
  rw [toInt32_of_lt (by omega : size < 2 ^ 31), Int.toNat_natCast, bitXor_loop]
  have hlt := maskedParity_lt val row size
  generalize maskedParity val row size = r at hlt ⊢
  have hr : r = 0 ∨ r = 1 := by omega
  rcases hr with rfl | rfl <;> rfl

/-- The loop `result |= temp << j` over 0/1 values `g j`: after `n ≤ 32` passes
the result has bit `j` set exactly when `g j = 1`, for `j < n`. -/
theorem pack_loop (g : Nat → Nat) (hg : ∀ j, g j < 2) (n : Nat) (hn : n ≤ 32) :
    ∃ s, (List.range n).foldl
        (fun (acc : Option Nat) j =>
          match acc with
          | none => none
          | some s => some (s ||| u32 (g j <<< j))) (some 0) = some s
      ∧ s < 2 ^ n ∧ ∀ b, b < n → s.testBit b = decide (g b = 1) := by
  induction n with
  | zero => exact ⟨0, rfl, by norm_num, fun b hb => absurd hb (by omega)⟩
  | succ n ih =>
    obtain ⟨s, h1, h2, h3⟩ := ih (by omega)
    rw [List.range_succ, List.foldl_append, h1]
    refine ⟨s ||| u32 (g n <<< n), rfl, ?_, ?_⟩
    · refine Nat.or_lt_two_pow (lt_of_lt_of_le h2 (Nat.pow_le_pow_right (by norm_num) (by omega)))
        (lt_of_le_of_lt (Nat.mod_le _ _) ?_)
      rw [Nat.shiftLeft_eq, Nat.pow_succ, Nat.mul_comm (2 ^ n) 2]
      exact Nat.mul_lt_mul_of_pos_right (hg n) (Nat.two_pow_pos n)
    · intro b hb
      unfold u32
      rw [Nat.testBit_or, Nat.testBit_mod_two_pow, Nat.testBit_shiftLeft]
      by_cases hbn : b = n
      · subst hbn
        have hs : s.testBit b = false := Nat.testBit_lt_two_pow h2
        rw [hs, Nat.sub_self, Nat.testBit_zero]
        have := hg b
        have hr : g b = 0 ∨ g b = 1 := by omega
        rcases hr with h | h
        · simp [h]
        · simp [h]; omega
      · rw [h3 b (by omega)]
        have : ¬ b ≥ n := by omega
        simp [this]

/-- The substitution step of a round: it returns a 32-bit value whose bit `j` is
the value of `bitXor` for the round input and row `j` of the substitution
table. -/
theorem substitute_spec (f : FeistelFamily) (i f_input : Nat) (hw : f.width = 64) :
    ∃ s, substitute f i f_input = some s ∧ s < 2 ^ 32
      ∧ ∀ j, j < 32 →
          s.testBit j = decide (maskedParity f_input ((f.sMat.getD i []).getD j 0) 64 = 1) := by
  unfold substitute
  rw [hw]
  simp only [bitXor_eq _ _ 64 (le_refl _)]
  exact pack_loop (fun j => maskedParity f_input ((f.sMat.getD i []).getD j 0) 64)
    (fun j => maskedParity_lt _ _ _) 32 (le_refl _)

/-- The permutation step of a round: it returns a 32-bit value whose bit `j` is
the value of `bitXor` for the substitution result and row `j` of the permutation
table. -/
theorem permute_spec (f : FeistelFamily) (i s_result : Nat) (hw : f.width = 64) :
    ∃ p, permute f i s_result = some p ∧ p < 2 ^ 32
      ∧ ∀ j, j < 32 →
          p.testBit j = decide (maskedParity s_result ((f.pMat.getD i []).getD j 0) 32 = 1) := by
  unfold permute
  rw [hw]
  simp only [bitXor_eq _ _ 32 (by norm_num : 32 ≤ 64)]
  exact pack_loop (fun j => maskedParity s_result ((f.pMat.getD i []).getD j 0) 32)
    (fun j => maskedParity_lt _ _ _) 32 (le_refl _)

theorem shiftRight_32_eq_zero {x : Nat} (h : x < 2 ^ 32) : x >>> 32 = 0 := by
  rw [Nat.shiftRight_eq_div_pow]
  exact Nat.div_eq_of_lt h

/-- One round on 32-bit halves: no assertion fails, and the new upper half is
the lower half XOR the permutation result. -/
theorem round_eq (f : FeistelFamily) (i up down s p : Nat) (hs : s < 2 ^ 32) (hp : p < 2 ^ 32)
    (hu : up < 2 ^ 32) (hd : down < 2 ^ 32)
    (h1 : substitute f i (up ||| f.keys.getD i 0) = some s) (h2 : permute f i s = some p) :
    round f i (up, down) = some (down ^^^ p, up) := by
  unfold round
  simp only [h1, h2, shiftRight_32_eq_zero hs, shiftRight_32_eq_zero hp,
    shiftRight_32_eq_zero hu, shiftRight_32_eq_zero hd]
  rfl

/-- C20 (as stated, refuted). `bitXor(1, 1, 64)` returns 0 although exactly one
bit is set in `1 AND 1`, and `bitXor(1, 0, 64)` returns 1 although no bit is set
in `1 AND 0`. -/
theorem bitXor_and_counterexample :
    bitXor 1 1 64 = some 0
    ∧ ((List.range 64).filter (fun i => (1 &&& 1).testBit i)).length % 2 = 1
    ∧ bitXor 1 0 64 = some 1
    ∧ ((List.range 64).filter (fun i => (1 &&& 0).testBit i)).length % 2 = 0 :=
  ⟨by decide, by decide, by decide, by decide⟩

/-- C20 (amended). For every `val`, `row` and `size ≤ 64`, `bitXor(val, row,
size)` returns the parity (0 or 1) of the number of positions among the low
`size` bits at which `val` has a one and `row` has a zero (the one bits of
`val AND NOT row`); and in every round on 32-bit halves, with `width = 64`, the
substitution and the permutation step return, no assertion fails, and output bit
`j < 32` of each step is the value of `bitXor` for the input of the step and
table row `j`. -/
theorem bitXor_spec :
    (∀ val row size, size ≤ 64 →
      bitXor val row size = some (maskedParity val row size)
      ∧ maskedParity val row size < 2
      ∧ maskedParity val row size
          = ((List.range size).filter (fun i => val.testBit i && !row.testBit i)).length % 2)
    ∧ (∀ (f : FeistelFamily) (i up down : Nat), f.width = 64 → up < 2 ^ 32 → down < 2 ^ 32 →
      ∃ s p, substitute f i (up ||| f.keys.getD i 0) = some s ∧ permute f i s = some p
        ∧ round f i (up, down) = some (down ^^^ p, up)
        ∧ (∀ j, j < 32 → s.testBit j
            = decide (bitXor (up ||| f.keys.getD i 0) ((f.sMat.getD i []).getD j 0) 64 = some 1))
        ∧ (∀ j, j < 32 → p.testBit j
            = decide (bitXor s ((f.pMat.getD i []).getD j 0) 32 = some 1))) := by
  refine ⟨fun val row size hs => ⟨bitXor_eq val row size hs, maskedParity_lt _ _ _, rfl⟩, ?_⟩
  intro f i up down hw hu hd
  obtain ⟨s, s1, s2, s3⟩ := substitute_spec f i (up ||| f.keys.getD i 0) hw
  obtain ⟨p, p1, p2, p3⟩ := permute_spec f i s hw
  refine ⟨s, p, s1, p1, round_eq f i up down s p s2 p2 hu hd s1 p1, fun j hj => ?_,
    fun j hj => ?_⟩
  · rw [s3 j hj, bitXor_eq _ _ 64 (le_refl _)]
    simp
  · rw [p3 j hj, bitXor_eq _ _ 32 (by norm_num)]
    simp

theorem bitXor_spec_witness :
    ((7 : Nat) ≤ 64 ∧ bitXor 5 3 7 = some (maskedParity 5 3 7)
      ∧ maskedParity 5 3 7 < 2
      ∧ maskedParity 5 3 7
          = ((List.range 7).filter (fun i => (5 : Nat).testBit i && !(3 : Nat).testBit i)).length
            % 2)
    ∧ (demoFeistel.width = 64 ∧ (9 : Nat) < 2 ^ 32 ∧ (6 : Nat) < 2 ^ 32
      ∧ ∃ s p, substitute demoFeistel 0 (9 ||| demoFeistel.keys.getD 0 0) = some s
        ∧ permute demoFeistel 0 s = some p
        ∧ round demoFeistel 0 (9, 6) = some (6 ^^^ p, 9)
        ∧ (∀ j, j < 32 → s.testBit j
            = decide (bitXor (9 ||| demoFeistel.keys.getD 0 0)
                ((demoFeistel.sMat.getD 0 []).getD j 0) 64 = some 1))
        ∧ (∀ j, j < 32 → p.testBit j
            = decide (bitXor s ((demoFeistel.pMat.getD 0 []).getD j 0) 32 = some 1))) :=
  ⟨⟨by decide, bitXor_spec.1 5 3 7 (by decide)⟩,
    ⟨rfl, by decide, by decide, bitXor_spec.2 demoFeistel 0 9 6 rfl (by decide) (by decide)⟩⟩

end FeistelFamily

namespace Cache

/-! ## Cache orchestration: the timing records -/

theorem getD_three (l : List TimingEvent) (a b c d : TimingEvent) :
    (l ++ [a, b, c]).getD l.length d = a
    ∧ (l ++ [a, b, c]).getD (l.length + 1) d = b
    ∧ (l ++ [a, b, c]).getD (l.length + 1 + 1) d = c := by
  induction l with
  | nil => exact ⟨rfl, rfl, rfl⟩
  | cons x l ih => simpa using ih

theorem set_three (l : List TimingEvent) (a b c x : TimingEvent) :
    (l ++ [a, b, c]).set l.length x = l ++ [x, b, c]
    ∧ (l ++ [a, b, c]).set (l.length + 1) x = l ++ [a, x, c]
    ∧ (l ++ [a, b, c]).set (l.length + 1 + 1) x = l ++ [a, b, x] := by
  induction l with
  | nil => exact ⟨rfl, rfl, rfl⟩
  | cons y l _ => simp

/-- The event graph and the record that the block "Connect both events" makes:
a new root with delay 0 and two children, the delay events of the writeback
record and of the access record, each with the start event of its record as
only child. -/
theorem stitch_eq (evRec : EventRecorder) (wbAcc acc : TimingRecord) (reqCycle : Nat) :
    stitch evRec wbAcc acc reqCycle
      = ({ acc with reqCycle := reqCycle, startEvent := some evRec.events.length },
          { evRec with
            events := evRec.events
              ++ [⟨0, reqCycle, [some (evRec.events.length + 1), some (evRec.events.length + 2)]⟩,
                ⟨wbAcc.reqCycle - reqCycle, reqCycle, [wbAcc.startEvent]⟩,
                ⟨acc.reqCycle - reqCycle, reqCycle, [acc.startEvent]⟩] }) := by
  obtain ⟨records, events⟩ := evRec
  unfold stitch EventRecorder.newDelayEvent EventRecorder.setMinStartCycle EventRecorder.addChild
  simp only [List.append_assoc, List.singleton_append, List.length_append, List.length_cons,
    List.length_nil, Nat.zero_add, List.cons_append, List.nil_append,
    (getD_three events _ _ _ _).1, (getD_three events _ _ _ _).2.1, (getD_three events _ _ _ _).2.2,
    (set_three events _ _ _ _).1, (set_three events _ _ _ _).2.1, (set_three events _ _ _ _).2.2]

theorem setRecorder_self (t : EventRecorders) (srcId : Nat) (r : EventRecorder) :
    setRecorder t srcId r srcId = some r := by
  unfold setRecorder
  rw [if_pos rfl]

theorem setRecorder_of_ne (t : EventRecorders) (srcId : Nat) (r : EventRecorder) {i : Nat}
    (h : i ≠ srcId) : setRecorder t srcId r i = t i := by
  unfold setRecorder
  rw [if_neg h]

/-- The drain when the recorder of the requester holds a record: the record
pushed last is popped. -/
theorem drain_record {α κ : Type} (s : Sys α κ) (srcId : Nat) {r0 : EventRecorder}
    {wb : TimingRecord} {rest0 : List TimingRecord} (h0 : s.eventRecorders srcId = some r0)
    (h1 : r0.records = wb :: rest0) :
    drain s srcId
      = (wb, { s with
          eventRecorders := setRecorder s.eventRecorders srcId { r0 with records := rest0 }
          calls := s.calls ++ [Call.hasRecord, Call.popRecord] }) := by
  unfold drain
  rw [h0]
  simp only [EventRecorder.hasRecord, EventRecorder.popRecord, h1, List.isEmpty_cons,
    Bool.not_false, if_true, List.headD_cons, List.tail_cons]

/-- The drain when the recorder of the requester holds no record. -/
theorem drain_empty {α κ : Type} (s : Sys α κ) (srcId : Nat) {r0 : EventRecorder}
    (h0 : s.eventRecorders srcId = some r0) (h1 : r0.records = []) :
    drain s srcId = (TimingRecord.cleared, { s with calls := s.calls ++ [Call.hasRecord] }) := by
  unfold drain
  rw [h0]
  simp [EventRecorder.hasRecord, h1]

/-- The drain when the requester has no recorder. -/
theorem drain_none {α κ : Type} (s : Sys α κ) (srcId : Nat)
    (h0 : s.eventRecorders srcId = none) : drain s srcId = (TimingRecord.cleared, s) := by
  unfold drain
  rw [h0]

/-- After the drain the recorder of the requester holds one record less, none
when it held at most one. -/
theorem drain_pending {α κ : Type} (s : Sys α κ) (srcId : Nat) :
    pending (drain s srcId).2.eventRecorders srcId = pending s.eventRecorders srcId - 1 := by
  cases h0 : s.eventRecorders srcId with
  | none =>
    rw [drain_none s srcId h0]
    unfold pending
    rw [h0]
    rfl
  | some r0 =>
    cases h1 : r0.records with
    | nil =>
      rw [drain_empty s srcId h0 h1]
      unfold pending
      simp only [h0, h1]
      rfl
    | cons wb rest0 =>
      rw [drain_record s srcId h0 h1]
      unfold pending
      simp only [setRecorder_self, h0, h1, List.length_cons, Nat.add_sub_cancel]

/-- Without a valid writeback record the merge does nothing. -/
theorem merge_invalid {α κ : Type} (s : Sys α κ) (req : MemReq) {wbAcc : TimingRecord}
    (h : wbAcc.isValid = false) : merge s req wbAcc = .ok s := by
  unfold merge
  rw [h]
  rfl

/-- The merge when only the writeback record exists. -/
theorem merge_wb_only {α κ : Type} (s : Sys α κ) (req : MemReq) {wbAcc : TimingRecord}
    {r1 : EventRecorder} (h : wbAcc.isValid = true) (h0 : s.eventRecorders req.srcId = some r1)
    (h1 : r1.records = []) :
    merge s req wbAcc
      = .ok { s with
          eventRecorders := setRecorder s.eventRecorders req.srcId
            { r1 with records := [{ wbAcc with endEvent := none }] }
          calls := s.calls ++ [Call.hasRecord, Call.pushRecord { wbAcc with endEvent := none }] } := by
  unfold merge
  rw [h, h0]
  simp [EventRecorder.hasRecord, EventRecorder.pushRecord, h1]

/-- The merge when both records exist and neither was requested before the
access. -/
theorem merge_both {α κ : Type} (s : Sys α κ) (req : MemReq) {wbAcc acc : TimingRecord}
    {r1 : EventRecorder} {rest1 : List TimingRecord} (h : wbAcc.isValid = true)
    (h0 : s.eventRecorders req.srcId = some r1) (h1 : r1.records = acc :: rest1)
    (hw : req.cycle ≤ wbAcc.reqCycle) (ha : req.cycle ≤ acc.reqCycle) :
    merge s req wbAcc
      = .ok { s with
          eventRecorders := setRecorder s.eventRecorders req.srcId
            { records := { acc with reqCycle := req.cycle, startEvent := some r1.events.length }
                :: rest1
              events := r1.events
                ++ [⟨0, req.cycle, [some (r1.events.length + 1), some (r1.events.length + 2)]⟩,
                  ⟨wbAcc.reqCycle - req.cycle, req.cycle, [wbAcc.startEvent]⟩,
                  ⟨acc.reqCycle - req.cycle, req.cycle, [acc.startEvent]⟩] }
          calls := s.calls ++ [Call.hasRecord, Call.popRecord,
            Call.pushRecord
              { acc with reqCycle := req.cycle, startEvent := some r1.events.length }] } := by
  unfold merge
  rw [h, h0]
  simp only [EventRecorder.hasRecord, EventRecorder.popRecord, h1, List.isEmpty_cons,
    Bool.not_false, List.headD_cons, List.tail_cons, stitch_eq, EventRecorder.pushRecord,
    if_true, Bool.not_true]
  simp [hw, ha]

/-- The merge aborts, after popping the access record, when one of the two
records was requested before the access. -/
theorem merge_abort {α κ : Type} (s : Sys α κ) (req : MemReq) {wbAcc acc : TimingRecord}
    {r1 : EventRecorder} {rest1 : List TimingRecord} (h : wbAcc.isValid = true)
    (h0 : s.eventRecorders req.srcId = some r1) (h1 : r1.records = acc :: rest1)
    (hlt : wbAcc.reqCycle < req.cycle ∨ acc.reqCycle < req.cycle) :
    merge s req wbAcc
      = .error (if wbAcc.reqCycle < req.cycle then Fault.wbReqCycle else Fault.accReqCycle,
          { s with
            eventRecorders := setRecorder s.eventRecorders req.srcId { r1 with records := rest1 }
            calls := s.calls ++ [Call.hasRecord, Call.popRecord] }) := by
  unfold merge
  rw [h, h0]
  by_cases hw : req.cycle ≤ wbAcc.reqCycle
  · have ha : ¬ req.cycle ≤ acc.reqCycle := by omega
    rw [if_neg (by omega : ¬ wbAcc.reqCycle < req.cycle)]
    simp only [EventRecorder.hasRecord, EventRecorder.popRecord, h1, List.isEmpty_cons,
      Bool.not_false, List.headD_cons, List.tail_cons, if_true, Bool.not_true,
      ge_iff_le, hw, ha, decide_True, decide_False, if_false, Bool.false_eq_true]
  · rw [if_pos (by omega : wbAcc.reqCycle < req.cycle)]
    simp only [EventRecorder.hasRecord, EventRecorder.popRecord, h1, List.isEmpty_cons,
      Bool.not_false, List.headD_cons, List.tail_cons, if_true, Bool.not_true,
      ge_iff_le, hw, decide_False, if_false, Bool.false_eq_true]

end Cache

namespace Cache

/-! ## Cache orchestration: the path of an access -/

theorem toUInt32_toInt32 (n : Nat) : toUInt32 (toInt32 n) = u32 n := by
  have h : u32 n < 2 ^ 32 := Nat.mod_lt _ (by norm_num)
  unfold toUInt32 toInt32
  generalize u32 n = m at h
  norm_num at h ⊢
  split <;> omega

/-- A successful allocation: `preinsert` picked `cand`, the eviction hand-off
got the writeback address, that slot and the projected cycle, and `postinsert`
got the same slot. -/
theorem allocate_ok {α κ : Type} {A : CacheArray α} {C : CC κ} {s s2 : Sys α κ} {req : MemReq}
    {respCycle : Nat} {lineId : Int} (h : allocate A C s req respCycle = .ok (lineId, s2)) :
    ∃ cand wb arr1 arr2,
      A.preinsert s.array req.lineAddr (some req) = some (cand, wb, arr1)
      ∧ A.postinsert arr1 req.lineAddr (some req) (u32 cand) = some arr2
      ∧ lineId = toInt32 cand
      ∧ s2 = { array := arr2
               cc := (C.processEviction s.cc s.eventRecorders req wb (toInt32 cand) respCycle).2.1
               eventRecorders :=
                 (C.processEviction s.cc s.eventRecorders req wb (toInt32 cand) respCycle).2.2
               calls := s.calls ++ [Call.preinsert req.lineAddr (some req),
                 Call.processEviction req wb (toInt32 cand) respCycle,
                 Call.postinsert req.lineAddr (some req) (u32 cand)] } := by
  unfold allocate at h
  cases hp : A.preinsert s.array req.lineAddr (some req) with
  | none => rw [hp] at h; cases h
  | some t =>
    obtain ⟨cand, wb, arr1⟩ := t
    rw [hp] at h
    simp only [toUInt32_toInt32] at h
    cases hq : A.postinsert arr1 req.lineAddr (some req) (u32 cand) with
    | none => rw [hq] at h; cases h
    | some arr2 =>
      rw [hq] at h
      simp only [Except.ok.injEq, Prod.mk.injEq] at h
      exact ⟨cand, wb, arr1, arr2, rfl, hq, h.1.symm, h.2.symm⟩

/-- The three ways in which the lookup and allocation of an access can succeed:
a hit, a miss that is not allocated, and a miss with the allocation
`preinsert`, `processEviction`, `postinsert`. -/
theorem lookupAndAllocate_ok {α κ : Type} {A : CacheArray α} {C : CC κ} {c : Cache}
    {s s2 : Sys α κ} {req : MemReq} {lineId : Int} {al : Bool}
    (h : lookupAndAllocate A C c s req = .ok ((lineId, al), s2)) :
    ∃ found arr1,
      A.lookup s.array req.lineAddr (some req) (updateReplacement req) = some (found, arr1)
      ∧ ((found ≠ -1 ∧ lineId = found ∧ al = false
          ∧ s2 = { s with
                   array := arr1
                   calls := s.calls
                     ++ [Call.lookup req.lineAddr (some req) (updateReplacement req)] })
        ∨ (found = -1 ∧ C.shouldAllocate s.cc req = false ∧ lineId = -1 ∧ al = false
          ∧ s2 = { s with
                   array := arr1
                   calls := s.calls
                     ++ [Call.lookup req.lineAddr (some req) (updateReplacement req),
                       Call.shouldAllocate req] })
        ∨ (found = -1 ∧ C.shouldAllocate s.cc req = true ∧ al = true
          ∧ ∃ cand wb arr2 arr3,
              A.preinsert arr1 req.lineAddr (some req) = some (cand, wb, arr2)
              ∧ A.postinsert arr2 req.lineAddr (some req) (u32 cand) = some arr3
              ∧ lineId = toInt32 cand
              ∧ s2 = { array := arr3
                       cc := (C.processEviction s.cc s.eventRecorders req wb (toInt32 cand)
                         (u64 (req.cycle + c.accLat))).2.1
                       eventRecorders := (C.processEviction s.cc s.eventRecorders req wb
                         (toInt32 cand) (u64 (req.cycle + c.accLat))).2.2
                       calls := s.calls
                         ++ [Call.lookup req.lineAddr (some req) (updateReplacement req),
                           Call.shouldAllocate req,
                           Call.preinsert req.lineAddr (some req),
                           Call.processEviction req wb (toInt32 cand)
                             (u64 (req.cycle + c.accLat)),
                           Call.postinsert req.lineAddr (some req) (u32 cand)] })) := by
  unfold lookupAndAllocate at h
  cases hl : A.lookup s.array req.lineAddr (some req) (updateReplacement req) with
  | none => rw [hl] at h; cases h
  | some t =>
    obtain ⟨found, arr1⟩ := t
    rw [hl] at h
    refine ⟨found, arr1, rfl, ?_⟩
    by_cases hf : found = -1
    · simp only [hf, if_true] at h
      cases hs : C.shouldAllocate s.cc req with
      | false =>
        rw [hs] at h
        simp only [Bool.false_eq_true, if_false, Except.ok.injEq, Prod.mk.injEq] at h
        exact Or.inr (Or.inl ⟨hf, rfl, h.1.1.symm, h.1.2.symm, h.2.symm⟩)
      | true =>
        rw [hs] at h
        simp only [if_true] at h
        split at h
        · cases h
        · rename_i newId s3 ha
          simp only [Except.ok.injEq, Prod.mk.injEq] at h
          obtain ⟨cand, wb, arr2, arr3, h1, h2, h3, h4⟩ := allocate_ok ha
          refine Or.inr (Or.inr ⟨hf, rfl, h.1.2.symm, cand, wb, arr2, arr3, h1, h2, ?_, ?_⟩)
          · rw [← h.1.1, h3]
          · rw [← h.2, h4]
            simp
    · simp only [hf, if_false, Except.ok.injEq, Prod.mk.injEq] at h
      exact Or.inl ⟨hf, h.1.1.symm, h.1.2.symm, h.2.symm⟩

/-- The end of an access keeps array and recorders and logs `endAccess`. -/
theorem stateOf_close {α κ : Type} (C : CC κ) (s : Sys α κ) (req : MemReq) (respCycle : Nat) :
    stateOf (close C s req respCycle)
      = { s with cc := C.endAccess s.cc req, calls := s.calls ++ [Call.endAccess req] } := by
  unfold close
  split <;> rfl

theorem close_ok {α κ : Type} (C : CC κ) (s : Sys α κ) (req : MemReq) {respCycle : Nat}
    (h : req.cycle ≤ respCycle) :
    close C s req respCycle
      = .ok (respCycle,
          { s with cc := C.endAccess s.cc req, calls := s.calls ++ [Call.endAccess req] }) := by
  unfold close
  rw [if_pos h]

theorem close_abort {α κ : Type} (C : CC κ) (s : Sys α κ) (req : MemReq) {respCycle : Nat}
    (h : respCycle < req.cycle) :
    close C s req respCycle
      = .error (Fault.respBeforeReq,
          { s with cc := C.endAccess s.cc req, calls := s.calls ++ [Call.endAccess req] }) := by
  unfold close
  rw [if_neg (by omega)]

/-- A non-skipped access that got through lookup and allocation is the drain,
`processAccess`, the merge and the end of the access. -/
theorem access_of_atDrain {α κ : Type} (A : CacheArray α) (C : CC κ) (c : Cache) (s : Sys α κ)
    (req : MemReq) {lineId : Int} {al : Bool} {s2 : Sys α κ}
    (hskip : (C.startAccess s.cc req).1 = false)
    (hl : atDrain A C c s req = .ok ((lineId, al), s2)) :
    access A C c s req
      = match finish C s2 (reqOf C s req) lineId (u64 (req.cycle + c.accLat)) with
        | .error e => .error e
        | .ok (respCycle, s3) => close C s3 (reqOf C s req) respCycle := by
  unfold access
  unfold atDrain at hl
  rw [hskip, hl]
  rfl

/-- A skipped access is `startAccess` and the end of the access. -/
theorem access_of_skip {α κ : Type} (A : CacheArray α) (C : CC κ) (c : Cache) (s : Sys α κ)
    (req : MemReq) (hskip : (C.startAccess s.cc req).1 = true) :
    access A C c s req
      = .ok (req.cycle,
          { s with
            cc := C.endAccess (C.startAccess s.cc req).2.2 (reqOf C s req)
            calls := s.calls ++ [Call.startAccess req, Call.endAccess (reqOf C s req)] }) := by
  unfold access
  rw [hskip]
  simp only [Bool.not_true, Bool.false_eq_true, if_false]
  have hc : (retyped req (C.startAccess s.cc req)).cycle ≤ req.cycle := le_refl _
  rw [close_ok C _ _ hc]
  simp [started, reqOf]

/-- A non-skipped access that returns got through lookup and allocation and
through the merge, and returns the cycle of `processAccess`. -/
theorem access_ok {α κ : Type} {A : CacheArray α} {C : CC κ} {c : Cache} {s s' : Sys α κ}
    {req : MemReq} {r : Nat} (hskip : (C.startAccess s.cc req).1 = false)
    (h : access A C c s req = .ok (r, s')) :
    ∃ lineId al s2 s3,
      atDrain A C c s req = .ok ((lineId, al), s2)
      ∧ merge (processed C s2 (reqOf C s req) lineId (u64 (req.cycle + c.accLat))).2
          (reqOf C s req) (drain s2 req.srcId).1 = .ok s3
      ∧ r = (processed C s2 (reqOf C s req) lineId (u64 (req.cycle + c.accLat))).1
      ∧ req.cycle ≤ r
      ∧ s' = { s3 with
               cc := C.endAccess s3.cc (reqOf C s req)
               calls := s3.calls ++ [Call.endAccess (reqOf C s req)] } := by
  cases hl : atDrain A C c s req with
  | error e =>
    unfold access at h
    unfold atDrain at hl
    rw [hskip, hl] at h
    cases h
  | ok t =>
    obtain ⟨⟨lineId, al⟩, s2⟩ := t
    rw [access_of_atDrain A C c s req hskip hl] at h
    unfold finish at h
    have hsrc : (reqOf C s req).srcId = req.srcId := rfl
    rw [hsrc] at h
    cases hm : merge (processed C s2 (reqOf C s req) lineId (u64 (req.cycle + c.accLat))).2
        (reqOf C s req) (drain s2 req.srcId).1 with
    | error e => rw [hm] at h; cases h
    | ok s3 =>
      rw [hm] at h
      simp only at h
      by_cases hc : req.cycle
          ≤ (processed C s2 (reqOf C s req) lineId (u64 (req.cycle + c.accLat))).1
      · have hc2 : (reqOf C s req).cycle
            ≤ (processed C s2 (reqOf C s req) lineId (u64 (req.cycle + c.accLat))).1 := hc
        rw [close_ok C _ _ hc2] at h
        simp only [Except.ok.injEq, Prod.mk.injEq] at h
        refine ⟨lineId, al, s2, s3, rfl, hm, h.1.symm, ?_, h.2.symm⟩
        rw [← h.1]; exact hc
      · have hc2 : (processed C s2 (reqOf C s req) lineId (u64 (req.cycle + c.accLat))).1
            < (reqOf C s req).cycle := Nat.lt_of_not_le hc
        rw [close_abort C _ _ hc2] at h
        cases h

/-- The cycle that the FTM block returns: the checked cycle, or that cycle plus
200 on the penalty path, which needs FTM enabled. -/
theorem ftmReturn_fst {α κ : Type} (C : CC κ) (c : Cache) (s : Sys α κ) (req : MemReq)
    (sameOwner : Bool) (respCycle : Nat) :
    ((ftmReturn C c s req sameOwner respCycle).1 = respCycle
      ∨ ((ftmReturn C c s req sameOwner respCycle).1 = u64 (respCycle + 200)
          ∧ c.ftmEnable = true ∧ sameOwner = false)) := by
  unfold ftmReturn
  cases hso : sameOwner <;> cases hen : c.ftmEnable <;> cases hllc : c.isLLC <;>
    simp only [Bool.and_true, Bool.and_false, Bool.true_and, Bool.false_and, Bool.not_true,
      Bool.not_false, if_true, if_false, Bool.false_eq_true, and_true, and_false, or_false,
      and_self] <;>
    (try split_ifs) <;> simp

/-- The end of `accessSkew` returns only a checked cycle, or that cycle plus 200. -/
theorem closeSkew_ok {α κ : Type} {C : CC κ} {c : Cache} {s s' : Sys α κ} {req : MemReq}
    {sameOwner : Bool} {respCycle r : Nat}
    (h : closeSkew C c s req sameOwner respCycle = .ok (r, s')) :
    req.cycle ≤ respCycle
      ∧ (r = respCycle ∨ (r = u64 (respCycle + 200) ∧ c.ftmEnable = true ∧ sameOwner = false)) := by
  unfold closeSkew at h
  split at h
  · rename_i hc
    simp only [Except.ok.injEq] at h
    refine ⟨hc, ?_⟩
    have h1 := ftmReturn_fst C c
      { s with cc := C.endSkewAccess s.cc req, calls := s.calls ++ [Call.endSkewAccess req] }
      req sameOwner respCycle
    rw [h] at h1
    exact h1
  · cases h

/-- Every normal return of `accessSkew` is a cycle that passed the check
`respCycle >= req.cycle`, or that cycle plus 200; a skipped one returns the
request cycle. -/
theorem accessSkew_ok {α κ : Type} {A : CacheArray α} {C : CC κ} {c : Cache} {s s' : Sys α κ}
    {req : MemReq} {r : Nat} (h : accessSkew A C c s req = .ok (r, s')) :
    ∃ resp, req.cycle ≤ resp
      ∧ (r = resp ∨ (r = u64 (resp + 200) ∧ c.ftmEnable = true))
      ∧ ((C.startSkewAccess s.cc req).1 = true → r = req.cycle) := by
  unfold accessSkew at h
  cases hskip : (C.startSkewAccess s.cc req).1 with
  | true =>
    rw [hskip] at h
    simp only [Bool.not_true, Bool.false_eq_true, if_false] at h
    obtain ⟨h1, h2⟩ := closeSkew_ok h
    refine ⟨req.cycle, le_refl _, ?_, ?_⟩
    · rcases h2 with h2 | ⟨_, _, h4⟩
      · exact Or.inl h2
      · cases h4
    · intro _
      rcases h2 with h2 | ⟨_, _, h4⟩
      · exact h2
      · cases h4
  | false =>
    rw [hskip] at h
    simp only [Bool.not_false, if_true] at h
    split at h
    · cases h
    · split at h
      · cases h
      · rename_i respCycle s3 _
        obtain ⟨h1, h2⟩ := closeSkew_ok h
        refine ⟨respCycle, h1, ?_, ?_⟩
        · rcases h2 with h2 | ⟨h2, h3, _⟩
          · exact Or.inl h2
          · exact Or.inr ⟨h2, h3⟩
        · intro h5
          cases h5

/-- The drain calls only the recorder and keeps the array. -/
theorem drain_calls {α κ : Type} (s : Sys α κ) (srcId : Nat) :
    ∃ D, (drain s srcId).2.calls = s.calls ++ D
      ∧ (∀ k ∈ D, k.onRecorder = true)
      ∧ (drain s srcId).2.array = s.array ∧ (drain s srcId).2.cc = s.cc := by
  unfold drain
  split
  · exact ⟨[], by simp⟩
  · split
    · exact ⟨[Call.hasRecord, Call.popRecord], by simp [Call.onRecorder]⟩
    · exact ⟨[Call.hasRecord], by simp [Call.onRecorder]⟩

/-- The merge calls only the recorder and keeps array and controller. -/
theorem merge_calls {α κ : Type} {s s3 : Sys α κ} {req : MemReq} {wbAcc : TimingRecord}
    (h : merge s req wbAcc = .ok s3) :
    ∃ M, s3.calls = s.calls ++ M
      ∧ (∀ k ∈ M, k.onRecorder = true)
      ∧ s3.array = s.array ∧ s3.cc = s.cc := by
  unfold merge at h
  split at h
  · split at h
    · cases h
    · split at h
      · simp only [Except.ok.injEq] at h
        rw [← h]
        exact ⟨_, rfl, by simp [Call.onRecorder]⟩
      · split at h
        · cases h
        · split at h
          · cases h
          · simp only [Except.ok.injEq] at h
            rw [← h]
            exact ⟨_, rfl, by simp [Call.onRecorder]⟩
  · simp only [Except.ok.injEq] at h
    rw [← h]
    exact ⟨[], by simp⟩

/-- After lookup and allocation a returning access calls neither the array nor
the eviction hand-off again. -/
theorem access_tail {α κ : Type} {A : CacheArray α} {C : CC κ} {c : Cache} {s s' : Sys α κ}
    {req : MemReq} {r : Nat} (hskip : (C.startAccess s.cc req).1 = false)
    (h : access A C c s req = .ok (r, s')) :
    ∃ lineId al s2 tail,
      atDrain A C c s req = .ok ((lineId, al), s2)
      ∧ s'.calls = s2.calls ++ tail
      ∧ (∀ k ∈ tail, k.onArray = false)
      ∧ Call.processAccess (reqOf C s req) lineId (u64 (req.cycle + c.accLat)) ∈ tail
      ∧ s'.array = s2.array := by
  obtain ⟨lineId, al, s2, s3, h1, h2, _, _, h5⟩ := access_ok hskip h
  obtain ⟨M, m1, m2, m3, _⟩ := merge_calls h2
  obtain ⟨D, d1, d2, d3, _⟩ := drain_calls s2 (reqOf C s req).srcId
  refine ⟨lineId, al, s2,
    D ++ [Call.processAccess (reqOf C s req) lineId (u64 (req.cycle + c.accLat))] ++ M
      ++ [Call.endAccess (reqOf C s req)], h1, ?_, ?_, ?_, ?_⟩
  · rw [h5]
    simp only [m1, processed, d1, List.append_assoc]
  · intro k hk
    simp only [List.mem_append, List.mem_singleton] at hk
    rcases hk with ((hk | hk) | hk) | hk
    · have := d2 k hk
      cases k <;> simp_all [Call.onRecorder, Call.onArray]
    · rw [hk]; rfl
    · have := m2 k hk
      cases k <;> simp_all [Call.onRecorder, Call.onArray]
    · rw [hk]; rfl
  · simp
  · rw [h5]
    simp only [m3, processed, d3]

end Cache

namespace Cache

/-! ## Cache orchestration: the contract of `access` -/

/-- C23 (response latency).  A non-skipped access that returns, returns exactly
the cycle that `processAccess` returns when called, after the drain, with the
slot `lineId` and the cycle `req.cycle + accLat` (in `uint64_t`); `lineId` is
what the lookup returned (a slot, or `-1` when nothing is allocated) or the slot
that `preinsert` picked.  The eviction hand-off is called with that same cycle,
and the access is the same whatever cycle the hand-off returns. -/
theorem response_latency {α κ : Type} (A : CacheArray α) (C : CC κ) (c : Cache) (s : Sys α κ)
    (req : MemReq) {r : Nat} {s' : Sys α κ} (hskip : (C.startAccess s.cc req).1 = false)
    (h : access A C c s req = .ok (r, s')) :
    ∃ lineId al s2 found arr1,
      atDrain A C c s req = .ok ((lineId, al), s2)
      ∧ A.lookup s.array req.lineAddr (some (reqOf C s req)) (updateReplacement (reqOf C s req))
          = some (found, arr1)
      ∧ ((al = false ∧ lineId = found)
        ∨ (al = true ∧ found = -1
          ∧ ∃ cand wb arr2,
              A.preinsert arr1 req.lineAddr (some (reqOf C s req)) = some (cand, wb, arr2)
              ∧ lineId = toInt32 cand
              ∧ Call.processEviction (reqOf C s req) wb lineId (u64 (req.cycle + c.accLat))
                  ∈ s'.calls))
      ∧ r = (C.processAccess (drain s2 req.srcId).2.cc (drain s2 req.srcId).2.eventRecorders
          (reqOf C s req) lineId (u64 (req.cycle + c.accLat))).1
      ∧ Call.processAccess (reqOf C s req) lineId (u64 (req.cycle + c.accLat)) ∈ s'.calls
      ∧ (∀ f : Nat → Nat,
          access A
              { C with
                processEviction := fun k t q wb l cyc =>
                  (f (C.processEviction k t q wb l cyc).1, (C.processEviction k t q wb l cyc).2) }
              c s req
            = access A C c s req) := by
  obtain ⟨lineId, al, s2, tail, h1, h2, _, h4, _⟩ := access_tail hskip h
  obtain ⟨lineId', al', s2', s3, h1', _, h3', _, _⟩ := access_ok hskip h
  rw [h1] at h1'
  simp only [Except.ok.injEq, Prod.mk.injEq] at h1'
  obtain ⟨⟨e1, _⟩, e3⟩ := h1'
  subst e1 e3
  have hl := h1
  unfold atDrain at hl
  obtain ⟨found, arr1, l1, l2⟩ := lookupAndAllocate_ok hl
  refine ⟨lineId, al, s2, found, arr1, h1, l1, ?_, h3', ?_, ?_⟩
  · rcases l2 with ⟨_, a2, a3, _⟩ | ⟨a1, _, a3, a4, _⟩ | ⟨a1, _, a3, cand, wb, arr2, arr3, b1, _, b3, b4⟩
    · exact Or.inl ⟨a3, a2⟩
    · exact Or.inl ⟨a4, by rw [a3, a1]⟩
    · refine Or.inr ⟨a3, a1, cand, wb, arr2, b1, b3, ?_⟩
      rw [h2, b4, b3]
      simp [reqOf, retyped]
  · rw [h2]
    exact List.mem_append_right _ h4
  · intro f
    rfl

theorem response_latency_witness :
    (stubCC.startAccess demoSys.cc demoReq).1 = false
    ∧ ∃ lineId al s2,
        atDrain (SetAssocArray.ops zinfoPlain) stubCC demoCache demoSys demoReq
          = .ok ((lineId, al), s2)
        ∧ 114 = (stubCC.processAccess (drain s2 0).2.cc (drain s2 0).2.eventRecorders demoReq
            lineId 104).1 := by
  obtain ⟨lineId, al, s2, _, _, h1, _, _, h4, _⟩ :=
    response_latency (SetAssocArray.ops zinfoPlain) stubCC demoCache demoSys demoReq rfl
      (rfl : access (SetAssocArray.ops zinfoPlain) stubCC demoCache demoSys demoReq
        = .ok (114,
            stateOf (access (SetAssocArray.ops zinfoPlain) stubCC demoCache demoSys demoReq)))
  exact ⟨rfl, lineId, al, s2, h1, h4⟩

/-- C24 (skipped access).  When `startAccess` declares the access skippable,
`access` returns `req.cycle`; the only calls it makes are `startAccess` and one
`endAccess`, so there is no lookup, `preinsert`, `postinsert`,
`processEviction` or `processAccess` call and no call to the recorder; array
and recorders are as before. -/
theorem skipped_access {α κ : Type} (A : CacheArray α) (C : CC κ) (c : Cache) (s : Sys α κ)
    (req : MemReq) (hskip : (C.startAccess s.cc req).1 = true) :
    ∃ s', access A C c s req = .ok (req.cycle, s')
      ∧ s'.calls = s.calls ++ [Call.startAccess req, Call.endAccess (reqOf C s req)]
      ∧ s'.array = s.array
      ∧ s'.eventRecorders = s.eventRecorders
      ∧ s'.cc = C.endAccess (C.startAccess s.cc req).2.2 (reqOf C s req) :=
  ⟨_, access_of_skip A C c s req hskip, rfl, rfl, rfl, rfl⟩

theorem skipped_access_witness :
    (skipCC.startAccess demoSys.cc demoReq).1 = true
    ∧ ∃ s', access (SetAssocArray.ops zinfoPlain) skipCC demoCache demoSys demoReq = .ok (100, s')
      ∧ s'.calls = [Call.startAccess demoReq, Call.endAccess demoReq] :=
  ⟨rfl, (skipped_access (SetAssocArray.ops zinfoPlain) skipCC demoCache demoSys demoReq rfl).imp
    fun _ h => ⟨h.1, h.2.1⟩⟩

/-- C25 (miss handling order).  In a non-skipped access that returns, the
lookup is asked to update the replacement state exactly when the request type
is GETS or GETX.  If the lookup returned `-1` and `shouldAllocate(req)` holds,
the calls after the lookup and `shouldAllocate` are `preinsert`,
`processEviction` with the writeback address and the slot that `preinsert`
produced and the cycle `req.cycle + accLat`, and `postinsert` with the same
slot, in this order, and no later call goes to the array or the eviction
hand-off; otherwise the lookup is the only such call. -/
theorem miss_handling_order {α κ : Type} (A : CacheArray α) (C : CC κ) (c : Cache)
    (s : Sys α κ) (req : MemReq) {r : Nat} {s' : Sys α κ}
    (hskip : (C.startAccess s.cc req).1 = false) (h : access A C c s req = .ok (r, s')) :
    ∃ found arr1 tail,
      A.lookup s.array req.lineAddr (some (reqOf C s req)) (updateReplacement (reqOf C s req))
          = some (found, arr1)
      ∧ (updateReplacement (reqOf C s req) = true
          ↔ (reqOf C s req).type = AccessType.GETS ∨ (reqOf C s req).type = AccessType.GETX)
      ∧ (∀ k ∈ tail, k.onArray = false)
      ∧ ((found = -1 ∧ C.shouldAllocate (C.startAccess s.cc req).2.2 (reqOf C s req) = true
          ∧ ∃ cand wb arr2 arr3,
              A.preinsert arr1 req.lineAddr (some (reqOf C s req)) = some (cand, wb, arr2)
              ∧ A.postinsert arr2 req.lineAddr (some (reqOf C s req)) (u32 cand) = some arr3
              ∧ (cand < 2 ^ 31 → toInt32 cand = (cand : Int) ∧ u32 cand = cand)
              ∧ s'.array = arr3
              ∧ s'.calls = s.calls
                  ++ [Call.startAccess req,
                    Call.lookup req.lineAddr (some (reqOf C s req))
                      (updateReplacement (reqOf C s req)),
                    Call.shouldAllocate (reqOf C s req),
                    Call.preinsert req.lineAddr (some (reqOf C s req)),
                    Call.processEviction (reqOf C s req) wb (toInt32 cand)
                      (u64 (req.cycle + c.accLat)),
                    Call.postinsert req.lineAddr (some (reqOf C s req)) (u32 cand)]
                  ++ tail)
        ∨ (¬ (found = -1 ∧ C.shouldAllocate (C.startAccess s.cc req).2.2 (reqOf C s req) = true)
          ∧ s'.array = arr1
          ∧ s'.calls = s.calls
              ++ [Call.startAccess req,
                Call.lookup req.lineAddr (some (reqOf C s req))
                  (updateReplacement (reqOf C s req))]
              ++ tail)) := by
  obtain ⟨lineId, al, s2, tail, h1, h2, h3, _, h5⟩ := access_tail hskip h
  unfold atDrain at h1
  obtain ⟨found, arr1, l1, l2⟩ := lookupAndAllocate_ok h1
  have hupd : updateReplacement (reqOf C s req) = true
      ↔ (reqOf C s req).type = AccessType.GETS ∨ (reqOf C s req).type = AccessType.GETX := by
    unfold updateReplacement
    simp
  rcases l2 with ⟨a1, _, _, a4⟩ | ⟨a1, a2, _, _, a5⟩
    | ⟨a1, a2, _, cand, wb, arr2, arr3, b1, b2, _, b4⟩
  · refine ⟨found, arr1, tail, l1, hupd, h3, Or.inr ⟨fun hh => a1 hh.1, ?_, ?_⟩⟩
    · rw [h5, a4]
    · rw [h2, a4]
      simp [started, reqOf, retyped]
  · refine ⟨found, arr1, Call.shouldAllocate (reqOf C s req) :: tail, l1, hupd, ?_,
      Or.inr ⟨fun hh => ?_, ?_, ?_⟩⟩
    · intro k hk
      rcases List.mem_cons.mp hk with hk | hk
      · rw [hk]; rfl
      · exact h3 k hk
    · have h6 : C.shouldAllocate (C.startAccess s.cc req).2.2 (reqOf C s req) = false := a2
      rw [h6] at hh
      cases hh.2
    · rw [h5, a5]
    · rw [h2, a5]
      simp [started, reqOf, retyped]
  · refine ⟨found, arr1, tail, l1, hupd, h3, Or.inl ⟨a1, a2, cand, wb, arr2, arr3, b1, b2, ?_, ?_, ?_⟩⟩
    · intro hc
      exact ⟨toInt32_of_lt hc, u32_of_lt (lt_trans hc (by norm_num))⟩
    · rw [h5, b4]
    · rw [h2, b4]
      simp [started, reqOf, retyped]

theorem miss_handling_order_witness :
    (stubCC.startAccess demoSys.cc demoReq).1 = false
    ∧ access (SetAssocArray.ops zinfoPlain) stubCC demoCache demoSys demoReq
        = .ok (114,
            stateOf (access (SetAssocArray.ops zinfoPlain) stubCC demoCache demoSys demoReq))
    ∧ ∃ (found : Int) (arr1 : SetAssocArray) (tail : List Call),
        (SetAssocArray.ops zinfoPlain).lookup demoSys.array 20 (some demoReq) true
          = some (found, arr1)
        ∧ (∀ k ∈ tail, k.onArray = false) := by
  obtain ⟨found, arr1, tail, h1, _, h3, _⟩ :=
    miss_handling_order (SetAssocArray.ops zinfoPlain) stubCC demoCache demoSys demoReq rfl
      (rfl : access (SetAssocArray.ops zinfoPlain) stubCC demoCache demoSys demoReq
        = .ok (114,
            stateOf (access (SetAssocArray.ops zinfoPlain) stubCC demoCache demoSys demoReq)))
  exact ⟨rfl, rfl, found, arr1, tail, h1, h3⟩

end Cache

namespace Cache

/-! ## Cache orchestration: the merge of the timing records -/

/-- The merge aborts when `processAccess` took the recorder away. -/
theorem merge_dangling {α κ : Type} (s : Sys α κ) (req : MemReq) {wbAcc : TimingRecord}
    (h : wbAcc.isValid = true) (h0 : s.eventRecorders req.srcId = none) :
    merge s req wbAcc = .error (Fault.danglingRecorder, s) := by
  unfold merge
  rw [h, h0]
  rfl

/-- A non-skipped access whose merge succeeds ends with `endAccess` and the
check of the cycle that `processAccess` returned. -/
theorem access_of_merge {α κ : Type} (A : CacheArray α) (C : CC κ) (c : Cache) (s : Sys α κ)
    (req : MemReq) {lineId : Int} {al : Bool} {s2 s3 : Sys α κ}
    (hskip : (C.startAccess s.cc req).1 = false)
    (hl : atDrain A C c s req = .ok ((lineId, al), s2))
    (hm : merge (processed C s2 (reqOf C s req) lineId (u64 (req.cycle + c.accLat))).2
      (reqOf C s req) (drain s2 req.srcId).1 = .ok s3) :
    access A C c s req
      = close C s3 (reqOf C s req)
          (processed C s2 (reqOf C s req) lineId (u64 (req.cycle + c.accLat))).1 := by
  rw [access_of_atDrain A C c s req hskip hl]
  unfold finish
  have hsrc : (reqOf C s req).srcId = req.srcId := rfl
  rw [hsrc, hm]

/-- A non-skipped access whose merge aborts, aborts there. -/
theorem access_of_merge_abort {α κ : Type} (A : CacheArray α) (C : CC κ) (c : Cache)
    (s : Sys α κ) (req : MemReq) {lineId : Int} {al : Bool} {s2 : Sys α κ}
    {e : Fault × Sys α κ} (hskip : (C.startAccess s.cc req).1 = false)
    (hl : atDrain A C c s req = .ok ((lineId, al), s2))
    (hm : merge (processed C s2 (reqOf C s req) lineId (u64 (req.cycle + c.accLat))).2
      (reqOf C s req) (drain s2 req.srcId).1 = .error e) :
    access A C c s req = .error e := by
  rw [access_of_atDrain A C c s req hskip hl]
  unfold finish
  have hsrc : (reqOf C s req).srcId = req.srcId := rfl
  rw [hsrc, hm]

/-- The result of the block "Connect both events" depends on the writeback
record only through its request cycle and its start event. -/
theorem stitch_congr (evRec : EventRecorder) (wb wb' acc : TimingRecord) (reqCycle : Nat)
    (h1 : wb'.reqCycle = wb.reqCycle) (h2 : wb'.startEvent = wb.startEvent) :
    stitch evRec wb' acc reqCycle = stitch evRec wb acc reqCycle := by
  rw [stitch_eq, stitch_eq, h1, h2]

/-- The state in which a non-skipped access ends (or aborts at its last check)
when a writeback record was drained, `processAccess` left an access record, and
neither record was requested before the access. -/
theorem access_both {α κ : Type} (A : CacheArray α) (C : CC κ) (c : Cache) (s : Sys α κ)
    (req : MemReq) {lineId : Int} {al : Bool} {s2 : Sys α κ} {r0 r1 : EventRecorder}
    {wb acc : TimingRecord} {rest0 rest1 : List TimingRecord}
    (hskip : (C.startAccess s.cc req).1 = false)
    (hl : atDrain A C c s req = .ok ((lineId, al), s2))
    (h0 : s2.eventRecorders req.srcId = some r0) (h1 : r0.records = wb :: rest0)
    (hv : wb.isValid = true)
    (h2 : (processed C s2 (reqOf C s req) lineId
      (u64 (req.cycle + c.accLat))).2.eventRecorders req.srcId = some r1)
    (h3 : r1.records = acc :: rest1)
    (hw : req.cycle ≤ wb.reqCycle) (ha : req.cycle ≤ acc.reqCycle) :
    stateOf (access A C c s req)
      = { array := (processed C s2 (reqOf C s req) lineId (u64 (req.cycle + c.accLat))).2.array
          cc := C.endAccess
            (processed C s2 (reqOf C s req) lineId (u64 (req.cycle + c.accLat))).2.cc
            (reqOf C s req)
          eventRecorders := setRecorder
            (processed C s2 (reqOf C s req) lineId (u64 (req.cycle + c.accLat))).2.eventRecorders
            req.srcId
            { records := { acc with reqCycle := req.cycle, startEvent := some r1.events.length }
                :: rest1
              events := r1.events
                ++ [⟨0, req.cycle, [some (r1.events.length + 1), some (r1.events.length + 2)]⟩,
                  ⟨wb.reqCycle - req.cycle, req.cycle, [wb.startEvent]⟩,
                  ⟨acc.reqCycle - req.cycle, req.cycle, [acc.startEvent]⟩] }
          calls := (processed C s2 (reqOf C s req) lineId (u64 (req.cycle + c.accLat))).2.calls
            ++ [Call.hasRecord, Call.popRecord,
              Call.pushRecord
                { acc with reqCycle := req.cycle, startEvent := some r1.events.length },
              Call.endAccess (reqOf C s req)] } := by
  have hd : (drain s2 req.srcId).1 = wb := by rw [drain_record s2 req.srcId h0 h1]
  have hm := merge_both (processed C s2 (reqOf C s req) lineId (u64 (req.cycle + c.accLat))).2
    (reqOf C s req) hv h2 h3 hw ha
  rw [← hd] at hm
  rw [access_of_merge A C c s req hskip hl hm, stateOf_close, hd]
  simp [reqOf, retyped]

/-- The merge of a non-skipped access aborts, with the access record popped and
nothing pushed, when one of the two records was requested before the access. -/
theorem access_both_abort {α κ : Type} (A : CacheArray α) (C : CC κ) (c : Cache) (s : Sys α κ)
    (req : MemReq) {lineId : Int} {al : Bool} {s2 : Sys α κ} {r0 r1 : EventRecorder}
    {wb acc : TimingRecord} {rest0 rest1 : List TimingRecord}
    (hskip : (C.startAccess s.cc req).1 = false)
    (hl : atDrain A C c s req = .ok ((lineId, al), s2))
    (h0 : s2.eventRecorders req.srcId = some r0) (h1 : r0.records = wb :: rest0)
    (hv : wb.isValid = true)
    (h2 : (processed C s2 (reqOf C s req) lineId
      (u64 (req.cycle + c.accLat))).2.eventRecorders req.srcId = some r1)
    (h3 : r1.records = acc :: rest1)
    (hlt : wb.reqCycle < req.cycle ∨ acc.reqCycle < req.cycle) :
    access A C c s req
      = .error (if wb.reqCycle < req.cycle then Fault.wbReqCycle else Fault.accReqCycle,
          { (processed C s2 (reqOf C s req) lineId (u64 (req.cycle + c.accLat))).2 with
            eventRecorders := setRecorder
              (processed C s2 (reqOf C s req) lineId
                (u64 (req.cycle + c.accLat))).2.eventRecorders
              req.srcId { r1 with records := rest1 }
            calls := (processed C s2 (reqOf C s req) lineId (u64 (req.cycle + c.accLat))).2.calls
              ++ [Call.hasRecord, Call.popRecord] }) := by
  have hd : (drain s2 req.srcId).1 = wb := by rw [drain_record s2 req.srcId h0 h1]
  have hm := merge_abort (processed C s2 (reqOf C s req) lineId (u64 (req.cycle + c.accLat))).2
    (reqOf C s req) hv h2 h3 hlt
  rw [← hd] at hm
  rw [access_of_merge_abort A C c s req hskip hl hm, hd]
  rfl

/-- The state in which a non-skipped access ends when a writeback record was
drained and `processAccess` left the recorder empty. -/
theorem access_wb_only {α κ : Type} (A : CacheArray α) (C : CC κ) (c : Cache) (s : Sys α κ)
    (req : MemReq) {lineId : Int} {al : Bool} {s2 : Sys α κ} {r0 r1 : EventRecorder}
    {wb : TimingRecord} {rest0 : List TimingRecord}
    (hskip : (C.startAccess s.cc req).1 = false)
    (hl : atDrain A C c s req = .ok ((lineId, al), s2))
    (h0 : s2.eventRecorders req.srcId = some r0) (h1 : r0.records = wb :: rest0)
    (hv : wb.isValid = true)
    (h2 : (processed C s2 (reqOf C s req) lineId
      (u64 (req.cycle + c.accLat))).2.eventRecorders req.srcId = some r1)
    (h3 : r1.records = []) :
    stateOf (access A C c s req)
      = { array := (processed C s2 (reqOf C s req) lineId (u64 (req.cycle + c.accLat))).2.array
          cc := C.endAccess
            (processed C s2 (reqOf C s req) lineId (u64 (req.cycle + c.accLat))).2.cc
            (reqOf C s req)
          eventRecorders := setRecorder
            (processed C s2 (reqOf C s req) lineId (u64 (req.cycle + c.accLat))).2.eventRecorders
            req.srcId { r1 with records := [{ wb with endEvent := none }] }
          calls := (processed C s2 (reqOf C s req) lineId (u64 (req.cycle + c.accLat))).2.calls
            ++ [Call.hasRecord, Call.pushRecord { wb with endEvent := none },
              Call.endAccess (reqOf C s req)] } := by
  have hd : (drain s2 req.srcId).1 = wb := by rw [drain_record s2 req.srcId h0 h1]
  have hm := merge_wb_only (processed C s2 (reqOf C s req) lineId
    (u64 (req.cycle + c.accLat))).2 (reqOf C s req) hv h2 h3
  rw [← hd] at hm
  rw [access_of_merge A C c s req hskip hl hm, stateOf_close, hd]
  simp [reqOf, retyped]

/-- The state in which a non-skipped access ends when no valid writeback record
was drained: the recorders are as `processAccess` left them. -/
theorem access_no_wb {α κ : Type} (A : CacheArray α) (C : CC κ) (c : Cache) (s : Sys α κ)
    (req : MemReq) {lineId : Int} {al : Bool} {s2 : Sys α κ}
    (hskip : (C.startAccess s.cc req).1 = false)
    (hl : atDrain A C c s req = .ok ((lineId, al), s2))
    (hv : (drain s2 req.srcId).1.isValid = false) :
    stateOf (access A C c s req)
      = { (processed C s2 (reqOf C s req) lineId (u64 (req.cycle + c.accLat))).2 with
          cc := C.endAccess
            (processed C s2 (reqOf C s req) lineId (u64 (req.cycle + c.accLat))).2.cc
            (reqOf C s req)
          calls := (processed C s2 (reqOf C s req) lineId (u64 (req.cycle + c.accLat))).2.calls
            ++ [Call.endAccess (reqOf C s req)] } := by
  have hm := merge_invalid (processed C s2 (reqOf C s req) lineId
    (u64 (req.cycle + c.accLat))).2 (reqOf C s req) hv
  rw [access_of_merge A C c s req hskip hl hm, stateOf_close]

/-- C26 (the merge inherits the end of the access).  In a non-skipped access,
when a valid writeback record `wb` was drained before `processAccess`,
`processAccess` left an access record `acc`, and neither was requested before
the access, exactly one record is pushed back.  It is `acc` with `reqCycle`
set to `req.cycle` and `startEvent` set to the new root, so `endEvent`,
`endCycle` and every other field are those of `acc`.  The pushed record and the
events made for it depend on `wb` only through its request cycle and its start
event: the end event of `wb` is referenced nowhere. -/
theorem merge_inherits_end {α κ : Type} (A : CacheArray α) (C : CC κ) (c : Cache) (s : Sys α κ)
    (req : MemReq) {lineId : Int} {al : Bool} {s2 : Sys α κ} {r0 r1 : EventRecorder}
    {wb acc : TimingRecord} {rest0 rest1 : List TimingRecord}
    (hskip : (C.startAccess s.cc req).1 = false)
    (hl : atDrain A C c s req = .ok ((lineId, al), s2))
    (h0 : s2.eventRecorders req.srcId = some r0) (h1 : r0.records = wb :: rest0)
    (hv : wb.isValid = true)
    (h2 : (processed C s2 (reqOf C s req) lineId
      (u64 (req.cycle + c.accLat))).2.eventRecorders req.srcId = some r1)
    (h3 : r1.records = acc :: rest1)
    (hw : req.cycle ≤ wb.reqCycle) (ha : req.cycle ≤ acc.reqCycle) :
    ∃ r3 pushed,
      (stateOf (access A C c s req)).eventRecorders req.srcId = some r3
      ∧ r3.records = pushed :: rest1
      ∧ (stateOf (access A C c s req)).calls
          = (processed C s2 (reqOf C s req) lineId (u64 (req.cycle + c.accLat))).2.calls
            ++ [Call.hasRecord, Call.popRecord, Call.pushRecord pushed,
              Call.endAccess (reqOf C s req)]
      ∧ pushed = { acc with reqCycle := req.cycle, startEvent := pushed.startEvent }
      ∧ pushed.endEvent = acc.endEvent
      ∧ pushed.endCycle = acc.endCycle
      ∧ pushed.rest = acc.rest
      ∧ pushed.reqCycle = req.cycle
      ∧ pushed = (stitch { r1 with records := rest1 } wb acc req.cycle).1
      ∧ r3 = (stitch { r1 with records := rest1 } wb acc req.cycle).2.pushRecord pushed
      ∧ (∀ wb' : TimingRecord, wb'.reqCycle = wb.reqCycle → wb'.startEvent = wb.startEvent →
          stitch { r1 with records := rest1 } wb' acc req.cycle
            = stitch { r1 with records := rest1 } wb acc req.cycle) := by
  rw [access_both A C c s req hskip hl h0 h1 hv h2 h3 hw ha]
  refine ⟨_, _, setRecorder_self _ _ _, rfl, rfl, rfl, rfl, rfl, rfl, rfl, ?_, ?_, ?_⟩
  · rw [stitch_eq]
  · rw [stitch_eq]
    rfl
  · intro wb' e1 e2
    exact stitch_congr _ _ _ _ _ e1 e2

theorem merge_inherits_end_witness :
    ∃ r3 pushed,
      (stateOf (access (SetAssocArray.ops zinfoPlain) stubCC demoCache demoSys
        demoReq)).eventRecorders 0 = some r3
      ∧ r3.records = [pushed]
      ∧ pushed.endEvent = some 3 ∧ pushed.endCycle = 114 ∧ pushed.reqCycle = 100 := by
  obtain ⟨r3, pushed, h1, h2, _, _, h5, h6, _, h8, _⟩ :=
    @merge_inherits_end _ _ (SetAssocArray.ops zinfoPlain) stubCC demoCache demoSys demoReq 0 true
      (stateOf (atDrain (SetAssocArray.ops zinfoPlain) stubCC demoCache demoSys demoReq))
      ⟨[⟨104, 109, some 0, some 1, 7⟩], [⟨0, 0, []⟩, ⟨0, 0, []⟩, ⟨0, 0, []⟩, ⟨0, 0, []⟩]⟩
      ⟨[⟨105, 114, some 2, some 3, 9⟩], [⟨0, 0, []⟩, ⟨0, 0, []⟩, ⟨0, 0, []⟩, ⟨0, 0, []⟩]⟩
      ⟨104, 109, some 0, some 1, 7⟩ ⟨105, 114, some 2, some 3, 9⟩ [] []
      rfl rfl rfl rfl rfl rfl rfl (by decide) (by decide)
  exact ⟨r3, pushed, h1, h2, h5, h6, h8⟩

/-- C27 (the graph of the merge).  In a non-skipped access, when a valid
writeback record `wb` was drained and `processAccess` left an access record
`acc`:  if neither was requested before the access, the start event of the
record pushed back is a new event with delay 0 and exactly two children, a new
event with delay `wb.reqCycle - req.cycle` whose only child is the start event
of `wb` and a new event with delay `acc.reqCycle - req.cycle` whose only child
is the start event of `acc`; `req.cycle` plus each delay is the request cycle
of its record.  If one of them was requested before the access, the access
aborts at the assertion of the merge and nothing is pushed. -/
theorem merge_graph {α κ : Type} (A : CacheArray α) (C : CC κ) (c : Cache) (s : Sys α κ)
    (req : MemReq) {lineId : Int} {al : Bool} {s2 : Sys α κ} {r0 r1 : EventRecorder}
    {wb acc : TimingRecord} {rest0 rest1 : List TimingRecord}
    (hskip : (C.startAccess s.cc req).1 = false)
    (hl : atDrain A C c s req = .ok ((lineId, al), s2))
    (h0 : s2.eventRecorders req.srcId = some r0) (h1 : r0.records = wb :: rest0)
    (hv : wb.isValid = true)
    (h2 : (processed C s2 (reqOf C s req) lineId
      (u64 (req.cycle + c.accLat))).2.eventRecorders req.srcId = some r1)
    (h3 : r1.records = acc :: rest1) :
    (req.cycle ≤ wb.reqCycle → req.cycle ≤ acc.reqCycle →
      ∃ r3 pushed,
        (stateOf (access A C c s req)).eventRecorders req.srcId = some r3
        ∧ r3.records = pushed :: rest1
        ∧ pushed.startEvent = some r1.events.length
        ∧ r3.events = r1.events
            ++ [⟨0, req.cycle, [some (r1.events.length + 1), some (r1.events.length + 2)]⟩,
              ⟨wb.reqCycle - req.cycle, req.cycle, [wb.startEvent]⟩,
              ⟨acc.reqCycle - req.cycle, req.cycle, [acc.startEvent]⟩]
        ∧ req.cycle + (wb.reqCycle - req.cycle) = wb.reqCycle
        ∧ req.cycle + (acc.reqCycle - req.cycle) = acc.reqCycle)
    ∧ (wb.reqCycle < req.cycle ∨ acc.reqCycle < req.cycle →
      ∃ f s', access A C c s req = .error (f, s')
        ∧ (f = Fault.wbReqCycle ∨ f = Fault.accReqCycle)
        ∧ s'.eventRecorders req.srcId = some { r1 with records := rest1 }
        ∧ s'.calls
            = (processed C s2 (reqOf C s req) lineId (u64 (req.cycle + c.accLat))).2.calls
              ++ [Call.hasRecord, Call.popRecord]) := by
  constructor
  · intro hw ha
    rw [access_both A C c s req hskip hl h0 h1 hv h2 h3 hw ha]
    exact ⟨_, _, setRecorder_self _ _ _, rfl, rfl, rfl, by omega, by omega⟩
  · intro hlt
    rw [access_both_abort A C c s req hskip hl h0 h1 hv h2 h3 hlt]
    refine ⟨_, _, rfl, ?_, setRecorder_self _ _ _, rfl⟩
    split_ifs
    · exact Or.inl rfl
    · exact Or.inr rfl

theorem merge_graph_witness :
    (∃ r3 pushed,
      (stateOf (access (SetAssocArray.ops zinfoPlain) stubCC demoCache demoSys
        demoReq)).eventRecorders 0 = some r3
      ∧ r3.records = [pushed]
      ∧ pushed.startEvent = some 4
      ∧ r3.events = [⟨0, 0, []⟩, ⟨0, 0, []⟩, ⟨0, 0, []⟩, ⟨0, 0, []⟩,
          ⟨0, 100, [some 5, some 6]⟩, ⟨4, 100, [some 0]⟩, ⟨5, 100, [some 2]⟩])
    ∧ (∃ f s', access (SetAssocArray.ops zinfoPlain) earlyCC demoCache demoSys demoReq
          = .error (f, s')
        ∧ (f = Fault.wbReqCycle ∨ f = Fault.accReqCycle)) := by
  constructor
  · obtain ⟨r3, pushed, h1, h2, h3, h4, _⟩ :=
      (@merge_graph _ _ (SetAssocArray.ops zinfoPlain) stubCC demoCache demoSys demoReq 0 true
        (stateOf (atDrain (SetAssocArray.ops zinfoPlain) stubCC demoCache demoSys demoReq))
        ⟨[⟨104, 109, some 0, some 1, 7⟩], [⟨0, 0, []⟩, ⟨0, 0, []⟩, ⟨0, 0, []⟩, ⟨0, 0, []⟩]⟩
        ⟨[⟨105, 114, some 2, some 3, 9⟩], [⟨0, 0, []⟩, ⟨0, 0, []⟩, ⟨0, 0, []⟩, ⟨0, 0, []⟩]⟩
        ⟨104, 109, some 0, some 1, 7⟩ ⟨105, 114, some 2, some 3, 9⟩ [] []
        rfl rfl rfl rfl rfl rfl rfl).1 (by decide) (by decide)
    exact ⟨r3, pushed, h1, h2, h3, h4⟩
  · obtain ⟨f, s', h1, h2, _⟩ :=
      (@merge_graph _ _ (SetAssocArray.ops zinfoPlain) earlyCC demoCache demoSys demoReq 0 true
        (stateOf (atDrain (SetAssocArray.ops zinfoPlain) earlyCC demoCache demoSys demoReq))
        ⟨[⟨0, 109, some 0, some 1, 7⟩], [⟨0, 0, []⟩, ⟨0, 0, []⟩, ⟨0, 0, []⟩, ⟨0, 0, []⟩]⟩
        ⟨[⟨105, 114, some 2, some 3, 9⟩], [⟨0, 0, []⟩, ⟨0, 0, []⟩, ⟨0, 0, []⟩, ⟨0, 0, []⟩]⟩
        ⟨0, 109, some 0, some 1, 7⟩ ⟨105, 114, some 2, some 3, 9⟩ [] []
        rfl rfl rfl rfl rfl rfl rfl).2 (Or.inl (by decide))
    exact ⟨f, s', h1, h2⟩

/-- C28 (no stitching unless both records exist).  In a non-skipped access:
when a valid writeback record `wb` was drained and `processAccess` left the
recorder empty, `wb` is pushed back with `endEvent` cleared and every other
field unchanged, and no event is made; when no valid writeback record was
drained (in particular when nothing was pending), the recorders stay as
`processAccess` left them and the recorder is not called after
`processAccess`. -/
theorem no_stitching {α κ : Type} (A : CacheArray α) (C : CC κ) (c : Cache) (s : Sys α κ)
    (req : MemReq) {lineId : Int} {al : Bool} {s2 : Sys α κ}
    (hskip : (C.startAccess s.cc req).1 = false)
    (hl : atDrain A C c s req = .ok ((lineId, al), s2)) :
    (∀ (r0 r1 : EventRecorder) (wb : TimingRecord) (rest0 : List TimingRecord),
      s2.eventRecorders req.srcId = some r0 → r0.records = wb :: rest0 → wb.isValid = true →
      (processed C s2 (reqOf C s req) lineId
        (u64 (req.cycle + c.accLat))).2.eventRecorders req.srcId = some r1 →
      r1.records = [] →
      (stateOf (access A C c s req)).eventRecorders
          = setRecorder
            (processed C s2 (reqOf C s req) lineId (u64 (req.cycle + c.accLat))).2.eventRecorders
            req.srcId
            { records := [⟨wb.reqCycle, wb.endCycle, wb.startEvent, none, wb.rest⟩]
              events := r1.events }
        ∧ (stateOf (access A C c s req)).calls
          = (processed C s2 (reqOf C s req) lineId (u64 (req.cycle + c.accLat))).2.calls
            ++ [Call.hasRecord,
              Call.pushRecord ⟨wb.reqCycle, wb.endCycle, wb.startEvent, none, wb.rest⟩,
              Call.endAccess (reqOf C s req)])
    ∧ ((drain s2 req.srcId).1.isValid = false →
      (stateOf (access A C c s req)).eventRecorders
          = (processed C s2 (reqOf C s req) lineId
            (u64 (req.cycle + c.accLat))).2.eventRecorders
        ∧ (stateOf (access A C c s req)).calls
          = (processed C s2 (reqOf C s req) lineId (u64 (req.cycle + c.accLat))).2.calls
            ++ [Call.endAccess (reqOf C s req)])
    ∧ (pending s2.eventRecorders req.srcId = 0 → (drain s2 req.srcId).1.isValid = false) := by
  refine ⟨?_, ?_, ?_⟩
  · intro r0 r1 wb rest0 h0 h1 hv h2 h3
    rw [access_wb_only A C c s req hskip hl h0 h1 hv h2 h3]
    exact ⟨rfl, rfl⟩
  · intro hv
    rw [access_no_wb A C c s req hskip hl hv]
    exact ⟨rfl, rfl⟩
  · intro hp
    unfold pending at hp
    cases h0 : s2.eventRecorders req.srcId with
    | none =>
      rw [drain_none s2 req.srcId h0]
      rfl
    | some r0 =>
      rw [h0] at hp
      simp only [List.length_eq_zero] at hp
      rw [drain_empty s2 req.srcId h0 hp]
      rfl

theorem no_stitching_witness :
    (stateOf (access (SetAssocArray.ops zinfoPlain) quietCC demoCache demoSys
        demoReq)).eventRecorders 0
      = some ⟨[⟨104, 109, some 0, none, 7⟩], [⟨0, 0, []⟩, ⟨0, 0, []⟩, ⟨0, 0, []⟩, ⟨0, 0, []⟩]⟩
    ∧ (stateOf (access (SetAssocArray.ops zinfoPlain) stubCC demoCache demoSys
        hitReq)).eventRecorders 0
      = some ⟨[⟨105, 114, some 2, some 3, 9⟩], [⟨0, 0, []⟩, ⟨0, 0, []⟩, ⟨0, 0, []⟩, ⟨0, 0, []⟩]⟩ := by
  constructor
  · rw [((@no_stitching _ _ (SetAssocArray.ops zinfoPlain) quietCC demoCache demoSys demoReq 0
      true (stateOf (atDrain (SetAssocArray.ops zinfoPlain) quietCC demoCache demoSys demoReq))
      rfl rfl).1
        ⟨[⟨104, 109, some 0, some 1, 7⟩], [⟨0, 0, []⟩, ⟨0, 0, []⟩, ⟨0, 0, []⟩, ⟨0, 0, []⟩]⟩
        ⟨[], [⟨0, 0, []⟩, ⟨0, 0, []⟩, ⟨0, 0, []⟩, ⟨0, 0, []⟩]⟩
        ⟨104, 109, some 0, some 1, 7⟩ [] rfl rfl rfl rfl rfl).1]
    rfl
  · rw [((@no_stitching _ _ (SetAssocArray.ops zinfoPlain) stubCC demoCache demoSys hitReq 0
      false (stateOf (atDrain (SetAssocArray.ops zinfoPlain) stubCC demoCache demoSys hitReq))
      rfl rfl).2.1 rfl).1]
    rfl

/-- C29 (single pending record).  In a non-skipped access, if the recorder of
the requester holds at most one record when the access reaches the drain and
`processAccess` adds at most one record to the recorder it is given, then that
recorder, the one `processAccess` is invoked with, holds no record, and when
the access returns the recorder holds at most one record, exactly one whenever
a valid writeback record had been drained. -/
theorem single_pending_record {α κ : Type} (A : CacheArray α) (C : CC κ) (c : Cache)
    (s : Sys α κ) (req : MemReq) {lineId : Int} {al : Bool} {s2 : Sys α κ}
    (hskip : (C.startAccess s.cc req).1 = false)
    (hl : atDrain A C c s req = .ok ((lineId, al), s2))
    (hp : pending s2.eventRecorders req.srcId ≤ 1)
    (hq : pending (C.processAccess (drain s2 req.srcId).2.cc
        (drain s2 req.srcId).2.eventRecorders (reqOf C s req) lineId
        (u64 (req.cycle + c.accLat))).2.2 req.srcId
      ≤ pending (drain s2 req.srcId).2.eventRecorders req.srcId + 1) :
    pending (drain s2 req.srcId).2.eventRecorders req.srcId = 0
    ∧ ∀ r s', access A C c s req = .ok (r, s') →
        pending s'.eventRecorders req.srcId ≤ 1
        ∧ ((drain s2 req.srcId).1.isValid = true → pending s'.eventRecorders req.srcId = 1) := by
  have hd : pending (drain s2 req.srcId).2.eventRecorders req.srcId = 0 := by
    rw [drain_pending]
    omega
  refine ⟨hd, ?_⟩
  intro r s' h
  rw [hd] at hq
  have hq2 : pending (processed C s2 (reqOf C s req) lineId
      (u64 (req.cycle + c.accLat))).2.eventRecorders req.srcId ≤ 1 := hq
  obtain ⟨lineId', al', s2', s3, h1, hm, _, _, h5⟩ := access_ok hskip h
  rw [hl] at h1
  simp only [Except.ok.injEq, Prod.mk.injEq] at h1
  obtain ⟨⟨e1, _⟩, e3⟩ := h1
  subst e1 e3
  have hs' : s'.eventRecorders = s3.eventRecorders := by rw [h5]
  rw [hs']
  cases hv : (drain s2 req.srcId).1.isValid with
  | false =>
    rw [merge_invalid _ _ hv] at hm
    simp only [Except.ok.injEq] at hm
    rw [← hm]
    exact ⟨hq2, fun hh => by cases hh⟩
  | true =>
    cases h2 : (processed C s2 (reqOf C s req) lineId
        (u64 (req.cycle + c.accLat))).2.eventRecorders req.srcId with
    | none =>
      rw [merge_dangling _ (reqOf C s req) hv h2] at hm
      cases hm
    | some r1 =>
      cases h3 : r1.records with
      | nil =>
        rw [merge_wb_only _ (reqOf C s req) hv h2 h3] at hm
        simp only [Except.ok.injEq] at hm
        rw [← hm]
        unfold pending
        simp [reqOf, retyped, setRecorder_self]
      | cons acc rest1 =>
        have hr : rest1 = [] := by
          unfold pending at hq2
          rw [h2] at hq2
          simp only [h3, List.length_cons] at hq2
          exact List.length_eq_zero.mp (by omega)
        by_cases hc : (reqOf C s req).cycle ≤ (drain s2 req.srcId).1.reqCycle
            ∧ (reqOf C s req).cycle ≤ acc.reqCycle
        · rw [merge_both _ (reqOf C s req) hv h2 h3 hc.1 hc.2] at hm
          simp only [Except.ok.injEq] at hm
          rw [← hm, hr]
          unfold pending
          simp [reqOf, retyped, setRecorder_self]
        · rw [merge_abort _ (reqOf C s req) hv h2 h3 (by omega)] at hm
          cases hm

theorem single_pending_record_witness :
    pending (drain (stateOf (atDrain (SetAssocArray.ops zinfoPlain) stubCC demoCache demoSys
      demoReq)) 0).2.eventRecorders 0 = 0
    ∧ pending (stateOf (access (SetAssocArray.ops zinfoPlain) stubCC demoCache demoSys
      demoReq)).eventRecorders 0 = 1 := by
  have h := @single_pending_record _ _ (SetAssocArray.ops zinfoPlain) stubCC demoCache demoSys
    demoReq 0 true
    (stateOf (atDrain (SetAssocArray.ops zinfoPlain) stubCC demoCache demoSys demoReq))
    rfl rfl (by decide) (by decide)
  exact ⟨h.1, (h.2 114 _ rfl).2 rfl⟩

end Cache

namespace Cache

/-! ## Cache orchestration: `finishInvalidate` -/

/-- A lookup of the set-associative array without `updateReplacement` leaves
the array, and the history of policy calls, as they were. -/
theorem setAssoc_lookup_quiet (zinfo : Zinfo) (z : SetAssocArray) (a : Address) (req : ReqPtr) :
    (SetAssocArray.lookup zinfo z a req false).2 = z := by
  rw [SetAssocArray.lookup_eq]
  unfold SetAssocArray.lookupRange
  split <;> rfl

/-- A lookup of the Z array without `updateReplacement` leaves the array, and
the history of policy calls, as they were. -/
theorem zarray_lookup_quiet {z z' : ZArray} {a : Address} {req : ReqPtr} {x : Int}
    (h : ZArray.lookup z a req false = some (x, z')) : z' = z := by
  unfold ZArray.lookup at h
  split at h
  · cases h
  · split at h
    · simp only [Bool.false_eq_true, if_false, Option.some.injEq, Prod.mk.injEq] at h
      exact h.2.symm
    · simp only [Option.some.injEq, Prod.mk.injEq] at h
      exact h.2.symm

/-- C30 (`finishInvalidate`).  When the lookup of `req.lineAddr` returns,
`finishInvalidate` fails if and only if it returned `-1`, and then at the
assertion, before any call to the coherence controller; otherwise it returns
exactly what `processInv` returns for the slot found and the cycle
`req.cycle + invLat` (in `uint64_t`).  The lookup is made without request and
with `updateReplacement = false`, and such a lookup leaves the set-associative
array and the Z array, with their histories of policy calls, unchanged. -/
theorem finishInvalidate_spec {α κ : Type} (A : CacheArray α) (C : CC κ) (c : Cache)
    (s : Sys α κ) (req : InvReq) {lineId : Int} {arr1 : α}
    (hl : A.lookup s.array req.lineAddr none false = some (lineId, arr1)) :
    (lineId = -1 →
      finishInvalidate A C c s req
        = .error (Fault.invalidateMissing,
            { s with array := arr1, calls := s.calls ++ [Call.lookup req.lineAddr none false] }))
    ∧ (lineId ≠ -1 →
      finishInvalidate A C c s req
        = .ok ((C.processInv s.cc req lineId (u64 (req.cycle + c.invLat))).1,
            { s with
              array := arr1
              cc := (C.processInv s.cc req lineId (u64 (req.cycle + c.invLat))).2
              calls := s.calls ++ [Call.lookup req.lineAddr none false,
                Call.processInv req lineId (u64 (req.cycle + c.invLat))] }))
    ∧ ((∃ f s', finishInvalidate A C c s req = .error (f, s')) ↔ lineId = -1)
    ∧ (∀ (zinfo : Zinfo) (z : SetAssocArray) (a : Address),
        ((SetAssocArray.ops zinfo).lookup z a none false).map Prod.snd = some z)
    ∧ (∀ (z z' : ZArray) (a : Address) (x : Int),
        ZArray.ops.lookup z a none false = some (x, z') → z' = z) := by
  have e1 : lineId = -1 →
      finishInvalidate A C c s req
        = .error (Fault.invalidateMissing,
            { s with array := arr1, calls := s.calls ++ [Call.lookup req.lineAddr none false] }) := by
    intro h
    unfold finishInvalidate
    rw [hl]
    simp only [h, if_true]
  have e2 : lineId ≠ -1 →
      finishInvalidate A C c s req
        = .ok ((C.processInv s.cc req lineId (u64 (req.cycle + c.invLat))).1,
            { s with
              array := arr1
              cc := (C.processInv s.cc req lineId (u64 (req.cycle + c.invLat))).2
              calls := s.calls ++ [Call.lookup req.lineAddr none false,
                Call.processInv req lineId (u64 (req.cycle + c.invLat))] }) := by
    intro h
    unfold finishInvalidate
    rw [hl]
    simp only [h, if_false]
  refine ⟨e1, e2, ?_, ?_, ?_⟩
  · constructor
    · rintro ⟨f, s', h⟩
      by_contra hne
      rw [e2 hne] at h
      cases h
    · intro h
      exact ⟨_, _, e1 h⟩
  · intro zinfo z a
    unfold SetAssocArray.ops
    simp only [Option.map_some']
    rw [setAssoc_lookup_quiet]
  · intro z z' a x h
    exact zarray_lookup_quiet h

theorem finishInvalidate_spec_witness :
    finishInvalidate (SetAssocArray.ops zinfoPlain) stubCC demoCache demoSys ⟨4, 50, 0⟩
      = .ok (55,
          { demoSys with
            calls := [Call.lookup 4 none false, Call.processInv ⟨4, 50, 0⟩ 0 52] })
    ∧ ∃ s', finishInvalidate (SetAssocArray.ops zinfoPlain) stubCC demoCache demoSys ⟨20, 50, 0⟩
      = .error (Fault.invalidateMissing, s') :=
  ⟨(@finishInvalidate_spec _ _ (SetAssocArray.ops zinfoPlain) stubCC demoCache demoSys ⟨4, 50, 0⟩
      0 demoSetAssoc rfl).2.1 (by decide),
    ⟨_, (@finishInvalidate_spec _ _ (SetAssocArray.ops zinfoPlain) stubCC demoCache demoSys
      ⟨20, 50, 0⟩ (-1) demoSetAssoc rfl).1 rfl⟩⟩

end Cache

namespace SHA1HashFamily

/-! ## SHA-1 backed hash family -/

theorem eq_of_getD_eq {l l' : List Nat} (hlen : l.length = l'.length)
    (h : ∀ i, i < l.length → l.getD i 0 = l'.getD i 0) : l = l' := by
  apply List.ext_getElem hlen
  intro i h1 h2
  have := h i h1
  simpa [List.getD_eq_getElem?_getD, List.getElem?_eq_getElem h1, List.getElem?_eq_getElem h2]
    using this

/-- The five chunks that a pass writes: the table afterwards. -/
theorem chunks_getD (m : List Nat) (base : Nat) (f : Nat → Nat) (i : Nat)
    (h : base + 5 ≤ m.length) :
    ((List.range 5).foldl (fun m j => m.set (base + j) (f j)) m).getD i 0
      = if base ≤ i ∧ i < base + 5 then f (i - base) else m.getD i 0 := by
  have hr : List.range 5 = [0, 1, 2, 3, 4] := by decide
  rw [hr]
  simp only [List.foldl_cons, List.foldl_nil, List.getD_eq_getElem?_getD, List.getElem?_set,
    List.length_set]
  have l0 : base < m.length := by omega
  have l1 : base + 1 < m.length := by omega
  have l2 : base + 2 < m.length := by omega
  have l3 : base + 3 < m.length := by omega
  have l4 : base + 4 < m.length := by omega
  by_cases h0 : i = base
  · subst h0
    simp [l0]
  by_cases h1 : i = base + 1
  · subst h1
    simp [l1]
  by_cases h2 : i = base + 2
  · subst h2
    simp [l2]
  by_cases h3 : i = base + 3
  · subst h3
    simp [l3]
  by_cases h4 : i = base + 4
  · subst h4
    simp [l4]
  have hn : ¬ (base ≤ i ∧ i < base + 5) := by omega
  rw [if_neg hn]
  have e0 : ¬ base = i := by omega
  have e1 : ¬ base + 1 = i := by omega
  have e2 : ¬ base + 2 = i := by omega
  have e3 : ¬ base + 3 = i := by omega
  have e4 : ¬ base + 4 = i := by omega
  simp [e0, e1, e2, e3, e4]

theorem chunks_length (m : List Nat) (base : Nat) (f : Nat → Nat) :
    ((List.range 5).foldl (fun m j => m.set (base + j) (f j)) m).length = m.length := by
  have hr : List.range 5 = [0, 1, 2, 3, 4] := by decide
  rw [hr]
  simp

/-- The buffer of pass `k` depends on the table only through the chunks of pass
`k - 1`. -/
theorem pass_buffer (sha1 : List Nat → List Nat) (st st' : List Nat × List Nat) (k : Nat)
    (hb : st.1 = st'.1) (hag : ∀ i, i < k * 5 → st.2.getD i 0 = st'.2.getD i 0) :
    (pass sha1 st k).1 = (pass sha1 st' k).1 := by
  unfold pass
  simp only
  by_cases hk : k > 0
  · rw [if_pos hk, if_pos hk, hb]
    apply List.foldl_ext
    intro b j hj
    have hj5 : j < 5 := List.mem_range.mp hj
    rw [hag ((k - 1) * 5 + j) (by omega)]
  · rw [if_neg hk, if_neg hk, hb]

/-- A pass keeps the length of the table, and after it the table holds, at the
positions of pass `k`, the digest of the buffer of that pass. -/
theorem pass_table (sha1 : List Nat → List Nat) (st : List Nat × List Nat) (k i : Nat)
    (hk : k * 5 + 5 ≤ st.2.length) :
    (pass sha1 st k).2.length = st.2.length
    ∧ (pass sha1 st k).2.getD i 0
      = if k * 5 ≤ i ∧ i < k * 5 + 5 then u32 ((sha1 (pass sha1 st k).1).getD (i - k * 5) 0)
        else st.2.getD i 0 := by
  unfold pass
  simp only
  exact ⟨chunks_length _ _ _, chunks_getD _ _ _ _ hk⟩

/-- The chunks that `n` passes produce do not depend on what the table held
before. -/
theorem passes_agree (sha1 : List Nat → List Nat) (n : Nat) (st st' : List Nat × List Nat)
    (hb : st.1 = st'.1) (hlen : st.2.length = st'.2.length) (hn : n * 5 ≤ st.2.length) :
    ((List.range n).foldl (pass sha1) st).1 = ((List.range n).foldl (pass sha1) st').1
    ∧ ((List.range n).foldl (pass sha1) st).2.length = st.2.length
    ∧ ((List.range n).foldl (pass sha1) st').2.length = st.2.length
    ∧ ∀ i, i < n * 5 →
        ((List.range n).foldl (pass sha1) st).2.getD i 0
          = ((List.range n).foldl (pass sha1) st').2.getD i 0 := by
  induction n with
  | zero => exact ⟨hb, rfl, hlen.symm, fun i hi => absurd hi (by omega)⟩
  | succ n ih =>
    obtain ⟨i1, i2, i3, i4⟩ := ih (by omega)
    rw [List.range_succ, List.foldl_append, List.foldl_append]
    simp only [List.foldl_cons, List.foldl_nil]
    have hbuf := pass_buffer sha1 _ _ n i1 i4
    refine ⟨hbuf, ?_, ?_, ?_⟩
    · rw [(pass_table sha1 _ n 0 (by omega)).1, i2]
    · rw [(pass_table sha1 _ n 0 (by omega)).1, i3]
    · intro i hi
      rw [(pass_table sha1 _ n i (by omega)).2, (pass_table sha1 _ n i (by omega)).2, hbuf]
      by_cases hc : n * 5 ≤ i ∧ i < n * 5 + 5
      · rw [if_pos hc, if_pos hc]
      · rw [if_neg hc, if_neg hc]
        exact i4 i (by omega)

/-- What `hash` returns for a key that is not the memoised one: the chunk `id`
of the digest chain freshly computed for the key, which becomes the memo. -/
theorem hash_of_new_key (sha1 : List Nat → List Nat) (h : SHA1HashFamily) (id val : Nat)
    (hid : id < toUInt32 h.numFuncs) (hne : val ≠ h.memoizedVal)
    (hlen : h.memoizedHashes.length = h.numPasses.toNat * 5) :
    hash sha1 h id val
      = some ((digestChain sha1 h.numPasses.toNat val).getD id 0,
          { h with
            memoizedVal := val
            memoizedHashes := digestChain sha1 h.numPasses.toNat val }) := by
  have hag := passes_agree sha1 h.numPasses.toNat (List.replicate 16 val, h.memoizedHashes)
    (List.replicate 16 val, List.replicate (h.numPasses.toNat * 5) 0) rfl
    (by simp [hlen]) (by simp [hlen])
  have heq : ((List.range h.numPasses.toNat).foldl (pass sha1)
      (List.replicate 16 val, h.memoizedHashes)).2 = digestChain sha1 h.numPasses.toNat val := by
    unfold digestChain
    apply eq_of_getD_eq
    · rw [hag.2.1, hag.2.2.1]
    · intro i hi
      rw [hag.2.1] at hi
      exact hag.2.2.2 i (by simpa [hlen] using hi)
  unfold hash
  rw [if_neg (by simp [hid]), if_neg hne, heq]

/-- The memo of a family made by the constructor has the length of the digest
chain. -/
theorem create_length (n : Int) :
    (create n).memoizedHashes.length = (create n).numPasses.toNat * 5 := by
  unfold create
  simp only [List.length_replicate]
  cases h : Int.tdiv n 5 + 1 with
  | ofNat m =>
    simp only [Int.ofNat_eq_coe, Int.toNat_ofNat]
    have : ((m : Int) * 5).toNat = m * 5 := by
      have : (m : Int) * 5 = ((m * 5 : Nat) : Int) := by push_cast; ring
      rw [this, Int.toNat_ofNat]
    exact this
  | negSucc m =>
    simp [Int.toNat]
    rfl

/-- C21 (purity of the SHA-1 family): the memo of a freshly constructed family
claims key 0.  Whatever the digest function, the first call `hash(id, 0)` on a
fresh family returns the 0 of the zeroed table and computes no digest.  With
the digest stub the chunk 6 of the digest chain of key 0 is 3: the first call
`hash(6, 0)` on `SHA1HashFamily(7)` returns 0, and the same call after
`hash(6, 3)` returns 3. -/
theorem hash_fresh_memo_claims_zero :
    (∀ (sha1 : List Nat → List Nat) (n : Int) (id : Nat), id < toUInt32 n →
      hash sha1 (create n) id 0 = some (0, create n))
    ∧ (digestChain stubSha1 2 0).getD 6 0 = 3
    ∧ (hash stubSha1 (create 7) 6 0).map Prod.fst = some 0
    ∧ ((hash stubSha1 (create 7) 6 3).bind fun p => hash stubSha1 p.2 6 0).map Prod.fst
      = some 3 := by
  refine ⟨?_, by decide, by decide, by decide⟩
  intro sha1 n id hid
  have h0 : (create n).memoizedVal = 0 := rfl
  have hn : (create n).numFuncs = n := rfl
  unfold hash
  rw [if_neg (by simp [hn, hid]), h0, if_pos rfl]
  unfold create
  simp only [getD_replicate_zero]

end SHA1HashFamily

namespace CEASERArray

/-! ## CEASER array -/

theorem zeros_set_zero (n i : Nat) :
    (List.replicate n (0 : Int)).set i 0 = List.replicate n 0 := by
  apply List.ext_getElem
  · simp
  · intro j h1 h2
    simp [List.getElem_set]

theorem zeros_loop (n : Nat) (l : List Nat) :
    l.foldl (fun sw i => sw.set i 0) (List.replicate n (0 : Int)) = List.replicate n 0 := by
  induction l with
  | nil => rfl
  | cons x l ih => rw [List.foldl_cons, zeros_set_zero, ih]

/-- What the constructor returns: the geometry holds, all slots are empty and
all switch flags are clear. -/
theorem fresh_geom {numLines assoc : Nat} {rp : ReplPolicy} {hf_1 hf_2 : HashFamily}
    {rng : MTRand} {c0 : CEASERArray} (hc : create numLines assoc rp hf_1 hf_2 rng = some c0) :
    Geom c0 ∧ (∀ i, c0.array.getD i 0 = 0) ∧ c0.switch_array = List.replicate c0.numSets 0
      ∧ c0.hf_current = hf_1 ∧ c0.hf_target = hf_2 := by
  unfold create at hc
  simp only [zeros_loop] at hc
  split_ifs at hc with h1 h2
  injection hc with hc
  subst hc
  exact ⟨⟨Nat.pos_of_ne_zero h1, rfl, by simpa using h2, rfl, by simp, by simp, u32_lt _⟩,
    fun i => getD_replicate_zero _ i, rfl, rfl, rfl⟩

theorem sets_positive {c : CEASERArray} (hg : Geom c) : 0 < c.numSets := isPow2_pos hg.pow2

theorem sets_fit {c : CEASERArray} (hg : Geom c) : c.numSets * c.assoc ≤ c.numLines := by
  rw [hg.numSets_eq]
  exact Nat.div_mul_le_self _ _

theorem mask_val {c : CEASERArray} (hg : Geom c) : c.setMask = c.numSets - 1 := by
  rw [hg.setMask_eq]
  have h1 := sets_fit hg
  have h2 := hg.numLines_lt
  have h3 : c.numSets ≤ c.numSets * c.assoc := Nat.le_mul_of_pos_right _ hg.assoc_pos
  exact sub32_one (sets_positive hg) (by omega)

/-- The addressed set in terms of the two hashes: the target set when the flag
of the current set is 1, else the current set. -/
theorem probedSet_eq {c : CEASERArray} (hg : Geom c) (a : Address) :
    probedSet c a
      = (if c.switch_array.getD (c.hf_current.hash 0 a &&& (c.numSets - 1)) 0 = 1 then
          c.hf_target.hash 0 a &&& (c.numSets - 1)
        else c.hf_current.hash 0 a &&& (c.numSets - 1))
    ∧ probedSet c a < c.numSets := by
  have h1 := sets_fit hg
  have h2 := hg.numLines_lt
  have h3 : c.numSets ≤ c.numSets * c.assoc := Nat.le_mul_of_pos_right _ hg.assoc_pos
  have h4 := sets_positive hg
  have c1 : c.hf_current.hash 0 a &&& (c.numSets - 1) ≤ c.numSets - 1 := Nat.and_le_right
  have c2 : c.hf_target.hash 0 a &&& (c.numSets - 1) ≤ c.numSets - 1 := Nat.and_le_right
  unfold probedSet
  rw [mask_val hg, u32_of_lt (by omega : c.hf_current.hash 0 a &&& (c.numSets - 1) < 2 ^ 32),
    u32_of_lt (by omega : c.hf_target.hash 0 a &&& (c.numSets - 1) < 2 ^ 32)]
  refine ⟨rfl, ?_⟩
  split <;> omega

/-- The slots of the addressed set lie in storage. -/
theorem probed_fit {c : CEASERArray} (hg : Geom c) (a : Address) :
    probedSet c a * c.assoc + c.assoc ≤ c.numLines := by
  have h := (probedSet_eq hg a).2
  calc probedSet c a * c.assoc + c.assoc = (probedSet c a + 1) * c.assoc := by ring
    _ ≤ c.numSets * c.assoc := Nat.mul_le_mul_right _ (by omega)
    _ ≤ c.numLines := sets_fit hg

/-- `lookup` is the scan of the `assoc` slots of the addressed set. -/
theorem lookup_eq_scan {c : CEASERArray} (hg : Geom c) (a : Address) (req : ReqPtr)
    (upd : Bool) :
    lookup c a req upd
      = match SetAssocArray.scan c.array a (probedSet c a * c.assoc) c.assoc with
        | some id => toInt32 id
        | none => -1 := by
  have h1 := probed_fit hg a
  have h2 := hg.numLines_lt
  unfold lookup
  rw [u32_of_lt (by omega : probedSet c a * c.assoc < 2 ^ 32),
    u32_of_lt (by omega : probedSet c a * c.assoc + c.assoc < 2 ^ 32), Nat.add_sub_cancel_left]

/-- What `lookup` returns: the first slot of the addressed set that holds the
address, or `-1` when no slot of that set holds it. -/
theorem lookup_cases {c : CEASERArray} (hg : Geom c) (a : Address) (req : ReqPtr) (upd : Bool) :
    (∃ id, probedSet c a * c.assoc ≤ id ∧ id < probedSet c a * c.assoc + c.assoc
        ∧ c.array.getD id 0 = a
        ∧ (∀ j, probedSet c a * c.assoc ≤ j → j < id → c.array.getD j 0 ≠ a)
        ∧ lookup c a req upd = toInt32 id ∧ lookup c a req upd ≠ -1
        ∧ (c.numLines ≤ 2 ^ 31 → lookup c a req upd = (id : Int)))
    ∨ ((∀ j, probedSet c a * c.assoc ≤ j → j < probedSet c a * c.assoc + c.assoc →
          c.array.getD j 0 ≠ a)
        ∧ lookup c a req upd = -1) := by
  have h1 := probed_fit hg a
  have h2 := hg.numLines_lt
  rw [lookup_eq_scan hg]
  cases hs : SetAssocArray.scan c.array a (probedSet c a * c.assoc) c.assoc with
  | none => exact Or.inr ⟨SetAssocArray.scan_none.mp hs, rfl⟩
  | some id =>
    obtain ⟨s1, s2, s3, s4⟩ := SetAssocArray.scan_some hs
    refine Or.inl ⟨id, s1, s2, s3, s4, rfl, toInt32_ne_neg_one (by omega), ?_⟩
    intro h
    exact toInt32_of_lt (by omega)

theorem demoCeaser_geom : Geom demoCeaser :=
  ⟨by decide, by decide, by decide, by decide, by decide, by decide, by decide⟩

/-- C31 (as stated, refuted).  In `demoCeaser` the set of line 4 under the
current hash is set 0, its switch flag is set, and line 4 is resident in slot 0
of that set; `lookup(4)` probes only the set of the target hash and returns
`-1`. -/
theorem lookup_both_sets_counterexample :
    Geom demoCeaser
    ∧ demoCeaser.hf_current.hash 0 4 &&& demoCeaser.setMask = 0
    ∧ demoCeaser.switch_array.getD 0 0 = 1
    ∧ demoCeaser.array.getD (0 * demoCeaser.assoc) 0 = 4
    ∧ lookup demoCeaser 4 none true = -1 :=
  ⟨demoCeaser_geom, by decide, by decide, by decide, by decide⟩

/-- C31 (amended).  `lookup` probes one set: the set of the target hash when the
switch flag of the address's current-hash set is 1, the current-hash set when
the flag is clear.  It returns the first slot of that set that holds the
address (never `-1`; the slot id itself for arrays of at most `2^31` lines), and
`-1` exactly when no slot of that set holds the address. -/
theorem lookup_follows_switch {c : CEASERArray} (hg : Geom c) (a : Address) (req : ReqPtr)
    (upd : Bool) :
    (c.switch_array.getD (c.hf_current.hash 0 a &&& (c.numSets - 1)) 0 = 1 →
      probedSet c a = c.hf_target.hash 0 a &&& (c.numSets - 1))
    ∧ (c.switch_array.getD (c.hf_current.hash 0 a &&& (c.numSets - 1)) 0 ≠ 1 →
      probedSet c a = c.hf_current.hash 0 a &&& (c.numSets - 1))
    ∧ probedSet c a < c.numSets
    ∧ ((∃ id, probedSet c a * c.assoc ≤ id ∧ id < probedSet c a * c.assoc + c.assoc
          ∧ c.array.getD id 0 = a
          ∧ (∀ j, probedSet c a * c.assoc ≤ j → j < id → c.array.getD j 0 ≠ a)
          ∧ lookup c a req upd = toInt32 id ∧ lookup c a req upd ≠ -1
          ∧ (c.numLines ≤ 2 ^ 31 → lookup c a req upd = (id : Int)))
      ∨ ((∀ j, probedSet c a * c.assoc ≤ j → j < probedSet c a * c.assoc + c.assoc →
            c.array.getD j 0 ≠ a)
          ∧ lookup c a req upd = -1)) := by
  refine ⟨?_, ?_, (probedSet_eq hg a).2, lookup_cases hg a req upd⟩
  · intro h
    rw [(probedSet_eq hg a).1, if_pos h]
  · intro h
    rw [(probedSet_eq hg a).1, if_neg h]

theorem lookup_follows_switch_witness :
    probedSet demoCeaser 4 = 1 ∧ probedSet (freshCeaser.postinsert 4 none 0) 4 = 0
    ∧ lookup (freshCeaser.postinsert 4 none 0) 4 none true = 0 :=
  ⟨(lookup_follows_switch demoCeaser_geom 4 none true).1 (by decide),
    (lookup_follows_switch
      (⟨by decide, by decide, by decide, by decide, by decide, by decide, by decide⟩ :
        Geom (freshCeaser.postinsert 4 none 0)) 4 none true).2.1 (by decide),
    by decide⟩

/-- C32 (as stated, refuted).  With slot 3 holding line 7, `moveAddr(7, 3, 7, 3)`
passes both assertions, and afterwards slot 3 holds 0, not line 7. -/
theorem moveAddr_same_slot_counterexample :
    (freshCeaser.postinsert 7 none 3).array.getD 3 0 = 7
    ∧ ((freshCeaser.postinsert 7 none 3).moveAddr 7 3 7 3).toOption.map
        (fun c => c.array.getD 3 0) = some 0 :=
  ⟨by decide, by decide⟩

/-- C32 (amended).  For slots inside the storage, `moveAddr` proceeds only if
slot `repl_id` holds `repl_addr` and slot `lineId` holds `lineAddr`, otherwise
it aborts with the state unchanged.  When it proceeds, slot `lineId` is empty
afterwards, slot `repl_id` holds `lineAddr` if the two slots are distinct, and
all other slots, the switch flags, the hash roles and everything else are
unchanged. -/
theorem moveAddr_spec (c : CEASERArray) (repl_addr : Address) (repl_id : Nat)
    (lineAddr : Address) (lineId : Nat) (h1 : repl_id < c.array.length)
    (h2 : lineId < c.array.length) :
    (¬ (c.array.getD repl_id 0 = repl_addr ∧ c.array.getD lineId 0 = lineAddr) →
      moveAddr c repl_addr repl_id lineAddr lineId = .error c)
    ∧ (c.array.getD repl_id 0 = repl_addr → c.array.getD lineId 0 = lineAddr →
      ∃ c', moveAddr c repl_addr repl_id lineAddr lineId = .ok c'
        ∧ (repl_id ≠ lineId → c'.array.getD repl_id 0 = lineAddr)
        ∧ c'.array.getD lineId 0 = 0
        ∧ (∀ j, j ≠ repl_id → j ≠ lineId → c'.array.getD j 0 = c.array.getD j 0)
        ∧ c'.array.length = c.array.length
        ∧ c'.switch_array = c.switch_array
        ∧ c'.hf_current = c.hf_current ∧ c'.hf_target = c.hf_target
        ∧ c' = { c with array := c'.array }) := by
  constructor
  · intro h
    unfold moveAddr
    by_cases e1 : c.array.getD repl_id 0 = repl_addr
    · have e2 : ¬ c.array.getD lineId 0 = lineAddr := fun e => h ⟨e1, e⟩
      rw [decide_eq_true e1, decide_eq_false e2]
      rfl
    · rw [decide_eq_false e1]
      rfl
  · intro e1 e2
    refine ⟨{ c with array := (c.array.set repl_id lineAddr).set lineId 0 }, ?_, ?_, ?_, ?_, ?_,
      rfl, rfl, rfl, rfl⟩
    · unfold moveAddr
      rw [decide_eq_true e1, decide_eq_true e2]
      rfl
    · intro hne
      show ((c.array.set repl_id lineAddr).set lineId 0).getD repl_id 0 = lineAddr
      rw [getD_set_of_ne _ _ (Ne.symm hne)]
      exact getD_set_self _ _ h1
    · show ((c.array.set repl_id lineAddr).set lineId 0).getD lineId 0 = 0
      exact getD_set_self _ _ (by simpa using h2)
    · intro j j1 j2
      show ((c.array.set repl_id lineAddr).set lineId 0).getD j 0 = c.array.getD j 0
      rw [getD_set_of_ne _ _ (Ne.symm j2), getD_set_of_ne _ _ (Ne.symm j1)]
    · show ((c.array.set repl_id lineAddr).set lineId 0).length = c.array.length
      simp

theorem moveAddr_spec_witness :
    ∃ c', (freshCeaser.postinsert 7 none 3).moveAddr 0 1 7 3 = .ok c'
      ∧ c'.array.getD 1 0 = 7 ∧ c'.array.getD 3 0 = 0 := by
  obtain ⟨c', h, a1, a2, _⟩ := (moveAddr_spec (freshCeaser.postinsert 7 none 3) 0 1 7 3
    (by decide) (by decide)).2 (by decide) (by decide)
  exact ⟨c', h, a1 (by decide), a2⟩

/-- C35 (as stated, refuted).  On the freshly constructed set-associative array
and on the freshly constructed CEASER array the lookup of line address 0
returns slot 0, not `-1`. -/
theorem fresh_lookup_zero_counterexample :
    SetAssocArray.create zinfoPlain 16 4 firstOffered IdHashFamily false 0 = some freshSetAssoc
    ∧ (SetAssocArray.lookup zinfoPlain freshSetAssoc 0 none false).1 = 0
    ∧ (create 8 2 firstOffered IdHashFamily shiftHash ⟨fun i => 5 + i, 0⟩).map
        (fun c => lookup c 0 none false) = some 0 :=
  ⟨rfl, by decide, by decide⟩

/-- C35 (amended).  On a freshly constructed `SetAssocArray` (in every
partitioning mode) and on a freshly constructed `CEASERArray`, `lookup` returns
`-1` for every non-zero line address.  Line address 0 matches an empty slot:
its lookup does not return `-1` (set-associative array without partitioning,
CEASER array). -/
theorem fresh_lookup_misses :
    (∀ (zinfo : Zinfo) (numLines assoc : Nat) (rp : ReplPolicy) (hf : HashFamily) (isLLC : Bool)
        (p : Nat) (s0 : SetAssocArray),
        SetAssocArray.create zinfo numLines assoc rp hf isLLC p = some s0 →
        (∀ (a : Address) (req : ReqPtr) (upd : Bool), a ≠ 0 →
          (SetAssocArray.lookup zinfo s0 a req upd).1 = -1)
        ∧ (SetAssocArray.Unpartitioned zinfo s0 → ∀ (req : ReqPtr) (upd : Bool),
          (SetAssocArray.lookup zinfo s0 0 req upd).1 ≠ -1))
    ∧ (∀ (numLines assoc : Nat) (rp : ReplPolicy) (hf_1 hf_2 : HashFamily) (rng : MTRand)
        (c0 : CEASERArray), create numLines assoc rp hf_1 hf_2 rng = some c0 →
        (∀ (a : Address) (req : ReqPtr) (upd : Bool), a ≠ 0 → lookup c0 a req upd = -1)
        ∧ ∀ (req : ReqPtr) (upd : Bool), lookup c0 0 req upd ≠ -1) := by
  constructor
  · intro zinfo numLines assoc rp hf isLLC p s0 hc
    obtain ⟨hg, _, hz⟩ := SetAssocArray.create_geom hc
    constructor
    · intro a req upd ha
      rw [SetAssocArray.lookup_eq]
      exact (SetAssocArray.lookupRange_miss_iff s0 a req upd
        (SetAssocArray.range_snd_lt zinfo s0 a)).mpr (fun j _ _ => by rw [hz j]; exact Ne.symm ha)
    · intro hu req upd h
      rw [SetAssocArray.lookup_eq] at h
      have h2 := (SetAssocArray.lookupRange_miss_iff s0 0 req upd
        (SetAssocArray.range_snd_lt zinfo s0 0)).mp h
      rw [SetAssocArray.range_unpartitioned hg hu 0] at h2
      exact h2 _ (le_refl _) (by have := hg.assoc_pos; simp only; omega) (hz _)
  · intro numLines assoc rp hf_1 hf_2 rng c0 hc
    obtain ⟨hg, hz, _⟩ := fresh_geom hc
    constructor
    · intro a req upd ha
      rcases lookup_cases hg a req upd with ⟨id, _, _, h3, _⟩ | ⟨_, h⟩
      · rw [hz id] at h3
        exact absurd h3.symm ha
      · exact h
    · intro req upd
      rcases lookup_cases hg 0 req upd with ⟨id, _, _, _, _, _, h, _⟩ | ⟨h, _⟩
      · exact h
      · exact absurd (hz _) (h _ (le_refl _) (by have := hg.assoc_pos; omega))

theorem fresh_lookup_misses_witness :
    (SetAssocArray.lookup zinfoPlain freshSetAssoc 20 none true).1 = -1
    ∧ (create 8 2 firstOffered IdHashFamily shiftHash ⟨fun i => 5 + i, 0⟩).map
        (fun c => lookup c 4 none false) = some (-1) :=
  ⟨(fresh_lookup_misses.1 zinfoPlain 16 4 firstOffered IdHashFamily false 0 freshSetAssoc
      rfl).1 20 none true (by decide),
    by decide⟩

end CEASERArray

namespace SetAssocArray

/-! ## Set-associative array: the partitions of the last-level array -/

/-- The range of set-partition mode: the `assoc` slots of a set of the
partition's own block of `partitionSetCount` sets. -/
theorem range_set_mode {zinfo : Zinfo} {s : SetAssocArray} (hg : Geom s)
    (hp : PartGeom zinfo s) (hllc : s.isLLC = true) (hid : s.proc_partition < zinfo.numCores)
    (hmode : zinfo.setPartition = true) (hcount : 1 ≤ s.numSets / zinfo.numCores)
    (a : Address) :
    ∃ set, s.proc_partition * s.partitionSetCount ≤ set
      ∧ set < (s.proc_partition + 1) * s.partitionSetCount
      ∧ (s.proc_partition + 1) * s.partitionSetCount ≤ s.numSets
      ∧ set * s.assoc + s.assoc ≤ s.numLines
      ∧ range zinfo s a = (set * s.assoc, set * s.assoc + s.assoc) := by
  have hl := hg.numLines_lt
  have h3 := hg.sets_le
  have h4 : s.numSets ≤ s.numSets * s.assoc := Nat.le_mul_of_pos_right _ hg.assoc_pos
  have hpsc : 1 ≤ s.partitionSetCount := by rw [hp.setCount_eq]; exact hcount
  have hle : s.partitionSetCount * zinfo.numCores ≤ s.numSets := by
    rw [hp.setCount_eq]
    exact Nat.div_mul_le_self _ _
  have hslot : (s.proc_partition + 1) * s.partitionSetCount ≤ s.numSets := by
    calc (s.proc_partition + 1) * s.partitionSetCount
        ≤ zinfo.numCores * s.partitionSetCount := Nat.mul_le_mul_right _ hid
      _ = s.partitionSetCount * zinfo.numCores := Nat.mul_comm _ _
      _ ≤ s.numSets := hle
  have hpsc2 : s.partitionSetCount ≤ s.numSets := by
    calc s.partitionSetCount = 1 * s.partitionSetCount := (Nat.one_mul _).symm
      _ ≤ (s.proc_partition + 1) * s.partitionSetCount := Nat.mul_le_mul_right _ (by omega)
      _ ≤ s.numSets := hslot
  have hmask : s.partitionMask = s.partitionSetCount - 1 := by
    rw [hp.mask_eq]
    exact sub32_one hpsc (by omega)
  have hand : s.hf.hash 0 a &&& (s.partitionSetCount - 1) ≤ s.partitionSetCount - 1 :=
    Nat.and_le_right
  have hexp : (s.proc_partition + 1) * s.partitionSetCount
      = s.partitionSetCount * s.proc_partition + s.partitionSetCount := by ring
  have hset : (s.hf.hash 0 a &&& (s.partitionSetCount - 1))
      + s.partitionSetCount * s.proc_partition + 1 ≤ s.numSets := by omega
  have hfit : ((s.hf.hash 0 a &&& (s.partitionSetCount - 1))
      + s.partitionSetCount * s.proc_partition) * s.assoc + s.assoc ≤ s.numLines := by
    calc ((s.hf.hash 0 a &&& (s.partitionSetCount - 1))
          + s.partitionSetCount * s.proc_partition) * s.assoc + s.assoc
        = ((s.hf.hash 0 a &&& (s.partitionSetCount - 1))
          + s.partitionSetCount * s.proc_partition + 1) * s.assoc := by ring
      _ ≤ s.numSets * s.assoc := Nat.mul_le_mul_right _ hset
      _ ≤ s.numLines := h3
  refine ⟨(s.hf.hash 0 a &&& (s.partitionSetCount - 1))
    + s.partitionSetCount * s.proc_partition, ?_, ?_, hslot, hfit, ?_⟩
  · rw [Nat.mul_comm s.proc_partition]
    omega
  · omega
  · unfold range
    rw [hllc, hmode]
    simp only [Bool.and_self, if_true]
    rw [hmask, u32_of_lt (by omega : s.hf.hash 0 a &&& (s.partitionSetCount - 1) < 2 ^ 32),
      u32_of_lt (by omega : s.partitionSetCount * s.proc_partition < 2 ^ 32),
      u32_of_lt (by omega : (s.hf.hash 0 a &&& (s.partitionSetCount - 1))
        + s.partitionSetCount * s.proc_partition < 2 ^ 32),
      u32_of_lt (by omega), u32_of_lt (by omega)]

/-- The range of way-partition mode: the partition's own block of
`partitionAssoc` ways of the set of the address. -/
theorem range_way_mode {zinfo : Zinfo} {s : SetAssocArray} (hg : Geom s)
    (hp : PartGeom zinfo s) (hllc : s.isLLC = true) (hid : s.proc_partition < zinfo.numCores)
    (hset : zinfo.setPartition = false) (hmode : zinfo.wayPartition = true)
    (hpow : ∃ k, s.assoc = 2 ^ k) (hcores : zinfo.numCores ≤ s.assoc) (a : Address) :
    (s.proc_partition + 1) * s.partitionAssoc ≤ s.assoc
      ∧ 1 ≤ s.partitionAssoc
      ∧ (s.hf.hash 0 a &&& (s.numSets - 1)) < s.numSets
      ∧ (s.hf.hash 0 a &&& (s.numSets - 1)) * s.assoc + s.assoc ≤ s.numLines
      ∧ range zinfo s a
        = ((s.hf.hash 0 a &&& (s.numSets - 1)) * s.assoc + s.proc_partition * s.partitionAssoc,
          (s.hf.hash 0 a &&& (s.numSets - 1)) * s.assoc
            + (s.proc_partition + 1) * s.partitionAssoc) := by
  have hl := hg.numLines_lt
  have hb := hg.set_bound a
  have h1 : s.hf.hash 0 a &&& (s.numSets - 1) ≤ s.numSets - 1 := Nat.and_le_right
  have h2 := hg.numSets_pos
  have h3 := hg.sets_le
  have h4 : s.numSets ≤ s.numSets * s.assoc := Nat.le_mul_of_pos_right _ hg.assoc_pos
  have hcp := hp.cores_pos
  have hdiv : 1 ≤ s.assoc / zinfo.numCores := (Nat.one_le_div_iff hcp).mpr hcores
  have hpa : s.partitionAssoc = s.assoc / zinfo.numCores := by
    rw [hp.assoc_eq, if_neg (by omega)]
  have hle : s.partitionAssoc * zinfo.numCores ≤ s.assoc := by
    rw [hpa]
    exact Nat.div_mul_le_self _ _
  have hslot : (s.proc_partition + 1) * s.partitionAssoc ≤ s.assoc := by
    calc (s.proc_partition + 1) * s.partitionAssoc
        ≤ zinfo.numCores * s.partitionAssoc := Nat.mul_le_mul_right _ hid
      _ = s.partitionAssoc * zinfo.numCores := Nat.mul_comm _ _
      _ ≤ s.assoc := hle
  have hexp : (s.proc_partition + 1) * s.partitionAssoc
      = s.proc_partition * s.partitionAssoc + s.partitionAssoc := by ring
  have hlt : s.proc_partition * s.partitionAssoc < s.assoc := by
    rw [hpa] at hexp hslot ⊢
    omega
  have hmask : s.proc_partition * s.partitionAssoc &&& (s.assoc - 1)
      = s.proc_partition * s.partitionAssoc := by
    obtain ⟨k, hk⟩ := hpow
    rw [hk] at hlt ⊢
    exact Nat.and_pow_two_sub_one_of_lt_two_pow hlt
  have hassoc : s.assoc < 2 ^ 32 := by omega
  refine ⟨hslot, by omega, by omega, hb, ?_⟩
  unfold range
  rw [hllc, hset, hmode]
  simp only [Bool.and_false, Bool.and_self, Bool.false_eq_true, if_false, if_true]
  rw [hg.setMask, sub32_one hg.assoc_pos hassoc,
    u32_of_lt (by omega : s.hf.hash 0 a &&& (s.numSets - 1) < 2 ^ 32),
    u32_of_lt (by omega : (s.hf.hash 0 a &&& (s.numSets - 1)) * s.assoc < 2 ^ 32),
    u32_of_lt (by omega : s.proc_partition * s.partitionAssoc < 2 ^ 32), hmask,
    u32_of_lt (by omega), u32_of_lt (by omega), hexp]
  simp only [Nat.add_assoc]

theorem block_disjoint {p q n x : Nat} (hpq : p ≠ q) (h1 : p * n ≤ x) (h2 : x < (p + 1) * n)
    (h3 : q * n ≤ x) (h4 : x < (q + 1) * n) : False := by
  rcases Nat.lt_or_gt_of_ne hpq with h | h
  · have : (p + 1) * n ≤ q * n := Nat.mul_le_mul_right _ h
    omega
  · have : (q + 1) * n ≤ p * n := Nat.mul_le_mul_right _ h
    omega

/-- The set and the way of a slot of a set. -/
theorem slot_div_mod {assoc set id : Nat} (h1 : set * assoc ≤ id)
    (h2 : id < set * assoc + assoc) : id / assoc = set ∧ id % assoc = id - set * assoc := by
  have hpos : 0 < assoc := by omega
  obtain ⟨w, hw⟩ : ∃ w, id = set * assoc + w := ⟨id - set * assoc, by omega⟩
  have hwlt : w < assoc := by omega
  subst hw
  constructor
  · rw [Nat.mul_comm, Nat.mul_add_div hpos, Nat.div_eq_of_lt hwlt, Nat.add_zero]
  · rw [Nat.mul_comm, Nat.mul_add_mod, Nat.mod_eq_of_lt hwlt]
    omega

/-- The scan reads only the slots of its range. -/
theorem scan_congr {arr arr' : List Address} {a : Address} (n : Nat) :
    ∀ lo, (∀ j, lo ≤ j → j < lo + n → arr'.getD j 0 = arr.getD j 0) →
      scan arr' a lo n = scan arr a lo n := by
  induction n with
  | zero => intro lo _; rfl
  | succ n ih =>
    intro lo h
    rw [scan, scan, h lo (le_refl _) (by omega), ih (lo + 1) (fun j j1 j2 => h j (by omega) (by omega))]

/-- C34 (partition confinement).  For a last-level array built by the
constructor, as partition `p = proc_partition < numCores`:  in set-partition
mode with `numSets/numCores >= 1`, and in way-partition mode with `assoc` a
power of two and `numCores <= assoc`, every slot of the range `[low, high)` is a
slot of the storage and lies in the sets `[p*partitionSetCount,
(p+1)*partitionSetCount)`, respectively in the ways `[p*partitionAssoc,
(p+1)*partitionAssoc)` of the set of the address.  `lookup` scans exactly this
range (its result does not depend on any other slot) and `preinsert` offers
exactly this range to the policy, and the ranges of two distinct partition ids
do not meet. -/
theorem partition_confinement {zinfo : Zinfo} {s : SetAssocArray} (hg : Geom s)
    (hp : PartGeom zinfo s) (hllc : s.isLLC = true) (hid : s.proc_partition < zinfo.numCores)
    (a : Address) :
    (zinfo.setPartition = true → 1 ≤ s.numSets / zinfo.numCores →
      ∀ id, id ∈ SetAssocCands (range zinfo s a).1 (range zinfo s a).2 →
        id < s.numLines
        ∧ s.proc_partition * s.partitionSetCount ≤ id / s.assoc
        ∧ id / s.assoc < (s.proc_partition + 1) * s.partitionSetCount)
    ∧ (zinfo.setPartition = false → zinfo.wayPartition = true → (∃ k, s.assoc = 2 ^ k) →
      zinfo.numCores ≤ s.assoc →
      ∀ id, id ∈ SetAssocCands (range zinfo s a).1 (range zinfo s a).2 →
        id < s.numLines
        ∧ id / s.assoc = s.hf.hash 0 a &&& (s.numSets - 1)
        ∧ s.proc_partition * s.partitionAssoc ≤ id % s.assoc
        ∧ id % s.assoc < (s.proc_partition + 1) * s.partitionAssoc)
    ∧ (∀ (req : ReqPtr) (upd : Bool),
      lookup zinfo s a req upd
          = lookupRange s a req upd (range zinfo s a).1 (range zinfo s a).2
        ∧ ∀ arr' : List Address,
            (∀ id, id ∈ SetAssocCands (range zinfo s a).1 (range zinfo s a).2 →
              arr'.getD id 0 = s.array.getD id 0) →
            (lookup zinfo { s with array := arr' } a req upd).1 = (lookup zinfo s a req upd).1)
    ∧ (∀ req : ReqPtr,
      preinsert zinfo s a req
          = preinsertRange s req (range zinfo s a).1 (range zinfo s a).2
        ∧ (preinsert zinfo s a req).2.2.trace
          = s.trace ++ [Event.rankCands req
              (SetAssocCands (range zinfo s a).1 (range zinfo s a).2)])
    ∧ (∀ (q : Nat) (b : Address), q < zinfo.numCores → q ≠ s.proc_partition →
      ((zinfo.setPartition = true ∧ 1 ≤ s.numSets / zinfo.numCores)
        ∨ (zinfo.setPartition = false ∧ zinfo.wayPartition = true ∧ (∃ k, s.assoc = 2 ^ k)
          ∧ zinfo.numCores ≤ s.assoc)) →
      ∀ id, id ∈ SetAssocCands (range zinfo s a).1 (range zinfo s a).2 →
        id ∉ SetAssocCands (range zinfo { s with proc_partition := q } b).1
          (range zinfo { s with proc_partition := q } b).2) := by
  refine ⟨?_, ?_, ?_, ?_, ?_⟩
  · intro hmode hcount id hmem
    obtain ⟨set, s1, s2, _, s4, s5⟩ := range_set_mode hg hp hllc hid hmode hcount a
    rw [s5] at hmem
    obtain ⟨m1, m2⟩ := mem_SetAssocCands.mp hmem
    simp only at m1 m2
    obtain ⟨d1, _⟩ := slot_div_mod m1 m2
    rw [d1]
    exact ⟨by omega, s1, s2⟩
  · intro hset hmode hpow hcores id hmem
    obtain ⟨w1, w2, _, w4, w5⟩ := range_way_mode hg hp hllc hid hset hmode hpow hcores a
    rw [w5] at hmem
    obtain ⟨m1, m2⟩ := mem_SetAssocCands.mp hmem
    simp only at m1 m2
    obtain ⟨d1, d2⟩ := slot_div_mod
      (by omega : (s.hf.hash 0 a &&& (s.numSets - 1)) * s.assoc ≤ id) (by omega)
    rw [d1, d2]
    exact ⟨by omega, rfl, by omega, by omega⟩
  · intro req upd
    refine ⟨lookup_eq zinfo s a req upd, ?_⟩
    intro arr' h
    rw [lookup_eq, lookup_eq]
    have hr : range zinfo { s with array := arr' } a = range zinfo s a := rfl
    rw [hr]
    unfold lookupRange
    have hsc : scan arr' a (range zinfo s a).1 ((range zinfo s a).2 - (range zinfo s a).1)
        = scan s.array a (range zinfo s a).1 ((range zinfo s a).2 - (range zinfo s a).1) :=
      scan_congr _ _ (fun j j1 j2 => h j (mem_SetAssocCands.mpr ⟨j1, by omega⟩))
    dsimp only
    rw [hsc]
    cases scan s.array a (range zinfo s a).1 ((range zinfo s a).2 - (range zinfo s a).1) <;> rfl
  · intro req
    refine ⟨preinsert_eq zinfo s a req, ?_⟩
    rw [preinsert_eq]
    rfl
  · intro q b hq hne hmodes id hmem hmem'
    have hg' : Geom { s with proc_partition := q } :=
      ⟨hg.assoc_pos, hg.numSets_eq, hg.pow2, hg.setMask_eq, hg.length_eq, hg.numLines_lt⟩
    have hp' : PartGeom zinfo { s with proc_partition := q } :=
      ⟨hp.cores_pos, hp.setCount_eq, hp.mask_eq, hp.assoc_eq⟩
    rcases hmodes with ⟨hmode, hcount⟩ | ⟨hset, hmode, hpow, hcores⟩
    · obtain ⟨set, s1, s2, _, _, s5⟩ := range_set_mode hg hp hllc hid hmode hcount a
      obtain ⟨set', t1, t2, _, _, t5⟩ := range_set_mode hg' hp' hllc hq hmode hcount b
      rw [s5] at hmem
      rw [t5] at hmem'
      obtain ⟨m1, m2⟩ := mem_SetAssocCands.mp hmem
      obtain ⟨n1, n2⟩ := mem_SetAssocCands.mp hmem'
      simp only at m1 m2 n1 n2
      obtain ⟨d1, _⟩ := slot_div_mod m1 m2
      obtain ⟨e1, _⟩ := slot_div_mod n1 n2
      have hse : set = set' := by rw [← d1, ← e1]
      subst hse
      exact block_disjoint hne t1 t2 s1 s2
    · obtain ⟨w1, w2, _, w4, w5⟩ := range_way_mode hg hp hllc hid hset hmode hpow hcores a
      obtain ⟨v1, v2, _, v4, v5⟩ := range_way_mode hg' hp' hllc hq hset hmode hpow hcores b
      rw [w5] at hmem
      rw [v5] at hmem'
      obtain ⟨m1, m2⟩ := mem_SetAssocCands.mp hmem
      obtain ⟨n1, n2⟩ := mem_SetAssocCands.mp hmem'
      simp only at m1 m2 n1 n2 v1
      obtain ⟨_, d2⟩ := slot_div_mod
        (by omega : (s.hf.hash 0 a &&& (s.numSets - 1)) * s.assoc ≤ id) (by omega)
      obtain ⟨_, e2⟩ := slot_div_mod
        (by omega : (s.hf.hash 0 b &&& (s.numSets - 1)) * s.assoc ≤ id) (by omega)
      exact block_disjoint hne (by omega : q * s.partitionAssoc ≤ id % s.assoc) (by omega)
        (by omega) (by omega)

/-- The constructor establishes the partition geometry. -/
theorem create_partGeom {zinfo : Zinfo} {numLines assoc : Nat} {rp : ReplPolicy}
    {hf : HashFamily} {isLLC : Bool} {p : Nat} {s0 : SetAssocArray}
    (hc : create zinfo numLines assoc rp hf isLLC p = some s0) :
    PartGeom zinfo s0 ∧ s0.proc_partition = p := by
  unfold create at hc
  simp only at hc
  split_ifs at hc with h1 h2 h3
  all_goals
    injection hc with hc
    subst hc
    exact ⟨⟨Nat.pos_of_ne_zero h3, rfl, rfl, by first | rfl | simp_all⟩, rfl⟩

theorem llcSetAssoc_geom : Geom llcSetAssoc ∧ PartGeom zinfoSets llcSetAssoc
    ∧ PartGeom zinfoWays llcSetAssoc :=
  ⟨⟨by decide, by decide, by decide, by decide, by decide, by decide⟩,
    ⟨by decide, by decide, by decide, by decide⟩, ⟨by decide, by decide, by decide, by decide⟩⟩

theorem partition_confinement_witness :
    (range zinfoSets llcSetAssoc 20 = (8, 12)
      ∧ ∀ id, id ∈ SetAssocCands (range zinfoSets llcSetAssoc 20).1
          (range zinfoSets llcSetAssoc 20).2 →
        id < 16 ∧ 1 * 2 ≤ id / 4 ∧ id / 4 < (1 + 1) * 2)
    ∧ (range zinfoWays llcSetAssoc 20 = (2, 4)
      ∧ ∀ id, id ∈ SetAssocCands (range zinfoWays llcSetAssoc 20).1
          (range zinfoWays llcSetAssoc 20).2 →
        id < 16 ∧ id / 4 = 0 ∧ 1 * 2 ≤ id % 4 ∧ id % 4 < (1 + 1) * 2) :=
  ⟨⟨by decide,
      (partition_confinement llcSetAssoc_geom.1 llcSetAssoc_geom.2.1 rfl (by decide) 20).1 rfl
        (by decide)⟩,
    ⟨by decide,
      (partition_confinement llcSetAssoc_geom.1 llcSetAssoc_geom.2.2 rfl (by decide) 20).2.1 rfl
        rfl ⟨2, by decide⟩ (by decide)⟩⟩

end SetAssocArray

namespace ZArray

/-! ## Z array: the branch-free body of the expansion, and the scratch buffers -/

theorem agree_refl (st : ZWalk) : Agree st st := ⟨rfl, rfl, rfl, rfl, fun _ _ => rfl⟩

theorem getD_set_default {l : List ZWalkInfo} {l' : List ZWalkInfo} (n : Nat) (v : ZWalkInfo)
    (h : l.length = l'.length) : (l.set n v).getD n default = (l'.set n v).getD n default := by
  by_cases hn : n < l.length
  · rw [getD_set_self _ _ hn, getD_set_self _ _ (by omega)]
  · rw [List.getD_eq_default _ _ (by simp only [List.length_set]; omega),
      List.getD_eq_default _ _ (by simp only [List.length_set]; omega)]

/-- One pass of the inner body: the branch-free version and the reference
version keep agreeing states in agreement, as long as the frontier line is not
empty. -/
theorem expandWay_agree (z : ZArray) (fid : Nat) (faddr : Address) {st st' : ZWalk} (w : Nat)
    (hne : z.array.getD fid 0 ≠ 0) (hag : Agree st st') (hn : st.numCandidates < 2 ^ 32) :
    Agree (expandWay z fid faddr st w) (expandWayReference z fid faddr st' w)
    ∧ (expandWay z fid faddr st w).numCandidates < 2 ^ 32 := by
  obtain ⟨a1, a2, a3, a4, a5⟩ := hag
  unfold expandWay expandWayReference
  simp only
  by_cases hl : z.lookupArray.getD (u32 (w * z.numSets + u32 (z.hf.hash w faddr &&& z.setMask))) 0
      = fid
  · have hb : (z.lookupArray.getD (u32 (w * z.numSets + u32 (z.hf.hash w faddr &&& z.setMask))) 0
        != fid) = false := by rw [hl]; exact bne_self_eq_false fid
    rw [hb]
    simp only [Bool.false_eq_true, if_false, Nat.add_zero]
    rw [u32_of_lt hn]
    refine ⟨⟨a1, a2, ?_, ?_, ?_⟩, hn⟩
    · rw [hl]
      have : (z.array.getD fid 0 != 0) = true := bne_iff_ne.mpr hne
      rw [this, Bool.and_true]
      exact a3
    · simp only [List.length_set]
      exact a4
    · intro i hi
      simp only at hi
      rw [getD_set_of_ne _ _ (by omega)]
      exact a5 i hi
  · have hb : (z.lookupArray.getD (u32 (w * z.numSets + u32 (z.hf.hash w faddr &&& z.setMask))) 0
        != fid) = true := bne_iff_ne.mpr hl
    rw [hb]
    simp only [if_true]
    refine ⟨⟨by rw [a1], a2, by rw [a3], ?_, ?_⟩, u32_lt _⟩
    · simp only [List.length_set]
      exact a4
    · intro i hi
      simp only at hi
      have hle : u32 (st.numCandidates + 1) ≤ st.numCandidates + 1 := Nat.mod_le _ _
      by_cases hi2 : i = st.numCandidates
      · subst hi2
        rw [← a1, ← a2]
        exact getD_set_default _ _ a4
      · rw [getD_set_of_ne _ _ (Ne.symm hi2), ← a1, getD_set_of_ne _ _ (Ne.symm hi2)]
        exact a5 i (by omega)

/-- The inner loop over any list of ways keeps agreeing states in agreement. -/
theorem ways_agree (z : ZArray) (fid : Nat) (faddr : Address) (hne : z.array.getD fid 0 ≠ 0)
    (l : List Nat) :
    ∀ st st' : ZWalk, Agree st st' → st.numCandidates < 2 ^ 32 →
      Agree (l.foldl (expandWay z fid faddr) st) (l.foldl (expandWayReference z fid faddr) st')
      ∧ (l.foldl (expandWay z fid faddr) st).numCandidates < 2 ^ 32 := by
  induction l with
  | nil => intro st st' h hn; exact ⟨h, hn⟩
  | cons w l ih =>
    intro st st' h hn
    obtain ⟨h1, h2⟩ := expandWay_agree z fid faddr w hne h hn
    exact ih _ _ h1 h2

/-- C36 (the branch-free expansion equals the branching one).  Take two states
of the walk that agree (same count, frontier and flag, same candidate entries
below the count), the count being a `uint32_t`, with the frontier candidate
below the count and its line not empty.  Then the body of the inner loop as
written and the reference version (the `#if 0` block) lead to agreeing states
for every way, and so does a whole pass of the expansion loop.  On a self-loop
(`lineId == fringeId`) the reference version changes nothing and the
branch-free version keeps the count, so the entry it wrote is not below the
count; every entry the reference version appends has a slot different from the
frontier slot. -/
theorem expansion_branch_free (z : ZArray) {st st' : ZWalk} (hag : Agree st st')
    (hn : st.numCandidates < 2 ^ 32) (hfs : st.fringeStart < st.numCandidates)
    (hne : z.array.getD (st.candidates.getD st.fringeStart default).lineId 0 ≠ 0) :
    (∀ w, Agree
        (expandWay z (st.candidates.getD st.fringeStart default).lineId
          (z.array.getD (st.candidates.getD st.fringeStart default).lineId 0) st w)
        (expandWayReference z (st.candidates.getD st.fringeStart default).lineId
          (z.array.getD (st.candidates.getD st.fringeStart default).lineId 0) st' w))
    ∧ Agree (expandStep z st) (expandStepReference z st')
    ∧ (∀ w, z.lookupArray.getD
          (u32 (w * z.numSets + u32 (z.hf.hash w
            (z.array.getD (st.candidates.getD st.fringeStart default).lineId 0) &&& z.setMask))) 0
          = (st.candidates.getD st.fringeStart default).lineId →
        (expandWay z (st.candidates.getD st.fringeStart default).lineId
          (z.array.getD (st.candidates.getD st.fringeStart default).lineId 0) st w).numCandidates
          = st.numCandidates
        ∧ expandWayReference z (st.candidates.getD st.fringeStart default).lineId
          (z.array.getD (st.candidates.getD st.fringeStart default).lineId 0) st' w = st')
    ∧ (∀ w i, st'.numCandidates ≤ i →
        i < (expandWayReference z (st.candidates.getD st.fringeStart default).lineId
          (z.array.getD (st.candidates.getD st.fringeStart default).lineId 0) st'
          w).numCandidates →
        i < st'.candidates.length →
        ((expandWayReference z (st.candidates.getD st.fringeStart default).lineId
          (z.array.getD (st.candidates.getD st.fringeStart default).lineId 0) st'
          w).candidates.getD i default).lineId
          ≠ (st.candidates.getD st.fringeStart default).lineId) := by
  refine ⟨fun w => (expandWay_agree z _ _ w hne hag hn).1, ?_, ?_, ?_⟩
  · have hfid : (st'.candidates.getD st'.fringeStart default).lineId
        = (st.candidates.getD st.fringeStart default).lineId := by
      rw [← hag.2.1, hag.2.2.2.2 st.fringeStart hfs]
    obtain ⟨h1, _⟩ := ways_agree z _ _ hne (List.range z.ways) st st' hag hn
    unfold expandStep expandStepReference
    rw [hfid]
    obtain ⟨b1, b2, b3, b4, b5⟩ := h1
    exact ⟨b1, by show u32 (st.fringeStart + 1) = u32 (st'.fringeStart + 1); rw [hag.2.1],
      b3, b4, b5⟩
  · intro w hl
    unfold expandWay expandWayReference
    simp only
    rw [hl, bne_self_eq_false]
    simp only [Bool.false_eq_true, if_false, Nat.add_zero]
    exact ⟨u32_of_lt hn, trivial⟩
  · intro w i hi1 hi2 hi3
    unfold expandWayReference at hi2 ⊢
    simp only at hi2 ⊢
    by_cases hl : z.lookupArray.getD
        (u32 (w * z.numSets + u32 (z.hf.hash w
          (z.array.getD (st.candidates.getD st.fringeStart default).lineId 0) &&& z.setMask))) 0
        = (st.candidates.getD st.fringeStart default).lineId
    · rw [hl, bne_self_eq_false] at hi2
      simp only [Bool.false_eq_true, if_false] at hi2
      omega
    · rw [bne_iff_ne.mpr hl] at hi2 ⊢
      simp only [if_true] at hi2 ⊢
      have hle : u32 (st'.numCandidates + 1) ≤ st'.numCandidates + 1 := Nat.mod_le _ _
      have hi4 : i = st'.numCandidates := by omega
      subst hi4
      rw [getD_set_self _ _ hi3]
      exact hl

theorem expansion_branch_free_witness :
    Agree
      (expandStep demoZArray ((List.range 2).foldl (seedWay demoZArray 6)
        ⟨List.replicate 6 default, 2, 0, true⟩))
      (expandStepReference demoZArray ((List.range 2).foldl (seedWay demoZArray 6)
        ⟨List.replicate 6 default, 2, 0, true⟩)) :=
  (expansion_branch_free demoZArray
    (agree_refl ((List.range 2).foldl (seedWay demoZArray 6)
      ⟨List.replicate 6 default, 2, 0, true⟩))
    (by decide) (by decide) (by decide)).2.1

/-- The candidates that `preinsert` hands to the policy: the first
`min(numCandidates, cands)` entries of the buffer. -/
theorem preinsert_offered {z z' : ZArray} {a : Address} {req : ReqPtr} {st : ZWalk} {b : Nat}
    {wb : Address} (hwalk : walk z a = some st) (h : preinsert z a req = some (b, wb, z')) :
    z'.trace = z.trace ++ [Event.rankCands req
      ((st.candidates.take (if st.numCandidates > z.cands then z.cands
        else st.numCandidates)).map ZWalkInfo.lineId)]
    ∧ z'.array = z.array ∧ z'.lookupArray = z.lookupArray := by
  unfold preinsert at h
  rw [hwalk] at h
  simp only at h
  generalize (if st.numCandidates > z.cands then z.cands else st.numCandidates) = N at h ⊢
  split_ifs at h
  split at h
  · cases h
  · split_ifs at h
    simp only [Option.some.injEq, Prod.mk.injEq] at h
    rw [← h.2.2]
    exact ⟨rfl, rfl, rfl⟩

/-- C40 (the scratch buffers never overflow).  In a well-formed state (which
has `ways >= 2` and `cands >= ways`), with a policy that returns one of the
candidates it is offered:  the candidate buffer has `cands + ways` entries; the
seed loop writes the indices `w < ways`; whenever the body of the expansion loop
runs, the index written for way `w < ways` is below `cands + ways`;
`preinsert` returns, the policy was offered between `ways` and `cands`
candidates, and the recorded chain has at least one and at most
`cands/ways + 1` positions, within the `cands/ways + 2` entries of
`swapArray`. -/
theorem scratch_bounds {z : ZArray} (a : Address) (req : ReqPtr) (hw : WF z)
    (hrp : ∀ l, l ≠ [] → z.rp.rankCands z.trace req l ∈ l) :
    (List.replicate (u32 (z.cands + z.ways)) (default : ZWalkInfo)).length = z.cands + z.ways
    ∧ (∀ w, w < z.ways → w < z.cands + z.ways)
    ∧ (∀ st, LoopHead z a st → st.numCandidates < z.cands → st.all_valid = true →
        ∀ w, w < z.ways →
          ((List.range w).foldl
            (expandWay z (st.candidates.getD st.fringeStart default).lineId
              (z.array.getD (st.candidates.getD st.fringeStart default).lineId 0))
            st).numCandidates < z.cands + z.ways
          ∧ ((List.range w).foldl
            (expandWay z (st.candidates.getD st.fringeStart default).lineId
              (z.array.getD (st.candidates.getD st.fringeStart default).lineId 0))
            st).candidates.length = z.cands + z.ways)
    ∧ ∃ st b wb z' offered,
        walk z a = some st
        ∧ preinsert z a req = some (b, wb, z')
        ∧ z'.trace = z.trace ++ [Event.rankCands req offered]
        ∧ offered = (st.candidates.take (if st.numCandidates > z.cands then z.cands
            else st.numCandidates)).map ZWalkInfo.lineId
        ∧ z.ways ≤ offered.length ∧ offered.length ≤ z.cands
        ∧ 1 ≤ z'.swapArrayLen
        ∧ z'.swapArrayLen ≤ z.cands / z.ways + 1
        ∧ z'.swapArrayLen ≤ z.cands / z.ways + 2
        ∧ z'.swapArray.length = z.cands / z.ways + 2 := by
  have hg := hw.geom
  have hcl := hg.cands_lt
  have hcg := hg.cands_ge
  refine ⟨?_, fun w hw1 => by omega, ?_, ?_⟩
  · rw [List.length_replicate, u32_of_lt (by omega)]
  · intro st hst hn _ w hw1
    obtain ⟨i1, i2, _, _⟩ := (LoopHead.inv hw hst).ways_loop hw hn w (le_of_lt hw1)
    exact ⟨by omega, i1.len⟩
  · obtain ⟨st, m, len, sw, offered, hwalk, hi, hch, hpre⟩ := preinsert_spec a req hw hrp
    obtain ⟨t1, _, _⟩ := preinsert_offered hwalk hpre
    simp only at t1
    have hoff := List.append_cancel_left t1
    simp only [List.cons.injEq, Event.rankCands.injEq, true_and, and_true] at hoff
    have hfr := hi.fringe
    have hlen := hi.len
    refine ⟨st, _, _, _, offered, hwalk, hpre, rfl, hoff, ?_, ?_, hch.len_pos, hch.len_le,
      by have := hch.len_le; show len ≤ _; omega, ?_⟩
    · rw [hoff, List.length_map, List.length_take]
      split <;> omega
    · rw [hoff, List.length_map, List.length_take]
      split <;> omega
    · show sw.length = _
      rw [hch.sw_len, hg.swap_len]

theorem scratch_bounds_witness :
    ∃ st b wb z' offered,
      walk demoZArray 6 = some st
      ∧ preinsert demoZArray 6 none = some (b, wb, z')
      ∧ z'.trace = demoZArray.trace ++ [Event.rankCands none offered]
      ∧ 2 ≤ offered.length ∧ offered.length ≤ 4
      ∧ z'.swapArrayLen ≤ 4 / 2 + 2 ∧ z'.swapArray.length = 4 / 2 + 2 := by
  obtain ⟨st, b, wb, z', offered, h1, h2, h3, _, h5, h6, _, _, h9, h10⟩ :=
    (scratch_bounds 6 none demoZArray_wf (lastOffered_mem _ _)).2.2.2
  exact ⟨st, b, wb, z', offered, h1, h2, h3, h5, h6, h9, h10⟩

end ZArray

namespace H3HashFamily

/-! ## H3 family: linearity -/

theorem shr_xor (x y k : Nat) : (x ^^^ y) >>> k = (x >>> k) ^^^ (y >>> k) := by
  apply Nat.eq_of_testBit_eq
  intro i
  simp [Nat.testBit_shiftRight, Nat.testBit_xor]

theorem shr_lt {x : Nat} (k : Nat) (h : x < 2 ^ 64) : x >>> k < 2 ^ 64 :=
  lt_of_le_of_lt (by rw [Nat.shiftRight_eq_div_pow]; exact Nat.div_le_self _ _) h

/-- One pass of the unrolled loop yields a 64-bit value. -/
theorem block_lt (h : H3HashFamily) (id x : Nat) {val res : Nat} (hv : val < 2 ^ 64)
    (hr : res < 2 ^ 64) : block h id val res x < 2 ^ 64 := by
  unfold block
  exact rot_lt _ _ _ (mix_lt hr (and_lt _ _ hv) (and_lt _ _ hv) (and_lt _ _ hv) (and_lt _ _ hv)
    (and_lt _ _ hv) (and_lt _ _ hv) (and_lt _ _ hv) (and_lt _ _ hv))

theorem xor_pair_step (P Q p q : Bool) : xor (xor P Q) (xor p q) = xor (xor P p) (xor Q q) := by
  revert P Q p q
  decide

theorem xor_pairs (p0 q0 p1 q1 p2 q2 p3 q3 p4 q4 p5 q5 p6 q6 p7 q7 p8 q8 : Bool) :
    xor (xor (xor (xor (xor (xor (xor (xor (xor p0 q0) (xor p1 q1)) (xor p2 q2)) (xor p3 q3)) (xor p4 q4)) (xor p5 q5)) (xor p6 q6)) (xor p7 q7)) (xor p8 q8)
    = xor (xor (xor (xor (xor (xor (xor (xor (xor p0 p1) p2) p3) p4) p5) p6) p7) p8) (xor (xor (xor (xor (xor (xor (xor (xor q0 q1) q2) q3) q4) q5) q6) q7) q8) := by
  rw [xor_pair_step p0 q0 p1 q1,
    xor_pair_step (xor p0 p1) (xor q0 q1) p2 q2,
    xor_pair_step (xor (xor p0 p1) p2) (xor (xor q0 q1) q2) p3 q3,
    xor_pair_step (xor (xor (xor p0 p1) p2) p3) (xor (xor (xor q0 q1) q2) q3) p4 q4,
    xor_pair_step (xor (xor (xor (xor p0 p1) p2) p3) p4) (xor (xor (xor (xor q0 q1) q2) q3) q4) p5 q5,
    xor_pair_step (xor (xor (xor (xor (xor p0 p1) p2) p3) p4) p5) (xor (xor (xor (xor (xor q0 q1) q2) q3) q4) q5) p6 q6,
    xor_pair_step (xor (xor (xor (xor (xor (xor p0 p1) p2) p3) p4) p5) p6) (xor (xor (xor (xor (xor (xor q0 q1) q2) q3) q4) q5) q6) p7 q7,
    xor_pair_step (xor (xor (xor (xor (xor (xor (xor p0 p1) p2) p3) p4) p5) p6) p7) (xor (xor (xor (xor (xor (xor (xor q0 q1) q2) q3) q4) q5) q6) q7) p8 q8]

/-- One pass of the unrolled loop is linear over GF(2) in the key and the
accumulated value. -/
theorem block_xor (h : H3HashFamily) (id x : Nat) {a b r1 r2 : Nat} (ha : a < 2 ^ 64)
    (hb : b < 2 ^ 64) (h1 : r1 < 2 ^ 64) (h2 : r2 < 2 ^ 64) :
    block h id (a ^^^ b) (r1 ^^^ r2) x = block h id a r1 x ^^^ block h id b r2 x := by
  have hx := @Nat.xor_lt_two_pow
  apply Nat.eq_of_testBit_eq
  intro i
  by_cases hi : i < 64
  · rw [Nat.testBit_xor]
    unfold block
    simp only [Nat.and_xor_distrib_right]
    rw [mix_testBit (hx h1 h2) (hx (and_lt a _ ha) (and_lt b _ hb))
        (hx (and_lt a _ ha) (and_lt b _ hb)) (hx (and_lt a _ ha) (and_lt b _ hb))
        (hx (and_lt a _ ha) (and_lt b _ hb)) (hx (and_lt a _ ha) (and_lt b _ hb))
        (hx (and_lt a _ ha) (and_lt b _ hb)) (hx (and_lt a _ ha) (and_lt b _ hb))
        (hx (and_lt a _ ha) (and_lt b _ hb)) hi,
      mix_testBit h1 (and_lt a _ ha) (and_lt a _ ha) (and_lt a _ ha) (and_lt a _ ha)
        (and_lt a _ ha) (and_lt a _ ha) (and_lt a _ ha) (and_lt a _ ha) hi,
      mix_testBit h2 (and_lt b _ hb) (and_lt b _ hb) (and_lt b _ hb) (and_lt b _ hb)
        (and_lt b _ hb) (and_lt b _ hb) (and_lt b _ hb) (and_lt b _ hb) hi]
    simp only [Nat.testBit_xor]
    exact xor_pairs _ _ _ _ _ _ _ _ _ _ _ _ _ _ _ _ _ _
  · have l1 := block_lt h id x (hx ha hb) (hx h1 h2)
    have l2 := hx (block_lt h id x ha h1) (block_lt h id x hb h2)
    rw [testBit_of_ge l1 (by omega), testBit_of_ge l2 (by omega)]

theorem block_zero (h : H3HashFamily) (id x : Nat) : block h id 0 0 x = 0 := by
  unfold block
  simp [u64]

/-- The unrolled loop is linear over GF(2) in the key. -/
theorem loop_xor (h : H3HashFamily) (id : Nat) {a b : Nat} (ha : a < 2 ^ 64) (hb : b < 2 ^ 64)
    (n : Nat) :
    (List.range n).foldl (fun res k => block h id (a ^^^ b) res (8 * k)) 0
        = (List.range n).foldl (fun res k => block h id a res (8 * k)) 0
          ^^^ (List.range n).foldl (fun res k => block h id b res (8 * k)) 0
    ∧ (List.range n).foldl (fun res k => block h id a res (8 * k)) 0 < 2 ^ 64
    ∧ (List.range n).foldl (fun res k => block h id b res (8 * k)) 0 < 2 ^ 64
    ∧ (List.range n).foldl (fun res k => block h id 0 res (8 * k)) 0 = 0 := by
  induction n with
  | zero => exact ⟨by simp, by simp, by simp, by simp⟩
  | succ n ih =>
    obtain ⟨i1, i2, i3, i4⟩ := ih
    simp only [List.range_succ, List.foldl_append, List.foldl_cons, List.foldl_nil]
    rw [i1, i4]
    exact ⟨block_xor h id _ ha hb i2 i3, block_lt h id _ ha i2, block_lt h id _ hb i3,
      block_zero h id _⟩

/-- The hash of a 64-bit key, for keys `a`, `b` and `a XOR b`. -/
theorem hash_xor (h : H3HashFamily) (id : Nat) (hid : id < h.numFuncs) {a b : Nat}
    (ha : a < 2 ^ 64) (hb : b < 2 ^ 64) :
    ∃ x y, hash h id a = some x ∧ hash h id b = some y
      ∧ hash h id (a ^^^ b) = some (x ^^^ y) ∧ hash h id 0 = some 0
      ∧ x < 2 ^ 64 ∧ y < 2 ^ 64 := by
  have hx := @Nat.xor_lt_two_pow
  have hc : (!decide (id < h.numFuncs)) = false := by simp [hid]
  unfold hash
  simp only [hc, Bool.false_eq_true, if_false]
  obtain ⟨l1, l2, l3, l4⟩ := loop_xor h id ha hb ((u32 (64 >>> h.resShift) + 7) / 8)
  rw [l1, l4]
  generalize (List.range ((u32 (64 >>> h.resShift) + 7) / 8)).foldl
    (fun res k => block h id a res (8 * k)) 0 = u at l2 ⊢
  generalize (List.range ((u32 (64 >>> h.resShift) + 7) / 8)).foldl
    (fun res k => block h id b res (8 * k)) 0 = v at l3 ⊢
  rcases h.resShift with _ | _ | _ | _ | n
  · exact ⟨_, _, rfl, rfl, rfl, rfl, l2, l3⟩
  · refine ⟨_, _, rfl, rfl, ?_, rfl, hx (shr_lt _ l2) l2, hx (shr_lt _ l3) l3⟩
    simp only [shr_xor]
    congr 1
    ac_rfl
  · refine ⟨_, _, rfl, rfl, ?_, rfl, hx (shr_lt _ (hx (shr_lt _ l2) l2)) (hx (shr_lt _ l2) l2),
      hx (shr_lt _ (hx (shr_lt _ l3) l3)) (hx (shr_lt _ l3) l3)⟩
    simp only [shr_xor]
    congr 1
    ac_rfl
  · refine ⟨_, _, rfl, rfl, ?_, rfl,
      hx (shr_lt _ (hx (shr_lt _ (hx (shr_lt _ l2) l2)) (hx (shr_lt _ l2) l2)))
        (hx (shr_lt _ (hx (shr_lt _ l2) l2)) (hx (shr_lt _ l2) l2)),
      hx (shr_lt _ (hx (shr_lt _ (hx (shr_lt _ l3) l3)) (hx (shr_lt _ l3) l3)))
        (hx (shr_lt _ (hx (shr_lt _ l3) l3)) (hx (shr_lt _ l3) l3))⟩
    simp only [shr_xor]
    congr 1
    ac_rfl
  · exact ⟨_, _, rfl, rfl, rfl, rfl, l2, l3⟩

/-- C37 (the H3 hash is linear over GF(2)).  For every family, whatever its
output width, every `id < numFuncs` and all 64-bit keys `a` and `b`, the hash
returns and `hash(id, a XOR b) = hash(id, a) XOR hash(id, b)`; `hash(id, 0) = 0`;
and flipping bit `k < 64` of the key XORs the hash with `hash(id, 2^k)`. -/
theorem hash_linear (h : H3HashFamily) (id : Nat) (hid : id < h.numFuncs) (a b : Nat)
    (ha : a < 2 ^ 64) (hb : b < 2 ^ 64) :
    ∃ x y, hash h id a = some x ∧ hash h id b = some y
      ∧ hash h id (a ^^^ b) = some (x ^^^ y)
      ∧ hash h id 0 = some 0
      ∧ ∀ k, k < 64 → ∃ e, hash h id (2 ^ k) = some e ∧ hash h id (a ^^^ 2 ^ k) = some (x ^^^ e) := by
  obtain ⟨x, y, h1, h2, h3, h4, _, _⟩ := hash_xor h id hid ha hb
  refine ⟨x, y, h1, h2, h3, h4, ?_⟩
  intro k hk
  obtain ⟨x', e, g1, g2, g3, _, _, _⟩ := hash_xor h id hid ha
    (Nat.pow_lt_pow_right (by norm_num) hk : 2 ^ k < 2 ^ 64)
  rw [h1] at g1
  injection g1 with g1
  subst g1
  exact ⟨e, g2, g3⟩

theorem hash_linear_witness :
    hash demoH3 0 (5 ^^^ 2) = some 4 ∧ hash demoH3 0 5 = some 0 ∧ hash demoH3 0 2 = some 4 := by
  obtain ⟨x, y, h1, h2, h3, _, _⟩ := hash_linear demoH3 0 (by decide) 5 2 (by decide) (by decide)
  have e1 : hash demoH3 0 5 = some 0 := by decide!
  have e2 : hash demoH3 0 2 = some 4 := by decide!
  rw [e1] at h1
  rw [e2] at h2
  injection h1 with h1
  injection h2 with h2
  subst h1 h2
  exact ⟨h3, e1, e2⟩

end H3HashFamily

namespace FeistelFamily

/-! ## Feistel family: the hash is total -/

/-- The assertion of `bitXor` holds for every size: the result is 0 or 1. -/
theorem bitXor_bit (val row size : Nat) : ∃ t, bitXor val row size = some t ∧ t < 2 := by
  unfold bitXor
  simp only [bitXor_loop]
  have hlt := maskedParity_lt val row (toInt32 size).toNat
  generalize maskedParity val row (toInt32 size).toNat = r at hlt ⊢
  have hr : r = 0 ∨ r = 1 := by omega
  rcases hr with rfl | rfl
  · exact ⟨0, rfl, by norm_num⟩
  · exact ⟨1, rfl, by norm_num⟩

/-- A round on 32-bit halves returns 32-bit halves. -/
theorem round_total (f : FeistelFamily) (hw : f.width = 64) (i up down : Nat)
    (hu : up < 2 ^ 32) (hd : down < 2 ^ 32) :
    ∃ s p, substitute f i (up ||| f.keys.getD i 0) = some s ∧ s < 2 ^ 32
      ∧ permute f i s = some p ∧ p < 2 ^ 32
      ∧ round f i (up, down) = some (down ^^^ p, up) ∧ down ^^^ p < 2 ^ 32 := by
  obtain ⟨s, s1, s2, _⟩ := substitute_spec f i (up ||| f.keys.getD i 0) hw
  obtain ⟨p, p1, p2, _⟩ := permute_spec f i s hw
  exact ⟨s, p, s1, s2, p1, p2, round_eq f i up down s p s2 p2 hu hd s1 p1,
    Nat.xor_lt_two_pow hd p2⟩

/-- Any number of rounds on 32-bit halves returns 32-bit halves. -/
theorem rounds_total (f : FeistelFamily) (hw : f.width = 64) (n : Nat) (st : Nat × Nat)
    (h1 : st.1 < 2 ^ 32) (h2 : st.2 < 2 ^ 32) :
    ∃ st' : Nat × Nat,
      (List.range n).foldl
          (fun (acc : Option (Nat × Nat)) i =>
            match acc with
            | none => none
            | some st => round f i st)
          (some st) = some st'
        ∧ st'.1 < 2 ^ 32 ∧ st'.2 < 2 ^ 32 := by
  induction n with
  | zero => exact ⟨st, rfl, h1, h2⟩
  | succ n ih =>
    obtain ⟨st', e, b1, b2⟩ := ih
    obtain ⟨s, p, _, _, _, _, r1, r2⟩ := round_total f hw n st'.1 st'.2 b1 b2
    rw [List.range_succ, List.foldl_append, e]
    exact ⟨(st'.2 ^^^ p, st'.1), r1, r2, b1⟩

/-- C38 (the Feistel hash is total).  For a family as the constructor builds it
(`width = 64`), every function id and every 64-bit key: `hash` returns, so no
assertion of `hash` or `bitXor` fails; the digest is below `2^32` and is the same
for every function id; `bitXor` returns 0 or 1 for all arguments; and every
round on 32-bit halves has a substitution result, a permutation result and new
halves below `2^32`. -/
theorem hash_total (f : FeistelFamily) (hw : f.width = 64) (id val : Nat)
    (hv : val < 2 ^ 64) :
    ∃ d, hash f id val = some d ∧ d < 2 ^ 32
      ∧ (∀ id', hash f id' val = some d)
      ∧ (∀ v row size, ∃ t, bitXor v row size = some t ∧ t < 2)
      ∧ (∀ i up down, up < 2 ^ 32 → down < 2 ^ 32 →
          ∃ s p, substitute f i (up ||| f.keys.getD i 0) = some s ∧ s < 2 ^ 32
            ∧ permute f i s = some p ∧ p < 2 ^ 32
            ∧ round f i (up, down) = some (down ^^^ p, up) ∧ down ^^^ p < 2 ^ 32) := by
  have hl : val >>> 32 < 2 ^ 32 := by
    rw [Nat.shiftRight_eq_div_pow]
    exact Nat.div_lt_of_lt_mul (by norm_num at hv ⊢; omega)
  have hr : u64 (val <<< 32) >>> 32 < 2 ^ 32 := by
    rw [Nat.shiftRight_eq_div_pow]
    have : u64 (val <<< 32) < 2 ^ 64 := Nat.mod_lt _ (by norm_num)
    exact Nat.div_lt_of_lt_mul (by norm_num at this ⊢; omega)
  obtain ⟨st', e, b1, _⟩ := rounds_total f hw 4 (val >>> 32, u64 (val <<< 32) >>> 32) hl hr
  have hh : hash f id val = some st'.1 := congrArg (Option.map Prod.fst) e
  exact ⟨st'.1, hh, b1, fun id' => hh, bitXor_bit, round_total f hw⟩

theorem hash_total_witness :
    ∃ d, hash demoFeistel 3 (2 ^ 40 + 9) = some d ∧ d < 2 ^ 32
      ∧ hash demoFeistel 0 (2 ^ 40 + 9) = some d := by
  obtain ⟨d, h1, h2, h3, _⟩ := hash_total demoFeistel rfl 3 (2 ^ 40 + 9) (by norm_num)
  exact ⟨d, h1, h2, h3 0⟩

end FeistelFamily

namespace Cache

/-! ## Cache orchestration: the FTM latency adjustment of `accessSkew` -/

/-- The conditions of the FTM penalty at the end of `accessSkew`. -/
theorem ftmReturn_penalty {α κ : Type} (C : CC κ) (c : Cache) (s : Sys α κ) (req : MemReq)
    (sameOwner : Bool) (respCycle : Nat) :
    ((c.ftmEnable = true ∧ c.isLLC = true
        ∧ ((req.type = AccessType.GETS ∧ c.ftmTypeFlag &&& 1 ≠ 0)
          ∨ (req.type = AccessType.GETX ∧ c.ftmTypeFlag &&& 2 ≠ 0))
        ∧ req.flags &&& (1 <<< 11) ≠ 0 ∧ sameOwner = false) →
      (ftmReturn C c s req sameOwner respCycle).1 = u64 (respCycle + 200))
    ∧ (¬ (c.ftmEnable = true ∧ c.isLLC = true
        ∧ ((req.type = AccessType.GETS ∧ c.ftmTypeFlag &&& 1 ≠ 0)
          ∨ (req.type = AccessType.GETX ∧ c.ftmTypeFlag &&& 2 ≠ 0))
        ∧ req.flags &&& (1 <<< 11) ≠ 0 ∧ sameOwner = false) →
      (ftmReturn C c s req sameOwner respCycle).1 = respCycle) := by
  unfold ftmReturn
  constructor
  · rintro ⟨h1, h2, h3, h4, h5⟩
    rw [h1, h2, h5]
    rcases h3 with ⟨t, f⟩ | ⟨t, f⟩
    · rw [if_pos (by rfl), if_pos t, if_pos f, if_pos (by rfl)]
      show (if req.flags &&& (1 <<< 11) ≠ 0 then u64 (respCycle + 200) else respCycle) = _
      rw [if_pos h4]
    · have t' : ¬ req.type = AccessType.GETS := by rw [t]; decide
      rw [if_pos (by rfl), if_neg t', if_pos t, if_pos f, if_pos (by rfl)]
      show (if req.flags &&& (1 <<< 11) ≠ 0 then u64 (respCycle + 200) else respCycle) = _
      rw [if_pos h4]
  · intro hn
    by_cases h1 : c.ftmEnable = true
    swap
    · have e : (c.ftmEnable && c.isLLC) = false := by
        cases h : c.ftmEnable
        · rfl
        · exact absurd h h1
      rw [e]; rfl
    by_cases h2 : c.isLLC = true
    swap
    · have e : (c.ftmEnable && c.isLLC) = false := by
        cases h : c.isLLC
        · exact Bool.and_false _
        · exact absurd h h2
      rw [e]; rfl
    rw [h1, h2, if_pos (by rfl)]
    by_cases h5 : sameOwner = false
    swap
    · have e : sameOwner = true := by
        cases h : sameOwner
        · exact absurd h h5
        · rfl
      rw [e]
      split_ifs <;> first | rfl | (rename_i a _; exact absurd a (by decide))
    rw [h5]
    by_cases h4 : req.flags &&& (1 <<< 11) ≠ 0
    swap
    · split_ifs <;> rfl
    by_cases t : req.type = AccessType.GETS
    · rw [if_pos t]
      by_cases f : c.ftmTypeFlag &&& 1 ≠ 0
      · exact absurd ⟨h1, h2, Or.inl ⟨t, f⟩, h4, h5⟩ hn
      · rw [if_neg f]
    · rw [if_neg t]
      by_cases t2 : req.type = AccessType.GETX
      · rw [if_pos t2]
        by_cases f : c.ftmTypeFlag &&& 2 ≠ 0
        · exact absurd ⟨h1, h2, Or.inr ⟨t2, f⟩, h4, h5⟩ hn
        · rw [if_neg f]
      · rw [if_neg t2]

/-- The value of `sameOwner` after the block "FTM set variables". -/
theorem sameOwnerCheck_fst {α κ : Type} (C : CC κ) (c : Cache) (s : Sys α κ) (req : MemReq)
    (lineId : Int) (hit : Bool) :
    (sameOwnerCheck C c s req lineId hit).1
      = if c.isLLC && hit && updateReplacement req then
          (C.checkSameOwner s.cc req.lineAddr lineId req.srcId).1
        else true := by
  unfold sameOwnerCheck
  split <;> rfl

theorem updateReplacement_iff (req : MemReq) :
    updateReplacement req = true
      ↔ req.type = AccessType.GETS ∨ req.type = AccessType.GETX := by
  unfold updateReplacement
  simp


/-! ### Runs that differ only in the log of calls -/

theorem sameData_rfl {α κ : Type} (s : Sys α κ) : SameData s s := ⟨rfl, rfl, rfl⟩

theorem sameData_trans {α κ : Type} {s t u : Sys α κ} (h1 : SameData s t) (h2 : SameData t u) :
    SameData s u :=
  ⟨h1.1.trans h2.1, h1.2.1.trans h2.2.1, h1.2.2.trans h2.2.2⟩

theorem sameData_calls {α κ : Type} {s t : Sys α κ} (h : SameData s t) :
    t = { s with calls := t.calls } := by
  obtain ⟨a, k, e, l⟩ := s
  obtain ⟨a', k', e', l'⟩ := t
  obtain ⟨ha, hc, he⟩ := h
  dsimp only at ha hc he
  subst ha hc he
  rfl

theorem allocate_same {α κ : Type} (A : CacheArray α) (C : CC κ) {s t s2 : Sys α κ}
    (req : MemReq) (respCycle : Nat) {v : Int} (h : SameData s t)
    (hs : allocate A C s req respCycle = .ok (v, s2)) :
    ∃ t2, allocate A C t req respCycle = .ok (v, t2) ∧ SameData s2 t2 := by
  rw [sameData_calls h]
  generalize t.calls = l
  unfold allocate at hs ⊢
  dsimp only
  cases hp : A.preinsert s.array req.lineAddr (some req) with
  | none => rw [hp] at hs; cases hs
  | some r =>
    obtain ⟨cand, wb, arr1⟩ := r
    rw [hp] at hs
    dsimp only at hs ⊢
    cases hq : A.postinsert arr1 req.lineAddr (some req) (toUInt32 (toInt32 cand)) with
    | none => rw [hq] at hs; cases hs
    | some arr2 =>
      rw [hq] at hs
      dsimp only at hs ⊢
      cases hs
      exact ⟨_, rfl, rfl, rfl, rfl⟩

theorem lookupAndAllocate_same {α κ : Type} (A : CacheArray α) (C : CC κ) (c : Cache)
    {s t s2 : Sys α κ} (req : MemReq) {v : Int × Bool} (h : SameData s t)
    (hs : lookupAndAllocate A C c s req = .ok (v, s2)) :
    ∃ t2, lookupAndAllocate A C c t req = .ok (v, t2) ∧ SameData s2 t2 := by
  rw [sameData_calls h]
  generalize t.calls = l
  unfold lookupAndAllocate at hs ⊢
  dsimp only
  cases hl : A.lookup s.array req.lineAddr (some req) (updateReplacement req) with
  | none => rw [hl] at hs; cases hs
  | some r =>
    obtain ⟨lineId, arr1⟩ := r
    rw [hl] at hs
    dsimp only at hs ⊢
    by_cases h1 : lineId = -1
    · rw [if_pos h1] at hs ⊢
      cases h2 : C.shouldAllocate s.cc req with
      | false =>
        rw [h2] at hs
        simp only [Bool.false_eq_true, if_false] at hs ⊢
        cases hs
        exact ⟨_, rfl, rfl, rfl, rfl⟩
      | true =>
        rw [h2] at hs
        simp only [if_true] at hs ⊢
        cases hal : allocate A C
            { s with
              array := arr1
              calls := s.calls ++ [Call.lookup req.lineAddr (some req) (updateReplacement req),
                Call.shouldAllocate req] }
            req (u64 (req.cycle + c.accLat)) with
        | error e => rw [hal] at hs; cases hs
        | ok r2 =>
          obtain ⟨newId, s3⟩ := r2
          rw [hal] at hs
          dsimp only at hs
          cases hs
          have hsd : SameData
              (⟨arr1, s.cc, s.eventRecorders,
                s.calls ++ [Call.lookup req.lineAddr (some req) (updateReplacement req),
                  Call.shouldAllocate req]⟩ : Sys α κ)
              (⟨arr1, s.cc, s.eventRecorders,
                l ++ [Call.lookup req.lineAddr (some req) (updateReplacement req),
                  Call.shouldAllocate req]⟩ : Sys α κ) := ⟨rfl, rfl, rfl⟩
          obtain ⟨t2, ht2, hd⟩ := allocate_same A C req (u64 (req.cycle + c.accLat)) hsd hal
          rw [ht2]
          exact ⟨_, rfl, hd⟩
    · rw [if_neg h1] at hs ⊢
      cases hs
      exact ⟨_, rfl, rfl, rfl, rfl⟩

theorem drain_same {α κ : Type} {s t : Sys α κ} (srcId : Nat) (h : SameData s t) :
    (drain s srcId).1 = (drain t srcId).1 ∧ SameData (drain s srcId).2 (drain t srcId).2 := by
  rw [sameData_calls h]
  generalize t.calls = l
  unfold drain
  dsimp only
  cases hr : s.eventRecorders srcId with
  | none => exact ⟨rfl, rfl, rfl, rfl⟩
  | some evRec =>
    dsimp only
    by_cases hh : evRec.hasRecord = true
    · rw [if_pos hh, if_pos hh]
      exact ⟨rfl, rfl, rfl, rfl⟩
    · rw [if_neg hh, if_neg hh]
      exact ⟨rfl, rfl, rfl, rfl⟩

theorem processed_same {α κ : Type} (C : CC κ) {s t : Sys α κ} (req : MemReq) (lineId : Int)
    (respCycle : Nat) (h : SameData s t) :
    (processed C s req lineId respCycle).1 = (processed C t req lineId respCycle).1
      ∧ SameData (processed C s req lineId respCycle).2 (processed C t req lineId respCycle).2 := by
  obtain ⟨_, ha, hc, he⟩ := drain_same req.srcId h
  unfold processed
  dsimp only
  rw [← hc, ← he]
  exact ⟨rfl, ha, rfl, rfl⟩

theorem merge_same {α κ : Type} {s t s3 : Sys α κ} (req : MemReq) (wbAcc : TimingRecord)
    (h : SameData s t) (hs : merge s req wbAcc = .ok s3) :
    ∃ t3, merge t req wbAcc = .ok t3 ∧ SameData s3 t3 := by
  rw [sameData_calls h]
  generalize t.calls = l
  unfold merge at hs ⊢
  dsimp only
  by_cases hv : wbAcc.isValid = true
  · rw [if_pos hv] at hs ⊢
    cases hr : s.eventRecorders req.srcId with
    | none => rw [hr] at hs; cases hs
    | some evRec =>
      rw [hr] at hs
      dsimp only at hs ⊢
      split_ifs at hs ⊢
      · cases hs; exact ⟨_, rfl, rfl, rfl, rfl⟩
      · cases hs; exact ⟨_, rfl, rfl, rfl, rfl⟩
  · rw [if_neg hv] at hs ⊢
    cases hs
    exact ⟨_, rfl, rfl, rfl, rfl⟩

theorem finish_same {α κ : Type} (C : CC κ) {s t s3 : Sys α κ} (req : MemReq) (lineId : Int)
    (respCycle : Nat) {r : Nat} (h : SameData s t)
    (hs : finish C s req lineId respCycle = .ok (r, s3)) :
    ∃ t3, finish C t req lineId respCycle = .ok (r, t3) ∧ SameData s3 t3 := by
  obtain ⟨hp1, hp2⟩ := processed_same C req lineId respCycle h
  obtain ⟨hd1, _⟩ := drain_same req.srcId h
  unfold finish at hs ⊢
  cases hm : merge (processed C s req lineId respCycle).2 req (drain s req.srcId).1 with
  | error e => rw [hm] at hs; cases hs
  | ok s4 =>
    rw [hm] at hs
    dsimp only at hs
    cases hs
    obtain ⟨t3, ht3, hd⟩ := merge_same req _ hp2 hm
    rw [← hd1, ht3, ← hp1]
    exact ⟨_, rfl, hd⟩

/-- The cycle of a completed `finish` is the one `processAccess` returned. -/
theorem finish_ok {α κ : Type} {C : CC κ} {s s3 : Sys α κ} {req : MemReq} {lineId : Int}
    {respCycle r : Nat} (hs : finish C s req lineId respCycle = .ok (r, s3)) :
    r = (processed C s req lineId respCycle).1 := by
  unfold finish at hs
  cases hm : merge (processed C s req lineId respCycle).2 req (drain s req.srcId).1 with
  | error e => rw [hm] at hs; cases hs
  | ok s4 =>
    rw [hm] at hs
    dsimp only at hs
    cases hs
    rfl

theorem sameOwnerCheck_same {α κ : Type} (C : CC κ) (c : Cache) (s : Sys α κ) (req : MemReq)
    (lineId : Int) (hit : Bool) (hck : ∀ k a l i, (C.checkSameOwner k a l i).2 = k) :
    SameData (sameOwnerCheck C c s req lineId hit).2 s := by
  unfold sameOwnerCheck
  split
  · exact ⟨rfl, hck _ _ _ _, rfl⟩
  · exact ⟨rfl, rfl, rfl⟩

/-- The cycle that a completed `closeSkew` returns. -/
theorem closeSkew_val {α κ : Type} {C : CC κ} {c : Cache} {s s' : Sys α κ} {req : MemReq}
    {sameOwner : Bool} {respCycle r : Nat}
    (h : closeSkew C c s req sameOwner respCycle = .ok (r, s')) :
    req.cycle ≤ respCycle
      ∧ r = (ftmReturn C c
          { s with cc := C.endSkewAccess s.cc req, calls := s.calls ++ [Call.endSkewAccess req] }
          req sameOwner respCycle).1 := by
  unfold closeSkew at h
  by_cases hc : respCycle ≥ req.cycle
  · rw [if_pos hc] at h
    injection h with h
    exact ⟨hc, (congrArg Prod.fst h).symm⟩
  · rw [if_neg hc] at h
    cases h

/-- A non-skipped `access` that starts like a run of `accessSkew` whose lookup
and allocation completed with `(lineId, al)`, and whose `finish` returned `resp`
from a system with the same data, returns `resp`. -/
theorem access_of_same {α κ : Type} (A : CacheArray α) (C : CC κ) (c : Cache) (s : Sys α κ)
    (req : MemReq) {lineId : Int} {al : Bool} {s2 u s3 : Sys α κ} {resp : Nat}
    (hst : C.startSkewAccess = C.startAccess)
    (hskip : (C.startSkewAccess s.cc req).1 = false)
    (hl : lookupAndAllocate A C c
        (started s (C.startSkewAccess s.cc req) (Call.startSkewAccess req))
        (retyped req (C.startSkewAccess s.cc req)) = .ok ((lineId, al), s2))
    (hu : SameData u s2)
    (hf : finish C u (retyped req (C.startSkewAccess s.cc req)) lineId
        (u64 (req.cycle + c.accLat)) = .ok (resp, s3))
    (hr : req.cycle ≤ resp) :
    ∃ s'', access A C c s req = .ok (resp, s'') := by
  have hsd : SameData (started s (C.startSkewAccess s.cc req) (Call.startSkewAccess req))
      (started s (C.startSkewAccess s.cc req) (Call.startAccess req)) := ⟨rfl, rfl, rfl⟩
  obtain ⟨t2, ht2, hd2⟩ := lookupAndAllocate_same A C c _ hsd hl
  obtain ⟨t3, ht3, _⟩ := finish_same C _ lineId (u64 (req.cycle + c.accLat))
    (sameData_trans hu hd2) hf
  unfold access
  rw [← hst, hskip]
  simp only [Bool.not_false, if_true]
  rw [ht2]
  dsimp only
  rw [ht3]
  dsimp only
  exact ⟨_, close_ok C t3 _ hr⟩

/-- C39 (FTM latency adjustment of `accessSkew`): the penalty is charged on a
miss that was not allocated.  `accessSkew` initialises `hit` to true and clears
it only inside the allocation block.  The looked-up line 20 is not in the array
(`lookup` returns -1) and the controller declines to allocate, so `hit` is still
true: the same-owner check is consulted with slot -1 and `accessSkew` returns
314, the 114 that `access` returns plus 200, although the line was not found.
With a controller that allocates, the same request returns 114. -/
theorem ftm_penalty_on_declined_miss :
    ((SetAssocArray.ops zinfoPlain).lookup demoSys.array ftmReq.lineAddr (some ftmReq)
        true).map Prod.fst = some (-1)
      ∧ access (SetAssocArray.ops zinfoPlain) declineCC ftmCache demoSys ftmReq
        = .ok (114, stateOf (access (SetAssocArray.ops zinfoPlain) declineCC ftmCache demoSys
            ftmReq))
      ∧ accessSkew (SetAssocArray.ops zinfoPlain) declineCC ftmCache demoSys ftmReq
        = .ok (314, stateOf (accessSkew (SetAssocArray.ops zinfoPlain) declineCC ftmCache demoSys
            ftmReq))
      ∧ Call.checkSameOwner 20 (-1) 0
          ∈ (stateOf (accessSkew (SetAssocArray.ops zinfoPlain) declineCC ftmCache demoSys
              ftmReq)).calls
      ∧ accessSkew (SetAssocArray.ops zinfoPlain) stubCC ftmCache demoSys ftmReq
        = .ok (114, stateOf (accessSkew (SetAssocArray.ops zinfoPlain) stubCC ftmCache demoSys
            ftmReq)) := by
  refine ⟨by decide!, rfl, rfl, by decide!, rfl⟩

/-- The cycle that the code of `accessSkew` returns.  A completed run that was
skipped returns `req.cycle`, which is what `access` returns when skipped.  A
completed run that was not skipped returns the cycle `base` that `processAccess`
returned (the cycle that `access` returns, when `startSkewAccess` is
`startAccess` and the same-owner check leaves the controller unchanged) plus 200
when FTM is enabled, the cache is the last-level cache, the type is GETS with
`ftmTypeFlag` bit 0 or GETX with bit 1, request flag bit 11 is set, `hit` is
still true, that is, no line was allocated, and `checkSameOwner` reported a
different owner; and exactly `base` otherwise.  `hit` is also true after a miss
for which `shouldAllocate` declined. -/
theorem ftm_adjustment {α κ : Type} (A : CacheArray α) (C : CC κ) (c : Cache) (s : Sys α κ)
    (req : MemReq) {r : Nat} {s' : Sys α κ} (h : accessSkew A C c s req = .ok (r, s')) :
    ((C.startSkewAccess s.cc req).1 = true →
        r = req.cycle
          ∧ (C.startSkewAccess = C.startAccess →
              ∃ s'', access A C c s req = .ok (req.cycle, s'')))
      ∧ ((C.startSkewAccess s.cc req).1 = false →
        ∃ (lineId : Int) (al : Bool) (s2 : Sys α κ) (found : Int) (arr1 : α),
          lookupAndAllocate A C c
              (started s (C.startSkewAccess s.cc req) (Call.startSkewAccess req))
              (retyped req (C.startSkewAccess s.cc req)) = .ok ((lineId, al), s2)
          ∧ A.lookup s.array req.lineAddr (some (retyped req (C.startSkewAccess s.cc req)))
              (updateReplacement (retyped req (C.startSkewAccess s.cc req))) = some (found, arr1)
          ∧ (al = false ↔
              (found ≠ -1
                ∨ C.shouldAllocate (C.startSkewAccess s.cc req).2.2
                    (retyped req (C.startSkewAccess s.cc req)) = false))
          ∧ (al = false → lineId = found)
          ∧ (C.startSkewAccess = C.startAccess →
              (∀ k a l i, (C.checkSameOwner k a l i).2 = k) →
              ∃ s'', access A C c s req
                = .ok ((processed C
                    (sameOwnerCheck C c s2 (retyped req (C.startSkewAccess s.cc req)) lineId
                      (!al)).2
                    (retyped req (C.startSkewAccess s.cc req)) lineId
                    (u64 (req.cycle + c.accLat))).1, s''))
          ∧ ((c.ftmEnable = true ∧ c.isLLC = true
                ∧ (((C.startSkewAccess s.cc req).2.1 = AccessType.GETS ∧ c.ftmTypeFlag &&& 1 ≠ 0)
                  ∨ ((C.startSkewAccess s.cc req).2.1 = AccessType.GETX
                      ∧ c.ftmTypeFlag &&& 2 ≠ 0))
                ∧ req.flags &&& (1 <<< 11) ≠ 0
                ∧ al = false
                ∧ (C.checkSameOwner s2.cc req.lineAddr lineId req.srcId).1 = false) →
              r = u64 ((processed C
                    (sameOwnerCheck C c s2 (retyped req (C.startSkewAccess s.cc req)) lineId
                      (!al)).2
                    (retyped req (C.startSkewAccess s.cc req)) lineId
                    (u64 (req.cycle + c.accLat))).1 + 200))
          ∧ (¬ (c.ftmEnable = true ∧ c.isLLC = true
                ∧ (((C.startSkewAccess s.cc req).2.1 = AccessType.GETS ∧ c.ftmTypeFlag &&& 1 ≠ 0)
                  ∨ ((C.startSkewAccess s.cc req).2.1 = AccessType.GETX
                      ∧ c.ftmTypeFlag &&& 2 ≠ 0))
                ∧ req.flags &&& (1 <<< 11) ≠ 0
                ∧ al = false
                ∧ (C.checkSameOwner s2.cc req.lineAddr lineId req.srcId).1 = false) →
              r = (processed C
                    (sameOwnerCheck C c s2 (retyped req (C.startSkewAccess s.cc req)) lineId
                      (!al)).2
                    (retyped req (C.startSkewAccess s.cc req)) lineId
                    (u64 (req.cycle + c.accLat))).1)) := by
  constructor
  · intro hskip
    obtain ⟨_, _, _, h3⟩ := accessSkew_ok h
    refine ⟨h3 hskip, fun hst => ⟨_, access_of_skip A C c s req (by rw [← hst]; exact hskip)⟩⟩
  · intro hskip
    unfold accessSkew at h
    rw [hskip] at h
    simp only [Bool.not_false, if_true] at h
    cases hl : lookupAndAllocate A C c
        (started s (C.startSkewAccess s.cc req) (Call.startSkewAccess req))
        (retyped req (C.startSkewAccess s.cc req)) with
    | error e => rw [hl] at h; cases h
    | ok v =>
      obtain ⟨⟨lineId, al⟩, s2⟩ := v
      rw [hl] at h
      dsimp only at h
      cases hf : finish C
          (sameOwnerCheck C c s2 (retyped req (C.startSkewAccess s.cc req)) lineId (!al)).2
          (retyped req (C.startSkewAccess s.cc req)) lineId (u64 (req.cycle + c.accLat)) with
      | error e => rw [hf] at h; cases h
      | ok w =>
        obtain ⟨resp, s3⟩ := w
        rw [hf] at h
        dsimp only at h
        obtain ⟨hle, hr⟩ := closeSkew_val h
        have hb := finish_ok hf
        obtain ⟨found, arr1, hlk, hcases⟩ := lookupAndAllocate_ok hl
        have hso := sameOwnerCheck_fst C c s2 (retyped req (C.startSkewAccess s.cc req)) lineId
          (!al)
        obtain ⟨hp, hn⟩ := ftmReturn_penalty C c
          { s3 with
            cc := C.endSkewAccess s3.cc (retyped req (C.startSkewAccess s.cc req))
            calls := s3.calls ++ [Call.endSkewAccess (retyped req (C.startSkewAccess s.cc req))] }
          (retyped req (C.startSkewAccess s.cc req))
          (sameOwnerCheck C c s2 (retyped req (C.startSkewAccess s.cc req)) lineId (!al)).1 resp
        refine ⟨lineId, al, s2, found, arr1, rfl, hlk, ?_, ?_, ?_, ?_, ?_⟩
        · rcases hcases with ⟨h1, _, h3, _⟩ | ⟨h1, h2, _, h4, _⟩ | ⟨h1, h2, h3, _⟩
          · exact ⟨fun _ => Or.inl h1, fun _ => h3⟩
          · exact ⟨fun _ => Or.inr h2, fun _ => h4⟩
          · constructor
            · intro e; rw [h3] at e; cases e
            · rintro (e | e)
              · exact absurd h1 e
              · have h2' : C.shouldAllocate (C.startSkewAccess s.cc req).2.2
                    (retyped req (C.startSkewAccess s.cc req)) = true := h2
                rw [h2'] at e
                cases e
        · intro e
          rcases hcases with ⟨_, h2, _, _⟩ | ⟨h1, _, h3, _, _⟩ | ⟨_, _, h3, _⟩
          · exact h2
          · rw [h1, h3]
          · rw [h3] at e; cases e
        · intro hst hck
          rw [← hb]
          exact access_of_same A C c s req hst hskip hl
            (sameOwnerCheck_same C c s2 _ lineId (!al) hck) hf hle
        · rintro ⟨p1, p2, p3, p4, p5, p6⟩
          rw [← hb, hr]
          refine hp ⟨p1, p2, p3, p4, ?_⟩
          rw [hso, p2, p5]
          have hu : updateReplacement (retyped req (C.startSkewAccess s.cc req)) = true :=
            (updateReplacement_iff _).mpr (p3.imp And.left And.left)
          rw [hu]
          exact p6
        · intro hnp
          rw [← hb, hr]
          refine hn (fun q => hnp ?_)
          obtain ⟨q1, q2, q3, q4, q5⟩ := q
          rw [hso] at q5
          by_cases hcnd : (c.isLLC && !al
              && updateReplacement (retyped req (C.startSkewAccess s.cc req))) = true
          · rw [if_pos hcnd] at q5
            have hal : al = false := by
              cases al
              · rfl
              · simp at hcnd
            exact ⟨q1, q2, q3, q4, hal, q5⟩
          · rw [if_neg hcnd] at q5
            cases q5

/-- The skew access of line 20 with a controller that declines to allocate: no
line was allocated, the lookup returned -1 and the penalty applies. -/
theorem ftm_adjustment_declined :
    accessSkew (SetAssocArray.ops zinfoPlain) declineCC ftmCache demoSys ftmReq
        = .ok (314, stateOf (accessSkew (SetAssocArray.ops zinfoPlain) declineCC ftmCache demoSys
            ftmReq))
    ∧ ∃ (lineId : Int) (al : Bool),
      lineId = -1 ∧ al = false
        ∧ (lookupAndAllocate (SetAssocArray.ops zinfoPlain) declineCC ftmCache
            (started demoSys (declineCC.startSkewAccess demoSys.cc ftmReq)
              (Call.startSkewAccess ftmReq))
            (retyped ftmReq (declineCC.startSkewAccess demoSys.cc ftmReq))).toOption.map Prod.fst
          = some (lineId, al) := by
  obtain ⟨lineId, al, s2, found, arr1, h1, h2, h3, h4, -⟩ :=
    (@ftm_adjustment _ _ (SetAssocArray.ops zinfoPlain) declineCC ftmCache demoSys ftmReq 314
      (stateOf (accessSkew (SetAssocArray.ops zinfoPlain) declineCC ftmCache demoSys ftmReq))
      rfl).2 rfl
  have hf : found = -1 := by
    have e : ((SetAssocArray.ops zinfoPlain).lookup demoSys.array ftmReq.lineAddr (some ftmReq)
        true).map Prod.fst = some (-1) := by decide!
    have h2' : ((SetAssocArray.ops zinfoPlain).lookup demoSys.array ftmReq.lineAddr
        (some ftmReq) true).map Prod.fst = some found := congrArg (Option.map Prod.fst) h2
    rw [e] at h2'
    cases h2'
    rfl
  have hal : al = false := h3.mpr (Or.inr rfl)
  refine ⟨rfl, lineId, al, ?_, hal, ?_⟩
  · rw [h4 hal, hf]
  · rw [h1]
    rfl

end Cache

end FTM
